import Mathlib

/-! # Euclidean travelling-salesman solver (`tsp.h`)

A shallow embedding of the solver: the distance table, the adjacency list, Prim's
minimum spanning tree with its preorder walk, the tour model (`Path`) with its cost,
lower bound and pairwise-swap refinement, and the branch-and-bound search.

Conventions of the embedding.

* `double` is a parameter: a type `R` with the operations that the source uses (`+`,
  `-`, `*`, `/`, `<`, `<=`, `==`, the constants `0` and `2`), and `std::sqrt` is a
  parameter `sqrt : R → R`. Two instances are used. `F64` with `F64.sqrt` is the binary64
  arithmetic that the code runs on: every operation rounds to the nearest `double`, ties
  to even, with infinities on overflow and gradual underflow. A linearly ordered field,
  with `Real.sqrt` where a statement is about Euclidean distances, is exact arithmetic;
  the statements that only hold without rounding are stated for it.
* `std::vector` is `List`; `int` city indices are `Nat`.
* A read outside a vector (undefined in C++) yields a default (`0`, `false`, `[]`),
  a write outside a vector is dropped.
* Loops that the source writes as `while` run on fuel and return `none` when the
  fuel is used up; the theorems show that the fuel chosen is always enough.
* The order in which `std::priority_queue` hands out elements of equal weight is
  not fixed by the language: it is a parameter `tie : Nat → Nat` (the choice made at
  the `k`-th pop), and statements quantify over every `tie`.
* Console output and the static debug counters of `branch_bound` are left out: they
  influence neither tour.
-/

namespace Tsp

/-! ## The arithmetic of `double` -/

/-- Values of an IEEE 754 binary64 `double`: a finite value (a rational number; the
operations below produce representable ones only), an infinity with its sign, or a NaN.
The two zeros are one value: the source never divides by a zero and never looks at a
sign, so that it cannot tell them apart. Equality of values stands for `==`, which
differs from it for two NaN only; from finite coordinates the source obtains no NaN. -/
inductive F64 where
  | fin (q : ℚ)
  | inf (negative : Bool)
  | nan
deriving DecidableEq

/-- The power `2 ^ e` for an integer exponent. -/
def pow2 : Int → ℚ
  | Int.ofNat n => ((2 ^ n : Nat) : ℚ)
  | Int.negSucc n => 1 / ((2 ^ (n + 1) : Nat) : ℚ)

/-- The number `⌊log₂ n⌋` for `n` of at most `fuel` binary digits. -/
def log2Fuel : Nat → Nat → Nat
  | 0, _ => 0
  | fuel + 1, n => if n < 2 then 0 else log2Fuel fuel (n / 2) + 1

/-- The integer logarithm `⌊log₂ n⌋` (`0` for `n = 0`). -/
def ilog2 (n : Nat) : Nat :=
  log2Fuel n n

/-- The exponent `e` with `2 ^ e ≤ q < 2 ^ (e + 1)`, for `q > 0`. -/
def floorLog2 (q : ℚ) : Int :=
  let e : Int := (ilog2 q.num.natAbs : Int) - (ilog2 q.den : Int)
  if pow2 e ≤ q then e else e - 1

/-- The integer nearest to `s ≥ 0`, the even one of the two when `s` is half-way. -/
def roundEven (s : ℚ) : Nat :=
  let f := s.num.natAbs / s.den
  let r := s - (f : ℚ)
  if r < 1 / 2 then f else if 1 / 2 < r then f + 1 else if f % 2 = 0 then f else f + 1

/-- Rounding of an exact result to binary64, to nearest and ties to even: 53 significant
bits, exponents from `-1022` (below which the spacing stays `2 ^ (-1074)`) to `1023`
(above which the result is an infinity). Every operation of `double` is the exact
operation followed by this rounding, as on a platform that neither fuses operations nor
keeps excess precision. -/
def F64.round (q : ℚ) : F64 :=
  if q = 0 then F64.fin 0
  else
    let e := max (floorLog2 |q|) (-1022)
    let ulp := pow2 (e - 52)
    let r := (roundEven (|q| / ulp) : ℚ) * ulp
    if pow2 1024 ≤ r then F64.inf (decide (q < 0))
    else F64.fin (if q < 0 then -r else r)

/-- Unary minus. -/
def F64.neg : F64 → F64
  | F64.fin q => F64.fin (-q)
  | F64.inf s => F64.inf (!s)
  | F64.nan => F64.nan

/-- Addition of `double`. -/
def F64.add : F64 → F64 → F64
  | F64.fin a, F64.fin b => F64.round (a + b)
  | F64.fin _, F64.inf s => F64.inf s
  | F64.inf s, F64.fin _ => F64.inf s
  | F64.inf s, F64.inf t => if s = t then F64.inf s else F64.nan
  | _, _ => F64.nan

/-- Subtraction of `double`. -/
def F64.sub (a b : F64) : F64 :=
  F64.add a (F64.neg b)

/-- Multiplication of `double`. -/
def F64.mul : F64 → F64 → F64
  | F64.fin a, F64.fin b => F64.round (a * b)
  | F64.fin a, F64.inf s => if a = 0 then F64.nan else F64.inf (decide (a < 0) != s)
  | F64.inf s, F64.fin b => if b = 0 then F64.nan else F64.inf (s != decide (b < 0))
  | F64.inf s, F64.inf t => F64.inf (s != t)
  | _, _ => F64.nan

/-- Division of `double` (a zero divisor counts as `+0`). -/
def F64.div : F64 → F64 → F64
  | F64.fin a, F64.fin b =>
    if b = 0 then (if a = 0 then F64.nan else F64.inf (decide (a < 0)))
    else F64.round (a / b)
  | F64.fin _, F64.inf _ => F64.fin 0
  | F64.inf s, F64.fin b => F64.inf (s != decide (b < 0))
  | _, _ => F64.nan

/-- The bits of `⌊√n⌋` from bit `k - 1` down, `r` holding the bits above. -/
def isqrtBits (n : Nat) : Nat → Nat → Nat
  | 0, r => r
  | k + 1, r => isqrtBits n k (if (r + 2 ^ k) * (r + 2 ^ k) ≤ n then r + 2 ^ k else r)

/-- The integer square root `⌊√n⌋`. -/
def isqrt (n : Nat) : Nat :=
  isqrtBits n (ilog2 n / 2 + 1) 0

/-- The correctly rounded square root of `q > 0`: with `2 ^ e ≤ √q < 2 ^ (e + 1)` and
`ulp = 2 ^ (e - 52)`, the multiple of `ulp` nearest to `√q`. -/
def sqrtRound (q : ℚ) : ℚ :=
  let e := floorLog2 q / 2
  let ulp := pow2 (e - 52)
  let s := q / (ulp * ulp)
  let m := isqrt (s.num.natAbs / s.den)
  let h : ℚ := (m : ℚ) + 1 / 2
  let n := if s < h * h then m else if h * h < s then m + 1 else if m % 2 = 0 then m else m + 1
  (n : ℚ) * ulp

/-- The function `std::sqrt` on `double`. -/
def F64.sqrt : F64 → F64
  | F64.fin q => if q < 0 then F64.nan else if q = 0 then F64.fin 0 else F64.fin (sqrtRound q)
  | F64.inf s => if s then F64.nan else F64.inf false
  | F64.nan => F64.nan

/-- The comparison `<` of `double`: false as soon as a NaN is involved. -/
def F64.lt : F64 → F64 → Bool
  | F64.fin a, F64.fin b => decide (a < b)
  | F64.fin _, F64.inf s => !s
  | F64.inf s, F64.fin _ => s
  | F64.inf s, F64.inf t => s && !t
  | _, _ => false

/-- The comparison `<=` of `double`: false as soon as a NaN is involved. -/
def F64.le : F64 → F64 → Bool
  | F64.fin a, F64.fin b => decide (a ≤ b)
  | F64.fin _, F64.inf s => !s
  | F64.inf s, F64.fin _ => s
  | F64.inf s, F64.inf t => s || !t
  | _, _ => false

instance F64.instZero : Zero F64 := ⟨F64.fin 0⟩
instance F64.instAdd : Add F64 := ⟨F64.add⟩
instance F64.instSub : Sub F64 := ⟨F64.sub⟩
instance F64.instMul : Mul F64 := ⟨F64.mul⟩
instance F64.instDiv : Div F64 := ⟨F64.div⟩
instance F64.instTwo : OfNat F64 (nat_lit 2) := ⟨F64.fin 2⟩
instance F64.instLT : LT F64 := ⟨fun a b => F64.lt a b = true⟩
instance F64.instLE : LE F64 := ⟨fun a b => F64.le a b = true⟩
instance F64.instDecidableLT (a b : F64) : Decidable (a < b) :=
  inferInstanceAs (Decidable (F64.lt a b = true))
instance F64.instDecidableLE (a b : F64) : Decidable (a ≤ b) :=
  inferInstanceAs (Decidable (F64.le a b = true))

/-! ## The solver, over the arithmetic `R` -/

section Solver

variable {R : Type} [Zero R] [Add R] [Sub R] [Mul R] [Div R] [OfNat R (nat_lit 2)]
  [LT R] [LE R] [∀ a b : R, Decidable (a < b)] [∀ a b : R, Decidable (a ≤ b)] [DecidableEq R]

/-! ## Data model -/

/-- Weighted directed edge record (`struct Edge`). -/
structure Edge (R : Type) where
  src : Nat
  dest : Nat
  weight : R
deriving DecidableEq

/-- Indexed point of the plane (`struct City`). -/
structure City (R : Type) where
  id : Nat
  x : R
  y : R

/-- `City::distance`: `sqrt (dx * dx + dy * dy)`. -/
def City.distance (sqrt : R → R) (self other : City R) : R :=
  let dx := self.x - other.x
  let dy := self.y - other.y
  sqrt (dx * dx + dy * dy)

/-- `class DistanceTable`: the matrix of pairwise distances. -/
structure DistanceTable (R : Type) where
  distance : List (List R)

/-- Write `v` into cell `(i, j)` of a matrix (`distance[i][j] = v`). -/
def setCell (t : List (List R)) (i j : Nat) (v : R) : List (List R) :=
  t.set i ((t.getD i []).set j v)

/-- `DistanceTable::DistanceTable(cities)`: an `N × N` matrix of zeros, then one write
per ordered pair of cities, at the cell named by the two ids. -/
def DistanceTable.build (sqrt : R → R) (cities : List (City R)) : DistanceTable R :=
  let init : List (List R) := List.replicate cities.length (List.replicate cities.length 0)
  ⟨cities.foldl (fun t src =>
      cities.foldl (fun t dest => setCell t src.id dest.id (src.distance sqrt dest)) t) init⟩

/-- `DistanceTable::operator()`: `distance[city1][city2]`. -/
def DistanceTable.lookup (t : DistanceTable R) (city1 city2 : Nat) : R :=
  (t.distance.getD city1 []).getD city2 0

/-- `class AdjacencyList`: one edge list per city. -/
structure AdjacencyList (R : Type) where
  adjacent_edges : List (List (Edge R))

/-- `AdjacencyList::AdjacencyList(size_t)`: `size` empty lists. -/
def AdjacencyList.ofSize (size : Nat) : AdjacencyList R :=
  ⟨List.replicate size []⟩

/-- Append `e` to the list of city `i` (`adjacent_edges[i].push_back(e)`). -/
def pushEdge (a : List (List (Edge R))) (i : Nat) (e : Edge R) : List (List (Edge R)) :=
  a.set i (a.getD i [] ++ [e])

/-- `AdjacencyList::AdjacencyList(cities)`: the complete graph, an edge for every
ordered pair of cities with different ids. -/
def AdjacencyList.ofCities (sqrt : R → R) (cities : List (City R)) : AdjacencyList R :=
  ⟨cities.foldl (fun a src =>
      cities.foldl (fun a dest =>
        if src.id ≠ dest.id then pushEdge a src.id ⟨src.id, dest.id, src.distance sqrt dest⟩
        else a) a) (List.replicate cities.length [])⟩

/-- `AdjacencyList::add_edge`: the same record is appended to the list of its source
and to the list of its destination. -/
def AdjacencyList.add_edge (a : AdjacencyList R) (edge : Edge R) : AdjacencyList R :=
  ⟨pushEdge (pushEdge a.adjacent_edges edge.src edge) edge.dest edge⟩

/-- `AdjacencyList::sort_by_dest`. `std::sort` fixes the order of elements with equal
keys in no way; this model keeps them in their former order. -/
def AdjacencyList.sort_by_dest (a : AdjacencyList R) : AdjacencyList R :=
  ⟨a.adjacent_edges.map (List.insertionSort (fun l r => l.dest ≤ r.dest))⟩

/-- `AdjacencyList::sort_by_weight`, with the same treatment of equal keys. -/
def AdjacencyList.sort_by_weight (a : AdjacencyList R) : AdjacencyList R :=
  ⟨a.adjacent_edges.map (List.insertionSort (fun l r => l.weight ≤ r.weight))⟩

/-- `AdjacencyList::size`. -/
def AdjacencyList.size (a : AdjacencyList R) : Nat :=
  a.adjacent_edges.length

/-- `AdjacencyList::operator[]`. -/
def AdjacencyList.get (a : AdjacencyList R) (src : Nat) : List (Edge R) :=
  a.adjacent_edges.getD src []

/-! ## Minimum spanning tree and preorder walk -/

/-- `class Graph`. -/
structure Graph (R : Type) where
  adjacency_list : AdjacencyList R

/-- `Graph::Graph(adjacency_list)`: copies the list and sorts it by destination. -/
def Graph.new (adjacency_list : AdjacencyList R) : Graph R :=
  ⟨adjacency_list.sort_by_dest⟩

/-- Local variables of `Graph::mst`. -/
structure MstState (R : Type) where
  connection : AdjacencyList R
  candidate : List (Edge R)
  visited : List Bool

/-- Positions of the heap whose element `std::greater` ranks above no other element:
the elements `candidate.top()` may return. -/
def topPositions (candidate : List (Edge R)) : List Nat :=
  (List.range candidate.length).filter (fun i =>
    match candidate[i]? with
    | none => false
    | some e => candidate.all (fun o => !decide (e.weight > o.weight)))

/-- Position of the element handed out by `candidate.top()`, `tie` choosing among the
elements of least weight. -/
def topPosition (tie : Nat) (candidate : List (Edge R)) : Nat :=
  (topPositions candidate).getD (tie % (topPositions candidate).length) 0

/-- One round of the `while` loop of `Graph::mst`, for a heap that is not empty. -/
def Graph.mstStep (g : Graph R) (tie : Nat) (s : MstState R) : MstState R :=
  let i := topPosition tie s.candidate
  match s.candidate[i]? with
  | none => s
  | some e =>
    let rest := s.candidate.eraseIdx i
    if !s.visited.getD e.dest false then
      { connection := s.connection.add_edge ⟨e.src, e.dest, e.weight⟩
        candidate := rest ++ g.adjacency_list.get e.dest
        visited := s.visited.set e.dest true }
    else
      { s with candidate := rest }

/-- The `while (!candidate.empty())` loop of `Graph::mst`; `k` counts the pops. -/
def Graph.mstLoop (g : Graph R) (tie : Nat → Nat) : Nat → Nat → MstState R → Option (MstState R)
  | 0, _, _ => none
  | fuel + 1, k, s =>
    if s.candidate.isEmpty then some s
    else Graph.mstLoop g tie fuel (k + 1) (g.mstStep (tie k) s)

/-- State of `Graph::mst` when the loop is entered. -/
def Graph.mstInit (g : Graph R) : MstState R :=
  { connection := AdjacencyList.ofSize g.adjacency_list.size
    candidate := g.adjacency_list.get 0
    visited := (List.replicate g.adjacency_list.size false).set 0 true }

/-- The spanning structure as `Graph::mst` has it before it is wrapped in a `Graph`. -/
def Graph.mstConnection (g : Graph R) (tie : Nat → Nat) : Option (AdjacencyList R) :=
  (g.mstLoop tie (g.adjacency_list.size * g.adjacency_list.size + 1) 0 g.mstInit).map
    (fun s => s.connection)

/-- `Graph::mst`: Prim's algorithm from city 0. -/
def Graph.mst (g : Graph R) (tie : Nat → Nat) : Option (Graph R) :=
  (g.mstConnection tie).map Graph.new

/-- Local variables of `Graph::preorder_traversal`; the top of the stack is the head. -/
structure DfsState where
  result : List Nat
  visited : List Bool
  stack : List Nat

/-- One round of the `while` loop of `Graph::preorder_traversal`. -/
def Graph.preorderStep (g : Graph R) (s : DfsState) : DfsState :=
  match s.stack with
  | [] => s
  | next :: stack =>
    if !s.visited.getD next false then
      { result := s.result ++ [next]
        visited := s.visited.set next true
        stack := (g.adjacency_list.get next).reverse.foldl (fun st e => e.dest :: st) stack }
    else
      { s with stack := stack }

/-- The `while (!stack.empty())` loop of `Graph::preorder_traversal`. -/
def Graph.preorderLoop (g : Graph R) : Nat → DfsState → Option DfsState
  | 0, _ => none
  | fuel + 1, s =>
    if s.stack.isEmpty then some s
    else Graph.preorderLoop g fuel (g.preorderStep s)

/-- `Graph::preorder_traversal`. Every round pops one entry and the entries pushed
are the edges of cities visited for the first time, so the number of edges plus two
bounds the number of rounds. -/
def Graph.preorder_traversal (g : Graph R) : Option (List Nat) :=
  (g.preorderLoop ((g.adjacency_list.adjacent_edges.map List.length).sum + 2)
    ⟨[], List.replicate g.adjacency_list.size false, [0]⟩).map (fun s => s.result)

/-! ## Tours -/

/-- `class Path`: the city sequence and the membership flags. -/
structure Path where
  path : List Nat
  visited : List Bool
deriving DecidableEq

/-- `Path::Path(size_t length)`: the empty tour over `length` cities. -/
def Path.ofLength (length : Nat) : Path :=
  ⟨[], List.replicate length false⟩

/-- `Path::Path(complete_path)`. -/
def Path.ofComplete (complete_path : List Nat) : Path :=
  ⟨complete_path, List.replicate complete_path.length true⟩

/-- `Path::push`. -/
def Path.push (p : Path) (city : Nat) : Path :=
  ⟨p.path ++ [city], p.visited.set city true⟩

/-- `Path::back` (`0` stands for the undefined last element of an empty tour). -/
def Path.back (p : Path) : Nat :=
  p.path.getLastD 0

/-- `Path::pop`. -/
def Path.pop (p : Path) : Path :=
  ⟨p.path.dropLast, p.visited.set p.back false⟩

/-- `Path::length`. -/
def Path.length (p : Path) : Nat :=
  p.path.length

/-- `Path::is_visited`. -/
def Path.is_visited (p : Path) (city : Nat) : Bool :=
  p.visited.getD city false

/-- `path.front()` (`0` stands for the undefined first element of an empty tour). -/
def Path.front (p : Path) : Nat :=
  p.path.headD 0

/-- `Path::full_cost`: the closed-tour cost, wraparound edge included. -/
def Path.full_cost (p : Path) (distance : DistanceTable R) : R :=
  (List.range p.path.length).foldl (fun cost i =>
    cost + distance.lookup (p.path.getD i 0) (p.path.getD ((i + 1) % p.path.length) 0)) 0

/-- `std::swap(path[i], path[j])`. -/
def Path.swap (p : Path) (i j : Nat) : Path :=
  ⟨(p.path.set i (p.path.getD j 0)).set j (p.path.getD i 0), p.visited⟩

/-- Variables of `Path::evolve` inside a pass. -/
structure EvolveState (R : Type) where
  tour : Path
  current_cost : R
  updated : Bool

/-- Body of the inner `for` loop of `Path::evolve`: swap, evaluate, keep or swap back. -/
def evolveTry (distance : DistanceTable R) (i : Nat) (s : EvolveState R) (j : Nat) :
    EvolveState R :=
  let swapped := s.tour.swap i j
  let new_cost := swapped.full_cost distance
  if new_cost < s.current_cost then
    { tour := swapped, current_cost := new_cost, updated := true }
  else
    { s with tour := swapped.swap i j }

/-- One pass of `Path::evolve`: the two nested `for` loops, `updated` starting `false`. -/
def evolvePass (distance : DistanceTable R) (p : Path) (current_cost : R) : EvolveState R :=
  (List.range' 1 (p.path.length - 1)).foldl (fun s i =>
    (List.range' (i + 1) (p.path.length - (i + 1))).foldl (evolveTry distance i) s)
    { tour := p, current_cost := current_cost, updated := false }

/-- The `while (true)` loop of `Path::evolve`. -/
def evolveLoop (distance : DistanceTable R) : Nat → Path → R → Option Path
  | 0, _, _ => none
  | fuel + 1, p, current_cost =>
    let s := evolvePass distance p current_cost
    if s.updated then evolveLoop distance fuel s.tour s.current_cost
    else some s.tour

/-- `Path::evolve`. A pass that is not the last one lowers the cost, so there are at
most as many passes as the tour has arrangements, plus one. -/
def Path.evolve (p : Path) (distance : DistanceTable R) : Option Path :=
  evolveLoop distance (p.path.length.factorial + 1) p (p.full_cost distance)

/-- The loop of `Path::lower_bound` that adds half the weight of the first edge of
`edges` whose destination is not visited. -/
def Path.firstOpenHalf (p : Path) (edges : List (Edge R)) (lb : R) : R :=
  match edges.find? (fun e => !p.is_visited e.dest) with
  | some e => lb + e.weight / 2
  | none => lb

/-- The inner loop of the last part of `Path::lower_bound`: half the weights of the
first two edges of `edges` that lead to the first city, the last city or a city not
visited. -/
def Path.twoOpenHalves (p : Path) (edges : List (Edge R)) (lb : R) : R :=
  ((edges.filter (fun e =>
      e.dest == p.front || e.dest == p.back || !p.is_visited e.dest)).take 2).foldl
    (fun lb e => lb + e.weight / 2) lb

/-- `Path::lower_bound`: the distances between consecutive cities of the tour, half the
first open edge of the first city, half the first open edge of the last city, and for
every city not visited half of its first two edges towards the ends of the tour or
another city not visited. (For the empty tour, where the source is undefined, the
first sum is empty.) -/
def Path.lower_bound (p : Path) (distance : DistanceTable R) (adjacency_list : AdjacencyList R) :
    R :=
  let lb0 := (List.range (p.path.length - 1)).foldl (fun lb i =>
    lb + distance.lookup (p.path.getD i 0) (p.path.getD (i + 1) 0)) 0
  let lb1 := p.firstOpenHalf (adjacency_list.get p.front) lb0
  let lb2 := p.firstOpenHalf (adjacency_list.get p.back) lb1
  (List.range p.visited.length).foldl (fun lb city =>
    if !p.is_visited city then p.twoOpenHalves (adjacency_list.get city) lb else lb) lb2

/-! ## Branch and bound -/

/-- Order of `std::pair<double, int>` used by `std::sort(branch_order)`. -/
def pairLe (a b : R × Nat) : Prop :=
  a.1 < b.1 ∨ (a.1 = b.1 ∧ a.2 ≤ b.2)

instance pairLeDecidable : DecidableRel (pairLe : R × Nat → R × Nat → Prop) :=
  fun a b => inferInstanceAs (Decidable (a.1 < b.1 ∨ (a.1 = b.1 ∧ a.2 ≤ b.2)))

/-- Near-complete case, first loop: append the first city that is not visited. -/
def pushLastCity (temp_path : Path) (size : Nat) : Path :=
  match (List.range size).find? (fun last_city => !temp_path.is_visited last_city) with
  | some last_city => temp_path.push last_city
  | none => temp_path

/-- Branching case, first loop: for every city not visited, push it, take the lower
bound, pop it, and record the pair. -/
def branchOrder (distance : DistanceTable R) (adjacency_list : AdjacencyList R)
    (temp_path : Path) : Path × List (R × Nat) :=
  (List.range adjacency_list.size).foldl (fun (s : Path × List (R × Nat)) next_city =>
    if !s.1.is_visited next_city then
      let pushed := s.1.push next_city
      (pushed.pop, s.2 ++ [(pushed.lower_bound distance adjacency_list, next_city)])
    else s) (temp_path, [])

/-- Body of the branch-or-prune loop of `branch_bound`: push the candidate, search below
it when its bound is under `best_cost`, pop it. `search` is the recursive call. -/
def branchStep (search : Path → Path → Option (Path × Path)) (best_cost : R)
    (s : Path × Path) (c : R × Nat) : Option (Path × Path) :=
  let pushed := s.1.push c.2
  if c.1 < best_cost then
    (search pushed s.2).map (fun r => (r.1.pop, r.2))
  else
    some (pushed.pop, s.2)

/-- `branch_bound(temp_path, best_path, distance_table, adjacency_list)`; the result is
the pair of the two tours after the call. `fuel` bounds the depth of the recursion. -/
def branch_bound (distance_table : DistanceTable R) (adjacency_list : AdjacencyList R) :
    Nat → Path → Path → Option (Path × Path)
  | 0, _, _ => none
  | fuel + 1, temp_path, best_path =>
    let best_cost := best_path.full_cost distance_table
    if temp_path.length + 1 = adjacency_list.size then
      let cost := temp_path.lower_bound distance_table adjacency_list
      let temp1 := pushLastCity temp_path adjacency_list.size
      if best_cost > cost then
        (temp1.evolve distance_table).map (fun best => (temp1.pop, best))
      else
        some (temp1.pop, best_path)
    else
      let order := branchOrder distance_table adjacency_list temp_path
      (order.2.insertionSort pairLe).foldlM
        (branchStep (branch_bound distance_table adjacency_list fuel) best_cost)
        (order.1, best_path)

/-- The part of `main` up to the initial incumbent: `Path(mst.preorder_traversal())`
for the graph of a (sorted) adjacency list. -/
def two_approx (adjacency_list : AdjacencyList R) (tie : Nat → Nat) : Option Path :=
  ((Graph.new adjacency_list).mst tie).bind (fun mst =>
    mst.preorder_traversal.map Path.ofComplete)

/-- `main` from the sorted adjacency list on: the tour of the minimum spanning tree as
incumbent, then `branch_bound` from the tour `[0]`; the result is the incumbent at the
end. `adjacency_list` is the list as `sort_by_weight` has left it. -/
def mainFrom (sqrt : R → R) (cities : List (City R)) (adjacency_list : AdjacencyList R)
    (tie : Nat → Nat) : Option Path :=
  let distance_table := DistanceTable.build sqrt cities
  (two_approx adjacency_list tie).bind (fun two_approx =>
    (branch_bound distance_table adjacency_list cities.length
      ((Path.ofLength cities.length).push 0) two_approx).map (fun r => r.2))

/-- `main`, after the cities are read. -/
def main (sqrt : R → R) (cities : List (City R)) (tie : Nat → Nat) : Option Path :=
  mainFrom sqrt cities (AdjacencyList.ofCities sqrt cities).sort_by_weight tie

end Solver

/-! ## Exact arithmetic

From here on `R` is a linearly ordered field: the arithmetic of the statements that are
about exact arithmetic. -/

variable {R : Type} [LinearOrderedField R]

/-! ## Notions used in the statements -/

/-- Entry `(a, b)` of a matrix, with the defaults of `DistanceTable.lookup`. -/
def cell {A : Type} [Zero A] (t : List (List A)) (a b : Nat) : A := (t.getD a []).getD b 0

/-- What holds of the variables of `evolve` inside a pass that started at tour `p` with
`current_cost = c`. -/
def PassInv (d : DistanceTable R) (p : Path) (c : R) (s : EvolveState R) : Prop :=
  s.tour.path.Perm p.path ∧ s.tour.visited = p.visited ∧ s.tour.path.head? = p.path.head? ∧
  s.current_cost = s.tour.full_cost d ∧ s.current_cost ≤ c ∧
  (s.updated = false → s.tour = p ∧ s.current_cost = c) ∧
  (s.updated = true → s.current_cost < c)

/-- Tour invariant over `n` cities: no city twice, one flag per city, and the flag of
`c` is set exactly when `c` is in the sequence (so every city of the sequence is below
`n` and the length is at most `n`). -/
def ValidTour (n : Nat) (p : Path) : Prop :=
  p.path.Nodup ∧ p.visited.length = n ∧ ∀ c, p.is_visited c = true ↔ c ∈ p.path

/-- The two cities an edge record joins, as an unordered pair. -/
def Edge.ends (e : Edge R) : Sym2 Nat := s(e.src, e.dest)

/-- Weight of the unordered pair of cities `e` under the weight function `w`
(`w a b` for a symmetric `w`). -/
def pairWeight (w : Nat → Nat → R) (e : Sym2 Nat) : R :=
  Sym2.lift ⟨fun a b => w (min a b) (max a b), fun a b => by
    simp only [min_comm, max_comm]⟩ e

/-- Total weight of a set of unordered pairs. -/
def treeWeight (w : Nat → Nat → R) (T : Finset (Sym2 Nat)) : R :=
  T.sum (pairWeight w)

/-- Cities `a` and `b` are joined by a chain of edges of `T`. -/
def Joined (T : Finset (Sym2 Nat)) (a b : Nat) : Prop :=
  Relation.ReflTransGen (fun x y => s(x, y) ∈ T) a b

/-- `T` is a spanning tree of the complete graph on the cities `0..n-1`: it has `n - 1`
edges, each joining two different cities below `n`, and every city is joined to city 0. -/
def IsSpanningTree (n : Nat) (T : Finset (Sym2 Nat)) : Prop :=
  T.card + 1 = n ∧ (∀ a b, s(a, b) ∈ T → a < n ∧ b < n ∧ a ≠ b) ∧ ∀ v, v < n → Joined T 0 v

/-- The adjacency list `adj` is that of the complete graph on the cities `0..n-1` with
weights `w`: the list of city `i` holds, in some order, one edge to every other city. -/
def CompleteAdj {A : Type} (w : Nat → Nat → A) (n : Nat) (adj : AdjacencyList A) : Prop :=
  adj.size = n ∧ ∀ i, i < n →
    (adj.get i).Perm
      (((List.range n).filter (fun j => j ≠ i)).map (fun j => (⟨i, j, w i j⟩ : Edge A)))

/-- City `b` is reached from city `a` along edges of `F`, each taken from its source
to its destination. -/
def DirReach (F : List (Edge R)) (a b : Nat) : Prop :=
  Relation.ReflTransGen (fun x y => ∃ e ∈ F, e.src = x ∧ e.dest = y) a b

/-- What holds of the variables of `Graph::mst` at the head of its loop, for the complete
graph on `n` cities with weights `w`; `F` lists the edges handed to `add_edge` so far,
oldest first. -/
structure PrimInv (w : Nat → Nat → R) (n : Nat) (s : MstState R) (F : List (Edge R)) :
    Prop where
  conn : s.connection = F.foldl AdjacencyList.add_edge (AdjacencyList.ofSize n)
  vlen : s.visited.length = n
  v0 : s.visited.getD 0 false = true
  cand : ∀ e ∈ s.candidate, e.src < n ∧ s.visited.getD e.src false = true ∧ e.dest < n ∧
    e.weight = w e.src e.dest
  cross : ∀ a b, b < n → s.visited.getD a false = true → s.visited.getD b false = false →
    ∃ e ∈ s.candidate, e.src = a ∧ e.dest = b
  edges : ∀ e ∈ F, s.visited.getD e.src false = true ∧ s.visited.getD e.dest false = true ∧
    e.weight = w e.src e.dest ∧ e.src ≠ e.dest
  reach : ∀ v, s.visited.getD v false = true → DirReach F 0 v
  count : F.length + 1 = s.visited.count true
  nodup : (F.map Edge.ends).Nodup
  dests : (F.map Edge.dest).Nodup ∧ 0 ∉ F.map Edge.dest
  exch : ∀ T, IsSpanningTree n T → ∃ T', IsSpanningTree n T' ∧
    (F.map Edge.ends).toFinset ⊆ T' ∧ treeWeight w T' ≤ treeWeight w T
  pot : ∃ φ : Nat → R, φ 0 = 0 ∧ ∀ e ∈ F, φ e.dest = φ e.src + e.weight

/-- Number of rounds `Graph::mst` still has to make: the entries of the heap, and
`n - 1` entries to come for every city not yet reached. -/
def mstMeasure (n : Nat) (s : MstState R) : Nat :=
  s.candidate.length + (n - 1) * s.visited.count false

/-- What `Graph::mst` guarantees of the list `F` of the edges it added, for the complete
graph on `n` cities with weights `w`. -/
structure MstOutput (w : Nat → Nat → R) (n : Nat) (F : List (Edge R)) : Prop where
  len : F.length + 1 = n
  range : ∀ e ∈ F, e.src < n ∧ e.dest < n ∧ e.weight = w e.src e.dest ∧ e.src ≠ e.dest
  reach : ∀ v, v < n → DirReach F 0 v
  nodup : (F.map Edge.ends).Nodup
  dests : (F.map Edge.dest).Nodup ∧ 0 ∉ F.map Edge.dest
  minimal : ∀ T, IsSpanningTree n T → (F.map Edge.weight).sum ≤ treeWeight w T
  pot : ∃ φ : Nat → R, φ 0 = 0 ∧ ∀ e ∈ F, φ e.dest = φ e.src + e.weight

/-- What holds of the variables of `Graph::preorder_traversal` at the head of its loop,
for a graph over `n` cities. -/
structure DfsInv (n : Nat) (g : Graph R) (s : DfsState) : Prop where
  vlen : s.visited.length = n
  vis : ∀ v, s.visited.getD v false = true ↔ v ∈ s.result
  nodup : s.result.Nodup
  stack : ∀ x ∈ s.stack, x < n
  first : (s.result = [] ∧ s.stack = [0]) ∨ s.result.head? = some 0
  closed : ∀ v ∈ s.result, ∀ e ∈ g.adjacency_list.get v, e.dest ∈ s.result ∨ e.dest ∈ s.stack

/-- Number of rounds `Graph::preorder_traversal` still has to make: the entries of the
stack, and the edges of every city not yet visited. -/
def dfsMeasure (n : Nat) (g : Graph R) (s : DfsState) : Nat :=
  s.stack.length + ((List.range n).map (fun v =>
    if s.visited.getD v false then 0 else (g.adjacency_list.get v).length)).sum

/-- Sum of the distances between consecutive cities of `l`, without a closing edge. -/
def chainCost (d : DistanceTable R) : List Nat → R
  | [] => 0
  | [_] => 0
  | a :: b :: l => d.lookup a b + chainCost d (b :: l)

/-- For the cities of `u`, visited in this order between city `a` and city `b`: half the
distance of each city to the one before it plus half its distance to the one after it. -/
def halfSum (d : DistanceTable R) : Nat → List Nat → Nat → R
  | _, [], _ => 0
  | a, [c], b => (d.lookup c a + d.lookup c b) / 2
  | a, c :: c' :: u, b => (d.lookup c a + d.lookup c c') / 2 + halfSum d c (c' :: u) b

/-- Every list of the adjacency list is in ascending order of weight, as
`sort_by_weight` leaves it. -/
def SortedAdj {A : Type} [LE A] (n : Nat) (adj : AdjacencyList A) : Prop :=
  ∀ i, i < n → (adj.get i).Pairwise (fun a b => a.weight ≤ b.weight)

/-- Sum added by the inner loop of the last part of `lower_bound` for the edge list
`edges` of a city that is not visited. -/
def twoHalves (p : Path) (edges : List (Edge R)) : R :=
  (((edges.filter (fun e =>
      e.dest == p.front || e.dest == p.back || !p.is_visited e.dest)).take 2).map
    (fun e => e.weight / 2)).sum

/-- A complete tour over the cities `0..n-1` that starts at city 0. -/
def GoodTour (n : Nat) (b : Path) : Prop :=
  b.path.Perm (List.range n) ∧ b.path.head? = some 0

/-- The entries of the stack that are still to be visited, top first, hang below the
branch that leads from city 0 to city `a`: the parent of the first one is on that
branch, the parent of the second one is on the branch to that parent, and so on. -/
def ChainOK (F : List (Edge R)) : Nat → List Nat → Prop
  | _, [] => True
  | a, x :: U => ∃ e ∈ F, e.dest = x ∧ DirReach F e.src a ∧ ChainOK F e.src U

/-- What holds of the variables of `preorder_traversal` on the tree with edges `F`, once
the first city is visited. `φ` gives the length of the branch from city 0 to a city. -/
structure WalkInv (d : DistanceTable R) (F : List (Edge R)) (φ : Nat → R) (s : DfsState) :
    Prop where
  parents : ∀ v ∈ s.result, v = 0 ∨ ∃ e ∈ F, e.dest = v ∧ e.src ∈ s.result
  chain : ChainOK F (s.result.getLastD 0)
    (s.stack.filter (fun x => !s.visited.getD x false))
  cost : chainCost d s.result + φ (s.result.getLastD 0)
    ≤ 2 * ((F.filter (fun e => decide (e.dest ∈ s.result))).map Edge.weight).sum

/-- The unordered pairs of consecutive cities of `l`. -/
def chainPairs : List Nat → List (Sym2 Nat)
  | [] => []
  | [_] => []
  | a :: b :: l => s(a, b) :: chainPairs (b :: l)

/-- The invariant of `class Path`: no city twice in the sequence, `visited[c]` set
exactly for the cities of the sequence, and `length()` equal to the number of set
entries of `visited`. -/
def TourInv (p : Path) : Prop :=
  p.path.Nodup ∧ (∀ c, p.is_visited c = true ↔ c ∈ p.path) ∧
  p.length = p.visited.count true

/-- Distances of four cities on a line, city `i` at `(i, 0)`. -/
def fourCityTable : DistanceTable ℚ :=
  ⟨[[0, 1, 2, 3], [1, 0, 1, 2], [2, 1, 0, 1], [3, 2, 1, 0]]⟩

/-- The complete adjacency list of `fourCityTable`, every list in ascending order of
weight. -/
def fourCityAdj : AdjacencyList ℚ :=
  ⟨[[⟨0, 1, 1⟩, ⟨0, 2, 2⟩, ⟨0, 3, 3⟩], [⟨1, 0, 1⟩, ⟨1, 2, 1⟩, ⟨1, 3, 2⟩],
    [⟨2, 1, 1⟩, ⟨2, 3, 1⟩, ⟨2, 0, 2⟩], [⟨3, 2, 1⟩, ⟨3, 1, 2⟩, ⟨3, 0, 3⟩]]⟩

/-- Distances of two cities one unit apart. -/
def twoCityTable : DistanceTable ℚ :=
  ⟨[[0, 1], [1, 0]]⟩

/-- The complete adjacency list of `twoCityTable`. -/
def twoCityAdj : AdjacencyList ℚ :=
  ⟨[[⟨0, 1, 1⟩], [⟨1, 0, 1⟩]]⟩

/-- The four corners of the unit square, in the order `(0,0)`, `(0,1)`, `(1,1)`, `(1,0)`. -/
def unitSquare : List (City ℝ) :=
  [⟨0, 0, 0⟩, ⟨1, 0, 1⟩, ⟨2, 1, 1⟩, ⟨3, 1, 0⟩]

/-- The edges `F` handed to `add_edge` so far are ranked: every city reached has a rank
of at most the number of edges, and every edge leads to a city of higher rank. -/
def Ranked (s : MstState R) (F : List (Edge R)) : Prop :=
  ∃ rank : Nat → Nat, (∀ v, s.visited.getD v false = true → rank v ≤ F.length) ∧
    ∀ e ∈ F, rank e.src < rank e.dest

/-- The children of city `v` in the tree that `mst` returns: the destinations of the
edges in the list of `v` that start at `v`, in the order of the list. (The list of `v`
also holds the edge by which `v` was reached, whose destination is `v` itself.) -/
def Graph.children (g : Graph R) (v : Nat) : List Nat :=
  ((g.adjacency_list.get v).filter (fun e => e.src == v)).map Edge.dest

/-- The recursive depth-first preorder of the specification: the city, then the
preorders of its children one after the other, in the order of `children`. `depth`
bounds the depth of the recursion. -/
def Graph.recursivePreorder (g : Graph R) : Nat → Nat → List Nat
  | 0, _ => []
  | depth + 1, v => v :: (g.children v).flatMap (g.recursivePreorder depth)

/-- The flags `visited` after the cities of `l` have been marked. -/
def markAll (visited : List Bool) (l : List Nat) : List Bool :=
  l.foldl (fun vis x => vis.set x true) visited

/-- The graph `g` on `n` cities stores a rooted tree: the destinations in the list of a
city are in strictly ascending order and are its children and, possibly, the city
itself; a city is the child of one city only; `rank` grows from a city to its
children and stays below `n`. -/
structure IsTree (n : Nat) (g : Graph R) (rank : Nat → Nat) : Prop where
  sorted : ∀ v, v < n → ((g.adjacency_list.get v).map Edge.dest).Pairwise (fun a b => a < b)
  dests : ∀ v, v < n →
    ((g.adjacency_list.get v).map Edge.dest).filter (fun x => x != v) = g.children v
  lt : ∀ v c, v < n → c ∈ g.children v → c < n
  parent : ∀ v v' c, v < n → v' < n → c ∈ g.children v → c ∈ g.children v' → v = v'
  rank_lt : ∀ v c, v < n → c ∈ g.children v → rank v < rank c
  rank_le : ∀ v, v < n → rank v < n

/-- The loop of `preorder_traversal` started in state `s` comes to state `t` after some
rounds. -/
def Reaches (g : Graph R) (s t : DfsState) : Prop :=
  ∃ m, ∀ fuel, g.preorderLoop (fuel + m) s = g.preorderLoop fuel t

/-- The corners of the unit square, as `double`s. -/
def unitSquare64 : List (City F64) :=
  [⟨0, F64.fin 0, F64.fin 0⟩, ⟨1, F64.fin 1, F64.fin 0⟩, ⟨2, F64.fin 1, F64.fin 1⟩,
   ⟨3, F64.fin 0, F64.fin 1⟩]

/-- The origin and the point `(1e200, 0)`, as `double`s. -/
def farCities64 : List (City F64) :=
  [⟨0, F64.fin 0, F64.fin 0⟩, ⟨1, F64.round (10 ^ 200), F64.fin 0⟩]

/-- The origin and the point `(1e-200, 0)`, as `double`s. -/
def nearCities64 : List (City F64) :=
  [⟨0, F64.fin 0, F64.fin 0⟩, ⟨1, F64.round (1 / 10 ^ 200), F64.fin 0⟩]

/-- The candidates of the branching case in the order in which the loop takes them: the
cities not in `temp`, sorted by the lower bound of `temp` with the city appended and,
for equal bounds, by the city. -/
def candidateCities (d : DistanceTable R) (adj : AdjacencyList R) (temp : Path) : List Nat :=
  ((((List.range adj.size).filter (fun c => !temp.is_visited c)).map
    (fun c => ((temp.push c).lower_bound d adj, c))).insertionSort pairLe).map Prod.snd

/-- Four cities at `(2, 1)`, `(3, 5)`, `(0, 0)` and `(4, 0)`, as `double`s. -/
def kiteCities64 : List (City F64) :=
  [⟨0, F64.fin 2, F64.fin 1⟩, ⟨1, F64.fin 3, F64.fin 5⟩, ⟨2, F64.fin 0, F64.fin 0⟩,
   ⟨3, F64.fin 4, F64.fin 0⟩]

/-- The distance table of `kiteCities64`, as `main` builds it. -/
def kiteTable64 : DistanceTable F64 :=
  DistanceTable.build F64.sqrt kiteCities64

/-- The adjacency list of `kiteCities64`, as `main` builds and sorts it. -/
def kiteAdj64 : AdjacencyList F64 :=
  (AdjacencyList.ofCities F64.sqrt kiteCities64).sort_by_weight

/-- The tour `[0, 2, 3]` over four cities. -/
def kitePrefix : Path :=
  (((Path.ofLength 4).push 0).push 2).push 3

/-- The Euclidean distances of five cities at `(36, 15)`, `(56, 0)`, `(0, 0)`, `(36, 48)`
and `(72, 0)`: all of them are whole numbers. -/
def fiveCityTable : DistanceTable ℚ :=
  ⟨[[0, 25, 39, 33, 39], [25, 0, 56, 52, 16], [39, 56, 0, 60, 72], [33, 52, 60, 0, 60],
    [39, 16, 72, 60, 0]]⟩

/-- The five cities of `fiveCityTable`, as `double`s. -/
def fiveCities64 : List (City F64) :=
  [⟨0, F64.fin 36, F64.fin 15⟩, ⟨1, F64.fin 56, F64.fin 0⟩, ⟨2, F64.fin 0, F64.fin 0⟩,
   ⟨3, F64.fin 36, F64.fin 48⟩, ⟨4, F64.fin 72, F64.fin 0⟩]

end Tsp

/-! # 0-1 knapsack (`knapsack.h`)

`int` is modelled by `Int`: the arithmetic of `knapsack_dp_raw` and `knapsack_dp` is
taken without overflow. A position is a natural number. The lookup table of
`knapsack_dp` is passed in and handed back with the value.
-/

namespace Knapsack

/-- `struct Item`. -/
structure Item where
  weight : Int
  value : Int
deriving DecidableEq

/-- `knapsack_dp_raw(items, weight, pos)`: the plain recursion over the positions. -/
def knapsack_dp_raw (items : List Item) (weight : Int) (pos : Nat) : Int :=
  if h : pos ≥ items.length then 0
  else
    if weight - (items[pos]).weight < 0 then
      knapsack_dp_raw items weight (pos + 1)
    else
      max (knapsack_dp_raw items weight (pos + 1))
        (knapsack_dp_raw items (weight - (items[pos]).weight) (pos + 1) + (items[pos]).value)
termination_by items.length - pos

/-- Total weight of a selection of items. -/
def totalWeight (s : List Item) : Int :=
  (s.map Item.weight).sum

/-- Total value of a selection of items. -/
def totalValue (s : List Item) : Int :=
  (s.map Item.value).sum

/-- The selections of the specification: `s` picks some of the items at positions
`pos, pos + 1, ...` (in their order), and its total weight is at most `W`. -/
def Fits (items : List Item) (W : Int) (pos : Nat) (s : List Item) : Prop :=
  s.Sublist (items.drop pos) ∧ totalWeight s ≤ W

/-- `lookup[pos][weight]`. A read outside the table (undefined in C++) gives `0`, and a
negative `weight` reads column `0`. -/
def lookupAt (lookup : List (List Int)) (pos : Nat) (weight : Int) : Int :=
  (lookup.getD pos []).getD weight.toNat 0

/-- `lookup[pos][weight] = v`. A write outside the table is dropped. -/
def lookupSet (lookup : List (List Int)) (pos : Nat) (weight : Int) (v : Int) :
    List (List Int) :=
  lookup.set pos ((lookup.getD pos []).set weight.toNat v)

/-- `knapsack_dp(items, lookup, weight, pos)`: the value returned and the table after the
call. The order in which the two arguments of `std::max` are evaluated is not fixed by
the language: `leftFirst pos weight` tells whether the call that skips the item runs
first. -/
def knapsack_dp (leftFirst : Nat → Int → Bool) (items : List Item) (lookup : List (List Int))
    (weight : Int) (pos : Nat) : Int × List (List Int) :=
  if h : pos ≥ items.length then (0, lookup)
  else
    if lookupAt lookup pos weight = -1 then
      if weight - (items[pos]).weight < 0 then
        let r := knapsack_dp leftFirst items lookup weight (pos + 1)
        let lookup1 := lookupSet r.2 pos weight r.1
        (lookupAt lookup1 pos weight, lookup1)
      else
        if leftFirst pos weight then
          let a := knapsack_dp leftFirst items lookup weight (pos + 1)
          let b := knapsack_dp leftFirst items a.2 (weight - (items[pos]).weight) (pos + 1)
          let lookup1 := lookupSet b.2 pos weight (max a.1 (b.1 + (items[pos]).value))
          (lookupAt lookup1 pos weight, lookup1)
        else
          let b := knapsack_dp leftFirst items lookup (weight - (items[pos]).weight) (pos + 1)
          let a := knapsack_dp leftFirst items b.2 weight (pos + 1)
          let lookup1 := lookupSet a.2 pos weight (max a.1 (b.1 + (items[pos]).value))
          (lookupAt lookup1 pos weight, lookup1)
    else (lookupAt lookup pos weight, lookup)
termination_by items.length - pos

/-- The table of `main`: `items.size()` rows of `max_weight + 1` entries, all `-1`. -/
def freshLookup (items : List Item) (max_weight : Int) : List (List Int) :=
  List.replicate items.length (List.replicate (max_weight.toNat + 1) (-1))

/-! ## Notions used in the statements -/

/-- A table of `items.size()` rows and `W + 1` columns in which every entry is `-1` or
the value of `knapsack_dp_raw` at its position and weight. -/
def Memo (items : List Item) (W : Int) (lookup : List (List Int)) : Prop :=
  lookup.length = items.length ∧ (∀ row ∈ lookup, row.length = W.toNat + 1) ∧
  ∀ (p : Nat) (c : Int), p < items.length → 0 ≤ c → c ≤ W →
    lookupAt lookup p c = -1 ∨ lookupAt lookup p c = knapsack_dp_raw items c p

end Knapsack

/-! # Shortest paths (`dijkstra.h`)

`int` is modelled by `Int`, with the sum of the relaxation wrapped to 32 bits. A vertex
is a natural number; reading a vector outside its range gives a default value.
-/

namespace Dijkstra

/-- `constexpr int INFINITE`. -/
def INFINITE : Int := 999999999

/-- `struct Edge`: an edge out of some vertex. The field `to` of the source is `target`
here, `to` being a reserved word. -/
structure Edge where
  target : Nat
  weight : Int
deriving DecidableEq

/-- A value of type `int` after an operation: two's complement on 32 bits. -/
def wrapInt (x : Int) : Int :=
  (x + 2147483648) % 4294967296 - 2147483648

/-- Order of `std::pair<int, int>`, the order of the priority queue. -/
def keyLe (a b : Int × Nat) : Prop :=
  a.1 < b.1 ∨ (a.1 = b.1 ∧ a.2 ≤ b.2)

instance keyLeDecidable : DecidableRel keyLe :=
  fun a b => inferInstanceAs (Decidable (a.1 < b.1 ∨ (a.1 = b.1 ∧ a.2 ≤ b.2)))

/-- `queue.targetp()` for a min-heap held as a list: the least pair, `none` when the queue
is empty. -/
def top : List (Int × Nat) → Option (Int × Nat)
  | [] => none
  | x :: xs => some (xs.foldl (fun m y => if keyLe m y then m else y) x)

/-- Variables of `dijkstra`. -/
structure State where
  path_weight : List Int
  visited : List Bool
  queue : List (Int × Nat)

/-- Body of the `for` loop over `edges[next]`: relax one edge. -/
def relax (next : Nat) (s : State) (e : Edge) : State :=
  let new_weight := wrapInt (s.path_weight.getD next 0 + e.weight)
  if s.path_weight.getD e.target 0 > new_weight then
    { s with
      path_weight := s.path_weight.set e.target new_weight
      queue := s.queue ++ [(new_weight, e.target)] }
  else s

/-- Body of the `while` loop for the pair `t` at the top of the queue: pop it, and when
its vertex is not visited, mark it and relax its edges. -/
def visit (edges : List (List Edge)) (s : State) (t : Int × Nat) : State :=
  let s1 : State := { s with queue := s.queue.erase t }
  if !(s1.visited.getD t.2 false) then
    (edges.getD t.2 []).foldl (relax t.2) { s1 with visited := s1.visited.set t.2 true }
  else s1

/-- The `while (!queue.empty())` loop. -/
def loop (edges : List (List Edge)) : Nat → State → Option State
  | 0, _ => none
  | fuel + 1, s =>
    match top s.queue with
    | none => some s
    | some t => loop edges fuel (visit edges s t)

/-- State of `dijkstra` before the loop. -/
def start (num_vertices source : Nat) : State :=
  ⟨(List.replicate num_vertices INFINITE).set source 0, List.replicate num_vertices false,
    [(0, source)]⟩

/-- `dijkstra(num_vertices, source, edges)`. Every round pops one pair and a vertex
pushes at most one pair per edge, once, so the number of edges plus two bounds the
rounds. -/
def dijkstra (num_vertices source : Nat) (edges : List (List Edge)) : Option (List Int) :=
  (loop edges ((edges.map List.length).sum + 2) (start num_vertices source)).map
    (fun s => s.path_weight)

/-- A directed path from `a` to `b` with total weight `w`: no edge, or a path followed
by one more edge. -/
inductive Walk (edges : List (List Edge)) (a : Nat) : Nat → Int → Prop
  | nil : Walk edges a a 0
  | snoc {b : Nat} {w : Int} (e : Edge) : Walk edges a b w → e ∈ edges.getD b [] →
      Walk edges a e.target (w + e.weight)

/-! ## Notions used in the statements -/

/-- What the correctness of `dijkstra` asks of its input: the source and the ends of the
edges are vertices, no weight is negative, an edge out of a vertex that the source
reaches weighs less than `INFINITE`, and a vertex that the source reaches is reached by
a path that weighs less than `INFINITE`. -/
structure Input (n source : Nat) (edges : List (List Edge)) : Prop where
  source_lt : source < n
  target_lt : ∀ u e, e ∈ edges.getD u [] → e.target < n
  nonneg : ∀ u e, e ∈ edges.getD u [] → 0 ≤ e.weight
  edge_lt : ∀ u w e, Walk edges source u w → e ∈ edges.getD u [] → e.weight < INFINITE
  reach_lt : ∀ v w, Walk edges source v w → ∃ w', w' < INFINITE ∧ Walk edges source v w'

/-- Invariant of the loop of `dijkstra`. `R x e` says that the edge `e` of `x` has
already been relaxed if `x` is visited. -/
structure Inv (n source : Nat) (edges : List (List Edge)) (R : Nat → Edge → Prop)
    (s : State) : Prop where
  lenw : s.path_weight.length = n
  lenv : s.visited.length = n
  le_inf : ∀ x, x < n → s.path_weight.getD x 0 ≤ INFINITE
  walk : ∀ x, x < n → s.path_weight.getD x 0 < INFINITE →
    Walk edges source x (s.path_weight.getD x 0)
  src : s.path_weight.getD source 0 = 0
  fin : ∀ x, x < n → s.visited.getD x false = true → s.path_weight.getD x 0 < INFINITE
  opt : ∀ x, x < n → s.visited.getD x false = true →
    ∀ w, Walk edges source x w → s.path_weight.getD x 0 ≤ w
  relaxed : ∀ x, x < n → s.visited.getD x false = true → ∀ e ∈ edges.getD x [], R x e →
    s.path_weight.getD e.target 0 ≤ s.path_weight.getD x 0 + e.weight
  queued : ∀ x, x < n → s.visited.getD x false = false → s.path_weight.getD x 0 < INFINITE →
    (s.path_weight.getD x 0, x) ∈ s.queue
  entries : ∀ t ∈ s.queue, t.2 < n ∧ s.path_weight.getD t.2 0 ≤ t.1 ∧ t.1 < INFINITE

/-- Number of rounds the loop of `dijkstra` still has to make: the pairs of the queue,
and the edges of every vertex not yet visited. -/
def rounds (edges : List (List Edge)) (s : State) : Nat :=
  s.queue.length + ((List.range edges.length).map (fun x =>
    if s.visited.getD x false then 0 else (edges.getD x []).length)).sum

end Dijkstra

/-! # Theorems -/

set_option linter.unusedSectionVars false
set_option linter.unusedVariables false

namespace Tsp

variable {R : Type} [LinearOrderedField R]

/-! ## Folds -/

theorem foldl_add_eq_sum {α : Type} (f : α → R) (l : List α) (a : R) :
    l.foldl (fun acc i => acc + f i) a = a + (l.map f).sum := by
  induction l generalizing a with
  | nil => simp
  | cons x xs ih => simp [ih, add_assoc]

theorem foldl_nested {α β γ : Type} (g : γ → α → β → γ) (l1 : List α) (l2 : List β) (init : γ) :
    l1.foldl (fun t a => l2.foldl (fun t b => g t a b) t) init
      = (l1 ×ˢ l2).foldl (fun t p => g t p.1 p.2) init := by
  induction l1 generalizing init with
  | nil => rfl
  | cons a as ih =>
    rw [List.foldl_cons, ih, List.product_cons, List.foldl_append, List.foldl_map]

/-! ## Distance table -/

theorem length_setCell {A : Type} (t : List (List A)) (i j : Nat) (v : A) :
    (setCell t i j v).length = t.length := by
  simp [setCell]

theorem rowLength_setCell {A : Type} (t : List (List A)) (i j : Nat) (v : A) (a : Nat) :
    ((setCell t i j v).getD a []).length = (t.getD a []).length := by
  simp only [setCell, List.getD_eq_getElem?_getD, List.getElem?_set]
  by_cases h : i = a
  · subst h
    by_cases h2 : i < t.length
    · simp [h2]
    · simp [h2, List.getElem?_eq_none (not_lt.mp h2)]
  · simp [h]

theorem cell_setCell_same {A : Type} [Zero A] (t : List (List A)) (i j : Nat) (v : A)
    (hi : i < t.length) (hj : j < (t.getD i []).length) : cell (setCell t i j v) i j = v := by
  simp only [cell, setCell, List.getD_eq_getElem?_getD, List.getElem?_set] at *
  simp only [List.getElem?_eq_getElem hi, Option.getD_some] at hj
  simp [hi, hj, List.getElem?_set]

theorem cell_setCell_other {A : Type} [Zero A] (t : List (List A)) (i j a b : Nat) (v : A)
    (h : ¬ (i = a ∧ j = b)) : cell (setCell t i j v) a b = cell t a b := by
  simp only [cell, setCell, List.getD_eq_getElem?_getD, List.getElem?_set]
  by_cases h1 : i = a
  · subst h1
    have h2 : j ≠ b := fun hjb => h ⟨rfl, hjb⟩
    by_cases h3 : i < t.length
    · simp [h3, List.getElem?_set, h2]
    · simp [h3, List.getElem?_eq_none (not_lt.mp h3)]
  · simp [h1]

/-- A run of writes leaves in cell `(a, b)` the value `v0`, when every write to that cell
writes `v0` and either the cell holds `v0` already or some write goes to it. -/
theorem cell_foldl_writes {A : Type} [Zero A] {α : Type} (I J : α → Nat) (V : α → A)
    (n a b : Nat) (v0 : A) (ha : a < n) (hb : b < n) (ws : List α) (t : List (List A))
    (hlen : t.length = n) (hrow : ∀ r, r < n → (t.getD r []).length = n)
    (hsame : ∀ w ∈ ws, I w = a → J w = b → V w = v0)
    (hex : cell t a b = v0 ∨ ∃ w ∈ ws, I w = a ∧ J w = b) :
    cell (ws.foldl (fun t w => setCell t (I w) (J w) (V w)) t) a b = v0 := by
  induction ws generalizing t with
  | nil =>
    rcases hex with h | ⟨w, hw, _⟩
    · simpa using h
    · simp at hw
  | cons w ws ih =>
    rw [List.foldl_cons]
    apply ih
    · rw [length_setCell, hlen]
    · intro r hr
      rw [rowLength_setCell, hrow r hr]
    · intro w' hw'
      exact hsame w' (List.mem_cons_of_mem _ hw')
    · by_cases hit : I w = a ∧ J w = b
      · left
        obtain ⟨h1, h2⟩ := hit
        have hv := hsame w (List.mem_cons_self _ _) h1 h2
        rw [h1, h2, hv]
        exact cell_setCell_same t a b v0 (hlen ▸ ha) (by rw [hrow a ha]; exact hb)
      · rcases hex with h | ⟨w', hw', h1, h2⟩
        · left
          rw [cell_setCell_other t _ _ a b _ hit, h]
        · rcases List.mem_cons.mp hw' with rfl | hmem
          · exact absurd ⟨h1, h2⟩ hit
          · right
            exact ⟨w', hmem, h1, h2⟩

theorem lookup_build {A : Type} [Zero A] [Add A] [Sub A] [Mul A] (sqrt : A → A)
    (cities : List (City A))
    (hids : (cities.map City.id).Perm (List.range cities.length))
    (a b : City A) (ha : a ∈ cities) (hb : b ∈ cities) :
    (DistanceTable.build sqrt cities).lookup a.id b.id = a.distance sqrt b := by
  have hnd : (cities.map City.id).Nodup := hids.nodup_iff.mpr (List.nodup_range _)
  have hinj : ∀ x ∈ cities, ∀ y ∈ cities, x.id = y.id → x = y :=
    fun x hx y hy h => List.inj_on_of_nodup_map hnd hx hy h
  have hlt : ∀ x ∈ cities, x.id < cities.length := by
    intro x hx
    have : x.id ∈ List.range cities.length := hids.subset (List.mem_map_of_mem _ hx)
    exact List.mem_range.mp this
  unfold DistanceTable.build DistanceTable.lookup
  simp only
  rw [foldl_nested (fun t (src dest : City A) => setCell t src.id dest.id (src.distance sqrt dest))]
  refine cell_foldl_writes (fun p : City A × City A => p.1.id) (fun p => p.2.id)
    (fun p => p.1.distance sqrt p.2) cities.length a.id b.id _ (hlt a ha) (hlt b hb) _ _
    (by simp) ?_ ?_ ?_
  · intro r hr
    simp [List.getD_eq_getElem?_getD, List.getElem?_replicate, hr]
  · intro w hw h1 h2
    obtain ⟨hw1, hw2⟩ := List.mem_product.mp hw
    simp only at h1 h2 ⊢
    rw [hinj _ hw1 _ ha h1, hinj _ hw2 _ hb h2]
  · right
    exact ⟨(a, b), List.mem_product.mpr ⟨ha, hb⟩, rfl, rfl⟩

theorem exists_city_of_id {A : Type} (cities : List (City A))
    (hids : (cities.map City.id).Perm (List.range cities.length))
    (i : Nat) (hi : i < cities.length) : ∃ a ∈ cities, a.id = i := by
  have : i ∈ cities.map City.id := hids.symm.subset (List.mem_range.mpr hi)
  simpa using this

/-! ## Rotation of a closed tour -/

theorem full_cost_eq_sum (d : DistanceTable R) (p : Path) :
    p.full_cost d = (List.zipWith d.lookup p.path (p.path.rotate 1)).sum := by
  unfold Path.full_cost
  rw [foldl_add_eq_sum, zero_add]
  congr 1
  apply List.ext_getElem
  · simp
  · intro i h1 h2
    have hi : i < p.path.length := by simpa using h1
    simp [List.getD_eq_getElem?_getD, List.getElem_rotate, hi, Nat.mod_lt _ (by omega : 0 < p.path.length)]

/-- C9. Rotating a closed tour left by `k` positions does not change `full_cost`. -/
theorem full_cost_rotate (d : DistanceTable R) (p : Path) (k : Nat) :
    ({ p with path := p.path.rotate k } : Path).full_cost d = p.full_cost d := by
  rw [full_cost_eq_sum, full_cost_eq_sum]
  simp only
  rw [List.rotate_rotate, add_comm, ← List.rotate_rotate,
    ← List.zipWith_rotate_distrib _ _ _ _ (by simp)]
  exact (List.rotate_perm _ _).sum_eq

/-! ## Swaps -/

theorem foldl_inv {α β : Type} (P : β → Prop) (f : β → α → β) (l : List α) (init : β)
    (h0 : P init) (hstep : ∀ s, ∀ x ∈ l, P s → P (f s x)) : P (l.foldl f init) := by
  induction l generalizing init with
  | nil => exact h0
  | cons x xs ih =>
    rw [List.foldl_cons]
    exact ih _ (hstep _ _ (List.mem_cons_self _ _) h0)
      (fun s y hy hs => hstep s y (List.mem_cons_of_mem _ hy) hs)

theorem swap_visited (p : Path) (i j : Nat) : (p.swap i j).visited = p.visited := rfl

theorem swap_length (p : Path) (i j : Nat) : (p.swap i j).path.length = p.path.length := by
  simp [Path.swap]

theorem swap_perm (p : Path) (i j : Nat) (hi : i < p.path.length) (hj : j < p.path.length) :
    (p.swap i j).path.Perm p.path := by
  rw [List.perm_iff_count]
  intro a
  simp only [Path.swap, List.getD_eq_getElem?_getD, List.getElem?_eq_getElem hi,
    List.getElem?_eq_getElem hj, Option.getD_some]
  rw [List.count_set _ _ _ _ (by simpa using hj), List.count_set _ _ _ _ hi]
  have h1 : (if p.path[i] == a then 1 else 0) ≤ p.path.count a := by
    split
    · rename_i h
      have : p.path[i] = a := by simpa using h
      exact List.count_pos_iff.mpr (this ▸ List.getElem_mem _)
    · exact Nat.zero_le _
  have h2 : (if p.path[j] == a then 1 else 0) ≤ p.path.count a := by
    split
    · rename_i h
      have : p.path[j] = a := by simpa using h
      exact List.count_pos_iff.mpr (this ▸ List.getElem_mem _)
    · exact Nat.zero_le _
  by_cases hij : i = j
  · subst hij
    simp only [List.getElem_set_self]
    omega
  · rw [List.getElem_set_ne hij]
    omega

theorem swap_swap (p : Path) (i j : Nat) (hi : i < p.path.length) (hj : j < p.path.length) :
    (p.swap i j).swap i j = p := by
  cases p with
  | mk l v =>
    simp only [Path.swap, Path.mk.injEq, and_true]
    simp only at hi hj
    apply List.ext_getElem
    · simp
    · intro k h1 h2
      simp only [List.getD_eq_getElem?_getD, List.getElem?_set, List.getElem_set, List.length_set,
        hi, hj, if_true]
      by_cases hki : i = k <;> by_cases hkj : j = k <;>
        simp_all [List.getElem?_eq_getElem, eq_comm]

theorem swap_head (p : Path) (i j : Nat) (hi : 1 ≤ i) (hj : 1 ≤ j) :
    (p.swap i j).path.head? = p.path.head? := by
  cases p with
  | mk l v =>
    cases l with
    | nil => simp [Path.swap]
    | cons x xs =>
      obtain ⟨i, rfl⟩ : ∃ i', i = i' + 1 := ⟨i - 1, by omega⟩
      obtain ⟨j, rfl⟩ : ∃ j', j = j' + 1 := ⟨j - 1, by omega⟩
      simp [Path.swap]

theorem full_cost_congr (d : DistanceTable R) (p q : Path) (h : p.path = q.path) :
    p.full_cost d = q.full_cost d := by
  simp [Path.full_cost, h]

/-! ## One pass of `evolve` -/

theorem passInv_try (d : DistanceTable R) (p : Path) (c : R) (s : EvolveState R) (i j : Nat)
    (hi1 : 1 ≤ i) (hi : i < p.path.length) (hj1 : 1 ≤ j) (hj : j < p.path.length)
    (h : PassInv d p c s) : PassInv d p c (evolveTry d i s j) := by
  obtain ⟨hperm, hvis, hhead, hcost, hle, hno, hyes⟩ := h
  have hlen : s.tour.path.length = p.path.length := hperm.length_eq
  unfold evolveTry
  simp only
  split
  · rename_i hlt
    refine ⟨(swap_perm _ _ _ (hlen ▸ hi) (hlen ▸ hj)).trans hperm, hvis,
      (swap_head _ _ _ hi1 hj1).trans hhead, rfl, le_of_lt (lt_of_lt_of_le hlt hle), ?_, ?_⟩
    · intro h; cases h
    · intro _; exact lt_of_lt_of_le hlt hle
  · rw [swap_swap _ _ _ (hlen ▸ hi) (hlen ▸ hj)]
    exact ⟨hperm, hvis, hhead, hcost, hle, hno, hyes⟩

theorem passInv_pass (d : DistanceTable R) (p : Path) :
    PassInv d p (p.full_cost d) (evolvePass d p (p.full_cost d)) := by
  unfold evolvePass
  apply foldl_inv (PassInv d p (p.full_cost d))
  · exact ⟨List.Perm.refl _, rfl, rfl, rfl, le_refl _, fun _ => ⟨rfl, rfl⟩, fun h => by cases h⟩
  · intro s i hi hs
    apply foldl_inv (PassInv d p (p.full_cost d))
    · exact hs
    · intro s' j hj hs'
      rw [List.mem_range'_1] at hi hj
      exact passInv_try d p _ s' i j hi.1 (by omega) (by omega) (by omega) hs'

/-! ## The pass loop -/

theorem evolveLoop_spec (d : DistanceTable R) (fuel : Nat) (p r : Path)
    (h : evolveLoop d fuel p (p.full_cost d) = some r) :
    r.path.Perm p.path ∧ r.visited = p.visited ∧ r.path.head? = p.path.head? ∧
    r.full_cost d ≤ p.full_cost d ∧
    evolvePass d r (r.full_cost d) = ⟨r, r.full_cost d, false⟩ := by
  induction fuel generalizing p with
  | zero => simp [evolveLoop] at h
  | succ k ih =>
    obtain ⟨hperm, hvis, hhead, hcost, hle, hno, hyes⟩ := passInv_pass d p
    unfold evolveLoop at h
    simp only at h
    split at h
    · rename_i hup
      rw [hcost] at h hle
      obtain ⟨h1, h2, h3, h4, h5⟩ := ih _ h
      exact ⟨h1.trans hperm, h2.trans hvis, h3.trans hhead, le_trans h4 hle, h5⟩
    · rename_i hup
      have hup' : (evolvePass d p (p.full_cost d)).updated = false := by simpa using hup
      obtain ⟨ht, hc⟩ := hno hup'
      have hr : r = p := by
        rw [← ht]; exact (Option.some.inj h).symm
      subst hr
      refine ⟨List.Perm.refl _, rfl, rfl, le_refl _, ?_⟩
      cases hs : evolvePass d r (r.full_cost d) with
      | mk t cc u =>
        rw [hs] at ht hc hup'
        simp only at ht hc hup'
        rw [ht, hc, hup']

theorem countP_lt_of_imp {α : Type} (P Q : α → Bool) (l : List α)
    (himp : ∀ x ∈ l, P x = true → Q x = true) (x : α) (hx : x ∈ l) (hq : Q x = true)
    (hp : P x = false) : l.countP P < l.countP Q := by
  induction l with
  | nil => simp at hx
  | cons y ys ih =>
    have hmono : ys.countP P ≤ ys.countP Q :=
      List.countP_mono_left (fun z hz hpz => himp z (List.mem_cons_of_mem _ hz) hpz)
    rcases List.mem_cons.mp hx with rfl | hmem
    · rw [List.countP_cons_of_neg _ _ (by simp [hp]), List.countP_cons_of_pos _ _ hq]
      omega
    · have := ih (fun z hz => himp z (List.mem_cons_of_mem _ hz)) hmem
      rw [List.countP_cons, List.countP_cons]
      have h3 := himp y (List.mem_cons_self _ _)
      by_cases hy : P y = true
      · simp [hy, h3 hy]; exact this
      · simp [hy]; split <;> omega

theorem evolveLoop_terminates (d : DistanceTable R) (l0 : List Nat) (fuel : Nat) (p : Path)
    (hperm : p.path.Perm l0)
    (hfuel : l0.permutations.countP
      (fun q => decide ((⟨q, []⟩ : Path).full_cost d < p.full_cost d)) < fuel) :
    ∃ r, evolveLoop d fuel p (p.full_cost d) = some r := by
  induction fuel generalizing p with
  | zero => omega
  | succ k ih =>
    obtain ⟨hperm', hvis, hhead, hcost, hle, hno, hyes⟩ := passInv_pass d p
    unfold evolveLoop
    simp only
    split
    · rename_i hup
      rw [hcost]
      apply ih _ (hperm'.trans hperm)
      have hlt := hyes hup
      rw [hcost] at hlt
      have hmem : (evolvePass d p (p.full_cost d)).tour.path ∈ l0.permutations :=
        List.mem_permutations.mpr (hperm'.trans hperm)
      have := countP_lt_of_imp
        (fun q => decide ((⟨q, []⟩ : Path).full_cost d
          < (evolvePass d p (p.full_cost d)).tour.full_cost d))
        (fun q => decide ((⟨q, []⟩ : Path).full_cost d < p.full_cost d))
        l0.permutations
        (fun x _ hx => by
          simp only [decide_eq_true_eq] at hx ⊢
          exact lt_trans hx hlt)
        _ hmem
        (by
          simp only [decide_eq_true_eq]
          rw [full_cost_congr d ⟨_, []⟩ (evolvePass d p (p.full_cost d)).tour rfl]
          exact hlt)
        (by
          simp only [decide_eq_false_iff_not, not_lt]
          rw [full_cost_congr d ⟨_, []⟩ (evolvePass d p (p.full_cost d)).tour rfl])
      omega
    · exact ⟨_, rfl⟩

theorem evolve_terminates (d : DistanceTable R) (p : Path) : ∃ r, p.evolve d = some r := by
  unfold Path.evolve
  apply evolveLoop_terminates d p.path _ p (List.Perm.refl _)
  have := List.countP_le_length (fun q => decide ((⟨q, []⟩ : Path).full_cost d < p.full_cost d))
    (l := p.path.permutations)
  rw [List.length_permutations] at this
  omega

theorem evolve_spec (d : DistanceTable R) (p r : Path) (h : p.evolve d = some r) :
    r.path.Perm p.path ∧ r.visited = p.visited ∧ r.path.head? = p.path.head? ∧
    r.full_cost d ≤ p.full_cost d ∧
    evolvePass d r (r.full_cost d) = ⟨r, r.full_cost d, false⟩ :=
  evolveLoop_spec d _ p r h

theorem evolve_fixed (d : DistanceTable R) (r : Path)
    (h : evolvePass d r (r.full_cost d) = ⟨r, r.full_cost d, false⟩) : r.evolve d = some r := by
  unfold Path.evolve evolveLoop
  simp [h]

/-- C7. `evolve` returns, and the tour it leaves costs no more than the tour it got. -/
theorem evolve_full_cost_le (d : DistanceTable R) (p : Path) :
    ∃ r, p.evolve d = some r ∧ r.full_cost d ≤ p.full_cost d := by
  obtain ⟨r, hr⟩ := evolve_terminates d p
  exact ⟨r, hr, (evolve_spec d p r hr).2.2.2.1⟩

/-- C8. `evolve` applied to the tour that `evolve` returned gives that tour back. -/
theorem evolve_idempotent (d : DistanceTable R) (p : Path) :
    ∃ r, p.evolve d = some r ∧ r.evolve d = some r := by
  obtain ⟨r, hr⟩ := evolve_terminates d p
  exact ⟨r, hr, evolve_fixed d r (evolve_spec d p r hr).2.2.2.2⟩

/-! ## Lower bound of a complete tour -/

theorem firstOpenHalf_none (p : Path) (edges : List (Edge R)) (lb : R)
    (h : ∀ e ∈ edges, p.is_visited e.dest = true) : p.firstOpenHalf edges lb = lb := by
  unfold Path.firstOpenHalf
  have : edges.find? (fun e => !p.is_visited e.dest) = none := by
    rw [List.find?_eq_none]
    intro e he
    simp [h e he]
  rw [this]

theorem back_eq_getD (p : Path) : p.back = p.path.getD (p.path.length - 1) 0 := by
  unfold Path.back
  cases h : p.path with
  | nil => rfl
  | cons x xs =>
    rw [List.getLastD_cons, List.getD_eq_getElem?_getD, ← List.getLast?_eq_getElem?,
      List.getLast?_cons]
    cases xs <;> simp [List.getLastD, List.getLast?_eq_getLast]

theorem front_eq_getD (p : Path) : p.front = p.path.getD 0 0 := by
  unfold Path.front
  cases p.path <;> rfl

theorem set_getD_self {α : Type} (l : List α) (i : Nat) (a : α) : l.set i (l.getD i a) = l := by
  apply List.ext_getElem
  · simp
  · intro k h1 h2
    rw [List.getElem_set]
    split
    · rename_i h
      subst h
      simp [List.getD_eq_getElem?_getD, List.getElem?_eq_getElem h2]
    · rfl

theorem push_pop (p : Path) (c : Nat) (h : p.is_visited c = false) : (p.push c).pop = p := by
  cases p with
  | mk l v =>
    simp only [Path.push, Path.pop, Path.back, Path.is_visited] at *
    have h1 : (l ++ [c]).getLastD 0 = c := by
      cases l <;> simp [List.getLastD]
    rw [h1, List.dropLast_concat, List.set_set, ← h, set_getD_self]

theorem isVisited_lt (p : Path) (c : Nat) (h : p.is_visited c = true) : c < p.visited.length := by
  by_contra hc
  simp [Path.is_visited, List.getD_eq_getElem?_getD, List.getElem?_eq_none (not_lt.mp hc)] at h

theorem valid_lt {n : Nat} {p : Path} (hv : ValidTour n p) {c : Nat} (hc : c ∈ p.path) : c < n := by
  have := isVisited_lt p c ((hv.2.2 c).mpr hc)
  rw [hv.2.1] at this
  exact this

theorem valid_length_le {n : Nat} {p : Path} (hv : ValidTour n p) : p.path.length ≤ n := by
  have hsub : p.path ⊆ List.range n := fun c hc => List.mem_range.mpr (valid_lt hv hc)
  have := (List.subperm_of_subset hv.1 hsub).length_le
  simpa using this

theorem isVisited_push (p : Path) (c c' : Nat) (hc : c < p.visited.length) :
    (p.push c).is_visited c' = (decide (c' = c) || p.is_visited c') := by
  simp only [Path.push, Path.is_visited, List.getD_eq_getElem?_getD, List.getElem?_set]
  by_cases h : c = c'
  · subst h
    simp [hc]
  · have h' : ¬ c' = c := fun e => h e.symm
    simp [h, h']

theorem valid_push {n : Nat} {p : Path} (hv : ValidTour n p) {c : Nat} (hc : c < n)
    (hnot : p.is_visited c = false) : ValidTour n (p.push c) := by
  obtain ⟨hnd, hlen, hiff⟩ := hv
  have hnotmem : c ∉ p.path := fun hm => by
    rw [(hiff c).mpr hm] at hnot
    cases hnot
  refine ⟨?_, ?_, ?_⟩
  · simp only [Path.push]
    exact List.Nodup.append hnd (List.nodup_singleton c) (by simpa using hnotmem)
  · simp [Path.push, hlen]
  · intro c'
    rw [isVisited_push p c c' (hlen ▸ hc)]
    simp only [Path.push, List.mem_append, List.mem_singleton, Bool.or_eq_true, decide_eq_true_eq]
    rw [hiff c']
    tauto

theorem exists_unvisited {n : Nat} {p : Path} (hv : ValidTour n p) (hlt : p.path.length < n) :
    ∃ c, c < n ∧ p.is_visited c = false := by
  by_contra hcon
  push_neg at hcon
  have hsub : List.range n ⊆ p.path := by
    intro c hc
    have h1 := hcon c (List.mem_range.mp hc)
    exact (hv.2.2 c).mp (by simpa using h1)
  have := (List.subperm_of_subset (List.nodup_range n) hsub).length_le
  simp at this
  omega

theorem pushLastCity_eq {n : Nat} {p : Path} (hv : ValidTour n p) (hlt : p.path.length < n) :
    ∃ c, c < n ∧ p.is_visited c = false ∧ pushLastCity p n = p.push c := by
  unfold pushLastCity
  cases hf : (List.range n).find? (fun last_city => !p.is_visited last_city) with
  | none =>
    obtain ⟨c, hc, hnot⟩ := exists_unvisited hv hlt
    rw [List.find?_eq_none] at hf
    have := hf c (List.mem_range.mpr hc)
    simp [hnot] at this
  | some c =>
    have h1 := List.find?_some hf
    have h2 := List.mem_of_find?_eq_some hf
    exact ⟨c, List.mem_range.mp h2, by simpa using h1, rfl⟩

theorem branchOrder_spec (d : DistanceTable R) (adj : AdjacencyList R) (p : Path) :
    (branchOrder d adj p).1 = p ∧
    ∀ x ∈ (branchOrder d adj p).2, x.2 < adj.size ∧ p.is_visited x.2 = false := by
  unfold branchOrder
  apply foldl_inv (fun s : Path × List (R × Nat) =>
    s.1 = p ∧ ∀ x ∈ s.2, x.2 < adj.size ∧ p.is_visited x.2 = false)
  · simp
  · rintro ⟨t, l⟩ c hc ⟨h1, h2⟩
    simp only at h1
    subst h1
    split
    · rename_i hnot
      have hnot' : t.is_visited c = false := by simpa using hnot
      refine ⟨push_pop t c hnot', ?_⟩
      intro x hx
      rcases List.mem_append.mp hx with hx | hx
      · exact h2 x hx
      · simp only [List.mem_singleton] at hx
        subst hx
        exact ⟨List.mem_range.mp hc, hnot'⟩
    · exact ⟨rfl, h2⟩

/-! ## Folds in the option monad -/

theorem foldlM_some_inv {α β : Type} (P : β → Prop) (f : β → α → Option β) (l : List α)
    (init r : β) (h0 : P init) (hstep : ∀ s, ∀ x ∈ l, ∀ s', P s → f s x = some s' → P s')
    (h : l.foldlM f init = some r) : P r := by
  induction l generalizing init with
  | nil =>
    simp only [List.foldlM_nil] at h
    cases h
    exact h0
  | cons x xs ih =>
    rw [List.foldlM_cons] at h
    cases hf : f init x with
    | none => rw [hf] at h; cases h
    | some s' =>
      rw [hf] at h
      exact ih s' (hstep _ _ (List.mem_cons_self _ _) _ h0 hf)
        (fun s y hy => hstep s y (List.mem_cons_of_mem _ hy)) h

theorem foldlM_some_of_inv {α β : Type} (P : β → Prop) (f : β → α → Option β) (l : List α)
    (init : β) (h0 : P init) (hstep : ∀ s, ∀ x ∈ l, P s → ∃ s', f s x = some s' ∧ P s') :
    ∃ r, l.foldlM f init = some r ∧ P r := by
  induction l generalizing init with
  | nil => exact ⟨init, rfl, h0⟩
  | cons x xs ih =>
    obtain ⟨s', hs', hp⟩ := hstep _ _ (List.mem_cons_self _ _) h0
    rw [List.foldlM_cons, hs']
    exact ih s' hp (fun s y hy => hstep s y (List.mem_cons_of_mem _ hy))

/-! ## Backtracking -/

theorem branch_bound_restores_aux (d : DistanceTable R) (adj : AdjacencyList R) (fuel : Nat)
    (temp best : Path) (r : Path × Path) (hv : ValidTour adj.size temp)
    (h : branch_bound d adj fuel temp best = some r) : r.1 = temp := by
  induction fuel generalizing temp best r with
  | zero => simp [branch_bound] at h
  | succ k ih =>
    unfold branch_bound at h
    simp only at h
    split at h
    · rename_i hlen
      obtain ⟨c, hc, hnot, hpush⟩ := pushLastCity_eq hv (by unfold Path.length at hlen; omega)
      rw [hpush, push_pop temp c hnot] at h
      split at h
      · cases he : (temp.push c).evolve d with
        | none => rw [he] at h; cases h
        | some b =>
          rw [he] at h
          cases h
          rfl
      · cases h
        rfl
    · obtain ⟨ho1, ho2⟩ := branchOrder_spec d adj temp
      refine foldlM_some_inv (fun s : Path × Path => s.1 = temp) _ _ _ r ho1 ?_ h
      rintro ⟨t, b⟩ x hx s' hs hstep
      simp only at hs
      subst hs
      have hx' : x ∈ (branchOrder d adj t).2 := (List.perm_insertionSort _ _).subset hx
      obtain ⟨hxlt, hxnot⟩ := ho2 x hx'
      simp only [branchStep] at hstep
      split at hstep
      · cases hrec : branch_bound d adj k (t.push x.2) b with
        | none => rw [hrec] at hstep; cases hstep
        | some r' =>
          rw [hrec] at hstep
          cases hstep
          simp only
          rw [ih _ _ _ (valid_push hv hxlt hxnot) hrec]
          exact push_pop t x.2 hxnot
      · cases hstep
        exact push_pop t x.2 hxnot

theorem branch_bound_returns_aux (d : DistanceTable R) (adj : AdjacencyList R) (fuel : Nat)
    (temp best : Path) (hv : ValidTour adj.size temp)
    (hfuel : adj.size + 1 ≤ fuel + temp.path.length) :
    ∃ r, branch_bound d adj fuel temp best = some r := by
  induction fuel generalizing temp best with
  | zero =>
    have := valid_length_le hv
    omega
  | succ k ih =>
    unfold branch_bound
    simp only
    split
    · split
      · obtain ⟨b, hb⟩ := evolve_terminates d (pushLastCity temp adj.size)
        rw [hb]
        exact ⟨_, rfl⟩
      · exact ⟨_, rfl⟩
    · obtain ⟨ho1, ho2⟩ := branchOrder_spec d adj temp
      obtain ⟨r, hr, _⟩ := foldlM_some_of_inv (fun s : Path × Path => s.1 = temp)
        (branchStep (branch_bound d adj k) (best.full_cost d))
        ((branchOrder d adj temp).2.insertionSort pairLe) ((branchOrder d adj temp).1, best) ho1 (by
          rintro ⟨t, b⟩ x hx hs
          simp only at hs
          subst hs
          have hx' : x ∈ (branchOrder d adj t).2 := (List.perm_insertionSort _ _).subset hx
          obtain ⟨hxlt, hxnot⟩ := ho2 x hx'
          simp only [branchStep]
          split
          · have hv' := valid_push hv hxlt hxnot
            obtain ⟨r', hr'⟩ := ih (t.push x.2) b hv' (by simp [Path.push]; omega)
            rw [hr']
            refine ⟨_, rfl, ?_⟩
            simp only
            rw [branch_bound_restores_aux d adj k _ b r' hv' hr']
            exact push_pop t x.2 hxnot
          · exact ⟨_, rfl, push_pop t x.2 hxnot⟩)
      exact ⟨r, hr⟩

/-- C5. A call of `branch_bound` on a valid, non-empty in-progress tour returns, and
when it returns the in-progress tour (city sequence and flags) is what it was before
the call. -/
theorem branch_bound_restores (d : DistanceTable R) (adj : AdjacencyList R) (temp best : Path)
    (hv : ValidTour adj.size temp) (hne : temp.path ≠ []) :
    (∃ r, branch_bound d adj adj.size temp best = some r) ∧
    ∀ fuel r, branch_bound d adj fuel temp best = some r → r.1 = temp := by
  refine ⟨?_, fun fuel r h => branch_bound_restores_aux d adj fuel temp best r hv h⟩
  apply branch_bound_returns_aux d adj _ temp best hv
  have : 0 < temp.path.length := List.length_pos.mpr hne
  omega

/-- Instance of the backtracking property: three cities, in-progress tour `[0]`. -/
theorem branch_bound_restores_witness :
    ValidTour 3 ((Path.ofLength 3).push 0) ∧ ((Path.ofLength 3).push 0).path ≠ [] ∧
    ∃ r, branch_bound (⟨[[0, 1, 2], [1, 0, 3], [2, 3, 0]]⟩ : DistanceTable ℚ)
        ⟨[[⟨0, 1, 1⟩, ⟨0, 2, 2⟩], [⟨1, 0, 1⟩, ⟨1, 2, 3⟩], [⟨2, 0, 2⟩, ⟨2, 1, 3⟩]]⟩ 3
        ((Path.ofLength 3).push 0) (Path.ofComplete [0, 1, 2]) = some r ∧
      r.1 = (Path.ofLength 3).push 0 := by
  have hv : ValidTour 3 ((Path.ofLength 3).push 0) := by
    refine ⟨by decide, by decide, ?_⟩
    intro c
    rcases c with _ | _ | _ | c <;> simp [Path.ofLength, Path.push, Path.is_visited]
  have hne : ((Path.ofLength 3).push 0).path ≠ [] := by decide
  obtain ⟨⟨r, hr⟩, h2⟩ := branch_bound_restores (⟨[[0, 1, 2], [1, 0, 3], [2, 3, 0]]⟩ : DistanceTable ℚ)
    ⟨[[⟨0, 1, 1⟩, ⟨0, 2, 2⟩], [⟨1, 0, 1⟩, ⟨1, 2, 3⟩], [⟨2, 0, 2⟩, ⟨2, 1, 3⟩]]⟩
    ((Path.ofLength 3).push 0) (Path.ofComplete [0, 1, 2]) hv hne
  exact ⟨hv, hne, r, hr, h2 _ r hr⟩

/-! ## Spanning trees of the complete graph -/

theorem pairWeight_mk (w : Nat → Nat → R) (hsym : ∀ a b, w a b = w b a) (a b : Nat) :
    pairWeight w s(a, b) = w a b := by
  simp only [pairWeight, Sym2.lift_mk]
  rcases le_total a b with h | h
  · rw [min_eq_left h, max_eq_right h]
  · rw [min_eq_right h, max_eq_left h, hsym]

theorem joined_symm (T : Finset (Sym2 Nat)) {a b : Nat} (h : Joined T a b) : Joined T b a := by
  have hs : Symmetric (fun x y : Nat => s(x, y) ∈ T) := fun x y hxy => by
    simpa only [Sym2.eq_swap] using hxy
  exact Relation.ReflTransGen.symmetric hs h

theorem joined_mono {T T' : Finset (Sym2 Nat)} (hsub : T ⊆ T') {a b : Nat} (h : Joined T a b) :
    Joined T' a b :=
  Relation.ReflTransGen.mono (fun _ _ hxy => hsub hxy) h

/-- A chain that leaves a set `S` has a first edge that crosses the boundary, and the
part before it stays outside `S`. -/
theorem first_crossing (r : Nat → Nat → Prop) (S : Nat → Prop) {v z : Nat}
    (h : Relation.ReflTransGen r v z) (hv : ¬ S v) (hz : S z) :
    ∃ y x, Relation.ReflTransGen (fun a b => r a b ∧ ¬ S a ∧ ¬ S b) v y ∧ r y x ∧ ¬ S y ∧ S x := by
  induction h using Relation.ReflTransGen.head_induction_on with
  | refl => exact absurd hz hv
  | @head a c hstep _ ih =>
    by_cases hc : S c
    · exact ⟨a, c, Relation.ReflTransGen.refl, hstep, hv, hc⟩
    · obtain ⟨y, x, h1, h2, h3, h4⟩ := ih hc
      exact ⟨y, x, Relation.ReflTransGen.head ⟨hstep, hv, hc⟩ h1, h2, h3, h4⟩

/-- Exchange step of Prim's algorithm. `S` is the set of cities reached so far, `F` the
edges chosen so far (inside `S`, joining all of `S` to city 0), `(u, v)` a lightest edge
from `S` to its complement. A spanning tree that contains `F` can be turned into one that
contains `F` and the edge `(u, v)` without gaining weight. -/
theorem exchange_step (w : Nat → Nat → R) (hsym : ∀ a b, w a b = w b a) (n : Nat)
    (S : Nat → Prop) (F T : Finset (Sym2 Nat)) (u v : Nat)
    (hT : IsSpanningTree n T) (hFT : F ⊆ T)
    (hFS : ∀ a b, s(a, b) ∈ F → S a ∧ S b)
    (hFj : ∀ a, S a → Joined F 0 a)
    (hu : S u) (hv : ¬ S v) (hun : u < n) (hvn : v < n)
    (hmin : ∀ a b, a < n → b < n → S a → ¬ S b → w u v ≤ w a b) :
    ∃ T', IsSpanningTree n T' ∧ F ⊆ T' ∧ s(u, v) ∈ T' ∧ treeWeight w T' ≤ treeWeight w T := by
  classical
  by_cases he : s(u, v) ∈ T
  · exact ⟨T, hT, hFT, he, le_refl _⟩
  obtain ⟨hcard, hrange, hjoin⟩ := hT
  have hS0 : S 0 := by
    by_contra h0
    have := hFj u hu
    -- a chain inside `F` from 0 stays inside `S` once it has entered; 0 itself is in `S`
    cases Relation.ReflTransGen.cases_head this with
    | inl h => exact h0 (h ▸ hu)
    | inr h =>
      obtain ⟨c, hc, _⟩ := h
      exact h0 (hFS 0 c hc).1
  obtain ⟨y, x, hpre, hyx, hy, hx⟩ :=
    first_crossing (fun a b => s(a, b) ∈ T) S (joined_symm T (hjoin v hvn)) hv hS0
  have hxy_range := hrange y x hyx
  have hfe : s(y, x) ≠ s(u, v) := fun h => he (h ▸ hyx)
  have hFnot : s(y, x) ∉ F := fun h => hy (hFS y x h).1
  refine ⟨insert s(u, v) (T.erase s(y, x)), ⟨?_, ?_, ?_⟩, ?_, ?_, ?_⟩
  · rw [Finset.card_insert_of_not_mem (fun h => he (Finset.mem_of_mem_erase h)),
      Finset.card_erase_of_mem hyx]
    have : 0 < T.card := Finset.card_pos.mpr ⟨_, hyx⟩
    omega
  · intro a b hab
    rcases Finset.mem_insert.mp hab with h | h
    · rcases Sym2.eq_iff.mp h with ⟨rfl, rfl⟩ | ⟨rfl, rfl⟩
      · exact ⟨hun, hvn, fun h' => hv (h' ▸ hu)⟩
      · exact ⟨hvn, hun, fun h' => hv (h' ▸ hu)⟩
    · exact hrange a b (Finset.mem_of_mem_erase h)
  · -- every city is still joined to 0
    have hFsub : F ⊆ insert s(u, v) (T.erase s(y, x)) := fun g hg =>
      Finset.mem_insert_of_mem (Finset.mem_erase.mpr ⟨fun h => hFnot (h ▸ hg), hFT hg⟩)
    have hSj : ∀ a, S a → Joined (insert s(u, v) (T.erase s(y, x))) 0 a :=
      fun a ha => joined_mono hFsub (hFj a ha)
    have hvy : Joined (insert s(u, v) (T.erase s(y, x))) v y := by
      refine Relation.ReflTransGen.mono ?_ hpre
      rintro a b ⟨hab, ha, hb⟩
      refine Finset.mem_insert_of_mem (Finset.mem_erase.mpr ⟨?_, hab⟩)
      intro h
      rcases Sym2.eq_iff.mp h with ⟨_, rfl⟩ | ⟨rfl, _⟩
      · exact hb hx
      · exact ha hx
    have h0y : Joined (insert s(u, v) (T.erase s(y, x))) 0 y :=
      ((hSj u hu).tail (Finset.mem_insert_self _ _)).trans hvy
    intro z hz
    have hz' := hjoin z hz
    clear hz
    induction hz' with
    | refl => exact Relation.ReflTransGen.refl
    | @tail b c _ hstep ih =>
      by_cases hbc : s(b, c) = s(y, x)
      · rcases Sym2.eq_iff.mp hbc with ⟨_, rfl⟩ | ⟨_, rfl⟩
        · exact hSj _ hx
        · exact h0y
      · exact ih.tail (Finset.mem_insert_of_mem (Finset.mem_erase.mpr ⟨hbc, hstep⟩))
  · exact fun g hg =>
      Finset.mem_insert_of_mem (Finset.mem_erase.mpr ⟨fun h => hFnot (h ▸ hg), hFT hg⟩)
  · exact Finset.mem_insert_self _ _
  · unfold treeWeight
    rw [Finset.sum_insert (fun h => he (Finset.mem_of_mem_erase h)),
      ← Finset.add_sum_erase T (pairWeight w) hyx]
    have h1 : pairWeight w s(u, v) ≤ pairWeight w s(y, x) := by
      rw [pairWeight_mk w hsym, pairWeight_mk w hsym, hsym y x]
      exact hmin x y hxy_range.2.1 hxy_range.1 hx hy
    linarith

/-! ## The heap of `mst` -/

theorem exists_min_index (cand : List (Edge R)) (hne : cand ≠ []) :
    ∃ i, ∃ h : i < cand.length, ∀ o ∈ cand, cand[i].weight ≤ o.weight := by
  induction cand with
  | nil => exact absurd rfl hne
  | cons c cs ih =>
    by_cases hcs : cs = []
    · subst hcs
      exact ⟨0, by simp, by simp⟩
    · obtain ⟨i, hi, hmin⟩ := ih hcs
      by_cases hc : c.weight ≤ cs[i].weight
      · refine ⟨0, by simp, ?_⟩
        intro o ho
        rcases List.mem_cons.mp ho with rfl | ho
        · exact le_refl _
        · exact le_trans hc (hmin o ho)
      · refine ⟨i + 1, by simpa using hi, ?_⟩
        intro o ho
        simp only [List.getElem_cons_succ]
        rcases List.mem_cons.mp ho with rfl | ho
        · exact le_of_lt (not_le.mp hc)
        · exact hmin o ho

theorem mem_topPositions (cand : List (Edge R)) (i : Nat) :
    i ∈ topPositions cand ↔ ∃ h : i < cand.length, ∀ o ∈ cand, cand[i].weight ≤ o.weight := by
  unfold topPositions
  rw [List.mem_filter, List.mem_range]
  constructor
  · rintro ⟨hi, h⟩
    refine ⟨hi, ?_⟩
    rw [List.getElem?_eq_getElem hi] at h
    simpa using h
  · rintro ⟨hi, h⟩
    refine ⟨hi, ?_⟩
    rw [List.getElem?_eq_getElem hi]
    simpa using h

theorem topPosition_spec (tie : Nat) (cand : List (Edge R)) (hne : cand ≠ []) :
    ∃ h : topPosition tie cand < cand.length,
      ∀ o ∈ cand, cand[topPosition tie cand].weight ≤ o.weight := by
  obtain ⟨i, hi, hmin⟩ := exists_min_index cand hne
  have hmem : i ∈ topPositions cand := (mem_topPositions cand i).mpr ⟨hi, hmin⟩
  have hpos : 0 < (topPositions cand).length := List.length_pos_of_mem hmem
  have hlt : tie % (topPositions cand).length < (topPositions cand).length := Nat.mod_lt _ hpos
  have : topPosition tie cand ∈ topPositions cand := by
    unfold topPosition
    rw [List.getD_eq_getElem?_getD, List.getElem?_eq_getElem hlt]
    exact List.getElem_mem _
  exact (mem_topPositions cand _).mp this

theorem mem_eraseIdx_or {α : Type} (l : List α) (i : Nat) (h : i < l.length) (x : α)
    (hx : x ∈ l) : x = l[i] ∨ x ∈ l.eraseIdx i := by
  induction l generalizing i with
  | nil => simp at hx
  | cons y ys ih =>
    cases i with
    | zero =>
      rcases List.mem_cons.mp hx with rfl | hx
      · left; rfl
      · right; simpa using hx
    | succ i =>
      rcases List.mem_cons.mp hx with rfl | hx
      · right; simp
      · rcases ih i (by simpa using h) hx with h1 | h1
        · left; simpa using h1
        · right; simp [h1]

theorem mem_of_mem_eraseIdx {α : Type} (l : List α) (i : Nat) (x : α)
    (hx : x ∈ l.eraseIdx i) : x ∈ l :=
  (List.eraseIdx_sublist l i).subset hx

/-! ## The complete graph -/

theorem completeAdj_mem {w : Nat → Nat → R} {n : Nat} {adj : AdjacencyList R}
    (h : CompleteAdj w n adj) {i : Nat} (hi : i < n) (e : Edge R) :
    e ∈ adj.get i ↔ e.src = i ∧ e.dest < n ∧ e.dest ≠ i ∧ e.weight = w i e.dest := by
  rw [(h.2 i hi).mem_iff]
  simp only [List.mem_map, List.mem_filter, List.mem_range]
  constructor
  · rintro ⟨j, ⟨hj, hne⟩, rfl⟩
    exact ⟨rfl, hj, by simpa using hne, rfl⟩
  · rintro ⟨h1, h2, h3, h4⟩
    refine ⟨e.dest, ⟨h2, by simpa using h3⟩, ?_⟩
    cases e
    simp_all

theorem completeAdj_length {w : Nat → Nat → R} {n : Nat} {adj : AdjacencyList R}
    (h : CompleteAdj w n adj) {i : Nat} (hi : i < n) : (adj.get i).length = n - 1 := by
  rw [(h.2 i hi).length_eq, List.length_map]
  have h1 : (List.range n).filter (fun j => decide (j ≠ i)) = (List.range n).erase i := by
    rw [List.Nodup.erase_eq_filter (List.nodup_range n)]
    congr 1
    funext j
    by_cases hj : j = i <;> simp [hj]
  rw [h1, List.length_erase_of_mem (List.mem_range.mpr hi), List.length_range]

theorem completeAdj_sort {w : Nat → Nat → R} {n : Nat} {adj : AdjacencyList R}
    (h : CompleteAdj w n adj) : CompleteAdj w n (Graph.new adj).adjacency_list := by
  refine ⟨by simpa [Graph.new, AdjacencyList.sort_by_dest, AdjacencyList.size] using h.1, ?_⟩
  intro i hi
  have hlen : i < adj.adjacent_edges.length := by
    have := h.1
    unfold AdjacencyList.size at this
    omega
  have : (Graph.new adj).adjacency_list.get i
      = List.insertionSort (fun l r => l.dest ≤ r.dest) (adj.get i) := by
    simp [Graph.new, AdjacencyList.sort_by_dest, AdjacencyList.get, List.getD_eq_getElem?_getD,
      List.getElem?_eq_getElem hlen]
  rw [this]
  exact (List.perm_insertionSort _ _).trans (h.2 i hi)

/-! ## Invariant of Prim's loop -/

theorem getD_lt_of_true (l : List Bool) (i : Nat) (h : l.getD i false = true) : i < l.length := by
  by_contra hc
  simp [List.getD_eq_getElem?_getD, List.getElem?_eq_none (not_lt.mp hc)] at h

theorem getD_set_true (l : List Bool) (i j : Nat) (hi : i < l.length) :
    (l.set i true).getD j false = (decide (j = i) || l.getD j false) := by
  simp only [List.getD_eq_getElem?_getD, List.getElem?_set]
  by_cases h : i = j
  · subst h; simp [hi]
  · have : ¬ j = i := fun e => h e.symm
    simp [h, this]

theorem dirReach_mono {F F' : List (Edge R)} (h : ∀ e ∈ F, e ∈ F') {a b : Nat}
    (hr : DirReach F a b) : DirReach F' a b :=
  Relation.ReflTransGen.mono (fun _ _ ⟨e, he, h1, h2⟩ => ⟨e, h e he, h1, h2⟩) hr

theorem joined_of_dirReach {F : List (Edge R)} {a b : Nat} (hr : DirReach F a b) :
    Joined (F.map Edge.ends).toFinset a b := by
  refine Relation.ReflTransGen.mono ?_ hr
  rintro x y ⟨e, he, rfl, rfl⟩
  exact List.mem_toFinset.mpr (List.mem_map_of_mem _ he)

theorem primInv_init (w : Nat → Nat → R) (n : Nat) (g : Graph R) (hn : 1 ≤ n)
    (hg : CompleteAdj w n g.adjacency_list) : PrimInv w n g.mstInit [] := by
  have hsize : g.adjacency_list.size = n := hg.1
  have hvis : ∀ a, ((List.replicate n false).set 0 true).getD a false = decide (a = 0) := by
    intro a
    rw [getD_set_true _ _ _ (by simpa using hn)]
    have : (List.replicate n false).getD a false = false := by
      simp only [List.getD_eq_getElem?_getD, List.getElem?_replicate]
      split <;> rfl
    rw [this, Bool.or_false]
  unfold Graph.mstInit
  rw [hsize]
  refine
    { conn := rfl
      vlen := by simp
      v0 := by rw [hvis]; rfl
      cand := ?_
      cross := ?_
      edges := by simp
      reach := ?_
      count := ?_
      nodup := by simp
      dests := by simp
      exch := fun T hT => ⟨T, hT, by simp, le_refl _⟩
      pot := ⟨fun _ => 0, rfl, by simp⟩ }
  · intro e he
    simp only at he
    obtain ⟨h1, h2, h3, h4⟩ := (completeAdj_mem hg (by omega : 0 < n) e).mp he
    refine ⟨by omega, ?_, h2, by rw [h1]; exact h4⟩
    simp only
    rw [hvis, h1]
    rfl
  · intro a b hb ha hbn
    simp only at ha hbn ⊢
    rw [hvis] at ha hbn
    have ha0 : a = 0 := by simpa using ha
    have hb0 : b ≠ 0 := by simpa using hbn
    subst ha0
    exact ⟨⟨0, b, w 0 b⟩, (completeAdj_mem hg (by omega : 0 < n) _).mpr ⟨rfl, hb, hb0, rfl⟩,
      rfl, rfl⟩
  · intro v hv
    simp only at hv
    rw [hvis] at hv
    have : v = 0 := by simpa using hv
    subst this
    exact Relation.ReflTransGen.refl
  · simp only [List.length_nil, zero_add]
    rw [List.count_set _ _ _ _ (by simpa using hn)]
    simp [List.count_replicate]

theorem count_false_set_true (l : List Bool) (i : Nat) (h : l.getD i false = false)
    (hi : i < l.length) :
    (l.set i true).count false + 1 = l.count false ∧
    (l.set i true).count true = l.count true + 1 := by
  have hget : l[i] = false := by
    simpa [List.getD_eq_getElem?_getD, List.getElem?_eq_getElem hi] using h
  rw [List.count_set _ _ _ _ hi, List.count_set _ _ _ _ hi, hget]
  have : 0 < l.count false := List.count_pos_iff.mpr (hget ▸ List.getElem_mem _)
  simp
  omega

theorem mstStep_skip (g : Graph R) (tie : Nat) (s : MstState R)
    (hi : topPosition tie s.candidate < s.candidate.length)
    (hvis : s.visited.getD (s.candidate[topPosition tie s.candidate]).dest false = true) :
    g.mstStep tie s = { s with candidate := s.candidate.eraseIdx (topPosition tie s.candidate) } := by
  unfold Graph.mstStep
  simp only [List.getElem?_eq_getElem hi, hvis]
  rfl

theorem mstStep_add (g : Graph R) (tie : Nat) (s : MstState R)
    (hi : topPosition tie s.candidate < s.candidate.length)
    (hvis : s.visited.getD (s.candidate[topPosition tie s.candidate]).dest false = false) :
    g.mstStep tie s =
      { connection := s.connection.add_edge (s.candidate[topPosition tie s.candidate])
        candidate := s.candidate.eraseIdx (topPosition tie s.candidate)
          ++ g.adjacency_list.get (s.candidate[topPosition tie s.candidate]).dest
        visited := s.visited.set (s.candidate[topPosition tie s.candidate]).dest true } := by
  unfold Graph.mstStep
  simp only [List.getElem?_eq_getElem hi, hvis]
  rfl

theorem primInv_skip (w : Nat → Nat → R) (n : Nat) (s : MstState R) (F : List (Edge R))
    (i : Nat) (hi : i < s.candidate.length) (hinv : PrimInv w n s F)
    (hvis : s.visited.getD (s.candidate[i]).dest false = true) :
    PrimInv w n { s with candidate := s.candidate.eraseIdx i } F := by
  refine
    { conn := hinv.conn
      vlen := hinv.vlen
      v0 := hinv.v0
      cand := fun e he => hinv.cand e (mem_of_mem_eraseIdx _ _ _ he)
      cross := ?_
      edges := hinv.edges
      reach := hinv.reach
      count := hinv.count
      nodup := hinv.nodup
      dests := hinv.dests
      exch := hinv.exch
      pot := hinv.pot }
  intro a b hb ha hbn
  obtain ⟨e, he, h1, h2⟩ := hinv.cross a b hb ha hbn
  rcases mem_eraseIdx_or _ i hi e he with h | h
  · exfalso
    rw [← h, h2] at hvis
    simp only at hbn
    rw [hbn] at hvis
    cases hvis
  · exact ⟨e, h, h1, h2⟩

theorem primInv_add (w : Nat → Nat → R) (hsym : ∀ a b, w a b = w b a) (n : Nat) (g : Graph R)
    (hg : CompleteAdj w n g.adjacency_list) (s : MstState R) (F : List (Edge R))
    (i : Nat) (hi : i < s.candidate.length) (hinv : PrimInv w n s F)
    (hmin : ∀ o ∈ s.candidate, (s.candidate[i]).weight ≤ o.weight)
    (hvis : s.visited.getD (s.candidate[i]).dest false = false) :
    PrimInv w n
      { connection := s.connection.add_edge (s.candidate[i])
        candidate := s.candidate.eraseIdx i ++ g.adjacency_list.get (s.candidate[i]).dest
        visited := s.visited.set (s.candidate[i]).dest true }
      (F ++ [s.candidate[i]]) := by
  obtain ⟨hsrc, hsv, hdest, hw⟩ := hinv.cand _ (List.getElem_mem hi)
  generalize hee : s.candidate[i] = e at *
  have hdl : e.dest < s.visited.length := by rw [hinv.vlen]; exact hdest
  have hv' : ∀ j, (s.visited.set e.dest true).getD j false
      = (decide (j = e.dest) || s.visited.getD j false) := fun j => getD_set_true _ _ _ hdl
  have hmono : ∀ j, s.visited.getD j false = true →
      (s.visited.set e.dest true).getD j false = true := by
    intro j hj
    rw [hv', hj, Bool.or_true]
  have hnew : (s.visited.set e.dest true).getD e.dest false = true := by
    rw [hv']; simp
  have hsd : e.src ≠ e.dest := fun h => by
    rw [h, hvis] at hsv
    cases hsv
  have hFne : ∀ e' ∈ F, e'.src ≠ e.dest ∧ e'.dest ≠ e.dest := by
    intro e' he'
    obtain ⟨h1, h2, _⟩ := hinv.edges e' he'
    constructor
    · intro h; rw [h, hvis] at h1; cases h1
    · intro h; rw [h, hvis] at h2; cases h2
  refine
    { conn := by rw [List.foldl_append, ← hinv.conn]; rfl
      vlen := by simp [hinv.vlen]
      v0 := hmono 0 hinv.v0
      cand := ?_
      cross := ?_
      edges := ?_
      reach := ?_
      count := ?_
      nodup := ?_
      dests := ?_
      exch := ?_
      pot := ?_ }
  · intro e' he'
    simp only at he' ⊢
    rcases List.mem_append.mp he' with h | h
    · obtain ⟨h1, h2, h3, h4⟩ := hinv.cand e' (mem_of_mem_eraseIdx _ _ _ h)
      exact ⟨h1, hmono _ h2, h3, h4⟩
    · obtain ⟨h1, h2, h3, h4⟩ := (completeAdj_mem hg hdest e').mp h
      exact ⟨h1 ▸ hdest, h1 ▸ hnew, h2, h1 ▸ h4⟩
  · intro a b hb ha hbn
    simp only at ha hbn ⊢
    rw [hv'] at ha hbn
    have hb1 : b ≠ e.dest := by
      intro h; subst h; simp at hbn
    have hb2 : s.visited.getD b false = false := by
      cases hx : s.visited.getD b false
      · rfl
      · rw [hx, Bool.or_true] at hbn; cases hbn
    by_cases hae : a = e.dest
    · subst hae
      exact ⟨⟨e.dest, b, w e.dest b⟩, List.mem_append_right _
        ((completeAdj_mem hg hdest _).mpr ⟨rfl, hb, hb1, rfl⟩), rfl, rfl⟩
    · have ha' : s.visited.getD a false = true := by simpa [hae] using ha
      obtain ⟨e', he', h1, h2⟩ := hinv.cross a b hb ha' hb2
      rcases mem_eraseIdx_or _ i hi e' he' with h | h
      · exfalso
        apply hb1
        rw [← h2, h, hee]
      · exact ⟨e', List.mem_append_left _ h, h1, h2⟩
  · intro e' he'
    simp only
    rcases List.mem_append.mp he' with h | h
    · obtain ⟨h1, h2, h3⟩ := hinv.edges e' h
      exact ⟨hmono _ h1, hmono _ h2, h3⟩
    · rw [List.mem_singleton.mp h]
      exact ⟨hmono _ hsv, hnew, hw, hsd⟩
  · intro v hv
    simp only at hv
    rw [hv'] at hv
    by_cases hve : v = e.dest
    · subst hve
      exact (dirReach_mono (fun x hx => List.mem_append_left _ hx) (hinv.reach _ hsv)).tail
        ⟨e, List.mem_append_right _ (List.mem_singleton_self e), rfl, rfl⟩
    · exact dirReach_mono (fun x hx => List.mem_append_left _ hx)
        (hinv.reach v (by simpa [hve] using hv))
  · simp only [List.length_append, List.length_singleton]
    rw [(count_false_set_true _ _ hvis hdl).2, ← hinv.count]
  · rw [List.map_append, List.map_singleton, List.nodup_append]
    refine ⟨hinv.nodup, List.nodup_singleton _, ?_⟩
    intro x hx hx'
    rw [List.mem_singleton] at hx'
    obtain ⟨e', he', rfl⟩ := List.mem_map.mp hx
    obtain ⟨h1, h2⟩ := hFne e' he'
    unfold Edge.ends at hx'
    rcases Sym2.eq_iff.mp hx' with ⟨_, h⟩ | ⟨h, _⟩
    · exact h2 h
    · exact h1 h
  · rw [List.map_append, List.map_singleton]
    constructor
    · rw [List.nodup_append]
      refine ⟨hinv.dests.1, List.nodup_singleton _, ?_⟩
      intro x hx hx'
      rw [List.mem_singleton] at hx'
      obtain ⟨e', he', rfl⟩ := List.mem_map.mp hx
      exact (hFne e' he').2 hx'
    · intro h
      rcases List.mem_append.mp h with h | h
      · exact hinv.dests.2 h
      · rw [List.mem_singleton] at h
        have := hinv.v0
        rw [h, hvis] at this
        cases this
  · intro T hT
    obtain ⟨T1, hT1, hsub, hle⟩ := hinv.exch T hT
    obtain ⟨T2, hT2, hsub2, hmem, hle2⟩ := exchange_step w hsym n
      (fun a => s.visited.getD a false = true) (F.map Edge.ends).toFinset T1 e.src e.dest
      hT1 hsub
      (by
        intro a b hab
        obtain ⟨e', he', hee⟩ := List.mem_map.mp (List.mem_toFinset.mp hab)
        obtain ⟨h1, h2, _⟩ := hinv.edges e' he'
        unfold Edge.ends at hee
        rcases Sym2.eq_iff.mp hee with ⟨rfl, rfl⟩ | ⟨rfl, rfl⟩
        · exact ⟨h1, h2⟩
        · exact ⟨h2, h1⟩)
      (fun a ha => joined_of_dirReach (hinv.reach a ha))
      hsv (fun h => by simp only at h; rw [hvis] at h; cases h) hsrc hdest
      (by
        intro a b _ hb ha hbn
        have hbn' : s.visited.getD b false = false := by simpa using hbn
        obtain ⟨e', he', h1, h2⟩ := hinv.cross a b hb ha hbn'
        have h3 := (hinv.cand e' he').2.2.2
        rw [h1, h2] at h3
        rw [← hw, ← h3]
        exact hmin e' he')
    refine ⟨T2, hT2, ?_, le_trans hle2 hle⟩
    intro x hx
    rw [List.mem_toFinset, List.map_append, List.mem_append] at hx
    rcases hx with hx | hx
    · exact hsub2 (List.mem_toFinset.mpr hx)
    · rw [List.map_singleton, List.mem_singleton] at hx
      rw [hx]
      exact hmem
  · obtain ⟨φ, h0, hφ⟩ := hinv.pot
    refine ⟨Function.update φ e.dest (φ e.src + e.weight), ?_, ?_⟩
    · rw [Function.update_noteq _ _ _, h0]
      intro h
      have := hinv.v0
      rw [h, hvis] at this
      cases this
    · intro e' he'
      rcases List.mem_append.mp he' with h | h
      · obtain ⟨h1, h2⟩ := hFne e' h
        rw [Function.update_noteq h2, Function.update_noteq h1]
        exact hφ e' h
      · rw [List.mem_singleton.mp h, Function.update_same, Function.update_noteq hsd]

/-! ## The loop of `mst` -/

theorem mstStep_inv (w : Nat → Nat → R) (hsym : ∀ a b, w a b = w b a) (n : Nat) (g : Graph R)
    (hg : CompleteAdj w n g.adjacency_list) (tie : Nat) (s : MstState R) (F : List (Edge R))
    (hinv : PrimInv w n s F) (hne : s.candidate ≠ []) :
    ∃ F', PrimInv w n (g.mstStep tie s) F' ∧
      mstMeasure n (g.mstStep tie s) + 1 = mstMeasure n s := by
  obtain ⟨hi, hmin⟩ := topPosition_spec tie s.candidate hne
  cases hvis : s.visited.getD (s.candidate[topPosition tie s.candidate]).dest false with
  | true =>
    rw [mstStep_skip g tie s hi hvis]
    refine ⟨F, primInv_skip w n s F _ hi hinv hvis, ?_⟩
    simp only [mstMeasure, List.length_eraseIdx, hi, if_true]
    omega
  | false =>
    rw [mstStep_add g tie s hi hvis]
    refine ⟨_, primInv_add w hsym n g hg s F _ hi hinv hmin hvis, ?_⟩
    obtain ⟨_, _, hdest, _⟩ := hinv.cand _ (List.getElem_mem hi)
    have hc := (count_false_set_true s.visited _ hvis (by rw [hinv.vlen]; exact hdest)).1
    simp only [mstMeasure, List.length_append, List.length_eraseIdx, hi, if_true,
      completeAdj_length hg hdest]
    rw [← hc, Nat.mul_add, Nat.mul_one]
    omega

theorem mstLoop_spec (w : Nat → Nat → R) (hsym : ∀ a b, w a b = w b a) (n : Nat) (g : Graph R)
    (hg : CompleteAdj w n g.adjacency_list) (tie : Nat → Nat) (fuel k : Nat) (s : MstState R)
    (F : List (Edge R)) (hinv : PrimInv w n s F) (hfuel : mstMeasure n s < fuel) :
    ∃ s' F', g.mstLoop tie fuel k s = some s' ∧ PrimInv w n s' F' ∧ s'.candidate = [] := by
  induction fuel generalizing k s F with
  | zero => omega
  | succ fuel ih =>
    unfold Graph.mstLoop
    by_cases hemp : s.candidate = []
    · exact ⟨s, F, by simp [hemp], hinv, hemp⟩
    · have : s.candidate.isEmpty = false := by
        cases hc : s.candidate with
        | nil => exact absurd hc hemp
        | cons _ _ => rfl
      rw [this]
      simp only [Bool.false_eq_true, if_false]
      obtain ⟨F', hinv', hm⟩ := mstStep_inv w hsym n g hg (tie k) s F hinv hemp
      exact ih (k + 1) _ F' hinv' (by omega)

theorem mstMeasure_init (w : Nat → Nat → R) (n : Nat) (g : Graph R) (hn : 1 ≤ n)
    (hg : CompleteAdj w n g.adjacency_list) : mstMeasure n g.mstInit = n * (n - 1) := by
  have hc : ((List.replicate n false).set 0 true).count false + 1 = n := by
    have := (count_false_set_true (List.replicate n false) 0
      (by simp only [List.getD_eq_getElem?_getD, List.getElem?_replicate]; split <;> rfl)
      (by simpa using hn)).1
    rw [this]
    simp [List.count_replicate]
  unfold mstMeasure Graph.mstInit
  simp only
  rw [completeAdj_length hg (by omega : 0 < n), hg.1]
  have : ((List.replicate n false).set 0 true).count false = n - 1 := by omega
  rw [this]
  obtain ⟨m, rfl⟩ : ∃ m, n = m + 1 := ⟨n - 1, by omega⟩
  simp only [Nat.add_sub_cancel]
  ring

/-! ## Edge lists built by `add_edge` -/

theorem mem_pushEdge (a : List (List (Edge R))) (i v : Nat) (e x : Edge R) :
    x ∈ (pushEdge a i e).getD v [] ↔ x ∈ a.getD v [] ∨ (v = i ∧ i < a.length ∧ x = e) := by
  unfold pushEdge
  simp only [List.getD_eq_getElem?_getD, List.getElem?_set]
  by_cases h : i = v
  · subst h
    by_cases hi : i < a.length
    · simp [hi]
    · simp [hi, List.getElem?_eq_none (not_lt.mp hi)]
  · have h' : ¬ v = i := fun e => h e.symm
    simp [h, h']

theorem length_pushEdge (a : List (List (Edge R))) (i : Nat) (e : Edge R) :
    (pushEdge a i e).length = a.length := by
  simp [pushEdge]

theorem size_add_edge (a : AdjacencyList R) (e : Edge R) : (a.add_edge e).size = a.size := by
  simp [AdjacencyList.add_edge, AdjacencyList.size, length_pushEdge]

theorem mem_add_edge (a : AdjacencyList R) (e x : Edge R) (v : Nat) (hs : e.src < a.size)
    (hd : e.dest < a.size) :
    x ∈ (a.add_edge e).get v ↔ x ∈ a.get v ∨ (x = e ∧ (e.src = v ∨ e.dest = v)) := by
  unfold AdjacencyList.size at hs hd
  simp only [AdjacencyList.add_edge, AdjacencyList.get, mem_pushEdge, length_pushEdge]
  constructor
  · rintro ((h | ⟨rfl, _, rfl⟩) | ⟨rfl, _, rfl⟩)
    · exact Or.inl h
    · exact Or.inr ⟨rfl, Or.inl rfl⟩
    · exact Or.inr ⟨rfl, Or.inr rfl⟩
  · rintro (h | ⟨rfl, rfl | rfl⟩)
    · exact Or.inl (Or.inl h)
    · exact Or.inl (Or.inr ⟨rfl, hs, rfl⟩)
    · exact Or.inr ⟨rfl, hd, rfl⟩

theorem mem_foldl_add_edge (F : List (Edge R)) (a : AdjacencyList R)
    (hF : ∀ e ∈ F, e.src < a.size ∧ e.dest < a.size) (x : Edge R) (v : Nat) :
    x ∈ (F.foldl AdjacencyList.add_edge a).get v ↔
      x ∈ a.get v ∨ (x ∈ F ∧ (x.src = v ∨ x.dest = v)) := by
  induction F generalizing a with
  | nil => simp
  | cons e es ih =>
    rw [List.foldl_cons, ih]
    · rw [mem_add_edge a e x v (hF e (List.mem_cons_self _ _)).1 (hF e (List.mem_cons_self _ _)).2]
      constructor
      · rintro ((h | ⟨rfl, h⟩) | ⟨h1, h2⟩)
        · exact Or.inl h
        · exact Or.inr ⟨List.mem_cons_self _ _, h⟩
        · exact Or.inr ⟨List.mem_cons_of_mem _ h1, h2⟩
      · rintro (h | ⟨h1, h2⟩)
        · exact Or.inl (Or.inl h)
        · rcases List.mem_cons.mp h1 with rfl | h1
          · exact Or.inl (Or.inr ⟨rfl, h2⟩)
          · exact Or.inr ⟨h1, h2⟩
    · intro e' he'
      rw [size_add_edge]
      exact hF e' (List.mem_cons_of_mem _ he')

theorem get_ofSize (n v : Nat) : (AdjacencyList.ofSize n : AdjacencyList R).get v = [] := by
  simp only [AdjacencyList.ofSize, AdjacencyList.get, List.getD_eq_getElem?_getD,
    List.getElem?_replicate]
  split <;> rfl

theorem get_new (a : AdjacencyList R) (v : Nat) :
    (Graph.new a).adjacency_list.get v
      = List.insertionSort (fun l r => l.dest ≤ r.dest) (a.get v) := by
  simp only [Graph.new, AdjacencyList.sort_by_dest, AdjacencyList.get, List.getD_eq_getElem?_getD,
    List.getElem?_map]
  cases a.adjacent_edges[v]? <;> rfl

/-! ## Result of `mst` -/

theorem treeWeight_ends (w : Nat → Nat → R) (hsym : ∀ a b, w a b = w b a) (F : List (Edge R))
    (hnd : (F.map Edge.ends).Nodup) (hw : ∀ e ∈ F, e.weight = w e.src e.dest) :
    treeWeight w (F.map Edge.ends).toFinset = (F.map Edge.weight).sum := by
  unfold treeWeight
  rw [List.sum_toFinset _ hnd, List.map_map]
  congr 1
  apply List.map_congr_left
  intro e he
  simp only [Function.comp, Edge.ends]
  rw [pairWeight_mk w hsym, hw e he]

theorem mstOutput_of_inv (w : Nat → Nat → R) (hsym : ∀ a b, w a b = w b a) (n : Nat)
    (s : MstState R) (F : List (Edge R)) (hinv : PrimInv w n s F) (hemp : s.candidate = []) :
    MstOutput w n F := by
  have hall : ∀ b, b < n → s.visited.getD b false = true := by
    intro b hb
    cases hx : s.visited.getD b false with
    | true => rfl
    | false =>
      obtain ⟨e, he, _⟩ := hinv.cross 0 b hb hinv.v0 hx
      rw [hemp] at he
      simp at he
  have hcount : s.visited.count true = n := by
    rw [← hinv.vlen]
    apply List.count_eq_length.mpr
    intro x hx
    obtain ⟨i, hi, rfl⟩ := List.getElem_of_mem hx
    have := hall i (hinv.vlen ▸ hi)
    rw [List.getD_eq_getElem?_getD, List.getElem?_eq_getElem hi] at this
    simpa using this.symm
  have hlen : F.length + 1 = n := by rw [hinv.count, hcount]
  have hrange : ∀ e ∈ F, e.src < n ∧ e.dest < n ∧ e.weight = w e.src e.dest ∧ e.src ≠ e.dest := by
    intro e he
    obtain ⟨h1, h2, h3, h4⟩ := hinv.edges e he
    exact ⟨hinv.vlen ▸ getD_lt_of_true _ _ h1, hinv.vlen ▸ getD_lt_of_true _ _ h2, h3, h4⟩
  refine
    { len := hlen
      range := hrange
      reach := fun v hv => hinv.reach v (hall v hv)
      nodup := hinv.nodup
      dests := hinv.dests
      minimal := ?_
      pot := hinv.pot }
  intro T hT
  obtain ⟨T', hT', hsub, hle⟩ := hinv.exch T hT
  have hcard : T'.card ≤ (F.map Edge.ends).toFinset.card := by
    rw [List.toFinset_card_of_nodup hinv.nodup, List.length_map]
    have := hT'.1
    omega
  have heq : (F.map Edge.ends).toFinset = T' := Finset.eq_of_subset_of_card_le hsub hcard
  rw [← treeWeight_ends w hsym F hinv.nodup (fun e he => (hrange e he).2.2.1), heq]
  exact hle

theorem mstConnection_spec (w : Nat → Nat → R) (hsym : ∀ a b, w a b = w b a) (n : Nat)
    (hn : 1 ≤ n) (adj : AdjacencyList R) (hadj : CompleteAdj w n adj) (tie : Nat → Nat) :
    ∃ F : List (Edge R),
      (Graph.new adj).mstConnection tie
        = some (F.foldl AdjacencyList.add_edge (AdjacencyList.ofSize n)) ∧
      MstOutput w n F := by
  have hg := completeAdj_sort hadj
  have hm := mstMeasure_init w n (Graph.new adj) hn hg
  obtain ⟨s', F, hloop, hinv, hemp⟩ := mstLoop_spec w hsym n (Graph.new adj) hg tie
    (n * n + 1) 0 _ [] (primInv_init w n _ hn hg) (by
      rw [hm]
      have : n * (n - 1) ≤ n * n := Nat.mul_le_mul_left _ (Nat.sub_le _ _)
      omega)
  refine ⟨F, ?_, mstOutput_of_inv w hsym n s' F hinv hemp⟩
  unfold Graph.mstConnection
  rw [hg.1, hloop, Option.map_some', hinv.conn]

theorem mstOutput_spanning (w : Nat → Nat → R) (n : Nat) (F : List (Edge R))
    (h : MstOutput w n F) : IsSpanningTree n (F.map Edge.ends).toFinset := by
  refine ⟨?_, ?_, fun v hv => joined_of_dirReach (h.reach v hv)⟩
  · rw [List.toFinset_card_of_nodup h.nodup, List.length_map, h.len]
  · intro a b hab
    obtain ⟨e, he, hee⟩ := List.mem_map.mp (List.mem_toFinset.mp hab)
    obtain ⟨h1, h2, _, h4⟩ := h.range e he
    unfold Edge.ends at hee
    rcases Sym2.eq_iff.mp hee with ⟨rfl, rfl⟩ | ⟨rfl, rfl⟩
    · exact ⟨h1, h2, h4⟩
    · exact ⟨h2, h1, fun h' => h4 h'.symm⟩

/-- C2. For the complete graph on `n ≥ 1` cities with symmetric weights, and whatever
order the heap hands out edges of equal weight in, `Graph::mst` returns; it has called
`add_edge` for `n - 1` edges, each of which is then in the list of both its endpoints;
these edges form a spanning tree, and their total weight is at most that of every
spanning tree of the complete graph. -/
theorem mst_minimum_spanning_tree (w : Nat → Nat → R) (hsym : ∀ a b, w a b = w b a) (n : Nat)
    (hn : 1 ≤ n) (adj : AdjacencyList R) (hadj : CompleteAdj w n adj) (tie : Nat → Nat) :
    ∃ F : List (Edge R),
      (Graph.new adj).mst tie
        = some (Graph.new (F.foldl AdjacencyList.add_edge (AdjacencyList.ofSize n))) ∧
      F.length = n - 1 ∧
      (∀ e ∈ F, e.weight = w e.src e.dest ∧
        e ∈ (Graph.new (F.foldl AdjacencyList.add_edge (AdjacencyList.ofSize n))).adjacency_list.get
          e.src ∧
        e ∈ (Graph.new (F.foldl AdjacencyList.add_edge (AdjacencyList.ofSize n))).adjacency_list.get
          e.dest) ∧
      IsSpanningTree n (F.map Edge.ends).toFinset ∧
      treeWeight w (F.map Edge.ends).toFinset = (F.map Edge.weight).sum ∧
      ∀ T, IsSpanningTree n T → (F.map Edge.weight).sum ≤ treeWeight w T := by
  obtain ⟨F, hF, hout⟩ := mstConnection_spec w hsym n hn adj hadj tie
  refine ⟨F, ?_, ?_, ?_, mstOutput_spanning w n F hout,
    treeWeight_ends w hsym F hout.nodup (fun e he => (hout.range e he).2.2.1), hout.minimal⟩
  · unfold Graph.mst
    rw [hF, Option.map_some']
  · have := hout.len
    omega
  · intro e he
    obtain ⟨h1, h2, h3, _⟩ := hout.range e he
    have hmem : ∀ v, (e.src = v ∨ e.dest = v) →
        e ∈ (Graph.new (F.foldl AdjacencyList.add_edge
          (AdjacencyList.ofSize n))).adjacency_list.get v := by
      intro v hv
      rw [get_new, (List.perm_insertionSort _ _).mem_iff, mem_foldl_add_edge]
      · exact Or.inr ⟨he, hv⟩
      · intro e' he'
        obtain ⟨h1', h2', _⟩ := hout.range e' he'
        simpa [AdjacencyList.ofSize, AdjacencyList.size] using ⟨h1', h2'⟩
    exact ⟨h3, hmem _ (Or.inl rfl), hmem _ (Or.inr rfl)⟩

/-! ## The loop of `preorder_traversal` -/

theorem reverse_foldl_cons {α β : Type} (f : α → β) (l : List α) (st : List β) :
    l.reverse.foldl (fun st e => f e :: st) st = l.map f ++ st := by
  induction l generalizing st with
  | nil => rfl
  | cons x xs ih => simp [List.foldl_append, ih]

theorem preorderStep_visit (g : Graph R) (s : DfsState) (next : Nat) (rest : List Nat)
    (hs : s.stack = next :: rest) (hv : s.visited.getD next false = false) :
    g.preorderStep s =
      { result := s.result ++ [next]
        visited := s.visited.set next true
        stack := (g.adjacency_list.get next).map Edge.dest ++ rest } := by
  unfold Graph.preorderStep
  rw [hs]
  simp only [hv, Bool.not_false, if_true, reverse_foldl_cons]

theorem preorderStep_skip (g : Graph R) (s : DfsState) (next : Nat) (rest : List Nat)
    (hs : s.stack = next :: rest) (hv : s.visited.getD next false = true) :
    g.preorderStep s = { s with stack := rest } := by
  unfold Graph.preorderStep
  rw [hs]
  simp only [hv, Bool.not_true, Bool.false_eq_true, if_false]

theorem sum_range_update (f g : Nat → Nat) (next n : Nat) (hn : next < n) (hg : g next = 0)
    (hfg : ∀ v, v ≠ next → g v = f v) :
    ((List.range n).map g).sum + f next = ((List.range n).map f).sum := by
  induction n with
  | zero => omega
  | succ n ih =>
    rw [List.range_succ, List.map_append, List.map_append, List.sum_append, List.sum_append]
    simp only [List.map_singleton, List.sum_singleton]
    by_cases h : next = n
    · subst h
      have : (List.range next).map g = (List.range next).map f := by
        apply List.map_congr_left
        intro v hv
        exact hfg v (by have := List.mem_range.mp hv; omega)
      rw [this, hg]
      omega
    · have := ih (by omega)
      rw [hfg n (fun e => h e.symm)]
      omega

theorem dfsInv_step (n : Nat) (g : Graph R)
    (hg : ∀ v, ∀ e ∈ g.adjacency_list.get v, e.dest < n) (s : DfsState)
    (hinv : DfsInv n g s) (hne : s.stack ≠ []) :
    DfsInv n g (g.preorderStep s) ∧ dfsMeasure n g (g.preorderStep s) + 1 = dfsMeasure n g s := by
  obtain ⟨next, rest, hs⟩ : ∃ next rest, s.stack = next :: rest := by
    cases h : s.stack with
    | nil => exact absurd h hne
    | cons a b => exact ⟨a, b, rfl⟩
  have hnext : next < n := hinv.stack next (by rw [hs]; exact List.mem_cons_self _ _)
  cases hv : s.visited.getD next false with
  | true =>
    rw [preorderStep_skip g s next rest hs hv]
    have hmem : next ∈ s.result := (hinv.vis next).mp hv
    refine ⟨
      { vlen := hinv.vlen
        vis := hinv.vis
        nodup := hinv.nodup
        stack := fun x hx => hinv.stack x (by rw [hs]; exact List.mem_cons_of_mem _ hx)
        first := ?_
        closed := ?_ }, ?_⟩
    · rcases hinv.first with ⟨h1, _⟩ | h
      · rw [h1] at hmem
        simp at hmem
      · exact Or.inr h
    · intro v hv' e he
      rcases hinv.closed v hv' e he with h | h
      · exact Or.inl h
      · rw [hs] at h
        rcases List.mem_cons.mp h with h | h
        · exact Or.inl (h ▸ hmem)
        · exact Or.inr h
    · simp [dfsMeasure, hs]
      omega
  | false =>
    rw [preorderStep_visit g s next rest hs hv]
    have hnot : next ∉ s.result := fun h => by
      rw [(hinv.vis next).mpr h] at hv
      cases hv
    have hv' : ∀ j, (s.visited.set next true).getD j false
        = (decide (j = next) || s.visited.getD j false) :=
      fun j => getD_set_true _ _ _ (by rw [hinv.vlen]; exact hnext)
    refine ⟨
      { vlen := by simp [hinv.vlen]
        vis := ?_
        nodup := ?_
        stack := ?_
        first := ?_
        closed := ?_ }, ?_⟩
    · intro v
      simp only
      rw [hv', List.mem_append, List.mem_singleton, ← hinv.vis v]
      simp only [Bool.or_eq_true, decide_eq_true_eq]
      tauto
    · exact List.Nodup.append hinv.nodup (List.nodup_singleton _) (by simpa using hnot)
    · intro x hx
      simp only at hx
      rcases List.mem_append.mp hx with h | h
      · obtain ⟨e, he, rfl⟩ := List.mem_map.mp h
        exact hg next e he
      · exact hinv.stack x (by rw [hs]; exact List.mem_cons_of_mem _ h)
    · right
      simp only
      rcases hinv.first with ⟨h1, h2⟩ | h
      · rw [hs] at h2
        have : next = 0 := by
          have := List.cons.inj h2
          exact this.1
        rw [h1, this]
        rfl
      · cases hr : s.result with
        | nil => rw [hr] at h; simp at h
        | cons a b =>
          rw [hr] at h
          simpa using h
    · intro v hvm e he
      simp only at hvm ⊢
      rcases List.mem_append.mp hvm with h | h
      · rcases hinv.closed v h e he with h' | h'
        · exact Or.inl (List.mem_append_left _ h')
        · rw [hs] at h'
          rcases List.mem_cons.mp h' with h'' | h''
          · exact Or.inl (List.mem_append_right _ (by simp [h'']))
          · exact Or.inr (List.mem_append_right _ h'')
      · rw [List.mem_singleton] at h
        subst h
        exact Or.inr (List.mem_append_left _ (List.mem_map_of_mem _ he))
    · simp only [dfsMeasure, hs, List.length_append, List.length_map, List.length_cons]
      have := sum_range_update
        (fun v => if s.visited.getD v false then 0 else (g.adjacency_list.get v).length)
        (fun v => if (s.visited.set next true).getD v false then 0
          else (g.adjacency_list.get v).length) next n hnext
        (by
          simp only
          rw [hv']
          simp)
        (by
          intro v hvn
          simp only
          rw [hv']
          simp [hvn])
      simp only [hv, Bool.false_eq_true, if_false] at this
      omega

theorem preorderLoop_spec (n : Nat) (g : Graph R)
    (hg : ∀ v, ∀ e ∈ g.adjacency_list.get v, e.dest < n) (P : DfsState → Prop)
    (hP : ∀ s, DfsInv n g s → P s → s.stack ≠ [] → P (g.preorderStep s))
    (fuel : Nat) (s : DfsState) (hinv : DfsInv n g s) (hPs : P s)
    (hfuel : dfsMeasure n g s < fuel) :
    ∃ s', g.preorderLoop fuel s = some s' ∧ DfsInv n g s' ∧ P s' ∧ s'.stack = [] := by
  induction fuel generalizing s with
  | zero => omega
  | succ fuel ih =>
    unfold Graph.preorderLoop
    by_cases hemp : s.stack = []
    · exact ⟨s, by simp [hemp], hinv, hPs, hemp⟩
    · have : s.stack.isEmpty = false := by
        cases hc : s.stack with
        | nil => exact absurd hc hemp
        | cons _ _ => rfl
      rw [this]
      simp only [Bool.false_eq_true, if_false]
      obtain ⟨hinv', hm⟩ := dfsInv_step n g hg s hinv hemp
      exact ih _ hinv' (hP s hinv hPs hemp) (by omega)

theorem map_getD_range {α β : Type} (l : List α) (d : α) (f : α → β) :
    (List.range l.length).map (fun v => f (l.getD v d)) = l.map f := by
  apply List.ext_getElem
  · simp
  · intro i h1 h2
    have hi : i < l.length := by simpa using h2
    simp [List.getD_eq_getElem?_getD, List.getElem?_eq_getElem hi]

theorem dfsInv_init (n : Nat) (g : Graph R) (hn : 1 ≤ n) :
    DfsInv n g ⟨[], List.replicate n false, [0]⟩ := by
  refine
    { vlen := by simp
      vis := ?_
      nodup := List.nodup_nil
      stack := by simp; omega
      first := Or.inl ⟨rfl, rfl⟩
      closed := by simp }
  intro v
  simp only [List.getD_eq_getElem?_getD, List.getElem?_replicate, List.not_mem_nil, iff_false]
  split <;> simp

theorem preorder_traversal_spec (n : Nat) (g : Graph R) (hn : 1 ≤ n)
    (hsize : g.adjacency_list.size = n)
    (hg : ∀ v, ∀ e ∈ g.adjacency_list.get v, e.dest < n) (P : DfsState → Prop)
    (hP0 : P ⟨[], List.replicate n false, [0]⟩)
    (hP : ∀ s, DfsInv n g s → P s → s.stack ≠ [] → P (g.preorderStep s)) :
    ∃ s', g.preorder_traversal = some s'.result ∧ DfsInv n g s' ∧ P s' ∧ s'.stack = [] := by
  obtain ⟨s', h1, h2, h3, h4⟩ := preorderLoop_spec n g hg P hP
    ((g.adjacency_list.adjacent_edges.map List.length).sum + 2)
    ⟨[], List.replicate n false, [0]⟩ (dfsInv_init n g hn) hP0 (by
      unfold dfsMeasure
      have h : ((List.range n).map (fun v =>
          if (List.replicate n false).getD v false then 0
          else (g.adjacency_list.get v).length)).sum
          = (g.adjacency_list.adjacent_edges.map List.length).sum := by
        rw [← map_getD_range g.adjacency_list.adjacent_edges [] List.length]
        unfold AdjacencyList.size at hsize
        rw [hsize]
        congr 1
        apply List.map_congr_left
        intro v hv
        have : (List.replicate n false).getD v false = false := by
          simp only [List.getD_eq_getElem?_getD, List.getElem?_replicate]
          split <;> rfl
        simp [this, AdjacencyList.get]
      simp only [List.length_singleton]
      rw [h]
      omega)
  refine ⟨s', ?_, h2, h3, h4⟩
  unfold Graph.preorder_traversal
  rw [hsize, h1, Option.map_some']

/-! ## Preorder walk of the spanning tree -/

theorem size_foldl_add_edge (F : List (Edge R)) (a : AdjacencyList R) :
    (F.foldl AdjacencyList.add_edge a).size = a.size := by
  induction F generalizing a with
  | nil => rfl
  | cons e es ih => rw [List.foldl_cons, ih, size_add_edge]

theorem size_new (a : AdjacencyList R) : (Graph.new a).adjacency_list.size = a.size := by
  simp [Graph.new, AdjacencyList.sort_by_dest, AdjacencyList.size]

theorem mem_treeGraph (n : Nat) (F : List (Edge R))
    (hF : ∀ e ∈ F, e.src < n ∧ e.dest < n) (x : Edge R) (v : Nat) :
    x ∈ (Graph.new (F.foldl AdjacencyList.add_edge (AdjacencyList.ofSize n))).adjacency_list.get v
      ↔ x ∈ F ∧ (x.src = v ∨ x.dest = v) := by
  rw [get_new, (List.perm_insertionSort _ _).mem_iff, mem_foldl_add_edge, get_ofSize]
  · simp
  · intro e he
    simpa [AdjacencyList.ofSize, AdjacencyList.size] using hF e he

theorem size_treeGraph (n : Nat) (F : List (Edge R)) :
    (Graph.new (F.foldl AdjacencyList.add_edge (AdjacencyList.ofSize n))).adjacency_list.size
      = n := by
  rw [size_new, size_foldl_add_edge]
  simp [AdjacencyList.ofSize, AdjacencyList.size]

theorem dest_lt_treeGraph (w : Nat → Nat → R) (n : Nat) (F : List (Edge R))
    (hout : MstOutput w n F) (v : Nat) (e : Edge R)
    (he : e ∈ (Graph.new (F.foldl AdjacencyList.add_edge
      (AdjacencyList.ofSize n))).adjacency_list.get v) : e.dest < n := by
  have hF : ∀ e ∈ F, e.src < n ∧ e.dest < n := fun e he =>
    ⟨(hout.range e he).1, (hout.range e he).2.1⟩
  exact (hF e ((mem_treeGraph n F hF e v).mp he).1).2

/-- When the walk of the tree built by `mst` ends, its result lists every city below
`n` once and starts with city 0. -/
theorem dfs_final_perm (w : Nat → Nat → R) (n : Nat) (F : List (Edge R))
    (hout : MstOutput w n F) (s : DfsState)
    (hinv : DfsInv n (Graph.new (F.foldl AdjacencyList.add_edge (AdjacencyList.ofSize n))) s)
    (hemp : s.stack = []) :
    s.result.Perm (List.range n) ∧ s.result.head? = some 0 := by
  have hF : ∀ e ∈ F, e.src < n ∧ e.dest < n := fun e he =>
    ⟨(hout.range e he).1, (hout.range e he).2.1⟩
  have hhead : s.result.head? = some 0 := by
    rcases hinv.first with ⟨_, h2⟩ | h
    · rw [hemp] at h2
      cases h2
    · exact h
  have h0 : 0 ∈ s.result := List.mem_of_mem_head? hhead
  have hall : ∀ v, v < n → v ∈ s.result := by
    intro v hv
    have hr := hout.reach v hv
    unfold DirReach at hr
    induction hr with
    | refl => exact h0
    | @tail b c _ hstep ih =>
      obtain ⟨e, he, rfl, rfl⟩ := hstep
      have hmem := (mem_treeGraph n F hF e e.src).mpr ⟨he, Or.inl rfl⟩
      rcases hinv.closed e.src (ih (hF e he).1) e hmem with h | h
      · exact h
      · rw [hemp] at h
        simp at h
  have hlt : ∀ v ∈ s.result, v < n := by
    intro v hv
    have := getD_lt_of_true _ _ ((hinv.vis v).mpr hv)
    rw [hinv.vlen] at this
    exact this
  refine ⟨?_, hhead⟩
  rw [List.perm_ext_iff_of_nodup hinv.nodup (List.nodup_range n)]
  intro a
  rw [List.mem_range]
  exact ⟨hlt a, hall a⟩

/-- C3. For the complete graph on `n ≥ 1` cities, `mst` returns, `preorder_traversal` of
its result returns, and the tour it yields has length `n`, holds every city `0..n-1`
exactly once, and starts with city 0. -/
theorem preorder_traversal_of_mst (w : Nat → Nat → R) (hsym : ∀ a b, w a b = w b a) (n : Nat)
    (hn : 1 ≤ n) (adj : AdjacencyList R) (hadj : CompleteAdj w n adj) (tie : Nat → Nat) :
    ∃ (mst : Graph R) (tour : List Nat),
      (Graph.new adj).mst tie = some mst ∧ mst.preorder_traversal = some tour ∧
      tour.length = n ∧ (∀ c, c < n → tour.count c = 1) ∧ (∀ c ∈ tour, c < n) ∧
      tour.head? = some 0 := by
  obtain ⟨F, hF, hout⟩ := mstConnection_spec w hsym n hn adj hadj tie
  obtain ⟨s, hs, hinv, _, hemp⟩ := preorder_traversal_spec n
    (Graph.new (F.foldl AdjacencyList.add_edge (AdjacencyList.ofSize n))) hn
    (size_treeGraph n F) (dest_lt_treeGraph w n F hout) (fun _ => True) trivial
    (fun _ _ _ _ => trivial)
  obtain ⟨hperm, hhead⟩ := dfs_final_perm w n F hout s hinv hemp
  refine ⟨_, s.result, ?_, hs, ?_, ?_, ?_, hhead⟩
  · unfold Graph.mst
    rw [hF, Option.map_some']
  · rw [hperm.length_eq, List.length_range]
  · intro c hc
    rw [hperm.count_eq]
    exact List.count_eq_one_of_mem (List.nodup_range n) (List.mem_range.mpr hc)
  · intro c hc
    exact List.mem_range.mp (hperm.subset hc)

/-! ## Cost of an open chain of cities -/

theorem chainCost_cons_cons (d : DistanceTable R) (a b : Nat) (l : List Nat) :
    chainCost d (a :: b :: l) = d.lookup a b + chainCost d (b :: l) := rfl

theorem chainCost_append (d : DistanceTable R) (l1 l2 : List Nat) (h1 : l1 ≠ []) (h2 : l2 ≠ []) :
    chainCost d (l1 ++ l2)
      = chainCost d l1 + d.lookup (l1.getLastD 0) (l2.headD 0) + chainCost d l2 := by
  induction l1 with
  | nil => exact absurd rfl h1
  | cons a t ih =>
    cases t with
    | nil =>
      cases l2 with
      | nil => exact absurd rfl h2
      | cons b l2 => simp [chainCost]
    | cons c t =>
      have := ih (by simp)
      simp only [List.cons_append] at this ⊢
      rw [chainCost_cons_cons, this, chainCost_cons_cons]
      simp only [List.getLastD_cons]
      ring

theorem chainCost_eq_sum (d : DistanceTable R) (l : List Nat) :
    chainCost d l = ((List.range (l.length - 1)).map
      (fun i => d.lookup (l.getD i 0) (l.getD (i + 1) 0))).sum := by
  induction l with
  | nil => rfl
  | cons a t ih =>
    cases t with
    | nil => rfl
    | cons b t =>
      rw [chainCost_cons_cons, ih]
      simp only [List.length_cons, Nat.add_sub_cancel]
      rw [List.range_succ_eq_map, List.map_cons, List.sum_cons, List.map_map]
      rfl

theorem full_cost_eq_chain (d : DistanceTable R) (l : List Nat) (hne : l ≠ []) :
    (Path.ofComplete l).full_cost d
      = chainCost d l + d.lookup (l.getLastD 0) (l.headD 0) := by
  have hpos : 0 < l.length := List.length_pos.mpr hne
  rw [chainCost_eq_sum]
  unfold Path.full_cost
  simp only [Path.ofComplete]
  rw [foldl_add_eq_sum, zero_add]
  have hr : List.range l.length = List.range (l.length - 1) ++ [l.length - 1] := by
    rw [← List.range_succ]
    congr 1
    omega
  conv_lhs => rw [hr]
  rw [List.map_append, List.sum_append]
  congr 1
  · congr 1
    apply List.map_congr_left
    intro i hi
    have : i + 1 < l.length := by
      have := List.mem_range.mp hi
      omega
    rw [Nat.mod_eq_of_lt this]
  · have h1 : (l.length - 1 + 1) % l.length = 0 := by
      rw [Nat.sub_add_cancel hpos, Nat.mod_self]
    have h2 := back_eq_getD ⟨l, []⟩
    have h3 := front_eq_getD ⟨l, []⟩
    simp only [Path.back, Path.front] at h2 h3
    rw [h2, h3]
    simp only [List.map_singleton, List.sum_singleton, h1]

theorem halfSum_chain (d : DistanceTable R) (hsym : ∀ a b, d.lookup a b = d.lookup b a)
    (a b : Nat) (u : List Nat) (hu : u ≠ []) :
    halfSum d a u b + d.lookup a (u.headD 0) / 2 + d.lookup (u.getLastD 0) b / 2
      = d.lookup a (u.headD 0) + chainCost d u + d.lookup (u.getLastD 0) b := by
  induction u generalizing a with
  | nil => exact absurd rfl hu
  | cons c t ih =>
    cases t with
    | nil =>
      simp only [halfSum, chainCost, List.headD_cons, List.getLastD_cons, List.getLastD_nil]
      rw [hsym c a]
      ring
    | cons c' t =>
      have := ih c (by simp)
      simp only [halfSum, chainCost_cons_cons, List.headD_cons, List.getLastD_cons] at this ⊢
      rw [hsym c a]
      linarith

/-! ## Cheapest edges of a list sorted by weight -/

theorem find_sorted_min (l : List (Edge R)) (pr : Edge R → Bool)
    (hs : l.Pairwise (fun a b => a.weight ≤ b.weight)) (e' : Edge R) (he' : e' ∈ l)
    (hp : pr e' = true) : ∃ e, l.find? pr = some e ∧ e.weight ≤ e'.weight := by
  induction l with
  | nil => simp at he'
  | cons x xs ih =>
    by_cases hx : pr x = true
    · refine ⟨x, by simp [List.find?, hx], ?_⟩
      rcases List.mem_cons.mp he' with rfl | h
      · exact le_refl _
      · exact List.rel_of_pairwise_cons hs h
    · have hne : e' ∈ xs := by
        rcases List.mem_cons.mp he' with rfl | h
        · exact absurd hp hx
        · exact h
      obtain ⟨e, h1, h2⟩ := ih (List.Pairwise.of_cons hs) hne
      exact ⟨e, by simp [List.find?, hx, h1], h2⟩

theorem firstOpenHalf_le (p : Path) (edges : List (Edge R)) (lb : R)
    (hs : edges.Pairwise (fun a b => a.weight ≤ b.weight)) (e' : Edge R) (he' : e' ∈ edges)
    (hp : p.is_visited e'.dest = false) : p.firstOpenHalf edges lb ≤ lb + e'.weight / 2 := by
  obtain ⟨e, h1, h2⟩ := find_sorted_min edges (fun e => !p.is_visited e.dest) hs e' he'
    (by simp [hp])
  unfold Path.firstOpenHalf
  rw [h1]
  simp only
  linarith

theorem two_cheapest_le (l : List (Edge R)) (pr : Edge R → Bool)
    (hs : l.Pairwise (fun a b => a.weight ≤ b.weight)) (e1 e2 : Edge R)
    (h1 : e1 ∈ l) (h2 : e2 ∈ l) (hp1 : pr e1 = true) (hp2 : pr e2 = true)
    (hne : e1.dest ≠ e2.dest) :
    (((l.filter pr).take 2).map (fun e => e.weight / 2)).sum ≤ (e1.weight + e2.weight) / 2 := by
  have hfs : (l.filter pr).Pairwise (fun a b => a.weight ≤ b.weight) :=
    hs.sublist (List.filter_sublist l)
  have hm1 : e1 ∈ l.filter pr := List.mem_filter.mpr ⟨h1, hp1⟩
  have hm2 : e2 ∈ l.filter pr := List.mem_filter.mpr ⟨h2, hp2⟩
  have hee : e1 ≠ e2 := fun h => hne (h ▸ rfl)
  generalize l.filter pr = f at hfs hm1 hm2
  match f, hfs, hm1, hm2 with
  | [], _, hm1, _ => simp at hm1
  | [x], _, hm1, hm2 =>
    rw [List.mem_singleton] at hm1 hm2
    exact absurd (hm1.trans hm2.symm) hee
  | x :: y :: rest, hfs, hm1, hm2 =>
    have hxy : x.weight ≤ y.weight := List.rel_of_pairwise_cons hfs (List.mem_cons_self _ _)
    have hx : ∀ z ∈ rest, x.weight ≤ z.weight := fun z hz =>
      List.rel_of_pairwise_cons hfs (List.mem_cons_of_mem _ hz)
    have hy : ∀ z ∈ rest, y.weight ≤ z.weight := fun z hz =>
      List.rel_of_pairwise_cons (List.Pairwise.of_cons hfs) hz
    simp only [List.take_succ_cons, List.take_zero, List.map_cons, List.map_nil, List.sum_cons,
      List.sum_nil, add_zero]
    rcases List.mem_cons.mp hm1 with rfl | hm1
    · rcases List.mem_cons.mp hm2 with rfl | hm2
      · exact absurd rfl hee
      · rcases List.mem_cons.mp hm2 with rfl | hm2
        · linarith
        · have := hy _ hm2
          linarith
    · rcases List.mem_cons.mp hm1 with rfl | hm1
      · rcases List.mem_cons.mp hm2 with rfl | hm2
        · linarith
        · rcases List.mem_cons.mp hm2 with rfl | hm2
          · exact absurd rfl hee
          · have := hy _ hm2
            linarith
      · have a1 := hx _ hm1
        have a2 := hy _ hm1
        rcases List.mem_cons.mp hm2 with rfl | hm2
        · linarith
        · rcases List.mem_cons.mp hm2 with rfl | hm2
          · linarith
          · have := hy _ hm2
            linarith

theorem twoOpenHalves_eq (p : Path) (edges : List (Edge R)) (lb : R) :
    p.twoOpenHalves edges lb = lb + twoHalves p edges := by
  unfold Path.twoOpenHalves twoHalves
  rw [foldl_add_eq_sum]

theorem foldl_cond_add {α : Type} (c : α → Bool) (f : α → R) (l : List α) (init : R) :
    l.foldl (fun lb x => if c x then lb + f x else lb) init
      = init + ((l.filter c).map f).sum := by
  induction l generalizing init with
  | nil => simp
  | cons x xs ih =>
    rw [List.foldl_cons, ih]
    by_cases hx : c x = true
    · simp [hx, add_assoc]
    · simp [hx]

/-- The four parts of `lower_bound`. -/
theorem lower_bound_eq (p : Path) (d : DistanceTable R) (adj : AdjacencyList R) :
    p.lower_bound d adj
      = p.firstOpenHalf (adj.get p.back) (p.firstOpenHalf (adj.get p.front) (chainCost d p.path))
        + (((List.range p.visited.length).filter (fun c => !p.is_visited c)).map
            (fun c => twoHalves p (adj.get c))).sum := by
  unfold Path.lower_bound
  simp only
  rw [foldl_add_eq_sum, zero_add, ← chainCost_eq_sum]
  have : (fun (lb : R) (city : Nat) =>
      if (!p.is_visited city) = true then p.twoOpenHalves (adj.get city) lb else lb)
      = (fun lb city => if (!p.is_visited city) = true then lb + twoHalves p (adj.get city)
          else lb) := by
    funext lb city
    rw [twoOpenHalves_eq]
  rw [this, foldl_cond_add (fun c => !p.is_visited c) (fun c => twoHalves p (adj.get c))]

/-! ## The lower bound is below every completion -/

theorem twoHalves_le (d : DistanceTable R) (adj : AdjacencyList R) (n : Nat)
    (hadj : CompleteAdj d.lookup n adj) (hsorted : SortedAdj n adj) (p : Path)
    (c x y : Nat) (hc : c < n) (hx : x < n) (hy : y < n) (hxc : x ≠ c) (hyc : y ≠ c)
    (hxy : x ≠ y)
    (qx : x = p.front ∨ x = p.back ∨ p.is_visited x = false)
    (qy : y = p.front ∨ y = p.back ∨ p.is_visited y = false) :
    twoHalves p (adj.get c) ≤ (d.lookup c x + d.lookup c y) / 2 := by
  have hq : ∀ z, (z = p.front ∨ z = p.back ∨ p.is_visited z = false) →
      (z == p.front || z == p.back || !p.is_visited z) = true := by
    intro z hz
    rcases hz with h | h | h
    · simp [h]
    · simp [h]
    · simp [h]
  exact two_cheapest_le (adj.get c) _ (hsorted c hc) ⟨c, x, d.lookup c x⟩ ⟨c, y, d.lookup c y⟩
    ((completeAdj_mem hadj hc _).mpr ⟨rfl, hx, hxc, rfl⟩)
    ((completeAdj_mem hadj hc _).mpr ⟨rfl, hy, hyc, rfl⟩) (hq x qx) (hq y qy) hxy

theorem sum_twoHalves_le (d : DistanceTable R) (adj : AdjacencyList R) (n : Nat)
    (hadj : CompleteAdj d.lookup n adj) (hsorted : SortedAdj n adj) (p : Path)
    (a b : Nat) (u : List Nat) (hnd : (a :: u ++ [b]).Nodup)
    (hq : ∀ x ∈ a :: u ++ [b],
      x < n ∧ (x = p.front ∨ x = p.back ∨ p.is_visited x = false)) :
    (u.map (fun c => twoHalves p (adj.get c))).sum ≤ halfSum d a u b := by
  induction u generalizing a with
  | nil => simp [halfSum]
  | cons c t ih =>
    have ha := hq a (List.mem_cons_self _ _)
    have hc := hq c (by simp)
    have hac : a ≠ c := by
      intro h
      subst h
      simp at hnd
    cases t with
    | nil =>
      have hb := hq b (by simp)
      have hbc : b ≠ c := by
        intro h
        subst h
        simp at hnd
      have hab : a ≠ b := by
        intro h
        subst h
        simp at hnd
      simp only [List.map_cons, List.map_nil, List.sum_cons, List.sum_nil, add_zero, halfSum]
      exact twoHalves_le d adj n hadj hsorted p c a b hc.1 ha.1 hb.1 hac hbc hab ha.2 hb.2
    | cons c' t =>
      have hc' := hq c' (by simp)
      have hcc' : c' ≠ c := by
        intro h
        subst h
        simp at hnd
      have hac' : a ≠ c' := by
        intro h
        subst h
        simp at hnd
      have h1 := twoHalves_le d adj n hadj hsorted p c a c' hc.1 ha.1 hc'.1 hac hcc' hac'
        ha.2 hc'.2
      have h2 := ih c (List.Nodup.of_cons hnd) (fun x hx => hq x (List.mem_cons_of_mem _ hx))
      simp only [List.map_cons, List.sum_cons, halfSum] at h2 ⊢
      linarith

theorem headD_mem {l : List Nat} (h : l ≠ []) : l.headD 0 ∈ l := by
  cases l with
  | nil => exact absurd rfl h
  | cons a t => simp

theorem getLastD_mem {l : List Nat} (h : l ≠ []) : l.getLastD 0 ∈ l := by
  cases l with
  | nil => exact absurd rfl h
  | cons a t =>
    rw [List.getLastD_cons]
    have : (a :: t).getLast (by simp) = t.getLastD a := by
      cases t with
      | nil => rfl
      | cons b t => simp [List.getLastD, List.getLast_cons]
    rw [← this]
    exact List.getLast_mem _

theorem headD_ne_getLastD {l : List Nat} (hnd : l.Nodup) (h2 : 2 ≤ l.length) :
    l.headD 0 ≠ l.getLastD 0 := by
  match l, hnd, h2 with
  | a :: b :: t, hnd, _ =>
    rw [List.headD_cons, List.getLastD_cons]
    intro h
    have hmem : (b :: t).getLastD a ∈ b :: t := by
      rw [List.getLastD_cons]
      have := getLastD_mem (l := b :: t) (by simp)
      cases t with
      | nil => simp
      | cons c t =>
        simp only [List.getLastD_cons] at this ⊢
        exact this
    rw [← h] at hmem
    exact (List.nodup_cons.mp hnd).1 hmem

/-- The lower bound of an in-progress tour with at least two cities is at most the cost
of every complete tour that starts with it. The table has to be symmetric, the
adjacency list complete, sorted by weight and in agreement with the table. -/
theorem lower_bound_le_full_cost (d : DistanceTable R) (adj : AdjacencyList R) (n : Nat)
    (hsym : ∀ a b, d.lookup a b = d.lookup b a)
    (hadj : CompleteAdj d.lookup n adj) (hsorted : SortedAdj n adj) (p : Path)
    (hv : ValidTour n p) (h2 : 2 ≤ p.path.length) (u : List Nat) (hu : u ≠ [])
    (hq : (p.path ++ u).Perm (List.range n)) :
    p.lower_bound d adj ≤ (Path.ofComplete (p.path ++ u)).full_cost d := by
  have hpne : p.path ≠ [] := by
    intro h
    rw [h] at h2
    simp at h2
  have hqnd : (p.path ++ u).Nodup := hq.nodup_iff.mpr (List.nodup_range n)
  have hqlt : ∀ x ∈ p.path ++ u, x < n := fun x hx => List.mem_range.mp (hq.subset hx)
  have hund : u.Nodup := (List.nodup_append.mp hqnd).2.1
  have hdisj : ∀ x ∈ u, x ∉ p.path := fun x hx hxp => (List.nodup_append.mp hqnd).2.2 hxp hx
  have hunv : ∀ x ∈ u, p.is_visited x = false := by
    intro x hx
    cases h : p.is_visited x with
    | false => rfl
    | true => exact absurd ((hv.2.2 x).mp h) (hdisj x hx)
  have hfront : p.front ∈ p.path := headD_mem hpne
  have hback : p.back ∈ p.path := getLastD_mem hpne
  have hfb : p.front ≠ p.back := headD_ne_getLastD hv.1 h2
  have hu1 : u.headD 0 ∈ u := headD_mem hu
  have huk : u.getLastD 0 ∈ u := getLastD_mem hu
  -- the cities not visited, in index order, are the cities of `u`
  have hperm : ((List.range p.visited.length).filter (fun c => !p.is_visited c)).Perm u := by
    rw [List.perm_ext_iff_of_nodup ((List.nodup_range _).filter _) hund]
    intro c
    rw [List.mem_filter, List.mem_range, hv.2.1]
    constructor
    · rintro ⟨hc, hnv⟩
      have hcq : c ∈ p.path ++ u := hq.symm.subset (List.mem_range.mpr hc)
      rcases List.mem_append.mp hcq with h | h
      · rw [(hv.2.2 c).mpr h] at hnv
        simp at hnv
      · exact h
    · intro hc
      exact ⟨hqlt c (List.mem_append_right _ hc), by simp [hunv c hc]⟩
  rw [lower_bound_eq, hperm.map _ |>.sum_eq]
  -- the edge back to the first city and the edge out of the last city
  have hB := firstOpenHalf_le p (adj.get p.front) (chainCost d p.path)
    (hsorted _ (hqlt _ (List.mem_append_left _ hfront)))
    ⟨p.front, u.getLastD 0, d.lookup p.front (u.getLastD 0)⟩
    ((completeAdj_mem hadj (hqlt _ (List.mem_append_left _ hfront)) _).mpr
      ⟨rfl, hqlt _ (List.mem_append_right _ huk), fun h => hdisj _ huk (by simp only at h; rw [h]; exact hfront), rfl⟩)
    (hunv _ huk)
  have hC := firstOpenHalf_le p (adj.get p.back)
    (p.firstOpenHalf (adj.get p.front) (chainCost d p.path))
    (hsorted _ (hqlt _ (List.mem_append_left _ hback)))
    ⟨p.back, u.headD 0, d.lookup p.back (u.headD 0)⟩
    ((completeAdj_mem hadj (hqlt _ (List.mem_append_left _ hback)) _).mpr
      ⟨rfl, hqlt _ (List.mem_append_right _ hu1), fun h => hdisj _ hu1 (by simp only at h; rw [h]; exact hback), rfl⟩)
    (hunv _ hu1)
  -- the cities not visited
  have hD := sum_twoHalves_le d adj n hadj hsorted p p.back p.front u
    (by
      rw [List.cons_append, List.nodup_cons]
      refine ⟨?_, ?_⟩
      · intro h
        rcases List.mem_append.mp h with h | h
        · exact hdisj _ h hback
        · exact hfb (List.mem_singleton.mp h).symm
      · rw [List.nodup_append]
        refine ⟨hund, List.nodup_singleton _, ?_⟩
        intro x hx hx'
        rw [List.mem_singleton] at hx'
        exact hdisj x hx (hx' ▸ hfront))
    (by
      intro x hx
      rcases List.mem_cons.mp hx with rfl | hx
      · exact ⟨hqlt _ (List.mem_append_left _ hback), Or.inr (Or.inl rfl)⟩
      · rcases List.mem_append.mp hx with hx | hx
        · exact ⟨hqlt _ (List.mem_append_right _ hx), Or.inr (Or.inr (hunv x hx))⟩
        · rw [List.mem_singleton.mp hx]
          exact ⟨hqlt _ (List.mem_append_left _ hfront), Or.inl rfl⟩)
  have hchain := halfSum_chain d hsym p.back p.front u hu
  rw [full_cost_eq_chain d _ (by simp [hpne]), chainCost_append d _ _ hpne hu]
  have e1 : (p.path ++ u).getLastD 0 = u.getLastD 0 := by
    cases u with
    | nil => exact absurd rfl hu
    | cons a t =>
      rw [List.getLastD_eq_getLast?, List.getLastD_eq_getLast?, List.getLast?_append,
        List.getLast?_cons]
      rfl
  have e2 : (p.path ++ u).headD 0 = p.path.headD 0 := by
    cases h : p.path with
    | nil => exact absurd h hpne
    | cons a t => rfl
  rw [e1, e2]
  simp only [Path.front, Path.back] at hB hC hD hchain ⊢
  rw [hsym (p.path.headD 0) (u.getLastD 0)] at hB
  linarith

/-! ## The lower bound with one city left -/

theorem unvisited_perm (n : Nat) (p : Path) (hv : ValidTour n p) (u : List Nat)
    (hq : (p.path ++ u).Perm (List.range n)) :
    ((List.range p.visited.length).filter (fun c => !p.is_visited c)).Perm u := by
  have hqnd : (p.path ++ u).Nodup := hq.nodup_iff.mpr (List.nodup_range n)
  have hund : u.Nodup := (List.nodup_append.mp hqnd).2.1
  rw [List.perm_ext_iff_of_nodup ((List.nodup_range _).filter _) hund]
  intro c
  rw [List.mem_filter, List.mem_range, hv.2.1]
  constructor
  · rintro ⟨hc, hnv⟩
    have hcq : c ∈ p.path ++ u := hq.symm.subset (List.mem_range.mpr hc)
    rcases List.mem_append.mp hcq with h | h
    · rw [(hv.2.2 c).mpr h] at hnv
      simp at hnv
    · exact h
  · intro hc
    refine ⟨List.mem_range.mp (hq.subset (List.mem_append_right _ hc)), ?_⟩
    cases h : p.is_visited c with
    | false => rfl
    | true =>
      exact absurd hc (fun hcu => (List.nodup_append.mp hqnd).2.2 ((hv.2.2 c).mp h) hcu)

theorem firstOpenHalf_eq (p : Path) (edges : List (Edge R)) (lb v : R)
    (hex : ∃ e ∈ edges, p.is_visited e.dest = false)
    (hall : ∀ e ∈ edges, p.is_visited e.dest = false → e.weight = v) :
    p.firstOpenHalf edges lb = lb + v / 2 := by
  unfold Path.firstOpenHalf
  cases h : edges.find? (fun e => !p.is_visited e.dest) with
  | none =>
    obtain ⟨e, he, hnv⟩ := hex
    rw [List.find?_eq_none] at h
    have := h e he
    simp [hnv] at this
  | some e =>
    have h1 := List.find?_some h
    have h2 := List.mem_of_find?_eq_some h
    simp only
    rw [hall e h2 (by simpa using h1)]

theorem lower_bound_near_complete (d : DistanceTable R) (adj : AdjacencyList R) (n : Nat)
    (hsym : ∀ a b, d.lookup a b = d.lookup b a) (hadj : CompleteAdj d.lookup n adj)
    (p : Path) (hv : ValidTour n p) (h2 : 2 ≤ p.path.length) (c : Nat)
    (hq : (p.path ++ [c]).Perm (List.range n)) :
    p.lower_bound d adj = (Path.ofComplete (p.path ++ [c])).full_cost d := by
  have hpne : p.path ≠ [] := by
    intro h
    rw [h] at h2
    simp at h2
  have hqnd : (p.path ++ [c]).Nodup := hq.nodup_iff.mpr (List.nodup_range n)
  have hqlt : ∀ x ∈ p.path ++ [c], x < n := fun x hx => List.mem_range.mp (hq.subset hx)
  have hcn : c < n := hqlt c (by simp)
  have hcp : c ∉ p.path := fun h => (List.nodup_append.mp hqnd).2.2 h (List.mem_singleton_self c)
  have hfront : p.front ∈ p.path := headD_mem hpne
  have hback : p.back ∈ p.path := getLastD_mem hpne
  have hfb : p.front ≠ p.back := headD_ne_getLastD hv.1 h2
  have hfn : p.front < n := hqlt _ (List.mem_append_left _ hfront)
  have hbn : p.back < n := hqlt _ (List.mem_append_left _ hback)
  have hfc : p.front ≠ c := fun h => hcp (h ▸ hfront)
  have hbc : p.back ≠ c := fun h => hcp (h ▸ hback)
  have hperm := unvisited_perm n p hv [c] hq
  have hunv : ∀ j, j < n → p.is_visited j = false → j = c := by
    intro j hj hnv
    have : j ∈ (List.range p.visited.length).filter (fun c => !p.is_visited c) := by
      rw [List.mem_filter, List.mem_range, hv.2.1]
      exact ⟨hj, by simp [hnv]⟩
    simpa using hperm.subset this
  have hcnv : p.is_visited c = false := by
    cases h : p.is_visited c with
    | false => rfl
    | true => exact absurd ((hv.2.2 c).mp h) hcp
  rw [lower_bound_eq, List.perm_singleton.mp hperm]
  simp only [List.map_singleton, List.sum_singleton]
  -- the two single edges
  have hB : p.firstOpenHalf (adj.get p.front) (chainCost d p.path)
      = chainCost d p.path + d.lookup p.front c / 2 := by
    apply firstOpenHalf_eq
    · exact ⟨⟨p.front, c, d.lookup p.front c⟩,
        (completeAdj_mem hadj hfn _).mpr ⟨rfl, hcn, fun h => hfc h.symm, rfl⟩, hcnv⟩
    · intro e he hnv
      obtain ⟨_, h2, _, h4⟩ := (completeAdj_mem hadj hfn e).mp he
      rw [h4, hunv _ h2 hnv]
  have hC : ∀ lb, p.firstOpenHalf (adj.get p.back) lb = lb + d.lookup p.back c / 2 := by
    intro lb
    apply firstOpenHalf_eq
    · exact ⟨⟨p.back, c, d.lookup p.back c⟩,
        (completeAdj_mem hadj hbn _).mpr ⟨rfl, hcn, fun h => hbc h.symm, rfl⟩, hcnv⟩
    · intro e he hnv
      obtain ⟨_, h2, _, h4⟩ := (completeAdj_mem hadj hbn e).mp he
      rw [h4, hunv _ h2 hnv]
  -- the two edges of the city left
  have hD : twoHalves p (adj.get c) = (d.lookup c p.front + d.lookup c p.back) / 2 := by
    unfold twoHalves
    have hJ : (((List.range n).filter (fun j => decide (j ≠ c))).filter
        (fun j => j == p.front || j == p.back || !p.is_visited j)).Perm [p.front, p.back] := by
      rw [List.perm_ext_iff_of_nodup (((List.nodup_range n).filter _).filter _)
        (by simp [hfb])]
      intro j
      simp only [List.mem_filter, List.mem_range, decide_eq_true_eq, Bool.or_eq_true,
        beq_iff_eq, Bool.not_eq_true', List.mem_cons, List.mem_singleton, List.not_mem_nil,
        or_false]
      constructor
      · rintro ⟨⟨hj, hjc⟩, (h | h) | h⟩
        · exact Or.inl h
        · exact Or.inr h
        · exact absurd (hunv j hj h) hjc
      · rintro (h | h)
        · exact ⟨⟨h ▸ hfn, h ▸ hfc⟩, Or.inl (Or.inl h)⟩
        · exact ⟨⟨h ▸ hbn, h ▸ hbc⟩, Or.inl (Or.inr h)⟩
    have hf : ((adj.get c).filter
        (fun e => e.dest == p.front || e.dest == p.back || !p.is_visited e.dest)).Perm
        [⟨c, p.front, d.lookup c p.front⟩, ⟨c, p.back, d.lookup c p.back⟩] := by
      refine ((hadj.2 c hcn).filter _).trans ?_
      rw [List.filter_map]
      exact hJ.map _
    have hlen := hf.length_eq
    simp only [List.length_cons, List.length_nil] at hlen
    rw [List.take_of_length_le (by omega), (hf.map _).sum_eq]
    simp only [List.map_cons, List.map_nil, List.sum_cons, List.sum_nil, add_zero]
    ring
  rw [hC, hB, hD, full_cost_eq_chain d _ (by simp), chainCost_append d _ _ hpne (by simp)]
  have e1 : (p.path ++ [c]).getLastD 0 = c := by
    rw [List.getLastD_eq_getLast?, List.getLast?_append]
    rfl
  have e2 : (p.path ++ [c]).headD 0 = p.path.headD 0 := by
    cases h : p.path with
    | nil => exact absurd h hpne
    | cons a t => rfl
  rw [e1, e2]
  simp only [Path.front, Path.back, chainCost, List.headD_cons, add_zero]
  rw [hsym c (p.path.headD 0), hsym c (p.path.getLastD 0)]
  ring

/-! ## The candidate list of the branching case -/

theorem branchOrder_eq (d : DistanceTable R) (adj : AdjacencyList R) (p : Path) :
    branchOrder d adj p
      = (p, ((List.range adj.size).filter (fun c => !p.is_visited c)).map
          (fun c => ((p.push c).lower_bound d adj, c))) := by
  unfold branchOrder
  have key : ∀ (l : List Nat) (acc : List (R × Nat)),
      l.foldl (fun (s : Path × List (R × Nat)) next_city =>
        if !s.1.is_visited next_city then
          let pushed := s.1.push next_city
          (pushed.pop, s.2 ++ [(pushed.lower_bound d adj, next_city)])
        else s) (p, acc)
      = (p, acc ++ (l.filter (fun c => !p.is_visited c)).map
          (fun c => ((p.push c).lower_bound d adj, c))) := by
    intro l
    induction l with
    | nil => intro acc; simp
    | cons x xs ih =>
      intro acc
      rw [List.foldl_cons]
      cases hx : p.is_visited x with
      | true =>
        simp only [hx, Bool.not_true, Bool.false_eq_true, if_false]
        rw [ih]
        simp [hx]
      | false =>
        simp only [hx, Bool.not_false, if_true]
        rw [push_pop p x hx, ih]
        simp [hx]
  simpa using key (List.range adj.size) []

theorem foldlM_prefix_inv {α β : Type} (Q : List α → β → Prop) (f : β → α → Option β)
    (l : List α) (init r : β) (h0 : Q [] init)
    (hstep : ∀ pre x s s', x ∈ l → Q pre s → f s x = some s' → Q (pre ++ [x]) s')
    (h : l.foldlM f init = some r) : Q l r := by
  have key : ∀ (l' : List α) (pre : List α) (s : β), (∀ x ∈ l', x ∈ l) → Q pre s →
      l'.foldlM f s = some r → Q (pre ++ l') r := by
    intro l'
    induction l' with
    | nil =>
      intro pre s _ hq hf
      simp only [List.foldlM_nil] at hf
      cases hf
      simpa using hq
    | cons x xs ih =>
      intro pre s hsub hq hf
      rw [List.foldlM_cons] at hf
      cases hfx : f s x with
      | none => rw [hfx] at hf; cases hf
      | some s' =>
        rw [hfx] at hf
        have := ih (pre ++ [x]) s' (fun y hy => hsub y (List.mem_cons_of_mem _ hy))
          (hstep pre x s s' (hsub x (List.mem_cons_self _ _)) hq hfx) hf
        simpa using this
  simpa using key l [] init (fun _ h => h) h0 h

/-! ## Branch and bound finds an optimal tour -/

theorem perm_range_of_valid {n : Nat} {p : Path} (hv : ValidTour n p)
    (hlen : p.path.length = n) : p.path.Perm (List.range n) := by
  have hsub : p.path ⊆ List.range n := fun c hc => List.mem_range.mpr (valid_lt hv hc)
  exact (List.subperm_of_subset hv.1 hsub).perm_of_length_le (by simp [hlen])

theorem head_push (p : Path) (c : Nat) (hne : p.path ≠ []) :
    (p.push c).path.head? = p.path.head? := by
  simp only [Path.push]
  exact List.head?_append_of_ne_nil _ hne

theorem mem_candidates (d : DistanceTable R) (adj : AdjacencyList R) (p : Path) (x : R × Nat)
    (hx : x ∈ List.insertionSort pairLe (branchOrder d adj p).2) :
    x.2 < adj.size ∧ p.is_visited x.2 = false ∧ x.1 = (p.push x.2).lower_bound d adj := by
  have hx' := (List.perm_insertionSort _ _).subset hx
  rw [branchOrder_eq] at hx'
  simp only [List.mem_map, List.mem_filter, List.mem_range] at hx'
  obtain ⟨c, ⟨hc, hnv⟩, rfl⟩ := hx'
  exact ⟨hc, by simpa using hnv, rfl⟩

theorem candidate_of_unvisited (d : DistanceTable R) (adj : AdjacencyList R) (p : Path)
    (c : Nat) (hc : c < adj.size) (hnv : p.is_visited c = false) :
    ∃ x ∈ List.insertionSort pairLe (branchOrder d adj p).2, x.2 = c := by
  refine ⟨((p.push c).lower_bound d adj, c), ?_, rfl⟩
  apply (List.perm_insertionSort _ _).symm.subset
  rw [branchOrder_eq]
  simp only [List.mem_map, List.mem_filter, List.mem_range]
  exact ⟨c, ⟨hc, by simp [hnv]⟩, rfl⟩

theorem branch_bound_opt_aux (d : DistanceTable R) (adj : AdjacencyList R) (n : Nat)
    (hsym : ∀ a b, d.lookup a b = d.lookup b a) (hadj : CompleteAdj d.lookup n adj)
    (hsorted : SortedAdj n adj) (hn : 3 ≤ n) (fuel : Nat) (temp best : Path) (r : Path × Path)
    (hv : ValidTour n temp) (hne : temp.path ≠ []) (hlt : temp.path.length < n)
    (hhead : temp.path.head? = some 0) (hbest : GoodTour n best)
    (h : branch_bound d adj fuel temp best = some r) :
    GoodTour n r.2 ∧ r.2.full_cost d ≤ best.full_cost d ∧
    ∀ u, (temp.path ++ u).Perm (List.range n) →
      r.2.full_cost d ≤ (Path.ofComplete (temp.path ++ u)).full_cost d := by
  have hsize : adj.size = n := hadj.1
  induction fuel generalizing temp best r with
  | zero => simp [branch_bound] at h
  | succ k ih =>
    unfold branch_bound at h
    simp only at h
    split at h
    · -- one city left
      rename_i hlen
      have hlen' : temp.path.length + 1 = n := by
        unfold Path.length at hlen
        omega
      obtain ⟨c, hc, hnot, hpush⟩ := pushLastCity_eq hv hlt
      have hvp := valid_push hv hc hnot
      have hq0 : (temp.path ++ [c]).Perm (List.range n) :=
        perm_range_of_valid hvp (by simp [Path.push, hlen'])
      have hlb := lower_bound_near_complete d adj n hsym hadj temp hv (by omega) c hq0
      have hu : ∀ u, (temp.path ++ u).Perm (List.range n) → u = [c] := by
        intro u hu
        have := (List.perm_append_left_iff temp.path).mp (hu.trans hq0.symm)
        exact List.perm_singleton.mp this
      rw [hsize, hpush, hlb] at h
      split at h
      · rename_i hgt
        cases he : (temp.push c).evolve d with
        | none => rw [he] at h; cases h
        | some b =>
          rw [he] at h
          cases h
          obtain ⟨h1, _, h3, h4, _⟩ := evolve_spec d _ b he
          have hcost : (temp.push c).full_cost d
              = (Path.ofComplete (temp.path ++ [c])).full_cost d :=
            full_cost_congr d _ _ rfl
          refine ⟨⟨h1.trans hq0, ?_⟩, ?_, ?_⟩
          · rw [h3, head_push temp c hne, hhead]
          · simp only
            rw [hcost] at h4
            exact le_of_lt (lt_of_le_of_lt h4 hgt)
          · intro u hu'
            rw [hu u hu', ← hcost]
            exact h4
      · rename_i hgt
        cases h
        refine ⟨hbest, le_refl _, ?_⟩
        intro u hu'
        rw [hu u hu']
        exact not_lt.mp hgt
    · -- branching
      rename_i hlen
      have hlen' : temp.path.length + 1 < n := by
        unfold Path.length at hlen
        omega
      have hfin := foldlM_prefix_inv
        (fun (pre : List (R × Nat)) (s : Path × Path) =>
          s.1 = temp ∧ GoodTour n s.2 ∧ s.2.full_cost d ≤ best.full_cost d ∧
          ∀ x ∈ pre, ∀ u, (temp.path ++ x.2 :: u).Perm (List.range n) →
            s.2.full_cost d ≤ (Path.ofComplete (temp.path ++ x.2 :: u)).full_cost d)
        _ _ _ r
        ⟨(branchOrder_spec d adj temp).1, hbest, le_refl _, by simp⟩
        (by
          rintro pre x ⟨t, b⟩ s' hx ⟨hs1, hs2, hs3, hs4⟩ hstep
          simp only at hs1 hs2 hs3 hs4
          subst hs1
          obtain ⟨hxlt, hxnv, hxlb⟩ := mem_candidates d adj t x hx
          rw [hsize] at hxlt
          have hvp := valid_push hv hxlt hxnv
          simp only [branchStep] at hstep
          split at hstep
          · cases hrec : branch_bound d adj k (t.push x.2) b with
            | none => rw [hrec] at hstep; cases hstep
            | some r' =>
              rw [hrec] at hstep
              cases hstep
              obtain ⟨g1, g2, g3⟩ := ih (t.push x.2) b r' hvp (by simp [Path.push])
                (by simp [Path.push]; omega) (by rw [head_push t x.2 hne, hhead]) hs2 hrec
              refine ⟨?_, g1, le_trans g2 hs3, ?_⟩
              · simp only
                rw [branch_bound_restores_aux d adj k _ b r' (hsize ▸ hvp) hrec]
                exact push_pop t x.2 hxnv
              · intro y hy u hu
                rcases List.mem_append.mp hy with hy | hy
                · exact le_trans g2 (hs4 y hy u hu)
                · rw [List.mem_singleton.mp hy]
                  rw [List.mem_singleton.mp hy] at hu
                  have := g3 u (by simpa [Path.push] using hu)
                  simpa [Path.push] using this
          · rename_i hprune
            cases hstep
            refine ⟨push_pop t x.2 hxnv, hs2, hs3, ?_⟩
            intro y hy u hu
            rcases List.mem_append.mp hy with hy | hy
            · exact hs4 y hy u hu
            · rw [List.mem_singleton.mp hy]
              rw [List.mem_singleton.mp hy] at hu
              have hune : u ≠ [] := by
                intro hnil
                have := hu.length_eq
                simp [hnil] at this
                omega
              have hadm := lower_bound_le_full_cost d adj n hsym hadj hsorted (t.push x.2)
                hvp (by
                  have : 0 < t.path.length := List.length_pos.mpr hne
                  simp [Path.push]
                  omega) u hune (by simpa [Path.push] using hu)
              have hadm' : x.1 ≤ (Path.ofComplete (t.path ++ x.2 :: u)).full_cost d := by
                rw [hxlb]
                simpa [Path.push] using hadm
              simp only
              exact le_trans hs3 (le_trans (not_lt.mp hprune) hadm'))
        h
      obtain ⟨_, f2, f3, f4⟩ := hfin
      refine ⟨f2, f3, ?_⟩
      intro u hu
      cases u with
      | nil =>
        have := hu.length_eq
        simp at this
        omega
      | cons c u =>
        have hnd : (temp.path ++ c :: u).Nodup := hu.nodup_iff.mpr (List.nodup_range n)
        have hcn : c < n := List.mem_range.mp (hu.subset (by simp))
        have hcp : c ∉ temp.path := fun hm =>
          (List.nodup_append.mp hnd).2.2 hm (List.mem_cons_self _ _)
        have hcnv : temp.is_visited c = false := by
          cases hh : temp.is_visited c with
          | false => rfl
          | true => exact absurd ((hv.2.2 c).mp hh) hcp
        obtain ⟨x, hx, rfl⟩ := candidate_of_unvisited d adj temp c (hsize ▸ hcn) hcnv
        exact f4 x hx u hu

theorem valid_ofLength (n : Nat) : ValidTour n (Path.ofLength n) := by
  refine ⟨List.nodup_nil, by simp [Path.ofLength], ?_⟩
  intro c
  simp only [Path.ofLength, Path.is_visited, List.getD_eq_getElem?_getD, List.getElem?_replicate,
    List.not_mem_nil, iff_false]
  split <;> simp

theorem isVisited_ofLength (n c : Nat) : (Path.ofLength n).is_visited c = false := by
  cases h : (Path.ofLength n).is_visited c with
  | false => rfl
  | true => exact absurd (((valid_ofLength n).2.2 c).mp h) (by simp [Path.ofLength])

theorem valid_start (n : Nat) (hn : 1 ≤ n) : ValidTour n ((Path.ofLength n).push 0) :=
  valid_push (valid_ofLength n) (by omega) (isVisited_ofLength n 0)

theorem goodTour_two (b : Path) (h : GoodTour 2 b) : b.path = [0, 1] := by
  obtain ⟨hperm, hhead⟩ := h
  have hlen := hperm.length_eq
  simp only [List.length_range] at hlen
  obtain ⟨x, y, hxy⟩ := List.length_eq_two.mp hlen
  rw [hxy] at hhead hperm
  simp only [List.head?_cons, Option.some.injEq] at hhead
  subst hhead
  have hy : y ∈ List.range 2 := hperm.subset (by simp)
  have hnd : ([0, y] : List Nat).Nodup := hperm.nodup_iff.mpr (List.nodup_range 2)
  have hy2 : y < 2 := List.mem_range.mp hy
  have hy0 : y ≠ 0 := by
    intro h0
    subst h0
    simp at hnd
  have : y = 1 := by omega
  rw [hxy, this]

theorem branch_bound_good_two (d : DistanceTable R) (adj : AdjacencyList R)
    (hsize : adj.size = 2) (fuel : Nat) (best : Path) (r : Path × Path)
    (hbest : GoodTour 2 best)
    (h : branch_bound d adj fuel ((Path.ofLength 2).push 0) best = some r) :
    GoodTour 2 r.2 := by
  cases fuel with
  | zero => simp [branch_bound] at h
  | succ k =>
    have hv := valid_start 2 (by omega)
    unfold branch_bound at h
    simp only at h
    have hlen : ((Path.ofLength 2).push 0).length + 1 = adj.size := by
      rw [hsize]
      rfl
    rw [if_pos hlen] at h
    obtain ⟨c, hc, hnot, hpush⟩ := pushLastCity_eq hv (by simp [Path.push, Path.ofLength])
    rw [hsize, hpush] at h
    have hvp := valid_push hv hc hnot
    split at h
    · cases he : (((Path.ofLength 2).push 0).push c).evolve d with
      | none => rw [he] at h; cases h
      | some b =>
        rw [he] at h
        cases h
        obtain ⟨h1, _, h3, _, _⟩ := evolve_spec d _ b he
        exact ⟨h1.trans (perm_range_of_valid hvp (by simp [Path.push, Path.ofLength])),
          by rw [h3]; rfl⟩
    · cases h
      exact hbest

/-- Optimality of `branch_bound` for a symmetric table and a complete adjacency list that
is sorted by weight and agrees with the table. -/
theorem branch_bound_optimal_core (d : DistanceTable R) (adj : AdjacencyList R) (n : Nat)
    (hsym : ∀ a b, d.lookup a b = d.lookup b a) (hadj : CompleteAdj d.lookup n adj)
    (hsorted : SortedAdj n adj) (hn : 2 ≤ n) (best : Path) (hbest : GoodTour n best) :
    (∃ r, branch_bound d adj n ((Path.ofLength n).push 0) best = some r) ∧
    ∀ fuel r, branch_bound d adj fuel ((Path.ofLength n).push 0) best = some r →
      GoodTour n r.2 ∧
      ∀ q : List Nat, q.Perm (List.range n) → q.head? = some 0 →
        r.2.full_cost d ≤ (Path.ofComplete q).full_cost d := by
  have hsize : adj.size = n := hadj.1
  have hv := valid_start n (by omega)
  refine ⟨?_, ?_⟩
  · have := branch_bound_returns_aux d adj n ((Path.ofLength n).push 0) best (hsize ▸ hv)
      (by simp [Path.push, Path.ofLength, hsize])
    exact this
  · intro fuel r hr
    by_cases h2 : n = 2
    · subst h2
      have hg := branch_bound_good_two d adj hsize fuel best r hbest hr
      refine ⟨hg, ?_⟩
      intro q hq hq0
      have e1 := goodTour_two r.2 hg
      have e2 := goodTour_two (Path.ofComplete q) ⟨hq, hq0⟩
      rw [full_cost_congr d r.2 (Path.ofComplete q) (e1.trans e2.symm)]
    · obtain ⟨g1, _, g3⟩ := branch_bound_opt_aux d adj n hsym hadj hsorted (by omega) fuel
        ((Path.ofLength n).push 0) best r hv (by simp [Path.push])
        (by simp [Path.push, Path.ofLength]; omega) (by simp [Path.push, Path.ofLength])
        hbest hr
      refine ⟨g1, ?_⟩
      intro q hq hq0
      cases q with
      | nil => simp at hq0
      | cons a u =>
        simp only [List.head?_cons, Option.some.injEq] at hq0
        subst hq0
        exact g3 u (by simpa [Path.push, Path.ofLength] using hq)

/-! ## The table and the adjacency list built from the cities -/

theorem getD_pushEdge (a : List (List (Edge R))) (j i : Nat) (e : Edge R) (hi : i < a.length) :
    (pushEdge a j e).getD i [] = if j = i then a.getD i [] ++ [e] else a.getD i [] := by
  unfold pushEdge
  simp only [List.getD_eq_getElem?_getD, List.getElem?_set]
  by_cases h : j = i
  · subst h
    simp [hi]
  · simp [h]

theorem getD_foldl_pushEdge {α : Type} (c : α → Prop) [DecidablePred c] (I : α → Nat)
    (E : α → Edge R) (L : List α) (init : List (List (Edge R))) (i : Nat)
    (hi : i < init.length) :
    (L.foldl (fun a p => if c p then pushEdge a (I p) (E p) else a) init).getD i []
      = init.getD i [] ++ ((L.filter (fun p => decide (c p) && decide (I p = i))).map E) ∧
    (L.foldl (fun a p => if c p then pushEdge a (I p) (E p) else a) init).length
      = init.length := by
  induction L generalizing init with
  | nil => simp
  | cons p ps ih =>
    rw [List.foldl_cons]
    by_cases hc : c p
    · rw [if_pos hc]
      obtain ⟨h1, h2⟩ := ih (pushEdge init (I p) (E p)) (by rw [length_pushEdge]; exact hi)
      rw [h1, h2, length_pushEdge, getD_pushEdge _ _ _ _ hi]
      refine ⟨?_, rfl⟩
      by_cases hI : I p = i
      · simp [hc, hI]
      · simp [hc, hI]
    · rw [if_neg hc]
      obtain ⟨h1, h2⟩ := ih init hi
      rw [h1, h2]
      refine ⟨?_, rfl⟩
      simp [hc]

theorem filter_unique {α : Type} (f : α → Nat) (l : List α) (a0 : α) (hnd : (l.map f).Nodup)
    (ha : a0 ∈ l) : l.filter (fun a => decide (f a = f a0)) = [a0] := by
  induction l with
  | nil => simp at ha
  | cons x xs ih =>
    rw [List.map_cons, List.nodup_cons] at hnd
    by_cases hx : f x = f a0
    · have hnone : ∀ y ∈ xs, f y ≠ f a0 := by
        intro y hy hfy
        exact hnd.1 (by rw [hx, ← hfy]; exact List.mem_map_of_mem _ hy)
      have hxa : x = a0 := by
        rcases List.mem_cons.mp ha with h | h
        · exact h.symm
        · exact absurd rfl (hnone a0 h)
      have hfil : xs.filter (fun a => decide (f a = f a0)) = [] := by
        rw [List.filter_eq_nil_iff]
        intro y hy
        simpa using hnone y hy
      rw [List.filter_cons_of_pos (by simpa using hx), hfil, hxa]
    · have ha' : a0 ∈ xs := by
        rcases List.mem_cons.mp ha with h | h
        · exact absurd (h ▸ rfl) hx
        · exact h
      rw [List.filter_cons_of_neg (by simpa using hx)]
      exact ih hnd.2 ha'

theorem product_filter_block (l1 l2 : List (City R)) (i : Nat) :
    (l1 ×ˢ l2).filter (fun p => decide (p.1.id ≠ p.2.id) && decide (p.1.id = i))
      = (l1.filter (fun a => decide (a.id = i))).flatMap
          (fun a => (l2.filter (fun b => decide (b.id ≠ i))).map (fun b => (a, b))) := by
  induction l1 with
  | nil => rfl
  | cons a as ih =>
    rw [List.product_cons, List.filter_append, ih, List.filter_map]
    by_cases ha : a.id = i
    · rw [List.filter_cons_of_pos (by simpa using ha), List.flatMap_cons]
      congr 2
      apply List.filter_congr
      intro b _
      simp [ha, eq_comm]
    · rw [List.filter_cons_of_neg (by simpa using ha)]
      have : l2.filter ((fun p : City R × City R =>
          decide (p.1.id ≠ p.2.id) && decide (p.1.id = i)) ∘ fun b => (a, b)) = [] := by
        rw [List.filter_eq_nil_iff]
        intro b _
        simp [ha]
      rw [this]
      rfl

theorem completeAdj_ofCities (sqrt : R → R) (cities : List (City R))
    (hids : (cities.map City.id).Perm (List.range cities.length)) :
    CompleteAdj (DistanceTable.build sqrt cities).lookup cities.length
      (AdjacencyList.ofCities sqrt cities) := by
  have hnd : (cities.map City.id).Nodup := hids.nodup_iff.mpr (List.nodup_range _)
  have hfold := fun i hi => getD_foldl_pushEdge
    (fun p : City R × City R => p.1.id ≠ p.2.id) (fun p => p.1.id)
    (fun p => (⟨p.1.id, p.2.id, p.1.distance sqrt p.2⟩ : Edge R)) (cities ×ˢ cities)
    (List.replicate cities.length []) i hi
  have hof : (AdjacencyList.ofCities sqrt cities).adjacent_edges
      = (cities ×ˢ cities).foldl (fun a p =>
          if p.1.id ≠ p.2.id then pushEdge a p.1.id ⟨p.1.id, p.2.id, p.1.distance sqrt p.2⟩
          else a) (List.replicate cities.length []) := by
    unfold AdjacencyList.ofCities
    simp only
    exact foldl_nested (fun a (src dest : City R) =>
      if src.id ≠ dest.id then pushEdge a src.id ⟨src.id, dest.id, src.distance sqrt dest⟩
      else a) cities cities _
  constructor
  · unfold AdjacencyList.size
    by_cases h0 : cities.length = 0
    · have : cities = [] := List.length_eq_zero.mp h0
      subst this
      rfl
    · rw [hof, (hfold 0 (by simp; omega)).2]
      simp
  · intro i hi
    obtain ⟨a0, ha0, rfl⟩ := exists_city_of_id cities hids i hi
    unfold AdjacencyList.get
    rw [hof, (hfold a0.id (by simpa using hi)).1]
    have hrep : (List.replicate cities.length ([] : List (Edge R))).getD a0.id [] = [] := by
      simp only [List.getD_eq_getElem?_getD, List.getElem?_replicate]
      split <;> rfl
    rw [hrep, List.nil_append, product_filter_block, filter_unique City.id cities a0 hnd ha0]
    simp only [List.flatMap_cons, List.flatMap_nil, List.append_nil, List.map_map]
    have hmap : (cities.filter (fun b => decide (b.id ≠ a0.id))).map
        ((fun p : City R × City R => (⟨p.1.id, p.2.id, p.1.distance sqrt p.2⟩ : Edge R)) ∘
          fun b => (a0, b))
        = ((cities.map City.id).filter (fun j => decide (j ≠ a0.id))).map
          (fun j => (⟨a0.id, j, (DistanceTable.build sqrt cities).lookup a0.id j⟩ : Edge R)) := by
      rw [List.filter_map, List.map_map]
      apply List.map_congr_left
      intro b hb
      have hb' := (List.mem_filter.mp hb).1
      simp only [Function.comp]
      rw [lookup_build sqrt cities hids a0 b ha0 hb']
    rw [hmap]
    exact (hids.filter _).map _

theorem build_dims (sqrt : R → R) (cities : List (City R)) :
    (DistanceTable.build sqrt cities).distance.length = cities.length ∧
    ∀ r, r < cities.length →
      ((DistanceTable.build sqrt cities).distance.getD r []).length = cities.length := by
  unfold DistanceTable.build
  simp only
  rw [foldl_nested (fun t (src dest : City R) => setCell t src.id dest.id (src.distance sqrt dest))]
  apply foldl_inv (fun t : List (List R) => t.length = cities.length ∧
    ∀ r, r < cities.length → (t.getD r []).length = cities.length)
  · refine ⟨by simp, ?_⟩
    intro r hr
    simp [List.getD_eq_getElem?_getD, List.getElem?_replicate, hr]
  · rintro t p _ ⟨h1, h2⟩
    refine ⟨by rw [length_setCell, h1], ?_⟩
    intro r hr
    rw [rowLength_setCell, h2 r hr]

theorem lookup_build_symm (sqrt : R → R) (cities : List (City R))
    (hids : (cities.map City.id).Perm (List.range cities.length)) (a b : Nat) :
    (DistanceTable.build sqrt cities).lookup a b = (DistanceTable.build sqrt cities).lookup b a := by
  obtain ⟨hlen, hrow⟩ := build_dims sqrt cities
  have hout : ∀ x y, ¬ (x < cities.length ∧ y < cities.length) →
      (DistanceTable.build sqrt cities).lookup x y = 0 := by
    intro x y hxy
    unfold DistanceTable.lookup
    by_cases hx : x < cities.length
    · have hy : ¬ y < cities.length := fun hy => hxy ⟨hx, hy⟩
      have := hrow x hx
      rw [List.getD_eq_getElem?_getD ((DistanceTable.build sqrt cities).distance.getD x []),
        List.getElem?_eq_none (by omega)]
      rfl
    · rw [List.getD_eq_getElem?_getD (DistanceTable.build sqrt cities).distance,
        List.getElem?_eq_none (by omega)]
      rfl
  by_cases hab : a < cities.length ∧ b < cities.length
  · obtain ⟨ca, hca, rfl⟩ := exists_city_of_id cities hids a hab.1
    obtain ⟨cb, hcb, rfl⟩ := exists_city_of_id cities hids b hab.2
    rw [lookup_build _ _ hids ca cb hca hcb, lookup_build _ _ hids cb ca hcb hca]
    simp only [City.distance]
    congr 1
    ring
  · rw [hout a b hab, hout b a (fun h => hab ⟨h.2, h.1⟩)]

theorem get_sort_by_weight (a : AdjacencyList R) (v : Nat) :
    a.sort_by_weight.get v = List.insertionSort (fun l r => l.weight ≤ r.weight) (a.get v) := by
  simp only [AdjacencyList.sort_by_weight, AdjacencyList.get, List.getD_eq_getElem?_getD,
    List.getElem?_map]
  cases a.adjacent_edges[v]? <;> rfl

theorem size_sort_by_weight (a : AdjacencyList R) : a.sort_by_weight.size = a.size := by
  simp [AdjacencyList.sort_by_weight, AdjacencyList.size]

theorem sort_by_weight_perm (a : AdjacencyList R) (v : Nat) :
    (a.sort_by_weight.get v).Perm (a.get v) := by
  rw [get_sort_by_weight]
  exact List.perm_insertionSort _ _

theorem sort_by_weight_sorted (n : Nat) (a : AdjacencyList R) : SortedAdj n a.sort_by_weight := by
  intro i _
  rw [get_sort_by_weight]
  haveI : IsTotal (Edge R) (fun l r => l.weight ≤ r.weight) := ⟨fun x y => le_total _ _⟩
  haveI : IsTrans (Edge R) (fun l r => l.weight ≤ r.weight) := ⟨fun x y z => le_trans⟩
  exact List.sorted_insertionSort _ _

theorem completeAdj_of_perm (w : Nat → Nat → R) (n : Nat) (a b : AdjacencyList R)
    (ha : CompleteAdj w n a) (hsize : b.size = n) (hperm : ∀ i, i < n → (b.get i).Perm (a.get i)) :
    CompleteAdj w n b :=
  ⟨hsize, fun i hi => (hperm i hi).trans (ha.2 i hi)⟩

/-- C1. For `N ≥ 2` cities with ids `0..N-1`, the distance table built from them, and the
complete-graph adjacency list in any order that is ascending by weight (every order
`sort_by_weight` may leave), `branch_bound` started on the in-progress tour `[0]` with
any complete tour from city 0 as incumbent returns, and then the incumbent is a
complete tour from city 0 whose `full_cost` is at most that of every complete tour
from city 0: it is the minimum. `sqrt` is any function, `Real.sqrt` in particular. -/
theorem branch_bound_optimal (sqrt : R → R) (cities : List (City R))
    (hids : (cities.map City.id).Perm (List.range cities.length)) (hn : 2 ≤ cities.length)
    (adj : AdjacencyList R) (hsize : adj.size = cities.length)
    (hperm : ∀ i, i < cities.length →
      (adj.get i).Perm ((AdjacencyList.ofCities sqrt cities).get i))
    (hsorted : SortedAdj cities.length adj)
    (best : Path) (hbest : GoodTour cities.length best) :
    (∃ r, branch_bound (DistanceTable.build sqrt cities) adj cities.length
      ((Path.ofLength cities.length).push 0) best = some r) ∧
    ∀ fuel r, branch_bound (DistanceTable.build sqrt cities) adj fuel
        ((Path.ofLength cities.length).push 0) best = some r →
      GoodTour cities.length r.2 ∧
      ∀ q : List Nat, q.Perm (List.range cities.length) → q.head? = some 0 →
        r.2.full_cost (DistanceTable.build sqrt cities)
          ≤ (Path.ofComplete q).full_cost (DistanceTable.build sqrt cities) :=
  branch_bound_optimal_core (DistanceTable.build sqrt cities) adj cities.length
    (lookup_build_symm sqrt cities hids)
    (completeAdj_of_perm _ _ _ adj (completeAdj_ofCities sqrt cities hids) hsize hperm)
    hsorted hn best hbest

/-- Instance of the optimality property: three cities at `(0, 0)`, `(3, 4)`, `(6, 0)`,
the adjacency list as `sort_by_weight` of the model orders it. -/
theorem branch_bound_optimal_witness :
    (∃ r, branch_bound
      (DistanceTable.build Real.sqrt ([⟨0, 0, 0⟩, ⟨1, 3, 4⟩, ⟨2, 6, 0⟩] : List (City ℝ)))
      (AdjacencyList.ofCities Real.sqrt
        ([⟨0, 0, 0⟩, ⟨1, 3, 4⟩, ⟨2, 6, 0⟩] : List (City ℝ))).sort_by_weight 3
      ((Path.ofLength 3).push 0) (Path.ofComplete [0, 2, 1]) = some r) ∧
    ∀ fuel r, branch_bound
        (DistanceTable.build Real.sqrt ([⟨0, 0, 0⟩, ⟨1, 3, 4⟩, ⟨2, 6, 0⟩] : List (City ℝ)))
        (AdjacencyList.ofCities Real.sqrt
          ([⟨0, 0, 0⟩, ⟨1, 3, 4⟩, ⟨2, 6, 0⟩] : List (City ℝ))).sort_by_weight fuel
        ((Path.ofLength 3).push 0) (Path.ofComplete [0, 2, 1]) = some r →
      GoodTour 3 r.2 ∧
      ∀ q : List Nat, q.Perm (List.range 3) → q.head? = some 0 →
        r.2.full_cost
            (DistanceTable.build Real.sqrt ([⟨0, 0, 0⟩, ⟨1, 3, 4⟩, ⟨2, 6, 0⟩] : List (City ℝ)))
          ≤ (Path.ofComplete q).full_cost
            (DistanceTable.build Real.sqrt ([⟨0, 0, 0⟩, ⟨1, 3, 4⟩, ⟨2, 6, 0⟩] : List (City ℝ))) :=
  branch_bound_optimal Real.sqrt [⟨0, 0, 0⟩, ⟨1, 3, 4⟩, ⟨2, 6, 0⟩] (by decide) (by decide)
    (AdjacencyList.ofCities Real.sqrt [⟨0, 0, 0⟩, ⟨1, 3, 4⟩, ⟨2, 6, 0⟩]).sort_by_weight
    ((size_sort_by_weight _).trans (completeAdj_ofCities Real.sqrt _ (by decide)).1)
    (fun i _ => sort_by_weight_perm _ i) (sort_by_weight_sorted _ _)
    (Path.ofComplete [0, 2, 1]) ⟨by decide, rfl⟩

/-- Instance of the spanning tree property: the complete graph of three cities, the
heap always handing out the first of its lightest edges. -/
theorem mst_minimum_spanning_tree_witness :
    ∃ F : List (Edge ℚ),
      (Graph.new (AdjacencyList.ofCities id
          ([⟨0, 0, 0⟩, ⟨1, 3, 4⟩, ⟨2, 6, 0⟩] : List (City ℚ)))).mst (fun _ => 0)
        = some (Graph.new (F.foldl AdjacencyList.add_edge (AdjacencyList.ofSize 3))) ∧
      F.length = 3 - 1 ∧
      (∀ e ∈ F, e.weight = (DistanceTable.build id
          ([⟨0, 0, 0⟩, ⟨1, 3, 4⟩, ⟨2, 6, 0⟩] : List (City ℚ))).lookup e.src e.dest ∧
        e ∈ (Graph.new (F.foldl AdjacencyList.add_edge (AdjacencyList.ofSize 3))).adjacency_list.get
          e.src ∧
        e ∈ (Graph.new (F.foldl AdjacencyList.add_edge (AdjacencyList.ofSize 3))).adjacency_list.get
          e.dest) ∧
      IsSpanningTree 3 (F.map Edge.ends).toFinset ∧
      treeWeight (DistanceTable.build id
          ([⟨0, 0, 0⟩, ⟨1, 3, 4⟩, ⟨2, 6, 0⟩] : List (City ℚ))).lookup (F.map Edge.ends).toFinset
        = (F.map Edge.weight).sum ∧
      ∀ T, IsSpanningTree 3 T → (F.map Edge.weight).sum ≤ treeWeight (DistanceTable.build id
          ([⟨0, 0, 0⟩, ⟨1, 3, 4⟩, ⟨2, 6, 0⟩] : List (City ℚ))).lookup T :=
  mst_minimum_spanning_tree _ (lookup_build_symm id _ (by decide)) 3 (by decide) _
    (completeAdj_ofCities id [⟨0, 0, 0⟩, ⟨1, 3, 4⟩, ⟨2, 6, 0⟩] (by decide)) (fun _ => 0)

/-- Instance of the preorder property: the complete graph of three cities, the heap
choosing among its lightest edges by the number of the round. -/
theorem preorder_traversal_of_mst_witness :
    ∃ (mst : Graph ℚ) (tour : List Nat),
      (Graph.new (AdjacencyList.ofCities id
          ([⟨0, 0, 0⟩, ⟨1, 3, 4⟩, ⟨2, 6, 0⟩] : List (City ℚ)))).mst (fun k => k) = some mst ∧
      mst.preorder_traversal = some tour ∧
      tour.length = 3 ∧ (∀ c, c < 3 → tour.count c = 1) ∧ (∀ c ∈ tour, c < 3) ∧
      tour.head? = some 0 :=
  preorder_traversal_of_mst _ (lookup_build_symm id _ (by decide)) 3 (by decide) _
    (completeAdj_ofCities id [⟨0, 0, 0⟩, ⟨1, 3, 4⟩, ⟨2, 6, 0⟩] (by decide)) (fun k => k)

/-! ## Cost of the preorder walk -/

theorem chain_mono (F : List (Edge R)) (U : List Nat) (a a' : Nat) (h : ChainOK F a U)
    (hr : DirReach F a a') : ChainOK F a' U := by
  cases U with
  | nil => trivial
  | cons x U =>
    obtain ⟨e, he, h1, h2, h3⟩ := h
    exact ⟨e, he, h1, h2.trans hr, h3⟩

theorem chain_filter (F : List (Edge R)) (q : Nat → Bool) (U : List Nat) (a : Nat)
    (h : ChainOK F a U) : ChainOK F a (U.filter q) := by
  induction U generalizing a with
  | nil => trivial
  | cons x U ih =>
    obtain ⟨e, he, h1, h2, h3⟩ := h
    by_cases hq : q x = true
    · rw [List.filter_cons_of_pos hq]
      exact ⟨e, he, h1, h2, ih e.src h3⟩
    · rw [List.filter_cons_of_neg hq]
      exact chain_mono F _ _ _ (ih e.src h3) h2

theorem chain_children (F : List (Edge R)) (a : Nat) (L U : List Nat)
    (hL : ∀ x ∈ L, ∃ e ∈ F, e.dest = x ∧ e.src = a) (h : ChainOK F a U) :
    ChainOK F a (L ++ U) := by
  induction L with
  | nil => exact h
  | cons x L ih =>
    obtain ⟨e, he, h1, h2⟩ := hL x (List.mem_cons_self _ _)
    refine ⟨e, he, h1, h2 ▸ Relation.ReflTransGen.refl, ?_⟩
    rw [h2]
    exact ih (fun y hy => hL y (List.mem_cons_of_mem _ hy))

theorem edge_unique (F : List (Edge R)) (hnd : (F.map Edge.dest).Nodup) (e e' : Edge R)
    (he : e ∈ F) (he' : e' ∈ F) (h : e.dest = e'.dest) : e = e' :=
  List.inj_on_of_nodup_map hnd he he' h

theorem ancestor_visited (F : List (Edge R)) (hnd : (F.map Edge.dest).Nodup)
    (h0 : 0 ∉ F.map Edge.dest) (result : List Nat)
    (hpar : ∀ v ∈ result, v = 0 ∨ ∃ e ∈ F, e.dest = v ∧ e.src ∈ result) (p b : Nat)
    (hr : DirReach F p b) (hb : b ∈ result) : p ∈ result := by
  unfold DirReach at hr
  induction hr with
  | refl => exact hb
  | @tail x y _ hstep ih =>
    obtain ⟨e, he, rfl, rfl⟩ := hstep
    rcases hpar _ hb with h | ⟨e', he', h1, h2⟩
    · exact absurd (h ▸ List.mem_map_of_mem _ he) h0
    · rw [edge_unique F hnd e' e he' he h1] at h2
      exact ih h2

theorem branch_length (d : DistanceTable R) (n : Nat) (F : List (Edge R)) (φ : Nat → R)
    (hsym : ∀ a b, d.lookup a b = d.lookup b a) (hdiag : ∀ a, d.lookup a a = 0)
    (htri : ∀ a b c, a < n → b < n → c < n → d.lookup a c ≤ d.lookup a b + d.lookup b c)
    (hF : ∀ e ∈ F, e.src < n ∧ e.dest < n ∧ e.weight = d.lookup e.src e.dest ∧ e.src ≠ e.dest)
    (hφ : ∀ e ∈ F, φ e.dest = φ e.src + e.weight) (a b : Nat) (ha : a < n)
    (hr : DirReach F a b) : b < n ∧ d.lookup b a ≤ φ b - φ a := by
  unfold DirReach at hr
  induction hr with
  | refl => exact ⟨ha, by rw [hdiag, sub_self]⟩
  | @tail x y _ hstep ih =>
    obtain ⟨e, he, rfl, rfl⟩ := hstep
    obtain ⟨h1, h2, h3, _⟩ := hF e he
    refine ⟨h2, ?_⟩
    have t := htri e.dest e.src a h2 h1 ha
    rw [hφ e he, h3, hsym e.src e.dest]
    linarith [ih.2]

theorem sum_filter_le_of_imp (F : List (Edge R)) (P Q : Edge R → Bool)
    (hnn : ∀ e ∈ F, 0 ≤ e.weight) (himp : ∀ e ∈ F, P e = true → Q e = true) :
    ((F.filter P).map Edge.weight).sum ≤ ((F.filter Q).map Edge.weight).sum := by
  induction F with
  | nil => simp
  | cons x xs ih =>
    have ih' := ih (fun e he => hnn e (List.mem_cons_of_mem _ he))
      (fun e he => himp e (List.mem_cons_of_mem _ he))
    have hx := hnn x (List.mem_cons_self _ _)
    by_cases hp : P x = true
    · have hq := himp x (List.mem_cons_self _ _) hp
      rw [List.filter_cons_of_pos hp, List.filter_cons_of_pos hq]
      simp only [List.map_cons, List.sum_cons]
      linarith
    · rw [List.filter_cons_of_neg hp]
      by_cases hq : Q x = true
      · rw [List.filter_cons_of_pos hq]
        simp only [List.map_cons, List.sum_cons]
        linarith
      · rw [List.filter_cons_of_neg hq]
        exact ih'

theorem sum_filter_add_le (F : List (Edge R)) (P Q : Edge R → Bool)
    (hnn : ∀ e ∈ F, 0 ≤ e.weight) (himp : ∀ e ∈ F, P e = true → Q e = true)
    (e0 : Edge R) (he0 : e0 ∈ F) (hq0 : Q e0 = true) (hp0 : P e0 = false) :
    ((F.filter P).map Edge.weight).sum + e0.weight ≤ ((F.filter Q).map Edge.weight).sum := by
  induction F with
  | nil => simp at he0
  | cons x xs ih =>
    have hmono := sum_filter_le_of_imp xs P Q (fun e he => hnn e (List.mem_cons_of_mem _ he))
      (fun e he => himp e (List.mem_cons_of_mem _ he))
    have hx := hnn x (List.mem_cons_self _ _)
    rcases List.mem_cons.mp he0 with rfl | hmem
    · rw [List.filter_cons_of_neg (by simp [hp0]), List.filter_cons_of_pos hq0]
      simp only [List.map_cons, List.sum_cons]
      linarith
    · have ih' := ih (fun e he => hnn e (List.mem_cons_of_mem _ he))
        (fun e he => himp e (List.mem_cons_of_mem _ he)) hmem
      by_cases hp : P x = true
      · have hq := himp x (List.mem_cons_self _ _) hp
        rw [List.filter_cons_of_pos hp, List.filter_cons_of_pos hq]
        simp only [List.map_cons, List.sum_cons]
        linarith
      · rw [List.filter_cons_of_neg hp]
        by_cases hq : Q x = true
        · rw [List.filter_cons_of_pos hq]
          simp only [List.map_cons, List.sum_cons]
          linarith
        · rw [List.filter_cons_of_neg hq]
          exact ih'

theorem getLastD_append_singleton (l : List Nat) (x : Nat) : (l ++ [x]).getLastD 0 = x := by
  rw [List.getLastD_eq_getLast?, List.getLast?_append]
  rfl

theorem walkInv_step (d : DistanceTable R) (n : Nat) (F : List (Edge R)) (φ : Nat → R)
    (hsym : ∀ a b, d.lookup a b = d.lookup b a) (hdiag : ∀ a, d.lookup a a = 0)
    (hnn : ∀ a b, 0 ≤ d.lookup a b)
    (htri : ∀ a b c, a < n → b < n → c < n → d.lookup a c ≤ d.lookup a b + d.lookup b c)
    (hout : MstOutput d.lookup n F) (hφ0 : φ 0 = 0)
    (hφ : ∀ e ∈ F, φ e.dest = φ e.src + e.weight) (s : DfsState)
    (hinv : DfsInv n (Graph.new (F.foldl AdjacencyList.add_edge (AdjacencyList.ofSize n))) s)
    (hP : s.result ≠ [] → WalkInv d F φ s) (hne : s.stack ≠ []) :
    ((Graph.new (F.foldl AdjacencyList.add_edge (AdjacencyList.ofSize n))).preorderStep s).result
        ≠ [] →
      WalkInv d F φ
        ((Graph.new (F.foldl AdjacencyList.add_edge (AdjacencyList.ofSize n))).preorderStep s) := by
  have hF : ∀ e ∈ F, e.src < n ∧ e.dest < n := fun e he =>
    ⟨(hout.range e he).1, (hout.range e he).2.1⟩
  have hFnn : ∀ e ∈ F, 0 ≤ e.weight := fun e he => by
    rw [(hout.range e he).2.2.1]
    exact hnn _ _
  obtain ⟨next, rest, hs⟩ : ∃ next rest, s.stack = next :: rest := by
    cases h : s.stack with
    | nil => exact absurd h hne
    | cons a b => exact ⟨a, b, rfl⟩
  have hnext : next < n := hinv.stack next (by rw [hs]; exact List.mem_cons_self _ _)
  cases hv : s.visited.getD next false with
  | true =>
    rw [preorderStep_skip _ s next rest hs hv]
    intro hres
    have W := hP hres
    refine ⟨W.parents, ?_, W.cost⟩
    have := W.chain
    rw [hs, List.filter_cons_of_neg (by rw [hv]; decide)] at this
    exact this
  | false =>
    rw [preorderStep_visit _ s next rest hs hv]
    intro _
    have hnot : next ∉ s.result := fun h => by
      rw [(hinv.vis next).mpr h] at hv
      cases hv
    have hv' : ∀ j, (s.visited.set next true).getD j false
        = (decide (j = next) || s.visited.getD j false) :=
      fun j => getD_set_true _ _ _ (by rw [hinv.vlen]; exact hnext)
    have hfil : ∀ l : List Nat, l.filter (fun x => !(s.visited.set next true).getD x false)
        = (l.filter (fun x => !s.visited.getD x false)).filter (fun x => !decide (x = next)) := by
      intro l
      rw [List.filter_filter]
      apply List.filter_congr
      intro x _
      rw [hv']
      cases decide (x = next) <;> cases s.visited.getD x false <;> rfl
    -- the entries pushed for `next` that are still to be visited are children of `next`
    have hchildren : ∀ x ∈ (((Graph.new (F.foldl AdjacencyList.add_edge
        (AdjacencyList.ofSize n))).adjacency_list.get next).map Edge.dest).filter
        (fun x => !(s.visited.set next true).getD x false),
        ∃ e ∈ F, e.dest = x ∧ e.src = next := by
      intro x hx
      obtain ⟨hx1, hx2⟩ := List.mem_filter.mp hx
      obtain ⟨e, he, rfl⟩ := List.mem_map.mp hx1
      obtain ⟨heF, hends⟩ := (mem_treeGraph n F hF e next).mp he
      rw [hv'] at hx2
      have hne' : e.dest ≠ next := by
        intro h
        rw [h] at hx2
        simp at hx2
      rcases hends with h | h
      · exact ⟨e, heF, rfl, h⟩
      · exact absurd h hne'
    by_cases hres : s.result = []
    · -- the first city
      have hn0 : next = 0 ∧ rest = [] := by
        rcases hinv.first with ⟨_, h2⟩ | h
        · rw [hs] at h2
          exact ⟨(List.cons.inj h2).1, (List.cons.inj h2).2⟩
        · rw [hres] at h
          cases h
      obtain ⟨rfl, rfl⟩ := hn0
      refine ⟨?_, ?_, ?_⟩
      · intro v hv0
        simp only [hres, List.nil_append, List.mem_singleton] at hv0
        exact Or.inl hv0
      · simp only [hres, List.nil_append]
        rw [List.filter_append]
        exact chain_children F 0 _ _ hchildren trivial
      · simp only [hres, List.nil_append, chainCost, List.getLastD_cons, List.getLastD_nil,
          hφ0, add_zero]
        have : 0 ≤ ((F.filter (fun e => decide (e.dest ∈ [0]))).map Edge.weight).sum := by
          apply List.sum_nonneg
          intro x hx
          obtain ⟨e, he, rfl⟩ := List.mem_map.mp hx
          exact hFnn e (List.mem_filter.mp he).1
        linarith
    · have W := hP hres
      have hlast : s.result.getLastD 0 ∈ s.result := getLastD_mem hres
      have hchain := W.chain
      rw [hs, List.filter_cons_of_pos (by rw [hv]; rfl)] at hchain
      obtain ⟨e, he, hed, hreach, hrest⟩ := hchain
      have hpres : e.src ∈ s.result :=
        ancestor_visited F hout.dests.1 hout.dests.2 s.result W.parents _ _ hreach hlast
      obtain ⟨hsn, _, hw, _⟩ := hout.range e he
      have hbl := branch_length d n F φ hsym hdiag htri hout.range hφ e.src _ hsn hreach
      refine ⟨?_, ?_, ?_⟩
      · intro v hvm
        simp only at hvm ⊢
        rcases List.mem_append.mp hvm with h | h
        · rcases W.parents v h with h0 | ⟨e', he', h1, h2⟩
          · exact Or.inl h0
          · exact Or.inr ⟨e', he', h1, List.mem_append_left _ h2⟩
        · rw [List.mem_singleton] at h
          exact Or.inr ⟨e, he, hed.trans h.symm, List.mem_append_left _ hpres⟩
      · simp only
        rw [getLastD_append_singleton, List.filter_append]
        apply chain_children F next _ _ hchildren
        rw [hfil]
        apply chain_filter
        exact chain_mono F _ _ _ hrest
          (Relation.ReflTransGen.single ⟨e, he, rfl, hed⟩)
      · simp only
        rw [getLastD_append_singleton, chainCost_append d _ _ hres (by simp)]
        simp only [List.headD_cons, chainCost, add_zero]
        have hsum := sum_filter_add_le F (fun e => decide (e.dest ∈ s.result))
          (fun e => decide (e.dest ∈ s.result ++ [next])) hFnn
          (fun x _ hx => by
            simp only [decide_eq_true_eq] at hx ⊢
            exact List.mem_append_left _ hx)
          e he (by simp [hed]) (by simp [hed, hnot])
        have hcost := W.cost
        have ht := htri (s.result.getLastD 0) e.src next hbl.1 hsn hnext
        have hφn : φ next = φ e.src + e.weight := by rw [← hed]; exact hφ e he
        have hwn : e.weight = d.lookup e.src next := by rw [hw, hed]
        rw [hφn]
        linarith [hbl.2]

/-! ## A tour without its closing edge is a spanning tree -/

theorem mem_chainPairs (l : List Nat) (x : Sym2 Nat) (hx : x ∈ chainPairs l) :
    ∀ v ∈ x, v ∈ l := by
  induction l with
  | nil => simp [chainPairs] at hx
  | cons a t ih =>
    cases t with
    | nil => simp [chainPairs] at hx
    | cons b t =>
      simp only [chainPairs, List.mem_cons] at hx
      rcases hx with rfl | hx
      · intro v hv
        rcases Sym2.mem_iff.mp hv with rfl | rfl <;> simp
      · intro v hv
        exact List.mem_cons_of_mem _ (ih hx v hv)

theorem nodup_chainPairs (l : List Nat) (hnd : l.Nodup) : (chainPairs l).Nodup := by
  induction l with
  | nil => simp [chainPairs]
  | cons a t ih =>
    cases t with
    | nil => simp [chainPairs]
    | cons b t =>
      simp only [chainPairs, List.nodup_cons]
      refine ⟨?_, ih (List.Nodup.of_cons hnd)⟩
      intro h
      have := mem_chainPairs (b :: t) _ h a (Sym2.mem_mk_left a b)
      exact (List.nodup_cons.mp hnd).1 this

theorem length_chainPairs (l : List Nat) : (chainPairs l).length = l.length - 1 := by
  induction l with
  | nil => rfl
  | cons a t ih =>
    cases t with
    | nil => rfl
    | cons b t =>
      simp only [chainPairs, List.length_cons] at ih ⊢
      omega

theorem joined_chainPairs (l : List Nat) :
    ∀ v ∈ l, Joined (chainPairs l).toFinset (l.headD 0) v := by
  induction l with
  | nil => simp
  | cons a t ih =>
    cases t with
    | nil =>
      intro v hv
      rw [List.mem_singleton] at hv
      rw [hv]
      exact Relation.ReflTransGen.refl
    | cons b t =>
      intro v hv
      rcases List.mem_cons.mp hv with hva | hv
      · rw [hva]
        exact Relation.ReflTransGen.refl
      · have h1 : Joined (chainPairs (a :: b :: t)).toFinset b v :=
          joined_mono (by
            intro x hx
            simp only [chainPairs, List.toFinset_cons, Finset.mem_insert]
            exact Or.inr hx) (ih v hv)
        have h2 : Joined (chainPairs (a :: b :: t)).toFinset a b :=
          Relation.ReflTransGen.single (by simp [chainPairs])
        exact h2.trans h1

theorem weight_chainPairs (d : DistanceTable R) (hsym : ∀ a b, d.lookup a b = d.lookup b a)
    (l : List Nat) : ((chainPairs l).map (pairWeight d.lookup)).sum = chainCost d l := by
  induction l with
  | nil => rfl
  | cons a t ih =>
    cases t with
    | nil => rfl
    | cons b t =>
      simp only [chainPairs, List.map_cons, List.sum_cons, chainCost_cons_cons]
      rw [pairWeight_mk d.lookup hsym, ih]

theorem spanning_chainPairs (n : Nat) (hn : 1 ≤ n) (q : List Nat)
    (hq : q.Perm (List.range n)) : IsSpanningTree n (chainPairs q).toFinset := by
  have hnd : q.Nodup := hq.nodup_iff.mpr (List.nodup_range n)
  have hlen : q.length = n := by rw [hq.length_eq, List.length_range]
  have hne : q ≠ [] := by
    intro h
    rw [h] at hlen
    simp at hlen
    omega
  refine ⟨?_, ?_, ?_⟩
  · rw [List.toFinset_card_of_nodup (nodup_chainPairs q hnd), length_chainPairs, hlen]
    omega
  · intro a b hab
    have hm := mem_chainPairs q _ (List.mem_toFinset.mp hab)
    have ha := hm a (Sym2.mem_mk_left a b)
    have hb := hm b (Sym2.mem_mk_right a b)
    refine ⟨List.mem_range.mp (hq.subset ha), List.mem_range.mp (hq.subset hb), ?_⟩
    intro h
    subst h
    -- a pair of consecutive cities of a tour without repetition is not a loop
    have : ∀ l : List Nat, l.Nodup → s(a, a) ∉ chainPairs l := by
      intro l
      induction l with
      | nil => intro _ h; simp [chainPairs] at h
      | cons x t ih =>
        cases t with
        | nil => intro _ h; simp [chainPairs] at h
        | cons y t =>
          intro hnd' h
          simp only [chainPairs, List.mem_cons] at h
          rcases h with h | h
          · rcases Sym2.eq_iff.mp h with ⟨h1, h2⟩ | ⟨h1, h2⟩
            · exact (List.nodup_cons.mp hnd').1 (by rw [← h1, h2]; simp)
            · exact (List.nodup_cons.mp hnd').1 (by rw [← h2, h1]; simp)
          · exact ih (List.Nodup.of_cons hnd') h
    exact this q hnd (List.mem_toFinset.mp hab)
  · intro v hv
    have h0 : 0 ∈ q := hq.symm.subset (List.mem_range.mpr (by omega))
    have hvq : v ∈ q := hq.symm.subset (List.mem_range.mpr hv)
    exact (joined_symm _ (joined_chainPairs q 0 h0)).trans (joined_chainPairs q v hvq)

theorem chainCost_le_full_cost (d : DistanceTable R) (hnn : ∀ a b, 0 ≤ d.lookup a b)
    (q : List Nat) : chainCost d q ≤ (Path.ofComplete q).full_cost d := by
  cases q with
  | nil => simp [chainCost, Path.full_cost, Path.ofComplete]
  | cons a t =>
    rw [full_cost_eq_chain d _ (by simp)]
    linarith [hnn ((a :: t).getLastD 0) ((a :: t).headD 0)]

/-- The tree built by `mst` weighs at most as much as any complete tour costs. -/
theorem mst_weight_le_tour (d : DistanceTable R) (n : Nat) (F : List (Edge R))
    (hsym : ∀ a b, d.lookup a b = d.lookup b a) (hnn : ∀ a b, 0 ≤ d.lookup a b) (hn : 1 ≤ n)
    (hout : MstOutput d.lookup n F) (q : List Nat) (hq : q.Perm (List.range n)) :
    (F.map Edge.weight).sum ≤ (Path.ofComplete q).full_cost d := by
  have h1 := hout.minimal _ (spanning_chainPairs n hn q hq)
  have hnd : q.Nodup := hq.nodup_iff.mpr (List.nodup_range n)
  unfold treeWeight at h1
  rw [List.sum_toFinset _ (nodup_chainPairs q hnd), weight_chainPairs d hsym] at h1
  exact le_trans h1 (chainCost_le_full_cost d hnn q)

/-- The preorder tour of the tree built by `mst` costs at most twice what any complete
tour costs, for a table that is a metric on the cities. -/
theorem two_approx_core (d : DistanceTable R) (adj : AdjacencyList R) (n : Nat)
    (hsym : ∀ a b, d.lookup a b = d.lookup b a) (hdiag : ∀ a, d.lookup a a = 0)
    (hnn : ∀ a b, 0 ≤ d.lookup a b)
    (htri : ∀ a b c, a < n → b < n → c < n → d.lookup a c ≤ d.lookup a b + d.lookup b c)
    (hn : 1 ≤ n) (hadj : CompleteAdj d.lookup n adj) (tie : Nat → Nat) :
    ∃ p, two_approx adj tie = some p ∧ GoodTour n p ∧
      ∀ q : List Nat, q.Perm (List.range n) →
        p.full_cost d ≤ 2 * (Path.ofComplete q).full_cost d := by
  obtain ⟨F, hF, hout⟩ := mstConnection_spec d.lookup hsym n hn adj hadj tie
  obtain ⟨φ, hφ0, hφ⟩ := hout.pot
  obtain ⟨s, hs, hinv, hW, hemp⟩ := preorder_traversal_spec n
    (Graph.new (F.foldl AdjacencyList.add_edge (AdjacencyList.ofSize n))) hn
    (size_treeGraph n F) (dest_lt_treeGraph d.lookup n F hout)
    (fun s => s.result ≠ [] → WalkInv d F φ s) (fun h => absurd rfl h)
    (fun s hi hP hne => walkInv_step d n F φ hsym hdiag hnn htri hout hφ0 hφ s hi hP hne)
  obtain ⟨hperm, hhead⟩ := dfs_final_perm d.lookup n F hout s hinv hemp
  have hres : s.result ≠ [] := by
    intro h
    rw [h] at hhead
    cases hhead
  have W := hW hres
  refine ⟨Path.ofComplete s.result, ?_, ⟨hperm, hhead⟩, ?_⟩
  · unfold two_approx Graph.mst
    rw [hF]
    simp only [Option.map_some', Option.some_bind, hs]
  · intro q hq
    have hlast : s.result.getLastD 0 < n :=
      List.mem_range.mp (hperm.subset (getLastD_mem hres))
    have hbl := branch_length d n F φ hsym hdiag htri hout.range hφ 0 _ (by omega)
      (hout.reach _ hlast)
    have hh : s.result.headD 0 = 0 := by
      cases hr : s.result with
      | nil => exact absurd hr hres
      | cons a t =>
        rw [hr] at hhead
        simpa using hhead
    have hFnn : ∀ e ∈ F, 0 ≤ e.weight := fun e he => by
      rw [(hout.range e he).2.2.1]
      exact hnn _ _
    have hsub := sum_filter_le_of_imp F (fun e => decide (e.dest ∈ s.result)) (fun _ => true)
      hFnn (fun _ _ _ => rfl)
    rw [List.filter_true] at hsub
    have hopt := mst_weight_le_tour d n F hsym hnn hn hout q hq
    rw [full_cost_eq_chain d _ hres, hh]
    have hc := W.cost
    rw [hφ0, sub_zero] at hbl
    linarith [hbl.2]

/-! ## Euclidean distances -/

theorem lookup_build_outside (sqrt : R → R) (cities : List (City R)) (x y : Nat)
    (hxy : ¬ (x < cities.length ∧ y < cities.length)) :
    (DistanceTable.build sqrt cities).lookup x y = 0 := by
  obtain ⟨hlen, hrow⟩ := build_dims sqrt cities
  unfold DistanceTable.lookup
  by_cases hx : x < cities.length
  · have hy : ¬ y < cities.length := fun hy => hxy ⟨hx, hy⟩
    have := hrow x hx
    rw [List.getD_eq_getElem?_getD ((DistanceTable.build sqrt cities).distance.getD x []),
      List.getElem?_eq_none (by omega)]
    rfl
  · rw [List.getD_eq_getElem?_getD (DistanceTable.build sqrt cities).distance,
      List.getElem?_eq_none (by omega)]
    rfl

theorem euclid_triangle (a b c : City ℝ) :
    a.distance Real.sqrt c ≤ a.distance Real.sqrt b + b.distance Real.sqrt c := by
  have h := Complex.abs.sub_le (⟨a.x, a.y⟩ : ℂ) ⟨b.x, b.y⟩ ⟨c.x, c.y⟩
  simpa [City.distance, Complex.abs_apply, Complex.normSq_apply] using h

theorem build_metric (cities : List (City ℝ))
    (hids : (cities.map City.id).Perm (List.range cities.length)) :
    (∀ a, (DistanceTable.build Real.sqrt cities).lookup a a = 0) ∧
    (∀ a b, 0 ≤ (DistanceTable.build Real.sqrt cities).lookup a b) ∧
    (∀ a b c, a < cities.length → b < cities.length → c < cities.length →
      (DistanceTable.build Real.sqrt cities).lookup a c
        ≤ (DistanceTable.build Real.sqrt cities).lookup a b
          + (DistanceTable.build Real.sqrt cities).lookup b c) := by
  refine ⟨?_, ?_, ?_⟩
  · intro a
    by_cases ha : a < cities.length
    · obtain ⟨ca, hca, rfl⟩ := exists_city_of_id cities hids a ha
      rw [lookup_build _ _ hids ca ca hca hca]
      simp [City.distance]
    · exact lookup_build_outside _ _ _ _ (fun h => ha h.1)
  · intro a b
    by_cases hab : a < cities.length ∧ b < cities.length
    · obtain ⟨ca, hca, rfl⟩ := exists_city_of_id cities hids a hab.1
      obtain ⟨cb, hcb, rfl⟩ := exists_city_of_id cities hids b hab.2
      rw [lookup_build _ _ hids ca cb hca hcb]
      exact Real.sqrt_nonneg _
    · rw [lookup_build_outside _ _ _ _ hab]
  · intro a b c ha hb hc
    obtain ⟨ca, hca, rfl⟩ := exists_city_of_id cities hids a ha
    obtain ⟨cb, hcb, rfl⟩ := exists_city_of_id cities hids b hb
    obtain ⟨cc, hcc, rfl⟩ := exists_city_of_id cities hids c hc
    rw [lookup_build _ _ hids ca cc hca hcc, lookup_build _ _ hids ca cb hca hcb,
      lookup_build _ _ hids cb cc hcb hcc]
    exact euclid_triangle ca cb cc

/-- C4. For `N ≥ 1` cities with ids `0..N-1` and Euclidean distances over the reals, the
tour `Path(mst().preorder_traversal())` of `main` is produced, whatever order the lists
of the adjacency list are in and whatever the heap does with equal weights, and its
`full_cost` is at most twice the `full_cost` of every permutation of `0..N-1`, hence
at most twice the optimum. -/
theorem two_approx_within_twice_optimal (cities : List (City ℝ))
    (hids : (cities.map City.id).Perm (List.range cities.length)) (hn : 1 ≤ cities.length)
    (adj : AdjacencyList ℝ) (hsize : adj.size = cities.length)
    (hperm : ∀ i, i < cities.length →
      (adj.get i).Perm ((AdjacencyList.ofCities Real.sqrt cities).get i))
    (tie : Nat → Nat) :
    ∃ p, two_approx adj tie = some p ∧
      ∀ q : List Nat, q.Perm (List.range cities.length) →
        p.full_cost (DistanceTable.build Real.sqrt cities)
          ≤ 2 * (Path.ofComplete q).full_cost (DistanceTable.build Real.sqrt cities) := by
  obtain ⟨h1, h2, h3⟩ := build_metric cities hids
  obtain ⟨p, hp, _, hq⟩ := two_approx_core (DistanceTable.build Real.sqrt cities) adj
    cities.length (lookup_build_symm Real.sqrt cities hids) h1 h2 h3 hn
    (completeAdj_of_perm _ _ _ adj (completeAdj_ofCities Real.sqrt cities hids) hsize hperm) tie
  exact ⟨p, hp, hq⟩

/-- Instance of the approximation property: three cities at `(0, 0)`, `(3, 4)`, `(6, 0)`. -/
theorem two_approx_within_twice_optimal_witness :
    ∃ p, two_approx (AdjacencyList.ofCities Real.sqrt
        ([⟨0, 0, 0⟩, ⟨1, 3, 4⟩, ⟨2, 6, 0⟩] : List (City ℝ))).sort_by_weight (fun _ => 0)
        = some p ∧
      ∀ q : List Nat, q.Perm (List.range 3) →
        p.full_cost
            (DistanceTable.build Real.sqrt ([⟨0, 0, 0⟩, ⟨1, 3, 4⟩, ⟨2, 6, 0⟩] : List (City ℝ)))
          ≤ 2 * (Path.ofComplete q).full_cost
            (DistanceTable.build Real.sqrt ([⟨0, 0, 0⟩, ⟨1, 3, 4⟩, ⟨2, 6, 0⟩] : List (City ℝ))) :=
  two_approx_within_twice_optimal [⟨0, 0, 0⟩, ⟨1, 3, 4⟩, ⟨2, 6, 0⟩] (by decide) (by decide)
    (AdjacencyList.ofCities Real.sqrt [⟨0, 0, 0⟩, ⟨1, 3, 4⟩, ⟨2, 6, 0⟩]).sort_by_weight
    ((size_sort_by_weight _).trans (completeAdj_ofCities Real.sqrt _ (by decide)).1)
    (fun i _ => sort_by_weight_perm _ i) (fun _ => 0)

/-! ## A pass of `evolve` that keeps nothing has tried every pair -/

theorem foldl_keeps {σ α : Type} (f : σ → α → σ) (U : σ → Prop)
    (hmono : ∀ s a, U s → U (f s a)) (l : List α) (s : σ) (h : U s) : U (l.foldl f s) := by
  induction l generalizing s with
  | nil => exact h
  | cons a t ih => exact ih _ (hmono s a h)

theorem foldl_stable {σ α : Type} (f : σ → α → σ) (U : σ → Prop) (Q : α → Prop) (s0 : σ)
    (hmono : ∀ s a, U s → U (f s a)) (l : List α)
    (hstep : ∀ a ∈ l, ¬ U (f s0 a) → f s0 a = s0 ∧ Q a)
    (h : ¬ U (l.foldl f s0)) : l.foldl f s0 = s0 ∧ ∀ a ∈ l, Q a := by
  induction l with
  | nil => exact ⟨rfl, fun a ha => by simp at ha⟩
  | cons a t ih =>
    rw [List.foldl_cons] at h ⊢
    by_cases hu : U (f s0 a)
    · exact absurd (foldl_keeps f U hmono t _ hu) h
    · obtain ⟨he, hq⟩ := hstep a (List.mem_cons_self _ _) hu
      rw [he] at h ⊢
      obtain ⟨h1, h2⟩ := ih (fun b hb => hstep b (List.mem_cons_of_mem _ hb)) h
      refine ⟨h1, ?_⟩
      intro b hb
      rcases List.mem_cons.mp hb with rfl | hb
      · exact hq
      · exact h2 b hb

theorem evolveTry_updated (d : DistanceTable R) (i : Nat) (s : EvolveState R) (j : Nat)
    (h : s.updated = true) : (evolveTry d i s j).updated = true := by
  unfold evolveTry
  simp only
  split
  · rfl
  · exact h

theorem evolveTry_stable (d : DistanceTable R) (p : Path) (c : R) (i j : Nat)
    (hi : i < p.path.length) (hj : j < p.path.length)
    (h : ¬ (evolveTry d i ⟨p, c, false⟩ j).updated = true) :
    evolveTry d i ⟨p, c, false⟩ j = ⟨p, c, false⟩ ∧ ¬ (p.swap i j).full_cost d < c := by
  unfold evolveTry at h ⊢
  simp only at h ⊢
  split at h
  · exact absurd rfl h
  · rename_i hlt
    rw [if_neg hlt, swap_swap p i j hi hj]
    exact ⟨rfl, hlt⟩

/-- A pass that ends with `updated = false` has left the tour as it was and has found
no swap of two positions `1 ≤ i < j` that lowers the cost. -/
theorem evolvePass_stable (d : DistanceTable R) (p : Path) (c : R)
    (h : (evolvePass d p c).updated = false) :
    evolvePass d p c = ⟨p, c, false⟩ ∧
    ∀ i j, 1 ≤ i → i < j → j < p.path.length → ¬ (p.swap i j).full_cost d < c := by
  have hU : ¬ (evolvePass d p c).updated = true := by simp [h]
  unfold evolvePass at hU ⊢
  obtain ⟨h1, h2⟩ := foldl_stable
    (fun s i => (List.range' (i + 1) (p.path.length - (i + 1))).foldl (evolveTry d i) s)
    (fun s => s.updated = true)
    (fun i => ∀ j, i < j → j < p.path.length → ¬ (p.swap i j).full_cost d < c)
    ⟨p, c, false⟩
    (fun s i hs => foldl_keeps (evolveTry d i) (fun s => s.updated = true)
      (fun s j hs => evolveTry_updated d i s j hs) _ s hs)
    (List.range' 1 (p.path.length - 1))
    (by
      intro i hi hUi
      rw [List.mem_range'_1] at hi
      obtain ⟨e1, e2⟩ := foldl_stable (evolveTry d i) (fun s => s.updated = true)
        (fun j => ¬ (p.swap i j).full_cost d < c) ⟨p, c, false⟩
        (fun s j hs => evolveTry_updated d i s j hs)
        (List.range' (i + 1) (p.path.length - (i + 1)))
        (by
          intro j hj hUj
          rw [List.mem_range'_1] at hj
          exact evolveTry_stable d p c i j (by omega) (by omega) hUj)
        hUi
      refine ⟨e1, ?_⟩
      intro j hij hj
      exact e2 j (List.mem_range'_1.mpr (by omega)))
    hU
  refine ⟨h1, ?_⟩
  intro i j hi hij hj
  exact h2 i (List.mem_range'_1.mpr (by omega)) j hij hj

theorem evolveLoop_fuel (d : DistanceTable R) (k m : Nat) (p r : Path) (c : R)
    (h : evolveLoop d k p c = some r) : evolveLoop d (k + m) p c = some r := by
  induction k generalizing p c with
  | zero => simp [evolveLoop] at h
  | succ k ih =>
    rw [Nat.add_right_comm]
    unfold evolveLoop at h ⊢
    simp only at h ⊢
    split
    · rename_i hu
      rw [if_pos hu] at h
      exact ih _ _ h
    · rename_i hu
      rw [if_neg hu] at h
      exact h

/-- C19. `evolve` returns a tour that is a rearrangement of the tour it got, with the
same city at position 0, and no swap of two positions `1 ≤ i < j < length` of the
returned tour has a strictly smaller `full_cost`. -/
theorem evolve_swap_local_optimum (d : DistanceTable R) (p : Path) :
    ∃ r, p.evolve d = some r ∧ r.path.Perm p.path ∧ r.path.head? = p.path.head? ∧
      ∀ i j, 1 ≤ i → i < j → j < r.path.length →
        ¬ (r.swap i j).full_cost d < r.full_cost d := by
  obtain ⟨r, hr⟩ := evolve_terminates d p
  obtain ⟨h1, _, h3, _, h5⟩ := evolve_spec d p r hr
  refine ⟨r, hr, h1, h3, ?_⟩
  have hup : (evolvePass d r (r.full_cost d)).updated = false := by rw [h5]
  exact (evolvePass_stable d r _ hup).2

/-- C20. The pass loop of `evolve` ends: a pass that sets `updated` leaves a
rearrangement of the tour with a strictly smaller `full_cost`, and the loop returns
after at most `length! + 1` passes, with the same result for every larger number of
passes allowed. -/
theorem evolve_pass_loop_ends (d : DistanceTable R) (p : Path) :
    (∀ q : Path, (evolvePass d q (q.full_cost d)).updated = true →
      (evolvePass d q (q.full_cost d)).tour.full_cost d < q.full_cost d ∧
      (evolvePass d q (q.full_cost d)).tour.path.Perm q.path) ∧
    ∃ k r, k ≤ p.path.length.factorial + 1 ∧
      (∀ fuel, k ≤ fuel → evolveLoop d fuel p (p.full_cost d) = some r) ∧
      p.evolve d = some r := by
  refine ⟨?_, ?_⟩
  · intro q hq
    obtain ⟨hperm, _, _, hcost, _, _, hyes⟩ := passInv_pass d q
    rw [← hcost]
    exact ⟨hyes hq, hperm⟩
  · obtain ⟨r, hr⟩ := evolve_terminates d p
    refine ⟨_, r, le_refl _, ?_, hr⟩
    intro fuel hf
    obtain ⟨m, rfl⟩ := Nat.exists_eq_add_of_le hf
    exact evolveLoop_fuel d _ m p r _ hr

/-! ## The invariant of `Path` -/

theorem path_eq_dropLast_back (p : Path) (hne : p.path ≠ []) :
    p.path = p.path.dropLast ++ [p.back] := by
  have h := List.dropLast_append_getLast hne
  have hb : p.back = p.path.getLast hne := by
    unfold Path.back
    rw [List.getLastD_eq_getLast?, List.getLast?_eq_getLast _ hne]
    rfl
  rw [hb, h]

theorem count_true_set_false (l : List Bool) (i : Nat) (h : l.getD i false = true) :
    (l.set i false).count true + 1 = l.count true := by
  have hi : i < l.length := by
    by_contra hc
    simp [List.getD_eq_getElem?_getD, List.getElem?_eq_none (not_lt.mp hc)] at h
  have hget : l[i] = true := by
    simpa [List.getD_eq_getElem?_getD, List.getElem?_eq_getElem hi] using h
  rw [List.count_set _ _ _ _ hi, hget]
  have hpos : 0 < l.count true := List.count_pos_iff.mpr (hget ▸ List.getElem_mem hi)
  simp
  omega

theorem tourInv_ofLength (n : Nat) : TourInv (Path.ofLength n) := by
  refine ⟨List.nodup_nil, ?_, ?_⟩
  · intro c
    simp only [Path.ofLength, Path.is_visited, List.getD_eq_getElem?_getD,
      List.getElem?_replicate]
    split <;> simp
  · simp [Path.ofLength, Path.length, List.count_replicate]

theorem tourInv_ofComplete (n : Nat) (l : List Nat) (h : l.Perm (List.range n)) :
    TourInv (Path.ofComplete l) := by
  refine ⟨h.nodup_iff.mpr (List.nodup_range n), ?_, ?_⟩
  · intro c
    have hmem : c ∈ l ↔ c < l.length := by
      rw [h.mem_iff, List.mem_range, h.length_eq, List.length_range]
    simp only [Path.ofComplete, Path.is_visited, List.getD_eq_getElem?_getD,
      List.getElem?_replicate, hmem]
    split <;> simp [*]
  · simp [Path.ofComplete, Path.length, List.count_replicate]

theorem tourInv_push (p : Path) (c : Nat) (hinv : TourInv p) (hc : c < p.visited.length)
    (hnot : p.is_visited c = false) : TourInv (p.push c) := by
  obtain ⟨hnd, hiff, hcount⟩ := hinv
  have hnotmem : c ∉ p.path := fun hm => by
    rw [(hiff c).mpr hm] at hnot
    cases hnot
  refine ⟨?_, ?_, ?_⟩
  · simp only [Path.push]
    rw [List.nodup_append]
    refine ⟨hnd, List.nodup_singleton _, ?_⟩
    intro x hx hx'
    rw [List.mem_singleton] at hx'
    exact hnotmem (hx' ▸ hx)
  · intro c'
    rw [isVisited_push p c c' hc]
    simp only [Path.push, List.mem_append, List.mem_singleton, Bool.or_eq_true,
      decide_eq_true_eq, hiff c']
    tauto
  · have := (count_false_set_true p.visited c hnot hc).2
    simp only [Path.push, Path.length, List.length_append, List.length_singleton] at hcount ⊢
    rw [this]
    omega

theorem tourInv_pop (p : Path) (hinv : TourInv p) (hne : p.path ≠ []) : TourInv p.pop := by
  obtain ⟨hnd, hiff, hcount⟩ := hinv
  have hsplit := path_eq_dropLast_back p hne
  have hnd' : (p.path.dropLast ++ [p.back]).Nodup := hsplit ▸ hnd
  rw [List.nodup_append] at hnd'
  have hbmem : p.back ∈ p.path := by
    rw [hsplit]
    simp
  have hbv : p.is_visited p.back = true := (hiff _).mpr hbmem
  have hbnot : p.back ∉ p.path.dropLast := fun h => hnd'.2.2 h (List.mem_singleton_self _)
  have hblt := isVisited_lt p _ hbv
  refine ⟨hnd'.1, ?_, ?_⟩
  · intro c
    have hc := hiff c
    rw [hsplit, List.mem_append, List.mem_singleton] at hc
    simp only [Path.pop, Path.is_visited, List.getD_eq_getElem?_getD, List.getElem?_set] at hc ⊢
    by_cases hcb : p.back = c
    · subst hcb
      simp [hblt, hbnot]
    · rw [if_neg hcb]
      have hcb' : ¬ c = p.back := fun e => hcb e.symm
      constructor
      · intro h
        rcases hc.mp h with h' | h'
        · exact h'
        · exact absurd h' hcb'
      · intro h
        exact hc.mpr (Or.inl h)
  · have h1 := count_true_set_false p.visited p.back hbv
    have h2 : p.path.length = p.path.dropLast.length + 1 := by
      rw [List.length_dropLast]
      have := List.length_pos.mpr hne
      omega
    simp only [Path.pop, Path.length] at hcount ⊢
    omega

/-- C12. The invariant of `Path` holds for `Path(N)` and for `Path(p)` when `p` is a
permutation of `0..N-1`; `push(c)` of a city in range that is not visited and `pop()`
on a tour that is not empty preserve it; `pop()` after `push(c)` of a city that is not
visited gives the tour back. -/
theorem tour_invariant :
    (∀ n : Nat, TourInv (Path.ofLength n)) ∧
    (∀ (n : Nat) (l : List Nat), l.Perm (List.range n) → TourInv (Path.ofComplete l)) ∧
    (∀ (p : Path) (c : Nat), TourInv p → c < p.visited.length → p.is_visited c = false →
      TourInv (p.push c)) ∧
    (∀ p : Path, TourInv p → p.path ≠ [] → TourInv p.pop) ∧
    (∀ (p : Path) (c : Nat), p.is_visited c = false → (p.push c).pop = p) :=
  ⟨tourInv_ofLength, tourInv_ofComplete, tourInv_push, tourInv_pop, push_pop⟩

/-- Instance of the invariant: the tours `Path(3)`, `Path([2, 0, 1])`, and `[0]`, `[0, 2]`
got from `Path(3)` by `push`, then `[0]` again by `pop`. -/
theorem tour_invariant_witness :
    TourInv (Path.ofLength 3) ∧ TourInv (Path.ofComplete [2, 0, 1]) ∧
    TourInv (((Path.ofLength 3).push 0).push 2) ∧
    TourInv (((Path.ofLength 3).push 0).push 2).pop ∧
    (((Path.ofLength 3).push 0).push 2).pop = (Path.ofLength 3).push 0 :=
  ⟨tour_invariant.1 3, tour_invariant.2.1 3 [2, 0, 1] (by decide),
    tour_invariant.2.2.1 _ 2 (tour_invariant.2.2.1 _ 0 (tour_invariant.1 3) (by decide) rfl)
      (by decide) rfl,
    tour_invariant.2.2.2.1 _
      (tour_invariant.2.2.1 _ 2 (tour_invariant.2.2.1 _ 0 (tour_invariant.1 3) (by decide) rfl)
        (by decide) rfl) (by decide),
    tour_invariant.2.2.2.2 _ 2 rfl⟩

/-! ## The lower bound of every tour that is not empty -/

theorem sum_twoHalves_le_ends (d : DistanceTable R) (adj : AdjacencyList R) (n : Nat)
    (hadj : CompleteAdj d.lookup n adj) (hsorted : SortedAdj n adj) (p : Path)
    (a b : Nat) (u : List Nat) (hnd1 : (a :: u).Nodup) (hnd2 : (u ++ [b]).Nodup)
    (hab : u.length = 1 → a ≠ b)
    (hq : ∀ x ∈ a :: u ++ [b],
      x < n ∧ (x = p.front ∨ x = p.back ∨ p.is_visited x = false)) :
    (u.map (fun c => twoHalves p (adj.get c))).sum ≤ halfSum d a u b := by
  induction u generalizing a with
  | nil => simp [halfSum]
  | cons c t ih =>
    have ha := hq a (List.mem_cons_self _ _)
    have hc := hq c (by simp)
    have hac : a ≠ c := by
      intro h
      subst h
      simp at hnd1
    cases t with
    | nil =>
      have hb := hq b (by simp)
      have hbc : b ≠ c := by
        intro h
        subst h
        simp at hnd2
      simp only [List.map_cons, List.map_nil, List.sum_cons, List.sum_nil, add_zero, halfSum]
      exact twoHalves_le d adj n hadj hsorted p c a b hc.1 ha.1 hb.1 hac hbc (hab rfl)
        ha.2 hb.2
    | cons c' t =>
      have hc' := hq c' (by simp)
      have hcc' : c' ≠ c := by
        intro h
        subst h
        simp at hnd1
      have hac' : a ≠ c' := by
        intro h
        subst h
        simp at hnd1
      have hcb : t.length + 1 = 1 → c ≠ b := by
        intro _ h
        subst h
        simp at hnd2
      have h1 := twoHalves_le d adj n hadj hsorted p c a c' hc.1 ha.1 hc'.1 hac hcc' hac'
        ha.2 hc'.2
      have h2 := ih c (List.Nodup.of_cons hnd1) (List.Nodup.of_cons hnd2)
        (by simpa using hcb) (fun x hx => hq x (List.mem_cons_of_mem _ hx))
      simp only [List.map_cons, List.sum_cons, halfSum] at h2 ⊢
      linarith

theorem twoHalves_single (p : Path) (l : List (Edge R)) (e : Edge R) (hl : l = [e])
    (hnn : 0 ≤ e.weight) : twoHalves p l ≤ e.weight / 2 := by
  subst hl
  unfold twoHalves
  rw [List.filter_cons]
  split
  · simp
  · simp only [List.filter_nil, List.take_nil, List.map_nil, List.sum_nil]
    linarith

/-- The first three parts of `lower_bound` against the two edges that join the tour to
the rest `u` of a complete tour. -/
theorem lower_bound_le_parts (d : DistanceTable R) (adj : AdjacencyList R) (n : Nat)
    (hadj : CompleteAdj d.lookup n adj) (hsorted : SortedAdj n adj) (p : Path)
    (hv : ValidTour n p) (hpne : p.path ≠ []) (u : List Nat) (hu : u ≠ [])
    (hq : (p.path ++ u).Perm (List.range n)) :
    p.lower_bound d adj ≤ chainCost d p.path + d.lookup p.front (u.getLastD 0) / 2
      + d.lookup p.back (u.headD 0) / 2 + (u.map (fun c => twoHalves p (adj.get c))).sum := by
  have hqnd : (p.path ++ u).Nodup := hq.nodup_iff.mpr (List.nodup_range n)
  have hqlt : ∀ x ∈ p.path ++ u, x < n := fun x hx => List.mem_range.mp (hq.subset hx)
  have hdisj : ∀ x ∈ u, x ∉ p.path := fun x hx hxp => (List.nodup_append.mp hqnd).2.2 hxp hx
  have hunv : ∀ x ∈ u, p.is_visited x = false := by
    intro x hx
    cases h : p.is_visited x with
    | false => rfl
    | true => exact absurd ((hv.2.2 x).mp h) (hdisj x hx)
  have hfront : p.front ∈ p.path := headD_mem hpne
  have hback : p.back ∈ p.path := getLastD_mem hpne
  have hu1 : u.headD 0 ∈ u := headD_mem hu
  have huk : u.getLastD 0 ∈ u := getLastD_mem hu
  rw [lower_bound_eq, (unvisited_perm n p hv u hq).map _ |>.sum_eq]
  have hB := firstOpenHalf_le p (adj.get p.front) (chainCost d p.path)
    (hsorted _ (hqlt _ (List.mem_append_left _ hfront)))
    ⟨p.front, u.getLastD 0, d.lookup p.front (u.getLastD 0)⟩
    ((completeAdj_mem hadj (hqlt _ (List.mem_append_left _ hfront)) _).mpr
      ⟨rfl, hqlt _ (List.mem_append_right _ huk),
        fun h => hdisj _ huk (by simp only at h; rw [h]; exact hfront), rfl⟩)
    (hunv _ huk)
  have hC := firstOpenHalf_le p (adj.get p.back)
    (p.firstOpenHalf (adj.get p.front) (chainCost d p.path))
    (hsorted _ (hqlt _ (List.mem_append_left _ hback)))
    ⟨p.back, u.headD 0, d.lookup p.back (u.headD 0)⟩
    ((completeAdj_mem hadj (hqlt _ (List.mem_append_left _ hback)) _).mpr
      ⟨rfl, hqlt _ (List.mem_append_right _ hu1),
        fun h => hdisj _ hu1 (by simp only at h; rw [h]; exact hback), rfl⟩)
    (hunv _ hu1)
  simp only at hB hC
  linarith

theorem ofComplete_of_valid (n : Nat) (p : Path) (hv : ValidTour n p)
    (hq : p.path.Perm (List.range n)) : p = Path.ofComplete p.path := by
  cases p with
  | mk l v =>
    simp only [Path.ofComplete, Path.mk.injEq, true_and]
    have hlen : v.length = l.length := by
      rw [hv.2.1, hq.length_eq, List.length_range]
    apply List.ext_getElem
    · simp [hlen]
    · intro i h1 h2
      have hi : i ∈ l := hq.symm.subset (List.mem_range.mpr (hv.2.1 ▸ h1))
      have := (hv.2.2 i).mpr hi
      simp only [Path.is_visited, List.getD_eq_getElem?_getD, List.getElem?_eq_getElem h1,
        Option.getD_some] at this
      simp [this]

theorem chainCost_nonneg (d : DistanceTable R) (hnn : ∀ a b, 0 ≤ d.lookup a b) (l : List Nat) :
    0 ≤ chainCost d l := by
  induction l with
  | nil => exact le_refl _
  | cons a t ih =>
    cases t with
    | nil => exact le_refl _
    | cons b t =>
      rw [chainCost_cons_cons]
      exact add_nonneg (hnn a b) ih

theorem lower_bound_le_complete (d : DistanceTable R) (adj : AdjacencyList R) (n : Nat)
    (hnn : ∀ a b, 0 ≤ d.lookup a b)
    (hadj : CompleteAdj d.lookup n adj) (p : Path)
    (hv : ValidTour n p) (hpne : p.path ≠ []) (hq : p.path.Perm (List.range n)) :
    p.lower_bound d adj ≤ (Path.ofComplete p.path).full_cost d := by
  have hvis : ∀ c, c < n → p.is_visited c = true := fun c hc =>
    (hv.2.2 c).mpr (hq.symm.subset (List.mem_range.mpr hc))
  have hopen : ∀ x, x ∈ p.path → ∀ lb : R, p.firstOpenHalf (adj.get x) lb = lb := by
    intro x hx lb
    apply firstOpenHalf_none
    intro e he
    exact hvis _ ((completeAdj_mem hadj (valid_lt hv hx) e).mp he).2.1
  have hnil : (List.range p.visited.length).filter (fun c => !p.is_visited c) = [] := by
    have := unvisited_perm n p hv [] (by simpa using hq)
    exact List.perm_nil.mp this
  have hb : p.back ∈ p.path := getLastD_mem hpne
  have hf : p.front ∈ p.path := headD_mem hpne
  rw [lower_bound_eq, hnil, hopen _ hb, hopen _ hf, full_cost_eq_chain d _ hpne]
  simp only [List.map_nil, List.sum_nil, add_zero]
  linarith [hnn (p.path.getLastD 0) (p.path.headD 0)]

theorem lower_bound_le_single (d : DistanceTable R) (adj : AdjacencyList R) (n : Nat)
    (hsym : ∀ a b, d.lookup a b = d.lookup b a) (hnn : ∀ a b, 0 ≤ d.lookup a b)
    (hadj : CompleteAdj d.lookup n adj) (hsorted : SortedAdj n adj) (p : Path)
    (hv : ValidTour n p) (a : Nat) (hp : p.path = [a]) (u : List Nat) (hu : u ≠ [])
    (hq : (p.path ++ u).Perm (List.range n)) :
    p.lower_bound d adj ≤ (Path.ofComplete (p.path ++ u)).full_cost d := by
  have hpne : p.path ≠ [] := by simp [hp]
  have hparts := lower_bound_le_parts d adj n hadj hsorted p hv hpne u hu hq
  have hqnd : (p.path ++ u).Nodup := hq.nodup_iff.mpr (List.nodup_range n)
  have hqlt : ∀ x ∈ p.path ++ u, x < n := fun x hx => List.mem_range.mp (hq.subset hx)
  have hfront : p.front = a := by simp [Path.front, hp]
  have hback : p.back = a := by simp [Path.back, hp]
  have hunv : ∀ x ∈ u, p.is_visited x = false := by
    intro x hx
    cases h : p.is_visited x with
    | false => rfl
    | true =>
      exact absurd hx ((List.nodup_append.mp hqnd).2.2 ((hv.2.2 x).mp h))
  rw [full_cost_eq_chain d _ (by simp [hpne])]
  rw [hp] at hq hqnd hqlt hparts ⊢
  rw [hfront, hback] at hparts
  have e1 : ([a] ++ u).getLastD 0 = u.getLastD 0 := by
    cases u with
    | nil => exact absurd rfl hu
    | cons c t => simp [List.getLastD_cons]
  have e2 : ([a] ++ u).headD 0 = a := rfl
  have e3 := chainCost_append d [a] u (by simp) hu
  have e4 : chainCost d [a] = 0 := rfl
  rw [e1, e2, e3, e4]
  rw [e4] at hparts
  simp only [List.getLastD_cons, List.getLastD_nil] at *
  rw [List.singleton_append] at hqnd hqlt hq
  match u, hu with
  | [c], _ =>
    -- two cities: the only edge of `c` leads to `a`
    have hn : n = 2 := by
      have := hq.length_eq
      simpa using this.symm
    have hc : c < n := hqlt c (by simp)
    have hlen := completeAdj_length hadj hc
    obtain ⟨e, he⟩ : ∃ e, adj.get c = [e] := by
      rw [hn] at hlen
      exact List.length_eq_one.mp hlen
    have hmem := (completeAdj_mem hadj hc e).mp (by rw [he]; simp)
    have hed : e.dest = a := by
      have : e.dest ∈ [a, c] := hq.symm.subset (List.mem_range.mpr hmem.2.1)
      simp only [List.mem_cons, List.mem_singleton, List.not_mem_nil, or_false] at this
      rcases this with h | h
      · exact h
      · exact absurd h hmem.2.2.1
    have h2 := twoHalves_single p (adj.get c) e he (by rw [hmem.2.2.2]; exact hnn _ _)
    rw [hmem.2.2.2, hed] at h2
    simp only [List.map_cons, List.map_nil, List.sum_cons, List.sum_nil, add_zero,
      List.headD_cons, List.getLastD_cons, List.getLastD_nil] at hparts ⊢
    have s1 := hsym c a
    have n1 := hnn a c
    have e5 : chainCost d [c] = 0 := rfl
    rw [e5]
    linarith
  | c :: c' :: t, _ =>
    have hD := sum_twoHalves_le_ends d adj n hadj hsorted p a a (c :: c' :: t) hqnd
      (by
        rw [List.nodup_append]
        refine ⟨List.Nodup.of_cons hqnd, List.nodup_singleton _, ?_⟩
        intro x hx hx'
        rw [List.mem_singleton] at hx'
        subst hx'
        exact (List.nodup_cons.mp hqnd).1 hx)
      (by intro h; simp at h)
      (by
        intro x hx
        have hx' : x = a ∨ x ∈ c :: c' :: t := by
          rcases List.mem_cons.mp hx with h | h
          · exact Or.inl h
          · rcases List.mem_append.mp h with h | h
            · exact Or.inr h
            · exact Or.inl (List.mem_singleton.mp h)
        rcases hx' with rfl | h
        · exact ⟨hqlt _ (List.mem_cons_self _ _), Or.inl hfront.symm⟩
        · exact ⟨hqlt _ (List.mem_cons_of_mem _ h), Or.inr (Or.inr (hunv x h))⟩)
    have hchain := halfSum_chain d hsym a a (c :: c' :: t) (by simp)
    simp only [List.headD_cons, List.getLastD_cons] at hparts hchain ⊢
    have s1 := hsym a (t.getLastD c')
    linarith

/-- C18, in exact arithmetic. For a valid tour `p` that is not empty, a symmetric table
without negative entries and the complete adjacency list that agrees with it, sorted by
weight, `lower_bound(p)` is at most the `full_cost` of every complete tour that starts with `p`;
hence when `lower_bound(p)` is not below the cost of an incumbent, no complete tour that
starts with `p` is strictly cheaper than the incumbent. -/
theorem lower_bound_admissible (d : DistanceTable R) (adj : AdjacencyList R) (n : Nat)
    (hsym : ∀ a b, d.lookup a b = d.lookup b a) (hnn : ∀ a b, 0 ≤ d.lookup a b)
    (hadj : CompleteAdj d.lookup n adj) (hsorted : SortedAdj n adj) (p : Path)
    (hv : ValidTour n p) (hne : p.path ≠ []) :
    (∀ u : List Nat, (p.path ++ u).Perm (List.range n) →
      p.lower_bound d adj ≤ (Path.ofComplete (p.path ++ u)).full_cost d) ∧
    (∀ best : Path, ¬ p.lower_bound d adj < best.full_cost d →
      ∀ u : List Nat, (p.path ++ u).Perm (List.range n) →
        ¬ (Path.ofComplete (p.path ++ u)).full_cost d < best.full_cost d) := by
  have main : ∀ u : List Nat, (p.path ++ u).Perm (List.range n) →
      p.lower_bound d adj ≤ (Path.ofComplete (p.path ++ u)).full_cost d := by
    intro u hq
    by_cases hu : u = []
    · subst hu
      rw [List.append_nil] at hq ⊢
      exact lower_bound_le_complete d adj n hnn hadj p hv hne hq
    · by_cases h2 : 2 ≤ p.path.length
      · exact lower_bound_le_full_cost d adj n hsym hadj hsorted p hv h2 u hu hq
      · have h1 : p.path.length = 1 := by
          have := List.length_pos.mpr hne
          omega
        obtain ⟨a, ha⟩ := List.length_eq_one.mp h1
        exact lower_bound_le_single d adj n hsym hnn hadj hsorted p hv a ha u hu hq
  refine ⟨main, ?_⟩
  intro best hb u hq hlt
  exact hb (lt_of_le_of_lt (main u hq) hlt)

/-! ## The lower bound as a formula over the distance table -/

/-- The call of `branch_bound` on the tour `[0]` for four cities on a line, with the
incumbent `[0, 2, 1, 3]` of cost `8`: the candidates are `(5, 1)`, `(11/2, 2)`, `(6, 3)`;
after the first two the incumbent is `[0, 1, 2, 3]` of cost `6`; the bound `6` of the
last candidate, city `3`, is not below that cost, and yet the loop body makes the
recursive call, whatever that call does. -/
theorem prune_current_incumbent_counterexample :
    (Path.ofComplete [0, 2, 1, 3]).full_cost fourCityTable = 8 ∧
    (branchOrder fourCityTable fourCityAdj ((Path.ofLength 4).push 0)).2.insertionSort pairLe
      = [(5, 1), (11 / 2, 2), (6, 3)] ∧
    [((5 : ℚ), 1), (11 / 2, 2)].foldlM
        (branchStep (branch_bound fourCityTable fourCityAdj 3)
          ((Path.ofComplete [0, 2, 1, 3]).full_cost fourCityTable))
        ((branchOrder fourCityTable fourCityAdj ((Path.ofLength 4).push 0)).1,
          Path.ofComplete [0, 2, 1, 3])
      = some ((Path.ofLength 4).push 0, Path.ofComplete [0, 1, 2, 3]) ∧
    (Path.ofComplete [0, 1, 2, 3]).full_cost fourCityTable = 6 ∧
    ¬ ((6 : ℚ) < (Path.ofComplete [0, 1, 2, 3]).full_cost fourCityTable) ∧
    ∀ search : Path → Path → Option (Path × Path),
      branchStep search ((Path.ofComplete [0, 2, 1, 3]).full_cost fourCityTable)
          ((Path.ofLength 4).push 0, Path.ofComplete [0, 1, 2, 3]) (6, 3)
        = (search (((Path.ofLength 4).push 0).push 3) (Path.ofComplete [0, 1, 2, 3])).map
            (fun r => (r.1.pop, r.2)) := by
  have h8 : (Path.ofComplete [0, 2, 1, 3]).full_cost fourCityTable = 8 := by
    with_unfolding_all decide
  have h6 : (Path.ofComplete [0, 1, 2, 3]).full_cost fourCityTable = 6 := by
    with_unfolding_all decide
  refine ⟨h8, by with_unfolding_all decide, by with_unfolding_all decide, h6, ?_, ?_⟩
  · rw [h6]
    exact lt_irrefl _
  · intro search
    unfold branchStep
    simp only
    rw [h8, if_pos (by norm_num)]

/-- C15 at two cities. For two cities one unit apart, the tour `[0]` and the incumbent
`[0, 1]`: `lower_bound` of `[0]`, the value that `branch_bound` compares with the cost of
the incumbent, is `3/2`, while the completed tour `[0, 1]` has `full_cost` `2`, the cost
of the incumbent; the comparison `best_cost > cost` succeeds although the completed tour
is not strictly cheaper than the incumbent. -/
theorem near_complete_two_cities :
    ValidTour 2 ((Path.ofLength 2).push 0) ∧
    pushLastCity ((Path.ofLength 2).push 0) 2 = ((Path.ofLength 2).push 0).push 1 ∧
    ((Path.ofLength 2).push 0).lower_bound twoCityTable twoCityAdj = 3 / 2 ∧
    (pushLastCity ((Path.ofLength 2).push 0) 2).full_cost twoCityTable = 2 ∧
    (Path.ofComplete [0, 1]).full_cost twoCityTable = 2 ∧
    (Path.ofComplete [0, 1]).full_cost twoCityTable
      > ((Path.ofLength 2).push 0).lower_bound twoCityTable twoCityAdj ∧
    ¬ ((pushLastCity ((Path.ofLength 2).push 0) 2).full_cost twoCityTable
      < (Path.ofComplete [0, 1]).full_cost twoCityTable) := by
  refine ⟨valid_start 2 (by omega), by decide, by with_unfolding_all decide,
    by with_unfolding_all decide, by with_unfolding_all decide, by with_unfolding_all decide,
    by with_unfolding_all decide⟩

/-- Instance of admissibility: three cities at `(0, 0)`, `(3, 4)`, `(6, 0)` and the tour
`[0]`. -/
theorem lower_bound_admissible_witness :
    (∀ u : List Nat, (((Path.ofLength 3).push 0).path ++ u).Perm (List.range 3) →
      ((Path.ofLength 3).push 0).lower_bound
          (DistanceTable.build Real.sqrt ([⟨0, 0, 0⟩, ⟨1, 3, 4⟩, ⟨2, 6, 0⟩] : List (City ℝ)))
          (AdjacencyList.ofCities Real.sqrt
            ([⟨0, 0, 0⟩, ⟨1, 3, 4⟩, ⟨2, 6, 0⟩] : List (City ℝ))).sort_by_weight
        ≤ (Path.ofComplete (((Path.ofLength 3).push 0).path ++ u)).full_cost
          (DistanceTable.build Real.sqrt
            ([⟨0, 0, 0⟩, ⟨1, 3, 4⟩, ⟨2, 6, 0⟩] : List (City ℝ)))) ∧
    (∀ best : Path,
      ¬ ((Path.ofLength 3).push 0).lower_bound
          (DistanceTable.build Real.sqrt ([⟨0, 0, 0⟩, ⟨1, 3, 4⟩, ⟨2, 6, 0⟩] : List (City ℝ)))
          (AdjacencyList.ofCities Real.sqrt
            ([⟨0, 0, 0⟩, ⟨1, 3, 4⟩, ⟨2, 6, 0⟩] : List (City ℝ))).sort_by_weight
        < best.full_cost
          (DistanceTable.build Real.sqrt
            ([⟨0, 0, 0⟩, ⟨1, 3, 4⟩, ⟨2, 6, 0⟩] : List (City ℝ))) →
      ∀ u : List Nat, (((Path.ofLength 3).push 0).path ++ u).Perm (List.range 3) →
        ¬ (Path.ofComplete (((Path.ofLength 3).push 0).path ++ u)).full_cost
            (DistanceTable.build Real.sqrt
              ([⟨0, 0, 0⟩, ⟨1, 3, 4⟩, ⟨2, 6, 0⟩] : List (City ℝ)))
          < best.full_cost
            (DistanceTable.build Real.sqrt
              ([⟨0, 0, 0⟩, ⟨1, 3, 4⟩, ⟨2, 6, 0⟩] : List (City ℝ)))) :=
  lower_bound_admissible
    (DistanceTable.build Real.sqrt ([⟨0, 0, 0⟩, ⟨1, 3, 4⟩, ⟨2, 6, 0⟩] : List (City ℝ)))
    (AdjacencyList.ofCities Real.sqrt [⟨0, 0, 0⟩, ⟨1, 3, 4⟩, ⟨2, 6, 0⟩]).sort_by_weight 3
    (lookup_build_symm Real.sqrt _ (by decide))
    (build_metric [⟨0, 0, 0⟩, ⟨1, 3, 4⟩, ⟨2, 6, 0⟩] (by decide)).2.1
    (completeAdj_of_perm _ _ _ _
      (completeAdj_ofCities Real.sqrt [⟨0, 0, 0⟩, ⟨1, 3, 4⟩, ⟨2, 6, 0⟩] (by decide))
      ((size_sort_by_weight _).trans (completeAdj_ofCities Real.sqrt _ (by decide)).1)
      (fun i _ => sort_by_weight_perm _ i))
    (sort_by_weight_sorted _ _) ((Path.ofLength 3).push 0) (valid_start 3 (by omega))
    (by decide)

/-! ## The pipeline of `main` -/

theorem tours_of_four (l : List Nat) (h : l.Perm (List.range 4)) (h0 : l.head? = some 0) :
    l = [0, 1, 2, 3] ∨ l = [0, 3, 2, 1] ∨ l = [0, 1, 3, 2] ∨ l = [0, 2, 1, 3] ∨
    l = [0, 2, 3, 1] ∨ l = [0, 3, 1, 2] := by
  have hnd : l.Nodup := h.nodup_iff.mpr (List.nodup_range 4)
  have hlt : ∀ x ∈ l, x < 4 := fun x hx => List.mem_range.mp (h.subset hx)
  have hlen : l.length = 4 := by simpa using h.length_eq
  match l, hlen, hnd, hlt, h0 with
  | [a, b, c, e], _, hnd, hlt, h0 =>
    have ha : a = 0 := by simpa using h0
    have hb := hlt b (by simp)
    have hc := hlt c (by simp)
    have he := hlt e (by simp)
    subst ha
    simp only [List.nodup_cons, List.mem_cons, List.mem_singleton, List.not_mem_nil,
      not_or, List.nodup_nil, or_false, not_false_eq_true, and_true] at hnd
    interval_cases b <;> interval_cases c <;> interval_cases e <;> simp_all

theorem unitSquare_lookup (a b : City ℝ) (ha : a ∈ unitSquare) (hb : b ∈ unitSquare) :
    (DistanceTable.build Real.sqrt unitSquare).lookup a.id b.id = a.distance Real.sqrt b :=
  lookup_build Real.sqrt unitSquare (by decide) a b ha hb

theorem unitSquare_side :
    (DistanceTable.build Real.sqrt unitSquare).lookup 0 1 = 1 ∧
    (DistanceTable.build Real.sqrt unitSquare).lookup 1 2 = 1 ∧
    (DistanceTable.build Real.sqrt unitSquare).lookup 2 3 = 1 ∧
    (DistanceTable.build Real.sqrt unitSquare).lookup 3 0 = 1 ∧
    (DistanceTable.build Real.sqrt unitSquare).lookup 0 2 = Real.sqrt 2 ∧
    (DistanceTable.build Real.sqrt unitSquare).lookup 1 3 = Real.sqrt 2 := by
  have h01 := unitSquare_lookup ⟨0, 0, 0⟩ ⟨1, 0, 1⟩ (by simp [unitSquare]) (by simp [unitSquare])
  have h12 := unitSquare_lookup ⟨1, 0, 1⟩ ⟨2, 1, 1⟩ (by simp [unitSquare]) (by simp [unitSquare])
  have h23 := unitSquare_lookup ⟨2, 1, 1⟩ ⟨3, 1, 0⟩ (by simp [unitSquare]) (by simp [unitSquare])
  have h30 := unitSquare_lookup ⟨3, 1, 0⟩ ⟨0, 0, 0⟩ (by simp [unitSquare]) (by simp [unitSquare])
  have h02 := unitSquare_lookup ⟨0, 0, 0⟩ ⟨2, 1, 1⟩ (by simp [unitSquare]) (by simp [unitSquare])
  have h13 := unitSquare_lookup ⟨1, 0, 1⟩ ⟨3, 1, 0⟩ (by simp [unitSquare]) (by simp [unitSquare])
  simp only [City.distance] at h01 h12 h23 h30 h02 h13
  norm_num at h01 h12 h23 h30 h02 h13
  exact ⟨h01, h12, h23, h30, h02, h13⟩

theorem one_lt_sqrt_two : (1 : ℝ) < Real.sqrt 2 := by
  have h : Real.sqrt 1 < Real.sqrt 2 := Real.sqrt_lt_sqrt (by norm_num) (by norm_num)
  rwa [Real.sqrt_one] at h

theorem full_cost_four (d : DistanceTable R) (a b c e : Nat) :
    (Path.ofComplete [a, b, c, e]).full_cost d
      = d.lookup a b + d.lookup b c + d.lookup c e + d.lookup e a := by
  rw [full_cost_eq_chain d _ (by simp)]
  simp only [chainCost, List.getLastD_cons, List.getLastD_nil, List.headD_cons]
  ring

/-- C11. For the four corners of the unit square, with the adjacency list in any order
that `sort_by_weight` may leave and the heap of `mst` choosing among equal weights in
any way, the pipeline of `main` returns an incumbent whose `full_cost` is `4` and whose
sequence is `[0, 1, 2, 3]` or `[0, 3, 2, 1]`. -/
theorem main_unit_square (adj : AdjacencyList ℝ) (hsize : adj.size = 4)
    (hperm : ∀ i, i < 4 →
      (adj.get i).Perm ((AdjacencyList.ofCities Real.sqrt unitSquare).get i))
    (hsorted : SortedAdj 4 adj) (tie : Nat → Nat) :
    ∃ r, mainFrom Real.sqrt unitSquare adj tie = some r ∧
      r.full_cost (DistanceTable.build Real.sqrt unitSquare) = 4 ∧
      (r.path = [0, 1, 2, 3] ∨ r.path = [0, 3, 2, 1]) := by
  have hids : (unitSquare.map City.id).Perm (List.range unitSquare.length) := by decide
  have hsym := lookup_build_symm Real.sqrt unitSquare hids
  obtain ⟨hdiag, hnn, htri⟩ := build_metric unitSquare hids
  have hadj : CompleteAdj (DistanceTable.build Real.sqrt unitSquare).lookup 4 adj :=
    completeAdj_of_perm _ _ _ adj (completeAdj_ofCities Real.sqrt unitSquare hids) hsize hperm
  obtain ⟨p, hp, hgood, _⟩ := two_approx_core (DistanceTable.build Real.sqrt unitSquare) adj 4
    hsym hdiag hnn htri (by omega) hadj tie
  obtain ⟨⟨r, hr⟩, hopt⟩ := branch_bound_optimal_core (DistanceTable.build Real.sqrt unitSquare)
    adj 4 hsym hadj hsorted (by omega) p hgood
  obtain ⟨hg, hmin⟩ := hopt 4 r hr
  obtain ⟨h01, h12, h23, h30, h02, h13⟩ := unitSquare_side
  have h10 := (hsym 1 0).trans h01
  have h21 := (hsym 2 1).trans h12
  have h32 := (hsym 3 2).trans h23
  have h03 := (hsym 0 3).trans h30
  have h20 := (hsym 2 0).trans h02
  have h31 := (hsym 3 1).trans h13
  have hle := hmin [0, 1, 2, 3] (by decide) rfl
  rw [full_cost_four, h01, h12, h23, h30] at hle
  have hs := one_lt_sqrt_two
  have hcost : ∀ q : List Nat, r.2.path = q →
      r.2.full_cost (DistanceTable.build Real.sqrt unitSquare)
        = (Path.ofComplete q).full_cost (DistanceTable.build Real.sqrt unitSquare) :=
    fun q hq => full_cost_congr _ r.2 (Path.ofComplete q) hq
  refine ⟨r.2, ?_, ?_⟩
  · unfold mainFrom
    simp only [hp, Option.some_bind]
    have h4 : unitSquare.length = 4 := rfl
    rw [h4, hr]
    rfl
  · rcases tours_of_four r.2.path hg.1 hg.2 with h | h | h | h | h | h
    · refine ⟨?_, Or.inl h⟩
      rw [hcost _ h, full_cost_four, h01, h12, h23, h30]
      norm_num
    · refine ⟨?_, Or.inr h⟩
      rw [hcost _ h, full_cost_four, h03, h32, h21, h10]
      norm_num
    · rw [hcost _ h, full_cost_four, h01, h13, h32, h20] at hle
      linarith
    · rw [hcost _ h, full_cost_four, h02, h21, h13, h30] at hle
      linarith
    · rw [hcost _ h, full_cost_four, h02, h23, h31, h10] at hle
      linarith
    · rw [hcost _ h, full_cost_four, h03, h31, h12, h20] at hle
      linarith

/-- Instance of the unit square: `main` with the order that the sort of the model gives
and the heap handing out the first of its lightest edges. -/
theorem main_unit_square_witness :
    ∃ r, main Real.sqrt unitSquare (fun _ => 0) = some r ∧
      r.full_cost (DistanceTable.build Real.sqrt unitSquare) = 4 ∧
      (r.path = [0, 1, 2, 3] ∨ r.path = [0, 3, 2, 1]) :=
  main_unit_square (AdjacencyList.ofCities Real.sqrt unitSquare).sort_by_weight
    ((size_sort_by_weight _).trans (completeAdj_ofCities Real.sqrt unitSquare (by decide)).1)
    (fun i _ => sort_by_weight_perm _ i) (sort_by_weight_sorted _ _) (fun _ => 0)

/-! ## The incumbent stays a complete tour and never gets dearer -/

theorem valid_of_perm {n : Nat} {p b : Path} (hv : ValidTour n p) (hperm : b.path.Perm p.path)
    (hvis : b.visited = p.visited) : ValidTour n b := by
  refine ⟨hperm.nodup_iff.mpr hv.1, by rw [hvis]; exact hv.2.1, ?_⟩
  intro c
  have := hv.2.2 c
  unfold Path.is_visited at this ⊢
  rw [hvis, this, hperm.mem_iff]

theorem visited_of_good {n : Nat} {b : Path} (hv : ValidTour n b) (hg : GoodTour n b) (c : Nat)
    (hc : c < n) : b.is_visited c = true :=
  (hv.2.2 c).mpr (hg.1.symm.subset (List.mem_range.mpr hc))

theorem valid_ofComplete (n : Nat) (l : List Nat) (h : l.Perm (List.range n)) :
    ValidTour n (Path.ofComplete l) := by
  have hlen : l.length = n := by simpa using h.length_eq
  refine ⟨h.nodup_iff.mpr (List.nodup_range n), by simp [Path.ofComplete, hlen], ?_⟩
  intro c
  have hmem : c ∈ l ↔ c < l.length := by
    rw [h.mem_iff, List.mem_range, hlen]
  simp only [Path.ofComplete, Path.is_visited, List.getD_eq_getElem?_getD,
    List.getElem?_replicate, hmem]
  split <;> simp [*] <;> omega

theorem branch_bound_incumbent_aux (d : DistanceTable R) (adj : AdjacencyList R) (n : Nat)
    (hsym : ∀ a b, d.lookup a b = d.lookup b a) (hadj : CompleteAdj d.lookup n adj)
    (hn : 2 ≤ n) (fuel : Nat) (temp best : Path) (r : Path × Path)
    (hv : ValidTour n temp) (hhead : temp.path.head? = some 0) (hbest : GoodTour n best)
    (hbv : ValidTour n best) (h : branch_bound d adj fuel temp best = some r) :
    GoodTour n r.2 ∧ ValidTour n r.2 ∧ r.2.full_cost d ≤ best.full_cost d := by
  have hsize : adj.size = n := hadj.1
  have hne : temp.path ≠ [] := by
    intro hnil
    rw [hnil] at hhead
    cases hhead
  induction fuel generalizing temp best r with
  | zero => simp [branch_bound] at h
  | succ k ih =>
    unfold branch_bound at h
    simp only at h
    split at h
    · -- one city left
      rename_i hlen
      have hlen' : temp.path.length + 1 = n := by
        unfold Path.length at hlen
        omega
      obtain ⟨c, hc, hnot, hpush⟩ := pushLastCity_eq hv (by omega)
      have hvp := valid_push hv hc hnot
      have hq0 : (temp.path ++ [c]).Perm (List.range n) :=
        perm_range_of_valid hvp (by simp [Path.push, hlen'])
      rw [hsize, hpush] at h
      split at h
      · rename_i hgt
        cases he : (temp.push c).evolve d with
        | none => rw [he] at h; cases h
        | some b =>
          rw [he] at h
          cases h
          obtain ⟨h1, h2, h3, h4, _⟩ := evolve_spec d _ b he
          have hgood : GoodTour n b :=
            ⟨h1.trans hq0, by rw [h3, head_push temp c hne, hhead]⟩
          refine ⟨hgood, valid_of_perm hvp h1 h2, ?_⟩
          simp only
          by_cases h2n : n = 2
          · subst h2n
            exact le_of_eq (full_cost_congr d b best
              ((goodTour_two b hgood).trans (goodTour_two best hbest).symm))
          · have hlb := lower_bound_near_complete d adj n hsym hadj temp hv (by omega) c hq0
            rw [hlb] at hgt
            have hcost : (temp.push c).full_cost d
                = (Path.ofComplete (temp.path ++ [c])).full_cost d :=
              full_cost_congr d _ _ rfl
            rw [hcost] at h4
            exact le_of_lt (lt_of_le_of_lt h4 hgt)
      · cases h
        exact ⟨hbest, hbv, le_refl _⟩
    · -- branching
      have hfin := foldlM_some_inv
        (fun (s : Path × Path) =>
          s.1 = temp ∧ GoodTour n s.2 ∧ ValidTour n s.2 ∧ s.2.full_cost d ≤ best.full_cost d)
        _ _ _ r
        ⟨(branchOrder_spec d adj temp).1, hbest, hbv, le_refl _⟩
        (by
          rintro ⟨t, b⟩ x hx s' ⟨hs1, hs2, hs3, hs4⟩ hstep
          simp only at hs1 hs2 hs3 hs4
          subst hs1
          obtain ⟨hxlt, hxnv, _⟩ := mem_candidates d adj t x hx
          rw [hsize] at hxlt
          have hvp := valid_push hv hxlt hxnv
          simp only [branchStep] at hstep
          split at hstep
          · cases hrec : branch_bound d adj k (t.push x.2) b with
            | none => rw [hrec] at hstep; cases hstep
            | some r' =>
              rw [hrec] at hstep
              cases hstep
              obtain ⟨g1, g2, g3⟩ := ih (t.push x.2) b r' hvp
                (by rw [head_push t x.2 hne, hhead]) hs2 hs3 hrec (by simp [Path.push])
              refine ⟨?_, g1, g2, le_trans g3 hs4⟩
              simp only
              rw [branch_bound_restores_aux d adj k _ b r' (hsize ▸ hvp) hrec]
              exact push_pop t x.2 hxnv
          · cases hstep
            exact ⟨push_pop t x.2 hxnv, hs2, hs3, hs4⟩)
        h
      exact hfin.2

/-- C22, for the complete adjacency list. For `N ≥ 2` cities, a symmetric table and the
complete adjacency list that agrees with it, a valid in-progress tour that starts at
city 0 and an incumbent that is a valid tour over all of `0..N-1` starting at city 0: the
call of `branch_bound` returns, and
after it the incumbent is a permutation of `0..N-1` that starts at city 0, every
`visited` flag of it is set, it satisfies the invariant of tours, and its `full_cost`
is at most the `full_cost` of the incumbent before the call. -/
theorem branch_bound_incumbent_invariant (d : DistanceTable R) (adj : AdjacencyList R)
    (n : Nat) (hsym : ∀ a b, d.lookup a b = d.lookup b a)
    (hadj : CompleteAdj d.lookup n adj) (hn : 2 ≤ n) (temp best : Path)
    (hv : ValidTour n temp) (hhead : temp.path.head? = some 0) (hbest : GoodTour n best)
    (hbv : ValidTour n best) :
    (∃ r, branch_bound d adj n temp best = some r) ∧
    ∀ fuel r, branch_bound d adj fuel temp best = some r →
      GoodTour n r.2 ∧ (∀ c, c < n → r.2.is_visited c = true) ∧ ValidTour n r.2 ∧
      r.2.full_cost d ≤ best.full_cost d := by
  refine ⟨?_, ?_⟩
  · apply branch_bound_returns_aux d adj n temp best (hadj.1 ▸ hv)
    have : 0 < temp.path.length := by
      cases hp : temp.path with
      | nil => rw [hp] at hhead; cases hhead
      | cons a t => simp
    rw [hadj.1]
    omega
  · intro fuel r h
    obtain ⟨g1, g2, g3⟩ := branch_bound_incumbent_aux d adj n hsym hadj hn fuel temp best r
      hv hhead hbest hbv h
    exact ⟨g1, fun c hc => visited_of_good g2 g1 c hc, g2, g3⟩

/-- Instance of the incumbent invariant: three cities at `(0, 0)`, `(3, 4)`, `(6, 0)`,
the tour `[0]` and the incumbent `[0, 2, 1]`. -/
theorem branch_bound_incumbent_invariant_witness :
    (∃ r, branch_bound
      (DistanceTable.build Real.sqrt ([⟨0, 0, 0⟩, ⟨1, 3, 4⟩, ⟨2, 6, 0⟩] : List (City ℝ)))
      (AdjacencyList.ofCities Real.sqrt
        ([⟨0, 0, 0⟩, ⟨1, 3, 4⟩, ⟨2, 6, 0⟩] : List (City ℝ))).sort_by_weight 3
      ((Path.ofLength 3).push 0) (Path.ofComplete [0, 2, 1]) = some r) ∧
    ∀ fuel r, branch_bound
        (DistanceTable.build Real.sqrt ([⟨0, 0, 0⟩, ⟨1, 3, 4⟩, ⟨2, 6, 0⟩] : List (City ℝ)))
        (AdjacencyList.ofCities Real.sqrt
          ([⟨0, 0, 0⟩, ⟨1, 3, 4⟩, ⟨2, 6, 0⟩] : List (City ℝ))).sort_by_weight fuel
        ((Path.ofLength 3).push 0) (Path.ofComplete [0, 2, 1]) = some r →
      GoodTour 3 r.2 ∧ (∀ c, c < 3 → r.2.is_visited c = true) ∧ ValidTour 3 r.2 ∧
      r.2.full_cost
          (DistanceTable.build Real.sqrt ([⟨0, 0, 0⟩, ⟨1, 3, 4⟩, ⟨2, 6, 0⟩] : List (City ℝ)))
        ≤ (Path.ofComplete [0, 2, 1]).full_cost
          (DistanceTable.build Real.sqrt ([⟨0, 0, 0⟩, ⟨1, 3, 4⟩, ⟨2, 6, 0⟩] : List (City ℝ))) :=
  branch_bound_incumbent_invariant
    (DistanceTable.build Real.sqrt ([⟨0, 0, 0⟩, ⟨1, 3, 4⟩, ⟨2, 6, 0⟩] : List (City ℝ)))
    (AdjacencyList.ofCities Real.sqrt [⟨0, 0, 0⟩, ⟨1, 3, 4⟩, ⟨2, 6, 0⟩]).sort_by_weight 3
    (lookup_build_symm Real.sqrt _ (by decide))
    (completeAdj_of_perm _ _ _ _
      (completeAdj_ofCities Real.sqrt [⟨0, 0, 0⟩, ⟨1, 3, 4⟩, ⟨2, 6, 0⟩] (by decide))
      ((size_sort_by_weight _).trans (completeAdj_ofCities Real.sqrt _ (by decide)).1)
      (fun i _ => sort_by_weight_perm _ i))
    (by decide) ((Path.ofLength 3).push 0) (Path.ofComplete [0, 2, 1])
    (valid_start 3 (by omega)) rfl ⟨by decide, rfl⟩ (valid_ofComplete 3 [0, 2, 1] (by decide))

/-! ## The edges of `mst` lead away from city 0 -/

theorem ranked_add (w : Nat → Nat → R) (n : Nat) (s : MstState R) (F : List (Edge R))
    (e : Edge R) (cand : List (Edge R)) (he : e ∈ s.candidate) (hinv : PrimInv w n s F)
    (hvis : s.visited.getD e.dest false = false) (hr : Ranked s F) :
    Ranked { connection := s.connection.add_edge e, candidate := cand,
             visited := s.visited.set e.dest true } (F ++ [e]) := by
  obtain ⟨rank, h1, h2⟩ := hr
  obtain ⟨_, hsv, hdest, _⟩ := hinv.cand e he
  have hdl : e.dest < s.visited.length := by rw [hinv.vlen]; exact hdest
  have hsd : e.src ≠ e.dest := by
    intro h
    rw [h, hvis] at hsv
    cases hsv
  refine ⟨fun v => if v = e.dest then F.length + 1 else rank v, ?_, ?_⟩
  · intro v hv
    simp only [List.length_append, List.length_singleton]
    split
    · exact le_refl _
    · rename_i hne
      rw [getD_set_true _ _ _ hdl] at hv
      simp only [hne, decide_False, Bool.false_or] at hv
      have := h1 v hv
      omega
  · intro e' he'
    rcases List.mem_append.mp he' with h | h
    · obtain ⟨a1, a2, _, _⟩ := hinv.edges e' h
      have n1 : e'.src ≠ e.dest := by
        intro hh
        rw [hh, hvis] at a1
        cases a1
      have n2 : e'.dest ≠ e.dest := by
        intro hh
        rw [hh, hvis] at a2
        cases a2
      simp only [n1, n2, if_false]
      exact h2 e' h
    · rw [List.mem_singleton.mp h]
      simp only [hsd, if_false, if_true]
      have := h1 e.src hsv
      omega

theorem mstLoop_ranked (w : Nat → Nat → R) (hsym : ∀ a b, w a b = w b a) (n : Nat)
    (g : Graph R) (hg : CompleteAdj w n g.adjacency_list) (tie : Nat → Nat) (fuel k : Nat)
    (s : MstState R) (F : List (Edge R)) (hinv : PrimInv w n s F) (hr : Ranked s F)
    (hfuel : mstMeasure n s < fuel) :
    ∃ s' F', g.mstLoop tie fuel k s = some s' ∧ PrimInv w n s' F' ∧ s'.candidate = [] ∧
      Ranked s' F' := by
  induction fuel generalizing k s F with
  | zero => omega
  | succ fuel ih =>
    unfold Graph.mstLoop
    by_cases hemp : s.candidate = []
    · exact ⟨s, F, by simp [hemp], hinv, hemp, hr⟩
    · have : s.candidate.isEmpty = false := by
        cases hc : s.candidate with
        | nil => exact absurd hc hemp
        | cons _ _ => rfl
      rw [this]
      simp only [Bool.false_eq_true, if_false]
      obtain ⟨_, _, hm⟩ := mstStep_inv w hsym n g hg (tie k) s F hinv hemp
      obtain ⟨hi, hmin⟩ := topPosition_spec (tie k) s.candidate hemp
      cases hvis : s.visited.getD (s.candidate[topPosition (tie k) s.candidate]).dest false with
      | true =>
        have hstep := mstStep_skip g (tie k) s hi hvis
        rw [hstep] at hm ⊢
        exact ih (k + 1) _ F (primInv_skip w n s F _ hi hinv hvis) hr (by omega)
      | false =>
        have hstep := mstStep_add g (tie k) s hi hvis
        rw [hstep] at hm ⊢
        exact ih (k + 1) _ _ (primInv_add w hsym n g hg s F _ hi hinv hmin hvis)
          (ranked_add w n s F _ _ (List.getElem_mem hi) hinv hvis hr) (by omega)

/-- The edges that `mst` adds, with a rank of the cities that grows along every edge. -/
theorem mstConnection_ranked (w : Nat → Nat → R) (hsym : ∀ a b, w a b = w b a) (n : Nat)
    (hn : 1 ≤ n) (adj : AdjacencyList R) (hadj : CompleteAdj w n adj) (tie : Nat → Nat) :
    ∃ F : List (Edge R),
      (Graph.new adj).mstConnection tie
        = some (F.foldl AdjacencyList.add_edge (AdjacencyList.ofSize n)) ∧
      MstOutput w n F ∧
      ∃ rank : Nat → Nat, (∀ v, v < n → rank v < n) ∧ ∀ e ∈ F, rank e.src < rank e.dest := by
  have hg := completeAdj_sort hadj
  have hm := mstMeasure_init w n (Graph.new adj) hn hg
  obtain ⟨s', F, hloop, hinv, hemp, rank, hr1, hr2⟩ := mstLoop_ranked w hsym n (Graph.new adj)
    hg tie (n * n + 1) 0 _ [] (primInv_init w n _ hn hg)
    ⟨fun _ => 0, fun _ _ => le_refl _, fun e he => by simp at he⟩ (by
      rw [hm]
      have : n * (n - 1) ≤ n * n := Nat.mul_le_mul_left _ (Nat.sub_le _ _)
      omega)
  have hout := mstOutput_of_inv w hsym n s' F hinv hemp
  refine ⟨F, ?_, hout, rank, ?_, hr2⟩
  · unfold Graph.mstConnection
    rw [hg.1, hloop, Option.map_some', hinv.conn]
  · intro v hv
    have hvis : s'.visited.getD v false = true := by
      cases hx : s'.visited.getD v false with
      | true => rfl
      | false =>
        obtain ⟨e, he, _⟩ := hinv.cross 0 v hv hinv.v0 hx
        rw [hemp] at he
        simp at he
    have := hr1 v hvis
    have := hout.len
    omega

/-! ## The tree as the graph of `mst` stores it -/

theorem get_add_edge (a : AdjacencyList R) (e : Edge R) (v : Nat) (hv : v < a.size)
    (hne : e.src ≠ e.dest) :
    (a.add_edge e).get v
      = a.get v ++ (if e.src == v || e.dest == v then [e] else []) := by
  unfold AdjacencyList.add_edge AdjacencyList.get
  unfold AdjacencyList.size at hv
  simp only
  rw [getD_pushEdge _ _ _ _ (by rw [length_pushEdge]; exact hv), getD_pushEdge _ _ _ _ hv]
  by_cases h1 : e.src = v
  · have h2 : ¬ e.dest = v := fun h => hne (h1.trans h.symm)
    simp [h1, h2]
  · by_cases h2 : e.dest = v
    · simp [h1, h2]
    · simp [h1, h2]

theorem get_foldl_add_edge (F : List (Edge R)) (a : AdjacencyList R) (v : Nat)
    (hv : v < a.size) (hne : ∀ e ∈ F, e.src ≠ e.dest) :
    (F.foldl AdjacencyList.add_edge a).get v
      = a.get v ++ F.filter (fun e => e.src == v || e.dest == v) := by
  induction F generalizing a with
  | nil => simp
  | cons e es ih =>
    rw [List.foldl_cons, ih (a.add_edge e) (by rw [size_add_edge]; exact hv)
      (fun x hx => hne x (List.mem_cons_of_mem _ hx)),
      get_add_edge a e v hv (hne e (List.mem_cons_self _ _)), List.filter_cons]
    split <;> simp

/-- The list of city `v` in the graph that `mst` returns: the edges of `F` that touch
`v`, sorted by destination. -/
theorem get_treeGraph (n : Nat) (F : List (Edge R)) (hne : ∀ e ∈ F, e.src ≠ e.dest)
    (v : Nat) (hv : v < n) :
    (Graph.new (F.foldl AdjacencyList.add_edge (AdjacencyList.ofSize n))).adjacency_list.get v
      = List.insertionSort (fun l r => l.dest ≤ r.dest)
          (F.filter (fun e => e.src == v || e.dest == v)) := by
  rw [get_new, get_foldl_add_edge F _ v (by simpa [AdjacencyList.ofSize, AdjacencyList.size]
    using hv) hne, get_ofSize, List.nil_append]

theorem treeGraph_dests_sorted (w : Nat → Nat → R) (n : Nat) (F : List (Edge R))
    (hout : MstOutput w n F) (v : Nat) (hv : v < n) :
    (((Graph.new (F.foldl AdjacencyList.add_edge
      (AdjacencyList.ofSize n))).adjacency_list.get v).map Edge.dest).Pairwise
        (fun a b => a < b) := by
  have hne : ∀ e ∈ F, e.src ≠ e.dest := fun e he => (hout.range e he).2.2.2
  rw [get_treeGraph n F hne v hv]
  haveI : IsTotal (Edge R) (fun l r => l.dest ≤ r.dest) := ⟨fun x y => le_total _ _⟩
  haveI : IsTrans (Edge R) (fun l r => l.dest ≤ r.dest) := ⟨fun x y z => le_trans⟩
  have hs := List.sorted_insertionSort (fun l r : Edge R => l.dest ≤ r.dest)
    (F.filter (fun e => e.src == v || e.dest == v))
  have hp := List.perm_insertionSort (fun l r : Edge R => l.dest ≤ r.dest)
    (F.filter (fun e => e.src == v || e.dest == v))
  have hnd : ((List.insertionSort (fun l r : Edge R => l.dest ≤ r.dest)
      (F.filter (fun e => e.src == v || e.dest == v))).map Edge.dest).Nodup :=
    ((hp.map Edge.dest).nodup_iff).mpr
      (hout.dests.1.sublist ((List.filter_sublist F).map Edge.dest))
  have hle : ((List.insertionSort (fun l r : Edge R => l.dest ≤ r.dest)
      (F.filter (fun e => e.src == v || e.dest == v))).map Edge.dest).Pairwise
        (fun a b => a ≤ b) := by
    rw [List.pairwise_map]
    exact hs
  exact (List.pairwise_and_iff.mpr ⟨hle, hnd⟩).imp (fun h => lt_of_le_of_ne h.1 h.2)

/-! ## Subtrees of a rooted tree -/

theorem rec_rank {n : Nat} {g : Graph R} {rank : Nat → Nat} (ht : IsTree n g rank) (k : Nat) :
    ∀ v y, v < n → y ∈ g.recursivePreorder k v → rank v ≤ rank y ∧ y < n := by
  induction k with
  | zero =>
    intro v y _ hy
    simp [Graph.recursivePreorder] at hy
  | succ k ih =>
    intro v y hv hy
    simp only [Graph.recursivePreorder, List.mem_cons, List.mem_flatMap] at hy
    rcases hy with rfl | ⟨c, hc, hyc⟩
    · exact ⟨le_refl _, hv⟩
    · obtain ⟨h1, h2⟩ := ih c y (ht.lt v c hv hc) hyc
      exact ⟨le_trans (le_of_lt (ht.rank_lt v c hv hc)) h1, h2⟩

theorem rec_parent {n : Nat} {g : Graph R} {rank : Nat → Nat} (ht : IsTree n g rank) (k : Nat) :
    ∀ v y, v < n → y ∈ g.recursivePreorder k v → y ≠ v →
      ∃ p ∈ g.recursivePreorder k v, p < n ∧ y ∈ g.children p := by
  induction k with
  | zero =>
    intro v y _ hy
    simp [Graph.recursivePreorder] at hy
  | succ k ih =>
    intro v y hv hy hne
    simp only [Graph.recursivePreorder, List.mem_cons, List.mem_flatMap] at hy ⊢
    rcases hy with rfl | ⟨c, hc, hyc⟩
    · exact absurd rfl hne
    · by_cases hyc' : y = c
      · subst hyc'
        exact ⟨v, Or.inl rfl, hv, hc⟩
      · obtain ⟨p, hp, hpn, hyp⟩ := ih c y (ht.lt v c hv hc) hyc hyc'
        exact ⟨p, Or.inr ⟨c, hc, hp⟩, hpn, hyp⟩

theorem rec_nested {n : Nat} {g : Graph R} {rank : Nat → Nat} (ht : IsTree n g rank) (k : Nat)
    (r : Nat) :
    ∀ x c c', rank x ≤ r → c < n → c' < n → x ∈ g.recursivePreorder k c →
      x ∈ g.recursivePreorder k c' →
      c ∈ g.recursivePreorder k c' ∨ c' ∈ g.recursivePreorder k c := by
  induction r with
  | zero =>
    intro x c c' hr hc hc' hx hx'
    by_cases h1 : x = c
    · exact Or.inl (h1 ▸ hx')
    · obtain ⟨p, hp, hpn, hxp⟩ := rec_parent ht k c x hc hx h1
      have := ht.rank_lt p x hpn hxp
      omega
  | succ r ih =>
    intro x c c' hr hc hc' hx hx'
    by_cases h1 : x = c
    · exact Or.inl (h1 ▸ hx')
    · by_cases h2 : x = c'
      · exact Or.inr (h2 ▸ hx)
      · obtain ⟨p, hp, hpn, hxp⟩ := rec_parent ht k c x hc hx h1
        obtain ⟨p', hp', hpn', hxp'⟩ := rec_parent ht k c' x hc' hx' h2
        have hpp : p = p' := ht.parent p p' x hpn hpn' hxp hxp'
        subst hpp
        have := ht.rank_lt p x hpn hxp
        exact ih p c c' (by omega) hc hc' hp hp'

theorem rec_siblings {n : Nat} {g : Graph R} {rank : Nat → Nat} (ht : IsTree n g rank)
    (k v c c' : Nat) (hv : v < n) (hc : c ∈ g.children v) (hc' : c' ∈ g.children v)
    (hne : c ≠ c') :
    List.Disjoint (g.recursivePreorder k c) (g.recursivePreorder k c') := by
  intro x hx hx'
  have hcn := ht.lt v c hv hc
  have hcn' := ht.lt v c' hv hc'
  have key : ∀ a b, a ∈ g.children v → b ∈ g.children v → a ≠ b →
      a ∉ g.recursivePreorder k b := by
    intro a b ha hb hab hmem
    have hbn := ht.lt v b hv hb
    obtain ⟨p, hp, hpn, hap⟩ := rec_parent ht k b a hbn hmem hab
    have hpv : p = v := ht.parent p v a hpn hv hap ha
    subst hpv
    have h1 := (rec_rank ht k b p hbn hp).1
    have h2 := ht.rank_lt p b hv hb
    omega
  rcases rec_nested ht k (rank x) x c c' (le_refl _) hcn hcn' hx hx' with h | h
  · exact key c c' hc hc' hne h
  · exact key c' c hc' hc (fun e => hne e.symm) h

theorem children_sorted {n : Nat} {g : Graph R} {rank : Nat → Nat} (ht : IsTree n g rank)
    (v : Nat) (hv : v < n) : (g.children v).Pairwise (fun a b => a < b) := by
  rw [← ht.dests v hv]
  exact (ht.sorted v hv).sublist (List.filter_sublist _)

theorem rec_nodup {n : Nat} {g : Graph R} {rank : Nat → Nat} (ht : IsTree n g rank) (k : Nat) :
    ∀ v, v < n → (g.recursivePreorder k v).Nodup := by
  induction k with
  | zero =>
    intro v _
    simp [Graph.recursivePreorder]
  | succ k ih =>
    intro v hv
    simp only [Graph.recursivePreorder, List.nodup_cons, List.mem_flatMap, not_exists, not_and]
    refine ⟨?_, ?_⟩
    · intro c hc hvc
      have h1 := (rec_rank ht k c v (ht.lt v c hv hc) hvc).1
      have h2 := ht.rank_lt v c hv hc
      omega
    · rw [List.nodup_flatMap]
      refine ⟨fun c hc => ih c (ht.lt v c hv hc), ?_⟩
      refine (children_sorted ht v hv).imp_of_mem ?_
      intro a b ha hb hab
      exact rec_siblings ht k v a b hv ha hb (ne_of_lt hab)

theorem rec_complete {n : Nat} {g : Graph R} {rank : Nat → Nat} (ht : IsTree n g rank)
    (k : Nat) :
    ∀ v, v < n → n ≤ rank v + k → ∀ j, g.recursivePreorder (k + j) v
      = g.recursivePreorder k v := by
  induction k with
  | zero =>
    intro v hv hk
    have := ht.rank_le v hv
    omega
  | succ k ih =>
    intro v hv hk j
    rw [Nat.add_right_comm]
    simp only [Graph.recursivePreorder]
    congr 1
    apply List.flatMap_congr
    intro c hc
    have := ht.rank_lt v c hv hc
    exact ih c (ht.lt v c hv hc) (by omega) j

/-! ## The stack loop follows the recursion -/

theorem reaches_refl (g : Graph R) (s : DfsState) : Reaches g s s := ⟨0, fun _ => rfl⟩

theorem reaches_trans {g : Graph R} {s t u : DfsState} (h1 : Reaches g s t)
    (h2 : Reaches g t u) : Reaches g s u := by
  obtain ⟨m1, h1⟩ := h1
  obtain ⟨m2, h2⟩ := h2
  refine ⟨m2 + m1, fun fuel => ?_⟩
  rw [← Nat.add_assoc, h1, h2]

theorem reaches_step (g : Graph R) (s : DfsState) (hne : s.stack ≠ []) :
    Reaches g s (g.preorderStep s) := by
  refine ⟨1, fun fuel => ?_⟩
  have : s.stack.isEmpty = false := by
    cases hc : s.stack with
    | nil => exact absurd hc hne
    | cons _ _ => rfl
  rw [Graph.preorderLoop, this]
  simp

theorem preorderLoop_fuel (g : Graph R) (fuel j : Nat) (s r : DfsState)
    (h : g.preorderLoop fuel s = some r) : g.preorderLoop (fuel + j) s = some r := by
  induction fuel generalizing s with
  | zero => simp [Graph.preorderLoop] at h
  | succ k ih =>
    rw [Nat.add_right_comm]
    unfold Graph.preorderLoop at h ⊢
    split
    · rename_i he
      rw [if_pos he] at h
      exact h
    · rename_i he
      rw [if_neg he] at h
      exact ih _ h

theorem length_markAll (vis : List Bool) (l : List Nat) :
    (markAll vis l).length = vis.length := by
  unfold markAll
  induction l generalizing vis with
  | nil => rfl
  | cons x xs ih => rw [List.foldl_cons, ih, List.length_set]

theorem getD_markAll (vis : List Bool) (l : List Nat) (hl : ∀ x ∈ l, x < vis.length) (y : Nat) :
    (markAll vis l).getD y false = (decide (y ∈ l) || vis.getD y false) := by
  unfold markAll
  induction l generalizing vis with
  | nil => simp
  | cons x xs ih =>
    rw [List.foldl_cons, ih _ (fun z hz => by
      rw [List.length_set]
      exact hl z (List.mem_cons_of_mem _ hz)),
      getD_set_true _ _ _ (hl x (List.mem_cons_self _ _))]
    by_cases h1 : y = x
    · simp [h1]
    · by_cases h2 : y ∈ xs
      · simp [h1, h2]
      · simp [h1, h2]

theorem markAll_append (vis : List Bool) (l1 l2 : List Nat) :
    markAll (markAll vis l1) l2 = markAll vis (l1 ++ l2) := by
  unfold markAll
  rw [List.foldl_append]

/-- The entries that a visited city `v` has pushed: the loop skips `v` itself and walks
the subtree of every child, given that the loop walks the subtree of a city that heads
the stack (`hP`). -/
theorem reaches_children {n : Nat} {g : Graph R} {rank : Nat → Nat} (ht : IsTree n g rank)
    (k : Nat)
    (hP : ∀ (c : Nat) (res : List Nat) (vis : List Bool) (st : List Nat), c < n →
      n ≤ rank c + k → vis.length = n →
      (∀ x ∈ g.recursivePreorder k c, vis.getD x false = false) →
      Reaches g ⟨res, vis, c :: st⟩
        ⟨res ++ g.recursivePreorder k c, markAll vis (g.recursivePreorder k c), st⟩)
    (v : Nat) (hv : v < n) (hk : n ≤ rank v + k + 1) (st : List Nat) :
    ∀ (l : List Nat) (res : List Nat) (vis : List Bool), vis.length = n →
      vis.getD v false = true → (∀ x ∈ l, x = v ∨ x ∈ g.children v) →
      ((l.filter (fun x => x != v)).flatMap (g.recursivePreorder k)).Nodup →
      (∀ x ∈ (l.filter (fun x => x != v)).flatMap (g.recursivePreorder k),
        vis.getD x false = false) →
      Reaches g ⟨res, vis, l ++ st⟩
        ⟨res ++ (l.filter (fun x => x != v)).flatMap (g.recursivePreorder k),
          markAll vis ((l.filter (fun x => x != v)).flatMap (g.recursivePreorder k)), st⟩ := by
  intro l
  induction l with
  | nil =>
    intro res vis _ _ _ _ _
    simp only [List.filter_nil, List.flatMap_nil, List.append_nil, List.nil_append]
    exact reaches_refl g _
  | cons x xs ih =>
    intro res vis hlen hvv hmem hnd hunv
    by_cases hxv : x = v
    · subst hxv
      have hf : (x :: xs).filter (fun y => y != x) = xs.filter (fun y => y != x) := by
        simp [List.filter_cons]
      rw [hf] at hnd hunv ⊢
      have hstep := reaches_step g ⟨res, vis, x :: xs ++ st⟩ (by simp)
      rw [preorderStep_skip g _ x (xs ++ st) rfl hvv] at hstep
      exact reaches_trans hstep
        (ih res vis hlen hvv (fun y hy => hmem y (List.mem_cons_of_mem _ hy)) hnd hunv)
    · have hf : (x :: xs).filter (fun y => y != v) = x :: xs.filter (fun y => y != v) := by
        simp [List.filter_cons, hxv]
      rw [hf, List.flatMap_cons] at hnd hunv ⊢
      have hxc : x ∈ g.children v := (hmem x (List.mem_cons_self _ _)).resolve_left hxv
      have hxn : x < n := ht.lt v x hv hxc
      have hrk := ht.rank_lt v x hv hxc
      have h1 := hP x res vis (xs ++ st) hxn (by omega) hlen
        (fun y hy => hunv y (List.mem_append_left _ hy))
      have hall : ∀ y ∈ g.recursivePreorder k x, y < vis.length := fun y hy => by
        rw [hlen]
        exact (rec_rank ht k x y hxn hy).2
      have hnd' := List.nodup_append.mp hnd
      have h2 := ih (res ++ g.recursivePreorder k x) (markAll vis (g.recursivePreorder k x))
        (by rw [length_markAll, hlen])
        (by rw [getD_markAll _ _ hall, hvv, Bool.or_true])
        (fun y hy => hmem y (List.mem_cons_of_mem _ hy)) hnd'.2.1
        (by
          intro y hy
          rw [getD_markAll _ _ hall, hunv y (List.mem_append_right _ hy), Bool.or_false]
          simp only [decide_eq_false_iff_not]
          exact fun hy' => hnd'.2.2 hy' hy)
      rw [markAll_append, List.append_assoc] at h2
      exact reaches_trans h1 h2

theorem reaches_subtree {n : Nat} {g : Graph R} {rank : Nat → Nat} (ht : IsTree n g rank)
    (k : Nat) :
    ∀ (c : Nat) (res : List Nat) (vis : List Bool) (st : List Nat), c < n →
      n ≤ rank c + k → vis.length = n →
      (∀ x ∈ g.recursivePreorder k c, vis.getD x false = false) →
      Reaches g ⟨res, vis, c :: st⟩
        ⟨res ++ g.recursivePreorder k c, markAll vis (g.recursivePreorder k c), st⟩ := by
  induction k with
  | zero =>
    intro c _ _ _ hc hk
    have := ht.rank_le c hc
    omega
  | succ k ih =>
    intro v res vis st hv hk hlen hunv
    have hvv : vis.getD v false = false := hunv v (by simp [Graph.recursivePreorder])
    have hstep := reaches_step g ⟨res, vis, v :: st⟩ (by simp)
    rw [preorderStep_visit g _ v st rfl hvv] at hstep
    have hnd := rec_nodup ht (k + 1) v hv
    simp only [Graph.recursivePreorder, List.nodup_cons] at hnd
    have hvl : v < vis.length := by rw [hlen]; exact hv
    have hq := reaches_children ht k ih v hv (by omega) st
      ((g.adjacency_list.get v).map Edge.dest) (res ++ [v]) (vis.set v true)
      (by rw [List.length_set, hlen])
      (by rw [getD_set_true _ _ _ hvl]; simp)
      (by
        intro x hx
        by_cases hxv : x = v
        · exact Or.inl hxv
        · right
          rw [← ht.dests v hv]
          exact List.mem_filter.mpr ⟨hx, by simpa using hxv⟩)
      (by rw [ht.dests v hv]; exact hnd.2)
      (by
        rw [ht.dests v hv]
        intro x hx
        rw [getD_set_true _ _ _ hvl]
        have hxv : x ≠ v := fun e => hnd.1 (e ▸ hx)
        simp only [hxv, decide_False, Bool.false_or]
        exact hunv x (by
          simp only [Graph.recursivePreorder]
          exact List.mem_cons_of_mem _ hx))
    rw [ht.dests v hv] at hq
    have hres : res ++ [v] ++ (g.children v).flatMap (g.recursivePreorder k)
        = res ++ g.recursivePreorder (k + 1) v := by
      simp [Graph.recursivePreorder]
    have hmark : markAll (vis.set v true) ((g.children v).flatMap (g.recursivePreorder k))
        = markAll vis (g.recursivePreorder (k + 1) v) := rfl
    rw [hres, hmark] at hq
    exact reaches_trans hstep hq

/-! ## The walk of the tree of `mst` is its recursive preorder -/

theorem mem_children_treeGraph (n : Nat) (F : List (Edge R))
    (hF : ∀ e ∈ F, e.src < n ∧ e.dest < n) (v c : Nat) :
    c ∈ (Graph.new (F.foldl AdjacencyList.add_edge (AdjacencyList.ofSize n))).children v
      ↔ ∃ e ∈ F, e.src = v ∧ e.dest = c := by
  unfold Graph.children
  simp only [List.mem_map, List.mem_filter, mem_treeGraph n F hF, beq_iff_eq]
  constructor
  · rintro ⟨e, ⟨⟨he, _⟩, hs⟩, hd⟩
    exact ⟨e, he, hs, hd⟩
  · rintro ⟨e, he, hs, hd⟩
    exact ⟨e, ⟨⟨he, Or.inl hs⟩, hs⟩, hd⟩

theorem isTree_treeGraph (w : Nat → Nat → R) (n : Nat) (F : List (Edge R))
    (hout : MstOutput w n F) (rank : Nat → Nat) (hr1 : ∀ v, v < n → rank v < n)
    (hr2 : ∀ e ∈ F, rank e.src < rank e.dest) :
    IsTree n (Graph.new (F.foldl AdjacencyList.add_edge (AdjacencyList.ofSize n))) rank := by
  have hF : ∀ e ∈ F, e.src < n ∧ e.dest < n := fun e he =>
    ⟨(hout.range e he).1, (hout.range e he).2.1⟩
  refine
    { sorted := fun v hv => treeGraph_dests_sorted w n F hout v hv
      dests := ?_
      lt := ?_
      parent := ?_
      rank_lt := ?_
      rank_le := hr1 }
  · intro v hv
    unfold Graph.children
    rw [List.filter_map]
    congr 1
    apply List.filter_congr
    intro e he
    obtain ⟨heF, hsd⟩ := (mem_treeGraph n F hF e v).mp he
    have hne := (hout.range e heF).2.2.2
    simp only [Function.comp]
    by_cases h1 : e.src = v
    · have h2 : ¬ e.dest = v := fun h => hne (h1.trans h.symm)
      simp [h1, h2]
    · have h2 : e.dest = v := hsd.resolve_left h1
      simp [h1, h2]
  · intro v c _ hc
    obtain ⟨e, he, _, hd⟩ := (mem_children_treeGraph n F hF v c).mp hc
    exact hd ▸ (hF e he).2
  · intro v v' c _ _ hc hc'
    obtain ⟨e, he, hs, hd⟩ := (mem_children_treeGraph n F hF v c).mp hc
    obtain ⟨e', he', hs', hd'⟩ := (mem_children_treeGraph n F hF v' c).mp hc'
    have := edge_unique F hout.dests.1 e e' he he' (hd.trans hd'.symm)
    rw [← hs, ← hs', this]
  · intro v c _ hc
    obtain ⟨e, he, hs, hd⟩ := (mem_children_treeGraph n F hF v c).mp hc
    rw [← hs, ← hd]
    exact hr2 e he

theorem preorder_eq_recursive_core (w : Nat → Nat → R) (n : Nat) (hn : 1 ≤ n)
    (F : List (Edge R)) (hout : MstOutput w n F) (rank : Nat → Nat)
    (hr1 : ∀ v, v < n → rank v < n) (hr2 : ∀ e ∈ F, rank e.src < rank e.dest) :
    (Graph.new (F.foldl AdjacencyList.add_edge (AdjacencyList.ofSize n))).preorder_traversal
      = some ((Graph.new (F.foldl AdjacencyList.add_edge
          (AdjacencyList.ofSize n))).recursivePreorder n 0) := by
  have ht := isTree_treeGraph w n F hout rank hr1 hr2
  generalize hg : Graph.new (F.foldl AdjacencyList.add_edge (AdjacencyList.ofSize n)) = g at *
  have hsize : g.adjacency_list.size = n := by rw [← hg]; exact size_treeGraph n F
  have hdest : ∀ v, ∀ e ∈ g.adjacency_list.get v, e.dest < n := by
    intro v e he
    rw [← hg] at he
    exact dest_lt_treeGraph w n F hout v e he
  obtain ⟨s', hs', _, _, _⟩ := preorder_traversal_spec n g hn hsize hdest (fun _ => True)
    trivial (fun _ _ _ _ => trivial)
  have hfalse : ∀ x, (List.replicate n false).getD x false = false := by
    intro x
    simp only [List.getD_eq_getElem?_getD, List.getElem?_replicate]
    split <;> rfl
  obtain ⟨m, hm⟩ := reaches_subtree ht n 0 [] (List.replicate n false) [] (by omega)
    (by omega) (by simp) (fun x _ => hfalse x)
  have hfin := hm 1
  rw [List.nil_append] at hfin
  have hend : g.preorderLoop 1 ⟨g.recursivePreorder n 0,
      markAll (List.replicate n false) (g.recursivePreorder n 0), []⟩
      = some ⟨g.recursivePreorder n 0,
          markAll (List.replicate n false) (g.recursivePreorder n 0), []⟩ := by
    simp [Graph.preorderLoop]
  rw [hend] at hfin
  unfold Graph.preorder_traversal at hs' ⊢
  rw [hsize] at hs' ⊢
  cases hl : g.preorderLoop ((g.adjacency_list.adjacent_edges.map List.length).sum + 2)
      ⟨[], List.replicate n false, [0]⟩ with
  | none =>
    rw [hl] at hs'
    cases hs'
  | some s0 =>
    have h1 := preorderLoop_fuel g _ (1 + m) _ _ hl
    have h2 := preorderLoop_fuel g _
      ((g.adjacency_list.adjacent_edges.map List.length).sum + 2) _ _ hfin
    rw [Nat.add_comm] at h2
    rw [h1] at h2
    cases h2
    rfl

/-- C21. For the complete graph on `n ≥ 1` cities with symmetric weights and whatever the
heap of `mst` does with equal weights: `mst` returns a graph and `preorder_traversal` of
that graph returns a list, and this list is the recursive depth-first preorder from
city 0, which lists a city and then the preorders of its children one after the other;
the children of every city are in strictly ascending order, and the bound `n` on the
depth of the recursion is never met (a larger bound gives the same list). -/
theorem preorder_traversal_eq_recursive (w : Nat → Nat → R) (hsym : ∀ a b, w a b = w b a)
    (n : Nat) (hn : 1 ≤ n) (adj : AdjacencyList R) (hadj : CompleteAdj w n adj)
    (tie : Nat → Nat) :
    ∃ (mst : Graph R) (tour : List Nat),
      (Graph.new adj).mst tie = some mst ∧ mst.preorder_traversal = some tour ∧
      tour = mst.recursivePreorder n 0 ∧
      (∀ k, mst.recursivePreorder (n + k) 0 = mst.recursivePreorder n 0) ∧
      (∀ v, v < n → (mst.children v).Pairwise (fun a b => a < b)) := by
  obtain ⟨F, hF, hout, rank, hr1, hr2⟩ := mstConnection_ranked w hsym n hn adj hadj tie
  have ht := isTree_treeGraph w n F hout rank hr1 hr2
  refine ⟨Graph.new (F.foldl AdjacencyList.add_edge (AdjacencyList.ofSize n)), _, ?_,
    preorder_eq_recursive_core w n hn F hout rank hr1 hr2, rfl, ?_, ?_⟩
  · unfold Graph.mst
    rw [hF, Option.map_some']
  · intro k
    exact rec_complete ht n 0 (by omega) (by omega) k
  · intro v hv
    exact children_sorted ht v hv

/-- Instance of the preorder: five cities at `(0, 0)`, `(1, 0)`, `(-1, 0)`, `(2, 0)`,
`(-1, 1)` with squared distances as weights; the tree has the edges `0-1`, `0-2`, `1-3`,
`2-4`, and the walk is `[0, 1, 3, 2, 4]`. -/
theorem preorder_traversal_eq_recursive_witness :
    ((Graph.new (AdjacencyList.ofCities id
        ([⟨0, 0, 0⟩, ⟨1, 1, 0⟩, ⟨2, -1, 0⟩, ⟨3, 2, 0⟩, ⟨4, -1, 1⟩] : List (City ℚ)))).mst
      (fun k => k)).bind (fun m => m.preorder_traversal) = some [0, 1, 3, 2, 4] ∧
    ∃ (mst : Graph ℚ) (tour : List Nat),
      (Graph.new (AdjacencyList.ofCities id
        ([⟨0, 0, 0⟩, ⟨1, 1, 0⟩, ⟨2, -1, 0⟩, ⟨3, 2, 0⟩, ⟨4, -1, 1⟩] : List (City ℚ)))).mst
        (fun k => k) = some mst ∧
      mst.preorder_traversal = some tour ∧
      tour = mst.recursivePreorder 5 0 ∧
      (∀ k, mst.recursivePreorder (5 + k) 0 = mst.recursivePreorder 5 0) ∧
      (∀ v, v < 5 → (mst.children v).Pairwise (fun a b => a < b)) :=
  ⟨by with_unfolding_all decide,
    preorder_traversal_eq_recursive _ (lookup_build_symm id _ (by decide)) 5 (by decide) _
      (completeAdj_ofCities id [⟨0, 0, 0⟩, ⟨1, 1, 0⟩, ⟨2, -1, 0⟩, ⟨3, 2, 0⟩, ⟨4, -1, 1⟩]
        (by decide)) (fun k => k)⟩

/-! ## The arithmetic of `double` -/

theorem F64.round_neg (q : ℚ) : F64.round (-q) = F64.neg (F64.round q) := by
  unfold F64.round
  by_cases h : q = 0
  · simp [h, F64.neg]
  · have h1 : -q ≠ 0 := neg_ne_zero.mpr h
    simp only [h, h1, if_false, abs_neg]
    rcases lt_or_gt_of_ne h with hlt | hgt
    · have h2 : ¬ (-q < 0) := by linarith
      simp only [hlt, h2, if_true, if_false, decide_True, decide_False]
      split <;> simp [F64.neg]
    · have h2 : -q < 0 := by linarith
      have h3 : ¬ q < 0 := by linarith
      simp only [h3, h2, if_true, if_false, decide_True, decide_False]
      split <;> simp [F64.neg]

theorem F64.neg_neg (a : F64) : F64.neg (F64.neg a) = a := by
  cases a <;> simp [F64.neg]

/-- The difference `a - b` of two `double`s is minus the difference `b - a`. -/
theorem F64.sub_eq_neg_sub (a b : F64) : a - b = F64.neg (b - a) := by
  show F64.sub a b = F64.neg (F64.sub b a)
  unfold F64.sub
  cases a with
  | fin x =>
    cases b with
    | fin y =>
      show F64.round (x + -y) = F64.neg (F64.round (y + -x))
      rw [← F64.round_neg]
      congr 1
      ring
    | inf t => simp [F64.neg, F64.add]
    | nan => simp [F64.neg, F64.add]
  | inf s =>
    cases b with
    | fin y => simp [F64.neg, F64.add]
    | inf t =>
      cases s <;> cases t <;> simp [F64.neg, F64.add]
    | nan => simp [F64.neg, F64.add]
  | nan =>
    cases b <;> simp [F64.neg, F64.add]

/-- The square of a `double` is the square of its negative. -/
theorem F64.neg_mul_neg (a : F64) : F64.neg a * F64.neg a = a * a := by
  show F64.mul (F64.neg a) (F64.neg a) = F64.mul a a
  cases a with
  | fin x => simp [F64.neg, F64.mul]
  | inf s => cases s <;> simp [F64.neg, F64.mul]
  | nan => simp [F64.neg, F64.mul]

/-- In `double` arithmetic `City::distance` is symmetric. -/
theorem F64.distance_comm (a b : City F64) : a.distance F64.sqrt b = b.distance F64.sqrt a := by
  unfold City.distance
  simp only
  rw [F64.sub_eq_neg_sub a.x b.x, F64.sub_eq_neg_sub a.y b.y, F64.neg_mul_neg, F64.neg_mul_neg]

theorem F64.round_zero : F64.round 0 = F64.fin 0 := by
  simp [F64.round]

/-- In `double` arithmetic a city with finite coordinates is at distance `0` of itself. -/
theorem F64.distance_self (a : City F64) (x y : ℚ) (hx : a.x = F64.fin x) (hy : a.y = F64.fin y) :
    a.distance F64.sqrt a = 0 := by
  unfold City.distance
  simp only [hx, hy]
  have h1 : ∀ q : ℚ, F64.fin q - F64.fin q = F64.fin 0 := by
    intro q
    show F64.sub _ _ = _
    simp [F64.sub, F64.neg, F64.add, F64.round_zero]
  have h2 : F64.fin 0 * F64.fin 0 = F64.fin 0 := by
    show F64.mul _ _ = _
    simp [F64.mul, F64.round_zero]
  have h3 : F64.fin 0 + F64.fin 0 = F64.fin 0 := by
    show F64.add _ _ = _
    simp [F64.add, F64.round_zero]
  rw [h1, h1, h2, h3]
  show F64.sqrt (F64.fin 0) = F64.fin 0
  simp [F64.sqrt]

theorem log2Fuel_eq (fuel n : Nat) (h : n ≤ fuel) : log2Fuel fuel n = Nat.log2 n := by
  induction fuel generalizing n with
  | zero =>
    have : n = 0 := by omega
    subst this
    simp [log2Fuel, Nat.log2]
  | succ f ih =>
    rw [log2Fuel, Nat.log2]
    by_cases h2 : n < 2
    · have : ¬ n ≥ 2 := by omega
      simp [h2, this]
    · have : n ≥ 2 := by omega
      simp only [h2, this, if_true, if_false]
      rw [ih (n / 2) (by omega)]

/-- The logarithm `ilog2` is `Nat.log2`. -/
theorem ilog2_eq (n : Nat) : ilog2 n = Nat.log2 n :=
  log2Fuel_eq n n (le_refl n)

theorem isqrtBits_spec (n : Nat) (k r : Nat) (h1 : r * r ≤ n) (h2 : n < (r + 2 ^ k) * (r + 2 ^ k)) :
    isqrtBits n k r * isqrtBits n k r ≤ n ∧
      n < (isqrtBits n k r + 1) * (isqrtBits n k r + 1) := by
  induction k generalizing r with
  | zero => simpa [isqrtBits] using ⟨h1, h2⟩
  | succ k ih =>
    rw [isqrtBits]
    by_cases hc : (r + 2 ^ k) * (r + 2 ^ k) ≤ n
    · simp only [hc, if_true]
      apply ih _ hc
      have : r + 2 ^ k + 2 ^ k = r + 2 ^ (k + 1) := by rw [pow_succ]; omega
      rw [this]
      exact h2
    · simp only [hc, if_false]
      exact ih _ h1 (by omega)

/-- The square root `isqrt` is `Nat.sqrt`. -/
theorem isqrt_eq (n : Nat) : isqrt n = Nat.sqrt n := by
  have hlt : n < (0 + 2 ^ (ilog2 n / 2 + 1)) * (0 + 2 ^ (ilog2 n / 2 + 1)) := by
    rw [Nat.zero_add, ← pow_add, ilog2_eq]
    calc n < 2 ^ (n.log2 + 1) := Nat.lt_log2_self
      _ ≤ 2 ^ (n.log2 / 2 + 1 + (n.log2 / 2 + 1)) := Nat.pow_le_pow_right (by norm_num) (by omega)
  have h := isqrtBits_spec n (ilog2 n / 2 + 1) 0 (by simp) hlt
  exact Nat.eq_sqrt.mpr h

/-! ## Rounding is to a nearest `double` -/

/-- The power `pow2 e` is `2 ^ e`. -/
theorem pow2_eq (e : Int) : pow2 e = (2 : ℚ) ^ e := by
  cases e with
  | ofNat n =>
    simp [pow2]
  | negSucc n =>
    simp [pow2, zpow_negSucc]

theorem pow2_pos (e : Int) : 0 < pow2 e := by
  rw [pow2_eq]
  positivity

theorem ilog2_spec (n : Nat) (hn : n ≠ 0) : 2 ^ ilog2 n ≤ n ∧ n < 2 ^ (ilog2 n + 1) := by
  rw [ilog2_eq]
  exact ⟨Nat.log2_self_le hn, Nat.lt_log2_self⟩

theorem quotient_bounds (N D a b : Nat) (hD : 0 < D) (ha1 : 2 ^ a ≤ N) (ha2 : N < 2 ^ (a + 1))
    (hb1 : 2 ^ b ≤ D) (hb2 : D < 2 ^ (b + 1)) :
    (2 : ℚ) ^ ((a : ℤ) - (b : ℤ) - 1) ≤ (N : ℚ) / (D : ℚ) ∧
      (N : ℚ) / (D : ℚ) < (2 : ℚ) ^ ((a : ℤ) - (b : ℤ) + 1) := by
  have hdpos : (0 : ℚ) < (D : ℚ) := by exact_mod_cast hD
  have ha1' : (2 : ℚ) ^ a ≤ (N : ℚ) := by exact_mod_cast ha1
  have ha2' : (N : ℚ) < (2 : ℚ) ^ (a + 1) := by exact_mod_cast ha2
  have hb1' : (2 : ℚ) ^ b ≤ (D : ℚ) := by exact_mod_cast hb1
  have hb2' : (D : ℚ) < (2 : ℚ) ^ (b + 1) := by exact_mod_cast hb2
  have h2 : (2 : ℚ) ≠ 0 := by norm_num
  have hpa : (0 : ℚ) < 2 ^ a := by positivity
  have hpb : (0 : ℚ) < 2 ^ b := by positivity
  constructor
  · rw [zpow_sub_one₀ h2, zpow_sub₀ h2, zpow_natCast, zpow_natCast, div_mul_eq_mul_div,
      div_le_div_iff₀ hpb hdpos]
    have h3 : (D : ℚ) ≤ 2 ^ b * 2 := by
      rw [← pow_succ]; exact hb2'.le
    calc (2 : ℚ) ^ a * 2⁻¹ * (D : ℚ)
        ≤ 2 ^ a * 2⁻¹ * (2 ^ b * 2) := mul_le_mul_of_nonneg_left h3 (by positivity)
      _ = 2 ^ a * 2 ^ b := by ring
      _ ≤ (N : ℚ) * 2 ^ b := mul_le_mul_of_nonneg_right ha1' hpb.le
  · rw [zpow_add_one₀ h2, zpow_sub₀ h2, zpow_natCast, zpow_natCast, div_mul_eq_mul_div,
      div_lt_div_iff₀ hdpos hpb]
    calc (N : ℚ) * 2 ^ b
        < 2 ^ (a + 1) * 2 ^ b := mul_lt_mul_of_pos_right ha2' hpb
      _ = 2 ^ a * 2 * 2 ^ b := by rw [pow_succ]
      _ ≤ 2 ^ a * 2 * (D : ℚ) := mul_le_mul_of_nonneg_left hb1' (by positivity)

/-- The exponent `floorLog2 q` of a positive `q`: `2 ^ e ≤ q < 2 ^ (e + 1)`. -/
theorem floorLog2_spec (q : ℚ) (hq : 0 < q) :
    (2 : ℚ) ^ floorLog2 q ≤ q ∧ q < (2 : ℚ) ^ (floorLog2 q + 1) := by
  have hnum : 0 < q.num := Rat.num_pos.mpr hq
  have hn0 : q.num.natAbs ≠ 0 := by omega
  have hd0 : q.den ≠ 0 := q.den_nz
  obtain ⟨ha1, ha2⟩ := ilog2_spec q.num.natAbs hn0
  obtain ⟨hb1, hb2⟩ := ilog2_spec q.den hd0
  have hqe : (q.num.natAbs : ℚ) / (q.den : ℚ) = q := by
    have h1 : ((q.num.natAbs : ℤ) : ℚ) = (q.num : ℚ) := by
      rw [Int.natAbs_of_nonneg hnum.le]
    rw [← Int.cast_natCast, h1]
    exact Rat.num_div_den q
  have hb := quotient_bounds q.num.natAbs q.den _ _ (Nat.pos_of_ne_zero hd0) ha1 ha2 hb1 hb2
  rw [hqe] at hb
  unfold floorLog2
  simp only [pow2_eq]
  split
  · rename_i h
    exact ⟨h, hb.2⟩
  · rename_i h
    refine ⟨hb.1, ?_⟩
    rw [sub_add_cancel]
    exact not_le.mp h

theorem floor_spec (s : ℚ) (hs : 0 ≤ s) :
    ((s.num.natAbs / s.den : Nat) : ℚ) ≤ s ∧ s < ((s.num.natAbs / s.den : Nat) : ℚ) + 1 := by
  have hnum : 0 ≤ s.num := Rat.num_nonneg.mpr hs
  have hd0 : 0 < s.den := s.den_pos
  have hqe : (s.num.natAbs : ℚ) / (s.den : ℚ) = s := by
    have h1 : ((s.num.natAbs : ℤ) : ℚ) = (s.num : ℚ) := by
      rw [Int.natAbs_of_nonneg hnum]
    rw [← Int.cast_natCast, h1]
    exact Rat.num_div_den s
  have hdpos : (0 : ℚ) < (s.den : ℚ) := by exact_mod_cast hd0
  have h1 : s.num.natAbs / s.den * s.den ≤ s.num.natAbs := Nat.div_mul_le_self _ _
  have h2 : s.num.natAbs < (s.num.natAbs / s.den + 1) * s.den := by
    have := Nat.lt_succ_iff.mpr (le_refl (s.num.natAbs / s.den))
    exact (Nat.div_lt_iff_lt_mul hd0).mp this
  have h1' : ((s.num.natAbs / s.den : Nat) : ℚ) * (s.den : ℚ) ≤ (s.num.natAbs : ℚ) := by
    exact_mod_cast h1
  have h2' : (s.num.natAbs : ℚ) < (((s.num.natAbs / s.den : Nat) : ℚ) + 1) * (s.den : ℚ) := by
    exact_mod_cast h2
  constructor
  · calc ((s.num.natAbs / s.den : Nat) : ℚ) = ((s.num.natAbs / s.den : Nat) : ℚ) * s.den / s.den := by
          field_simp
      _ ≤ (s.num.natAbs : ℚ) / s.den := div_le_div_of_nonneg_right h1' hdpos.le
      _ = s := hqe
  · calc s = (s.num.natAbs : ℚ) / s.den := hqe.symm
      _ < (((s.num.natAbs / s.den : Nat) : ℚ) + 1) * s.den / s.den :=
          div_lt_div_of_pos_right h2' hdpos
      _ = ((s.num.natAbs / s.den : Nat) : ℚ) + 1 := by field_simp

/-- The integer `roundEven s` is at most one half away from `s`, and it is the even one
of the two nearest integers when `s` is half-way between them. -/
theorem roundEven_spec (s : ℚ) (hs : 0 ≤ s) :
    |(roundEven s : ℚ) - s| ≤ 1 / 2 ∧
      (|(roundEven s : ℚ) - s| = 1 / 2 → roundEven s % 2 = 0) := by
  obtain ⟨h1, h2⟩ := floor_spec s hs
  unfold roundEven
  simp only
  split
  · rename_i h
    refine ⟨?_, ?_⟩
    · rw [abs_le]; constructor <;> linarith
    · intro he
      exfalso
      rw [abs_eq (by norm_num)] at he
      rcases he with he | he <;> linarith
  · split
    · rename_i h h'
      push_cast
      refine ⟨?_, ?_⟩
      · rw [abs_le]; constructor <;> linarith
      · intro he
        exfalso
        rw [abs_eq (by norm_num)] at he
        rcases he with he | he <;> linarith
    · rename_i h h'
      have hr : s - ((s.num.natAbs / s.den : Nat) : ℚ) = 1 / 2 :=
        le_antisymm (not_lt.mp h') (not_lt.mp h)
      split
      · rename_i hev
        refine ⟨?_, fun _ => hev⟩
        rw [abs_le]; constructor <;> linarith
      · rename_i hev
        push_cast
        refine ⟨?_, fun _ => by omega⟩
        rw [abs_le]; constructor <;> linarith
theorem round_core (a u : ℚ) (m : Nat) (hu : 0 < u) (hr : |(m : ℚ) - a / u| ≤ 1 / 2) :
    |(m : ℚ) * u - a| ≤ u / 2 := by
  have h1 : (m : ℚ) * u - a = ((m : ℚ) - a / u) * u := by
    field_simp
  rw [h1, abs_mul, abs_of_pos hu]
  calc _ ≤ 1 / 2 * u := mul_le_mul_of_nonneg_right hr hu.le
    _ = _ := by ring

theorem round_size (a u : ℚ) (m : Nat) (hu : 0 < u) (hr : |(m : ℚ) - a / u| ≤ 1 / 2)
    (ha : a < 2 ^ 53 * u) : m ≤ 2 ^ 53 := by
  have hlt : a / u < 2 ^ 53 := by
    rw [div_lt_iff₀ hu]
    exact ha
  have h3 : (m : ℚ) < 2 ^ 53 + 1 := by
    have := (abs_le.mp hr).2
    linarith
  have h5 : m < 2 ^ 53 + 1 := by exact_mod_cast h3
  omega

/-- Rounding is to a nearest `double`. With `e` the exponent of `q` (not below `-1022`) and
`ulp = 2 ^ (e - 52)`: either the result is finite, a multiple `m * ulp` with
`m ≤ 2 ^ 53`, below `2 ^ 1024` and at most `ulp / 2` away from `q`; or it is the infinity
of the sign of `q`, and `q` is not more than `ulp / 2` below `2 ^ 1024` in absolute
value. -/
theorem F64.round_spec (q : ℚ) (hq : q ≠ 0) :
    (∃ r : ℚ, F64.round q = F64.fin r ∧
      |r - q| ≤ (2 : ℚ) ^ (max (floorLog2 |q|) (-1022) - 52) / 2 ∧
      (∃ m : Nat, |r| = (m : ℚ) * (2 : ℚ) ^ (max (floorLog2 |q|) (-1022) - 52) ∧ m ≤ 2 ^ 53) ∧
      |r| < (2 : ℚ) ^ (1024 : ℤ)) ∨
    (F64.round q = F64.inf (decide (q < 0)) ∧
      (2 : ℚ) ^ (1024 : ℤ) ≤ |q| + (2 : ℚ) ^ (max (floorLog2 |q|) (-1022) - 52) / 2) := by
  have ha : 0 < |q| := abs_pos.mpr hq
  obtain ⟨hl1, hl2⟩ := floorLog2_spec |q| ha
  have hulp : (0 : ℚ) < (2 : ℚ) ^ (max (floorLog2 |q|) (-1022) - 52) := by positivity
  have hs : 0 ≤ |q| / (2 : ℚ) ^ (max (floorLog2 |q|) (-1022) - 52) := by positivity
  obtain ⟨hr, _⟩ := roundEven_spec _ hs
  have hsize : |q| < 2 ^ 53 * (2 : ℚ) ^ (max (floorLog2 |q|) (-1022) - 52) := by
    have h2 : (2 : ℚ) ≠ 0 := by norm_num
    have : (2 : ℚ) ^ (53 : ℕ) * (2 : ℚ) ^ (max (floorLog2 |q|) (-1022) - 52)
        = (2 : ℚ) ^ (max (floorLog2 |q|) (-1022) + 1) := by
      rw [← zpow_natCast, ← zpow_add₀ h2]
      congr 1
      push_cast
      ring
    rw [this]
    calc |q| < (2 : ℚ) ^ (floorLog2 |q| + 1) := hl2
      _ ≤ (2 : ℚ) ^ (max (floorLog2 |q|) (-1022) + 1) :=
          zpow_le_zpow_right₀ (by norm_num)
            (by have := le_max_left (floorLog2 |q|) (-1022); omega)
  unfold F64.round
  simp only [hq, if_false, pow2_eq]
  generalize (2 : ℚ) ^ (max (floorLog2 |q|) (-1022) - 52) = u at *
  generalize roundEven (|q| / u) = m at *
  have hdist := round_core |q| u m hulp hr
  have hm := round_size |q| u m hulp hr hsize
  have hnn : (0 : ℚ) ≤ (m : ℚ) * u := by positivity
  split
  · rename_i hinf
    right
    refine ⟨rfl, ?_⟩
    have := (abs_le.mp hdist).2
    linarith
  · rename_i hfin
    left
    have hfin' := not_le.mp hfin
    by_cases hneg : q < 0
    · refine ⟨_, by rw [if_pos hneg], ?_, ⟨m, ?_, hm⟩, ?_⟩
      · rw [abs_of_neg hneg] at hdist
        have e1 : -((m : ℚ) * u) - q = -((m : ℚ) * u - -q) := by ring
        rw [e1, abs_neg]
        exact hdist
      · rw [abs_neg, abs_of_nonneg hnn]
      · rw [abs_neg, abs_of_nonneg hnn]
        exact hfin'
    · refine ⟨_, by rw [if_neg hneg], ?_, ⟨m, ?_, hm⟩, ?_⟩
      · rw [abs_of_nonneg (not_lt.mp hneg)] at hdist
        exact hdist
      · rw [abs_of_nonneg hnn]
      · rw [abs_of_nonneg hnn]
        exact hfin'

theorem sqrt_near (s : ℚ) (hs : 0 ≤ s) (m n : Nat) (h1 : (m : ℚ) * m ≤ s)
    (h2 : s < ((m : ℚ) + 1) * ((m : ℚ) + 1))
    (hn : n = if s < ((m : ℚ) + 1 / 2) * ((m : ℚ) + 1 / 2) then m
        else if ((m : ℚ) + 1 / 2) * ((m : ℚ) + 1 / 2) < s then m + 1
        else if m % 2 = 0 then m else m + 1) :
    |(n : ℝ) - Real.sqrt (s : ℝ)| ≤ 1 / 2 := by
  have hs' : (0 : ℝ) ≤ (s : ℝ) := by exact_mod_cast hs
  have hx0 : 0 ≤ Real.sqrt (s : ℝ) := Real.sqrt_nonneg _
  have hxx : Real.sqrt (s : ℝ) * Real.sqrt (s : ℝ) = (s : ℝ) := Real.mul_self_sqrt hs'
  have h1' : (m : ℝ) * m ≤ (s : ℝ) := by exact_mod_cast h1
  have h2' : (s : ℝ) < ((m : ℝ) + 1) * ((m : ℝ) + 1) := by exact_mod_cast h2
  have hm0 : (0 : ℝ) ≤ (m : ℝ) := Nat.cast_nonneg m
  have hlow : (m : ℝ) ≤ Real.sqrt (s : ℝ) := by
    by_contra hc
    have hc' := not_le.mp hc
    nlinarith
  have hup : Real.sqrt (s : ℝ) < (m : ℝ) + 1 := by
    by_contra hc
    have hc' := not_lt.mp hc
    nlinarith
  split at hn
  · rename_i h
    have h' : (s : ℝ) < ((((m : ℚ) + 1 / 2) * ((m : ℚ) + 1 / 2) : ℚ) : ℝ) := by
      exact_mod_cast h
    push_cast at h'
    have hlt : Real.sqrt (s : ℝ) < (m : ℝ) + 1 / 2 := by
      by_contra hc
      have hc' := not_lt.mp hc
      nlinarith
    rw [hn, abs_le]
    constructor <;> linarith
  · split at hn
    · rename_i h h3
      have h' : ((((m : ℚ) + 1 / 2) * ((m : ℚ) + 1 / 2) : ℚ) : ℝ) < (s : ℝ) := by
        exact_mod_cast h3
      push_cast at h'
      have hgt : (m : ℝ) + 1 / 2 < Real.sqrt (s : ℝ) := by
        by_contra hc
        have hc' := not_lt.mp hc
        nlinarith
      rw [hn]
      push_cast
      rw [abs_le]
      constructor <;> linarith
    · rename_i h h3
      have he : (s : ℝ) = ((m : ℝ) + 1 / 2) * ((m : ℝ) + 1 / 2) := by
        have : s = ((m : ℚ) + 1 / 2) * ((m : ℚ) + 1 / 2) :=
          le_antisymm (not_lt.mp h3) (not_lt.mp h)
        rw [this]
        push_cast
        ring
      have hx : Real.sqrt (s : ℝ) = (m : ℝ) + 1 / 2 := by
        rw [he]
        exact Real.sqrt_mul_self (by positivity)
      split at hn
      · rw [hn, hx, abs_le]
        constructor <;> linarith
      · rw [hn]
        push_cast
        rw [hx, abs_le]
        constructor <;> linarith

/-- The square root is rounded to a nearest `double`: with `2 ^ e ≤ √q < 2 ^ (e + 1)` and
`ulp = 2 ^ (e - 52)`, `sqrtRound q` is a multiple of `ulp` and at most `ulp / 2` away
from `√q`. -/
theorem sqrtRound_spec (q : ℚ) (hq : 0 < q) :
    |((sqrtRound q : ℚ) : ℝ) - Real.sqrt (q : ℝ)|
      ≤ (((2 : ℚ) ^ (floorLog2 q / 2 - 52) : ℚ) : ℝ) / 2 ∧
    ∃ n : Nat, sqrtRound q = (n : ℚ) * (2 : ℚ) ^ (floorLog2 q / 2 - 52) := by
  have hu : (0 : ℚ) < (2 : ℚ) ^ (floorLog2 q / 2 - 52) := by positivity
  unfold sqrtRound
  simp only [pow2_eq, isqrt_eq]
  generalize (2 : ℚ) ^ (floorLog2 q / 2 - 52) = u at *
  have hs : 0 ≤ q / (u * u) := by positivity
  obtain ⟨hf1, hf2⟩ := floor_spec (q / (u * u)) hs
  generalize hF : (q / (u * u)).num.natAbs / (q / (u * u)).den = F at *
  have hm1 : ((Nat.sqrt F : Nat) : ℚ) * (Nat.sqrt F : Nat) ≤ q / (u * u) := by
    have : Nat.sqrt F * Nat.sqrt F ≤ F := Nat.sqrt_le F
    have h' : ((Nat.sqrt F * Nat.sqrt F : Nat) : ℚ) ≤ (F : ℚ) := by exact_mod_cast this
    push_cast at h'
    linarith
  have hm2 : q / (u * u) < ((Nat.sqrt F : Nat) + 1 : ℚ) * ((Nat.sqrt F : Nat) + 1) := by
    have : F + 1 ≤ (Nat.sqrt F + 1) * (Nat.sqrt F + 1) := Nat.lt_succ_sqrt F
    have h' : ((F + 1 : Nat) : ℚ) ≤ (((Nat.sqrt F + 1) * (Nat.sqrt F + 1) : Nat) : ℚ) := by
      exact_mod_cast this
    push_cast at h'
    linarith
  obtain ⟨n, hn⟩ : ∃ n : Nat, n = if q / (u * u)
        < ((Nat.sqrt F : ℚ) + 1 / 2) * ((Nat.sqrt F : ℚ) + 1 / 2) then Nat.sqrt F
      else if ((Nat.sqrt F : ℚ) + 1 / 2) * ((Nat.sqrt F : ℚ) + 1 / 2) < q / (u * u)
        then Nat.sqrt F + 1
      else if Nat.sqrt F % 2 = 0 then Nat.sqrt F else Nat.sqrt F + 1 := ⟨_, rfl⟩
  have hnear := sqrt_near (q / (u * u)) hs (Nat.sqrt F) n hm1 hm2 hn
  rw [← hn]
  refine ⟨?_, ⟨n, rfl⟩⟩
  have hu' : (0 : ℝ) < (u : ℝ) := by exact_mod_cast hu
  have hq' : Real.sqrt (q : ℝ) = Real.sqrt ((q / (u * u) : ℚ) : ℝ) * (u : ℝ) := by
    have : (q : ℝ) = ((q / (u * u) : ℚ) : ℝ) * ((u : ℝ) * (u : ℝ)) := by
      push_cast
      field_simp
    rw [this, Real.sqrt_mul (by positivity), Real.sqrt_mul_self hu'.le]
  rw [hq']
  push_cast
  push_cast at hnear
  rw [← sub_mul, abs_mul, abs_of_pos hu']
  calc _ ≤ 1 / 2 * (u : ℝ) := mul_le_mul_of_nonneg_right hnear hu'.le
    _ = _ := by ring

/-! ## The distance table in `double` arithmetic -/

/-- C10, as the claim has it, fails in the `double` arithmetic of the code. Between opposite
corners of the unit square the table holds the `double` nearest to `√2`, which is not the
Euclidean distance `√2`; between the origin and `(1e200, 0)`, two points with finite
coordinates, it holds `+∞` (the square `dx * dx` overflows); between the origin and
`(1e-200, 0)`, two different points, it holds `0` (the square underflows). -/
theorem distanceTable_euclidean_counterexample :
    ((unitSquare64.map City.id).Perm (List.range unitSquare64.length) ∧
      (DistanceTable.build F64.sqrt unitSquare64).lookup 0 2
        = F64.fin (6369051672525773 / 4503599627370496) ∧
      ((6369051672525773 / 4503599627370496 : ℚ) : ℝ)
        ≠ Real.sqrt (((0 : ℝ) - 1) ^ 2 + ((0 : ℝ) - 1) ^ 2)) ∧
    ((farCities64.map City.id).Perm (List.range farCities64.length) ∧
      (∃ x : ℚ, F64.round (10 ^ 200) = F64.fin x) ∧
      (DistanceTable.build F64.sqrt farCities64).lookup 0 1 = F64.inf false) ∧
    ((nearCities64.map City.id).Perm (List.range nearCities64.length) ∧
      (∃ x : ℚ, 0 < x ∧ F64.round (1 / 10 ^ 200) = F64.fin x) ∧
      (DistanceTable.build F64.sqrt nearCities64).lookup 0 1 = F64.fin 0) := by
  refine ⟨⟨by decide, by decide!, ?_⟩, ⟨by decide, ?_, by decide!⟩, ⟨by decide, ?_, by decide!⟩⟩
  · intro h
    have h2 : (((6369051672525773 / 4503599627370496 : ℚ) : ℝ)) ^ 2
        = ((0 : ℝ) - 1) ^ 2 + ((0 : ℝ) - 1) ^ 2 := by
      rw [h, Real.sq_sqrt (by positivity)]
    norm_num at h2
  · cases h : F64.round (10 ^ 200) with
    | fin x => exact ⟨x, rfl⟩
    | inf s => cases s <;> exact absurd h (by decide!)
    | nan => exact absurd h (by decide!)
  · cases h : F64.round (1 / 10 ^ 200) with
    | fin x =>
      refine ⟨x, ?_, rfl⟩
      by_contra hx
      have : F64.lt (F64.fin 0) (F64.round (1 / 10 ^ 200)) = true := by decide!
      rw [h] at this
      simp only [F64.lt, decide_eq_true_eq] at this
      exact hx this
    | inf s => cases s <;> exact absurd h (by decide!)
    | nan => exact absurd h (by decide!)

/-- C10, as the code has it. For cities with finite coordinates whose ids are exactly
`0..N-1`, the table built by `DistanceTable` in `double` arithmetic is symmetric, is zero on
the diagonal, and holds at `(a.id, b.id)` the value `sqrt (dx * dx + dy * dy)` with every
operation rounded; in exact arithmetic the table is symmetric, is zero on the diagonal, and
that value is the Euclidean distance between the coordinates of `a` and `b`. -/
theorem distanceTable_symmetric_euclidean :
    (∀ cities : List (City F64),
      (cities.map City.id).Perm (List.range cities.length) →
      (∀ a ∈ cities, (∃ x : ℚ, a.x = F64.fin x) ∧ ∃ y : ℚ, a.y = F64.fin y) →
      (∀ i j, i < cities.length → j < cities.length →
        (DistanceTable.build F64.sqrt cities).lookup i j
          = (DistanceTable.build F64.sqrt cities).lookup j i) ∧
      (∀ i, i < cities.length → (DistanceTable.build F64.sqrt cities).lookup i i = 0) ∧
      (∀ a ∈ cities, ∀ b ∈ cities,
        (DistanceTable.build F64.sqrt cities).lookup a.id b.id
          = F64.sqrt ((a.x - b.x) * (a.x - b.x) + (a.y - b.y) * (a.y - b.y)))) ∧
    (∀ cities : List (City ℝ),
      (cities.map City.id).Perm (List.range cities.length) →
      (∀ i j, i < cities.length → j < cities.length →
        (DistanceTable.build Real.sqrt cities).lookup i j
          = (DistanceTable.build Real.sqrt cities).lookup j i) ∧
      (∀ i, i < cities.length → (DistanceTable.build Real.sqrt cities).lookup i i = 0) ∧
      (∀ a ∈ cities, ∀ b ∈ cities,
        (DistanceTable.build Real.sqrt cities).lookup a.id b.id
          = Real.sqrt ((a.x - b.x) ^ 2 + (a.y - b.y) ^ 2))) := by
  constructor
  · intro cities hids hfin
    refine ⟨?_, ?_, ?_⟩
    · intro i j hi hj
      obtain ⟨a, ha, rfl⟩ := exists_city_of_id cities hids i hi
      obtain ⟨b, hb, rfl⟩ := exists_city_of_id cities hids j hj
      rw [lookup_build _ _ hids a b ha hb, lookup_build _ _ hids b a hb ha]
      exact F64.distance_comm a b
    · intro i hi
      obtain ⟨a, ha, rfl⟩ := exists_city_of_id cities hids i hi
      rw [lookup_build _ _ hids a a ha ha]
      obtain ⟨⟨x, hx⟩, ⟨y, hy⟩⟩ := hfin a ha
      exact F64.distance_self a x y hx hy
    · intro a ha b hb
      rw [lookup_build _ _ hids a b ha hb]
      rfl
  · intro cities hids
    refine ⟨?_, ?_, ?_⟩
    · intro i j hi hj
      obtain ⟨a, ha, rfl⟩ := exists_city_of_id cities hids i hi
      obtain ⟨b, hb, rfl⟩ := exists_city_of_id cities hids j hj
      rw [lookup_build _ _ hids a b ha hb, lookup_build _ _ hids b a hb ha]
      simp only [City.distance]
      congr 1
      ring
    · intro i hi
      obtain ⟨a, ha, rfl⟩ := exists_city_of_id cities hids i hi
      rw [lookup_build _ _ hids a a ha ha]
      simp [City.distance]
    · intro a ha b hb
      rw [lookup_build _ _ hids a b ha hb]
      simp only [City.distance]
      congr 1
      ring

/-- Instances of the table property: the unit square in `double` arithmetic, and in exact
arithmetic two cities, ids `1` and `0`, at `(3, 4)` and `(0, 0)`. -/
theorem distanceTable_symmetric_euclidean_witness :
    ((unitSquare64.map City.id).Perm (List.range unitSquare64.length) ∧
      (DistanceTable.build F64.sqrt unitSquare64).lookup 0 2
        = (DistanceTable.build F64.sqrt unitSquare64).lookup 2 0 ∧
      (DistanceTable.build F64.sqrt unitSquare64).lookup 2 2 = 0) ∧
    ((([⟨1, 3, 4⟩, ⟨0, 0, 0⟩] : List (City ℝ)).map City.id).Perm (List.range 2) ∧
      (DistanceTable.build Real.sqrt ([⟨1, 3, 4⟩, ⟨0, 0, 0⟩] : List (City ℝ))).lookup 1 0
        = Real.sqrt ((3 - 0) ^ 2 + (4 - 0) ^ 2)) :=
  ⟨⟨by decide,
    (distanceTable_symmetric_euclidean.1 unitSquare64 (by decide)
      (by simp [unitSquare64])).1 0 2 (by decide) (by decide),
    (distanceTable_symmetric_euclidean.1 unitSquare64 (by decide)
      (by simp [unitSquare64])).2.1 2 (by decide)⟩,
   ⟨by decide,
    (distanceTable_symmetric_euclidean.2 [⟨1, 3, 4⟩, ⟨0, 0, 0⟩] (by decide)).2.2
      ⟨1, 3, 4⟩ (by simp) ⟨0, 0, 0⟩ (by simp)⟩⟩

/-! ## The branch-or-prune loop, candidate by candidate -/

theorem foldlM_congr_mem {α β : Type} (f g : β → α → Option β) (l : List α) (init : β)
    (h : ∀ s, ∀ x ∈ l, f s x = g s x) : l.foldlM f init = l.foldlM g init := by
  induction l generalizing init with
  | nil => rfl
  | cons x xs ih =>
    rw [List.foldlM_cons, List.foldlM_cons, h init x (List.mem_cons_self _ _)]
    congr 1
    funext s
    exact ih s (fun s y hy => h s y (List.mem_cons_of_mem _ hy))

/-- The loop of the branching case, with the bound of every candidate written out. -/
theorem branch_bound_branching (d : DistanceTable R) (adj : AdjacencyList R)
    (fuel : Nat) (temp best : Path) (h : temp.length + 1 ≠ adj.size) :
    branch_bound d adj (fuel + 1) temp best
      = (candidateCities d adj temp).foldlM (fun (s : Path × Path) c =>
          if (temp.push c).lower_bound d adj < best.full_cost d then
            (branch_bound d adj fuel (s.1.push c) s.2).map (fun r => (r.1.pop, r.2))
          else some ((s.1.push c).pop, s.2)) (temp, best) := by
  rw [branch_bound]
  simp only
  rw [if_neg h, branchOrder_eq]
  simp only [candidateCities]
  rw [List.foldlM_map]
  apply foldlM_congr_mem
  intro s x hx
  have hx' := (List.perm_insertionSort _ _).subset hx
  simp only [List.mem_map, List.mem_filter, List.mem_range] at hx'
  obtain ⟨c, _, rfl⟩ := hx'
  rfl

/-- On a valid tour every round of the loop leaves the tour as it was, so that the loop is
a loop over the incumbent alone. -/
theorem foldlM_restored (d : DistanceTable R) (adj : AdjacencyList R) (fuel : Nat)
    (temp : Path) (cost : R) (hv : ValidTour adj.size temp) (l : List Nat)
    (hl : ∀ c ∈ l, c < adj.size ∧ temp.is_visited c = false) (best : Path) :
    l.foldlM (fun (s : Path × Path) c =>
        if (temp.push c).lower_bound d adj < cost then
          (branch_bound d adj fuel (s.1.push c) s.2).map (fun r => (r.1.pop, r.2))
        else some ((s.1.push c).pop, s.2)) (temp, best)
      = (l.foldlM (fun incumbent c =>
          if (temp.push c).lower_bound d adj < cost then
            (branch_bound d adj fuel (temp.push c) incumbent).map Prod.snd
          else some incumbent) best).map (fun incumbent => (temp, incumbent)) := by
  induction l generalizing best with
  | nil => rfl
  | cons c l ih =>
    obtain ⟨hc, hnot⟩ := hl c (List.mem_cons_self _ _)
    have hl' : ∀ c ∈ l, c < adj.size ∧ temp.is_visited c = false :=
      fun x hx => hl x (List.mem_cons_of_mem _ hx)
    rw [List.foldlM_cons, List.foldlM_cons]
    by_cases hlt : (temp.push c).lower_bound d adj < cost
    · simp only [hlt, if_true]
      cases hr : branch_bound d adj fuel (temp.push c) best with
      | none => rfl
      | some r =>
        have h1 : r.1 = temp.push c :=
          branch_bound_restores_aux d adj fuel (temp.push c) best r (valid_push hv hc hnot) hr
        simp only [Option.map_some', Option.some_bind, h1, push_pop temp c hnot]
        exact ih hl' r.2
    · simp only [hlt, if_false, Option.some_bind, push_pop temp c hnot]
      exact ih hl' best

theorem mem_candidateCities (d : DistanceTable R) (adj : AdjacencyList R) (temp : Path) (c : Nat) :
    c ∈ candidateCities d adj temp ↔ c < adj.size ∧ temp.is_visited c = false := by
  unfold candidateCities
  rw [List.mem_map]
  constructor
  · rintro ⟨x, hx, rfl⟩
    have hx' := (List.perm_insertionSort _ _).subset hx
    simp only [List.mem_map, List.mem_filter, List.mem_range] at hx'
    obtain ⟨c, ⟨hc, hnv⟩, rfl⟩ := hx'
    exact ⟨hc, by simpa using hnv⟩
  · rintro ⟨hc, hnv⟩
    refine ⟨((temp.push c).lower_bound d adj, c), ?_, rfl⟩
    apply (List.perm_insertionSort _ _).symm.subset
    simp only [List.mem_map, List.mem_filter, List.mem_range]
    exact ⟨c, ⟨hc, by simpa using hnv⟩, rfl⟩

/-- C16, as the code has it. In the branching case of `branch_bound` on a valid tour, the
sorted candidate list holds the cities not in the tour, each with the lower bound of the
tour with that city appended, and the loop takes them in that order: for a candidate `c`
the recursive call, on the tour with `c` appended and the incumbent as it is then, is made
if and only if the lower bound of the tour with `c` appended is strictly below the
`full_cost` that the incumbent had when the call was entered; otherwise the candidate is
pruned, that is, the incumbent stays as it is. The tour is the same after the call. -/
theorem branch_bound_prunes_against_entry_cost (d : DistanceTable R) (adj : AdjacencyList R)
    (fuel : Nat) (temp best : Path) (hv : ValidTour adj.size temp)
    (h : temp.length + 1 ≠ adj.size) :
    (branchOrder d adj temp).2.insertionSort pairLe
      = (((List.range adj.size).filter (fun c => !temp.is_visited c)).map
          (fun c => ((temp.push c).lower_bound d adj, c))).insertionSort pairLe ∧
    (∀ c, c ∈ candidateCities d adj temp ↔ c < adj.size ∧ temp.is_visited c = false) ∧
    branch_bound d adj (fuel + 1) temp best
      = ((candidateCities d adj temp).foldlM (fun incumbent c =>
          if (temp.push c).lower_bound d adj < best.full_cost d then
            (branch_bound d adj fuel (temp.push c) incumbent).map Prod.snd
          else some incumbent) best).map (fun incumbent => (temp, incumbent)) := by
  refine ⟨by rw [branchOrder_eq], mem_candidateCities d adj temp, ?_⟩
  rw [branch_bound_branching d adj fuel temp best h]
  exact foldlM_restored d adj fuel temp _ hv _
    (fun c hc => (mem_candidateCities d adj temp c).mp hc) best

/-- Instance of the comparison with the cost at entry: the call on the tour `[0]` over
`fourCityTable` with the incumbent `[0, 2, 1, 3]` of cost `8`. The candidates are the cities
`1`, `2`, `3`, with the bounds `5`, `11/2`, `6`, and all three are compared with `8`. -/
theorem branch_bound_prunes_against_entry_cost_witness :
    ValidTour fourCityAdj.size ((Path.ofLength 4).push 0) ∧
    candidateCities fourCityTable fourCityAdj ((Path.ofLength 4).push 0) = [1, 2, 3] ∧
    (((Path.ofLength 4).push 0).push 3).lower_bound fourCityTable fourCityAdj = 6 ∧
    (Path.ofComplete [0, 2, 1, 3]).full_cost fourCityTable = 8 ∧
    branch_bound fourCityTable fourCityAdj (3 + 1) ((Path.ofLength 4).push 0)
        (Path.ofComplete [0, 2, 1, 3])
      = ((candidateCities fourCityTable fourCityAdj ((Path.ofLength 4).push 0)).foldlM
          (fun incumbent c =>
            if (((Path.ofLength 4).push 0).push c).lower_bound fourCityTable fourCityAdj
                < (Path.ofComplete [0, 2, 1, 3]).full_cost fourCityTable then
              (branch_bound fourCityTable fourCityAdj 3 (((Path.ofLength 4).push 0).push c)
                incumbent).map Prod.snd
            else some incumbent) (Path.ofComplete [0, 2, 1, 3])).map
          (fun incumbent => ((Path.ofLength 4).push 0, incumbent)) :=
  ⟨valid_start 4 (by decide), by with_unfolding_all decide, by with_unfolding_all decide,
   by with_unfolding_all decide,
   (branch_bound_prunes_against_entry_cost fourCityTable fourCityAdj 3 ((Path.ofLength 4).push 0)
    (Path.ofComplete [0, 2, 1, 3]) (valid_start 4 (by decide)) (by decide)).2.2⟩

/-! ## The lower bound in `double` arithmetic -/

/-- C18, as the claim has it, fails in the `double` arithmetic of the code. For the four
cities `(2, 1)`, `(3, 5)`, `(0, 0)`, `(4, 0)`, with the table and the sorted adjacency list
that `main` builds, the table is symmetric and not negative, the adjacency list is the
matching complete one in ascending order of weight, and `[0, 2, 3]` is a valid tour; its
only completion is `[0, 2, 3, 1]`. `lower_bound` of `[0, 2, 3]` is
`15.458193116710238`, `full_cost` of `[0, 2, 3, 1]` is `15.458193116710234`: the two add
the same distances and halves of distances in different orders, and round differently. -/
theorem lower_bound_admissible_counterexample :
    (∀ a, a < 4 → ∀ b, b < 4 → kiteTable64.lookup a b = kiteTable64.lookup b a) ∧
    (∀ a, a < 4 → ∀ b, b < 4 → 0 ≤ kiteTable64.lookup a b) ∧
    CompleteAdj kiteTable64.lookup 4 kiteAdj64 ∧
    SortedAdj 4 kiteAdj64 ∧
    ValidTour 4 kitePrefix ∧
    kitePrefix.path = [0, 2, 3] ∧
    (kitePrefix.path ++ [1]).Perm (List.range 4) ∧
    kitePrefix.lower_bound kiteTable64 kiteAdj64
      = F64.fin (4351094547514837 / 281474976710656) ∧
    (Path.ofComplete (kitePrefix.path ++ [1])).full_cost kiteTable64
      = F64.fin (4351094547514836 / 281474976710656) ∧
    ¬ kitePrefix.lower_bound kiteTable64 kiteAdj64
        ≤ (Path.ofComplete (kitePrefix.path ++ [1])).full_cost kiteTable64 := by
  refine ⟨by decide!, by decide!, ?_, ?_, ?_, by decide, by decide, by decide!, by decide!,
    by decide!⟩
  · unfold CompleteAdj
    decide!
  · unfold SortedAdj
    decide!
  · exact valid_push (valid_push (valid_start 4 (by decide)) (by decide) (by decide))
      (by decide) (by decide)

/-! ## The incumbent under an adjacency list that is not complete -/

/-- C22, as the claim has it, fails for an adjacency list that is not the complete one.
Over the distances of five cities (`fiveCityTable`, the table that `DistanceTable` builds
for them, symmetric) and the adjacency list `AdjacencyList(5)`, which has no edge, the
call of `branch_bound` on the tour `[0]` with the incumbent `[0, 1, 4, 3, 2]` of cost
`200` ends with the incumbent `[0, 3, 2, 1, 4]` of cost `204`: without edges `lower_bound`
is the cost of the open tour, which the near-complete case takes for the cost of the
closed one. -/
theorem incumbent_cost_counterexample :
    (DistanceTable.build F64.sqrt fiveCities64).distance
      = fiveCityTable.distance.map (fun row => row.map F64.fin) ∧
    (∀ a, a < 5 → ∀ b, b < 5 → fiveCityTable.lookup a b = fiveCityTable.lookup b a) ∧
    ValidTour 5 ((Path.ofLength 5).push 0) ∧
    ((Path.ofLength 5).push 0).path.head? = some 0 ∧
    GoodTour 5 (Path.ofComplete [0, 1, 4, 3, 2]) ∧
    (Path.ofComplete [0, 1, 4, 3, 2]).full_cost fiveCityTable = 200 ∧
    branch_bound fiveCityTable (AdjacencyList.ofSize 5) 5 ((Path.ofLength 5).push 0)
        (Path.ofComplete [0, 1, 4, 3, 2])
      = some ((Path.ofLength 5).push 0, Path.ofComplete [0, 3, 2, 1, 4]) ∧
    (Path.ofComplete [0, 3, 2, 1, 4]).full_cost fiveCityTable = 204 ∧
    ¬ (Path.ofComplete [0, 3, 2, 1, 4]).full_cost fiveCityTable
        ≤ (Path.ofComplete [0, 1, 4, 3, 2]).full_cost fiveCityTable := by
  refine ⟨by decide!, by decide!, valid_start 5 (by decide), by decide, ⟨by decide, by decide⟩,
    by decide!, by decide!, by decide!, by decide!⟩

end Tsp

namespace Knapsack

theorem totalWeight_nonneg (s : List Item) (h : ∀ it ∈ s, 0 ≤ it.weight) : 0 ≤ totalWeight s := by
  induction s with
  | nil => exact le_refl _
  | cons x xs ih =>
    unfold totalWeight at ih ⊢
    rw [List.map_cons, List.sum_cons]
    exact add_nonneg (h x (List.mem_cons_self _ _)) (ih (fun it hit => h it (List.mem_cons_of_mem _ hit)))

theorem knapsack_raw_aux (items : List Item) (hw : ∀ it ∈ items, 0 ≤ it.weight) (n : Nat) :
    ∀ (pos : Nat) (W : Int), items.length - pos = n → 0 ≤ W →
      (∃ s, Fits items W pos s ∧ totalValue s = knapsack_dp_raw items W pos) ∧
      ∀ s, Fits items W pos s → totalValue s ≤ knapsack_dp_raw items W pos := by
  induction n with
  | zero =>
    intro pos W hn hW
    have hpos : pos ≥ items.length := by omega
    rw [knapsack_dp_raw, dif_pos hpos]
    refine ⟨⟨[], ⟨List.nil_sublist _, hW⟩, rfl⟩, ?_⟩
    rintro s ⟨hs, _⟩
    rw [List.drop_eq_nil_of_le hpos] at hs
    rw [List.sublist_nil.mp hs]
    exact le_refl _
  | succ n ih =>
    intro pos W hn hW
    have hpos : ¬ pos ≥ items.length := by omega
    have hlt : pos < items.length := by omega
    have hdrop : items.drop pos = items[pos] :: items.drop (pos + 1) :=
      List.drop_eq_getElem_cons hlt
    have hxw : 0 ≤ (items[pos]).weight := hw _ (List.getElem_mem hlt)
    have hrest : ∀ s, s.Sublist (items.drop (pos + 1)) → 0 ≤ totalWeight s := fun s hs =>
      totalWeight_nonneg s (fun it hit => hw it (List.mem_of_mem_drop (hs.subset hit)))
    obtain ⟨⟨s1, ⟨hs1, hw1⟩, hv1⟩, hmax1⟩ := ih (pos + 1) W (by omega) hW
    rw [knapsack_dp_raw, dif_neg hpos]
    by_cases hfit : W - (items[pos]).weight < 0
    · rw [if_pos hfit]
      refine ⟨⟨s1, ⟨?_, hw1⟩, hv1⟩, ?_⟩
      · rw [hdrop]
        exact List.Sublist.cons _ hs1
      · rintro s ⟨hs, hws⟩
        rw [hdrop] at hs
        cases hs with
        | cons _ h => exact hmax1 s ⟨h, hws⟩
        | cons₂ _ h =>
          rename_i s'
          have := hrest s' h
          simp only [totalWeight, List.map_cons, List.sum_cons] at hws this
          omega
    · rw [if_neg hfit]
      obtain ⟨⟨s2, ⟨hs2, hw2⟩, hv2⟩, hmax2⟩ :=
        ih (pos + 1) (W - (items[pos]).weight) (by omega) (by omega)
      refine ⟨?_, ?_⟩
      · rcases le_total (knapsack_dp_raw items W (pos + 1))
          (knapsack_dp_raw items (W - (items[pos]).weight) (pos + 1) + (items[pos]).value)
          with h | h
        · rw [max_eq_right h]
          refine ⟨items[pos] :: s2, ⟨?_, ?_⟩, ?_⟩
          · rw [hdrop]
            exact List.Sublist.cons₂ _ hs2
          · simp only [totalWeight, List.map_cons, List.sum_cons] at hw2 ⊢
            omega
          · simp only [totalValue, List.map_cons, List.sum_cons] at hv2 ⊢
            omega
        · rw [max_eq_left h]
          refine ⟨s1, ⟨?_, hw1⟩, hv1⟩
          rw [hdrop]
          exact List.Sublist.cons _ hs1
      · rintro s ⟨hs, hws⟩
        rw [hdrop] at hs
        cases hs with
        | cons _ h => exact le_trans (hmax1 s ⟨h, hws⟩) (le_max_left _ _)
        | cons₂ _ h =>
          rename_i s'
          have h2 := hmax2 s' ⟨h, by
            simp only [totalWeight, List.map_cons, List.sum_cons] at hws ⊢
            omega⟩
          refine le_trans ?_ (le_max_right _ _)
          simp only [totalValue, List.map_cons, List.sum_cons] at h2 ⊢
          omega

/-- C13. For items with non-negative weights, a capacity `W ≥ 0` and a position `pos`,
`knapsack_dp_raw(items, W, pos)` is the greatest total value of a selection among the
items at positions `pos, pos + 1, ...` whose total weight is at most `W`: some such
selection has that value (the empty one has value `0`), and none has more. -/
theorem knapsack_dp_raw_optimum (items : List Item) (hw : ∀ it ∈ items, 0 ≤ it.weight)
    (W : Int) (hW : 0 ≤ W) (pos : Nat) :
    Fits items W pos [] ∧ totalValue [] = 0 ∧
    (∃ s, Fits items W pos s ∧ totalValue s = knapsack_dp_raw items W pos) ∧
    ∀ s, Fits items W pos s → totalValue s ≤ knapsack_dp_raw items W pos :=
  ⟨⟨List.nil_sublist _, hW⟩, rfl, knapsack_raw_aux items hw _ pos W rfl hW⟩

/-- Instance of the optimum: items `(2, 3)`, `(3, 4)`, `(4, 5)` as (weight, value) and
capacity `5`. -/
theorem knapsack_dp_raw_optimum_witness :
    Fits [⟨2, 3⟩, ⟨3, 4⟩, ⟨4, 5⟩] 5 0 [] ∧ totalValue [] = 0 ∧
    (∃ s, Fits [⟨2, 3⟩, ⟨3, 4⟩, ⟨4, 5⟩] 5 0 s ∧
      totalValue s = knapsack_dp_raw [⟨2, 3⟩, ⟨3, 4⟩, ⟨4, 5⟩] 5 0) ∧
    ∀ s, Fits [⟨2, 3⟩, ⟨3, 4⟩, ⟨4, 5⟩] 5 0 s →
      totalValue s ≤ knapsack_dp_raw [⟨2, 3⟩, ⟨3, 4⟩, ⟨4, 5⟩] 5 0 :=
  knapsack_dp_raw_optimum [⟨2, 3⟩, ⟨3, 4⟩, ⟨4, 5⟩] (by decide) 5 (by decide) 0

/-! ## The memoized recursion -/

theorem row_length {items : List Item} {W : Int} {lookup : List (List Int)}
    (h : Memo items W lookup) (p : Nat) (hp : p < items.length) :
    (lookup.getD p []).length = W.toNat + 1 := by
  have hlt : p < lookup.length := by rw [h.1]; exact hp
  rw [List.getD_eq_getElem?_getD, List.getElem?_eq_getElem hlt]
  exact h.2.1 _ (List.getElem_mem hlt)

theorem lookupAt_set_same (lookup : List (List Int)) (p : Nat) (c v : Int)
    (hp : p < lookup.length) (hc : c.toNat < (lookup.getD p []).length) :
    lookupAt (lookupSet lookup p c v) p c = v := by
  unfold lookupAt lookupSet
  simp only [List.getD_eq_getElem?_getD, List.getElem?_set, hp, if_true, Option.getD_some]
  simp only [List.getD_eq_getElem?_getD] at hc
  simp [hc]

theorem lookupAt_set_other (lookup : List (List Int)) (p p' : Nat) (c c' v : Int)
    (h : p' ≠ p ∨ c'.toNat ≠ c.toNat) :
    lookupAt (lookupSet lookup p c v) p' c' = lookupAt lookup p' c' := by
  unfold lookupAt lookupSet
  by_cases hp : p = p'
  · subst hp
    have hc : c'.toNat ≠ c.toNat := h.resolve_left (fun h => h rfl)
    have hc' : ¬ c.toNat = c'.toNat := fun e => hc e.symm
    by_cases hlt : p < lookup.length
    · simp [List.getD_eq_getElem?_getD, List.getElem?_set, hlt, hc']
    · simp [List.getD_eq_getElem?_getD, List.getElem?_set, hlt,
        List.getElem?_eq_none (not_lt.mp hlt)]
  · simp [List.getD_eq_getElem?_getD, List.getElem?_set, hp]

theorem memo_set {items : List Item} {W : Int} {lookup : List (List Int)}
    (h : Memo items W lookup) (p : Nat) (c : Int) (hp : p < items.length) (hc0 : 0 ≤ c)
    (hcW : c ≤ W) :
    Memo items W (lookupSet lookup p c (knapsack_dp_raw items c p)) ∧
    lookupAt (lookupSet lookup p c (knapsack_dp_raw items c p)) p c
      = knapsack_dp_raw items c p := by
  have hrow := row_length h p hp
  have hplt : p < lookup.length := by rw [h.1]; exact hp
  have hclt : c.toNat < (lookup.getD p []).length := by
    rw [hrow]
    omega
  have hsame := lookupAt_set_same lookup p c (knapsack_dp_raw items c p) hplt hclt
  refine ⟨⟨?_, ?_, ?_⟩, hsame⟩
  · simp [lookupSet, h.1]
  · intro row hr
    rcases List.mem_or_eq_of_mem_set hr with hr | hr
    · exact h.2.1 row hr
    · rw [hr, List.length_set]
      exact hrow
  · intro p' c' hp' hc0' hcW'
    by_cases hsame' : p' = p ∧ c' = c
    · rw [hsame'.1, hsame'.2, hsame]
      exact Or.inr rfl
    · rw [lookupAt_set_other]
      · exact h.2.2 p' c' hp' hc0' hcW'
      · by_cases hpp : p' = p
        · right
          intro hcc
          apply hsame'
          refine ⟨hpp, ?_⟩
          omega
        · exact Or.inl hpp

theorem knapsack_dp_aux (leftFirst : Nat → Int → Bool) (items : List Item)
    (hw : ∀ it ∈ items, 0 ≤ it.weight) (W : Int) (n : Nat) :
    ∀ (pos : Nat) (lookup : List (List Int)) (w : Int), items.length - pos = n →
      Memo items W lookup → 0 ≤ w → w ≤ W →
      (knapsack_dp leftFirst items lookup w pos).1 = knapsack_dp_raw items w pos ∧
      Memo items W (knapsack_dp leftFirst items lookup w pos).2 ∧
      (pos < items.length →
        lookupAt (knapsack_dp leftFirst items lookup w pos).2 pos w
          = knapsack_dp_raw items w pos) := by
  induction n with
  | zero =>
    intro pos lookup w hn hm hw0 hwW
    have hpos : pos ≥ items.length := by omega
    rw [knapsack_dp, knapsack_dp_raw, dif_pos hpos, dif_pos hpos]
    exact ⟨rfl, hm, fun h => absurd h (by omega)⟩
  | succ n ih =>
    intro pos lookup w hn hm hw0 hwW
    have hpos : ¬ pos ≥ items.length := by omega
    have hlt : pos < items.length := by omega
    have hxw : 0 ≤ (items[pos]).weight := hw _ (List.getElem_mem hlt)
    have hraw : knapsack_dp_raw items w pos
        = if w - (items[pos]).weight < 0 then knapsack_dp_raw items w (pos + 1)
          else max (knapsack_dp_raw items w (pos + 1))
            (knapsack_dp_raw items (w - (items[pos]).weight) (pos + 1) + (items[pos]).value) := by
      rw [knapsack_dp_raw, dif_neg hpos]
    rw [knapsack_dp, dif_neg hpos]
    by_cases hcell : lookupAt lookup pos w = -1
    · rw [if_pos hcell]
      by_cases hfit : w - (items[pos]).weight < 0
      · rw [if_pos hfit]
        rw [if_pos hfit] at hraw
        obtain ⟨a1, a2, _⟩ := ih (pos + 1) lookup w (by omega) hm hw0 hwW
        simp only
        rw [a1, ← hraw]
        obtain ⟨m1, m2⟩ := memo_set a2 pos w hlt hw0 hwW
        exact ⟨m2, m1, fun _ => m2⟩
      · rw [if_neg hfit]
        rw [if_neg hfit] at hraw
        cases hord : leftFirst pos w with
        | true =>
          simp only [if_true]
          obtain ⟨a1, a2, _⟩ := ih (pos + 1) lookup w (by omega) hm hw0 hwW
          obtain ⟨b1, b2, _⟩ := ih (pos + 1) (knapsack_dp leftFirst items lookup w (pos + 1)).2
            (w - (items[pos]).weight) (by omega) a2 (by omega) (by omega)
          rw [a1, b1, ← hraw]
          obtain ⟨m1, m2⟩ := memo_set b2 pos w hlt hw0 hwW
          exact ⟨m2, m1, fun _ => m2⟩
        | false =>
          simp only [Bool.false_eq_true, if_false]
          obtain ⟨b1, b2, _⟩ := ih (pos + 1) lookup (w - (items[pos]).weight) (by omega) hm
            (by omega) (by omega)
          obtain ⟨a1, a2, _⟩ := ih (pos + 1)
            (knapsack_dp leftFirst items lookup (w - (items[pos]).weight) (pos + 1)).2
            w (by omega) b2 hw0 hwW
          rw [a1, b1, ← hraw]
          obtain ⟨m1, m2⟩ := memo_set a2 pos w hlt hw0 hwW
          exact ⟨m2, m1, fun _ => m2⟩
    · rw [if_neg hcell]
      have := (hm.2.2 pos w hlt hw0 hwW).resolve_left hcell
      exact ⟨this, hm, fun _ => this⟩

theorem memo_fresh (items : List Item) (W : Int) : Memo items W (freshLookup items W) := by
  refine ⟨by simp [freshLookup], ?_, ?_⟩
  · intro row hr
    rw [freshLookup, List.mem_replicate] at hr
    rw [hr.2, List.length_replicate]
  · intro p c hp hc0 hcW
    left
    unfold lookupAt freshLookup
    have hc : c.toNat < W.toNat + 1 := by omega
    simp [List.getD_eq_getElem?_getD, List.getElem?_replicate, hp, hc]

/-- C23. For items with non-negative weights, `W ≥ 0`, `0 ≤ w ≤ W` and a position `pos`,
`knapsack_dp` called with the table of `items.size()` rows and `W + 1` columns, all
`-1`, returns the value of `knapsack_dp_raw(items, w, pos)`, whichever argument of
`std::max` is evaluated first; in the table it leaves, every entry is `-1` or the value
of `knapsack_dp_raw` at its position and weight, and the entry of the call itself holds
that value when `pos` is a position of an item. -/
theorem knapsack_dp_eq_raw (leftFirst : Nat → Int → Bool) (items : List Item)
    (hw : ∀ it ∈ items, 0 ≤ it.weight) (W : Int) (hW : 0 ≤ W) (w : Int) (hw0 : 0 ≤ w)
    (hwW : w ≤ W) (pos : Nat) :
    (knapsack_dp leftFirst items (freshLookup items W) w pos).1
      = knapsack_dp_raw items w pos ∧
    (∀ (p : Nat) (c : Int), p < items.length → 0 ≤ c → c ≤ W →
      lookupAt (knapsack_dp leftFirst items (freshLookup items W) w pos).2 p c ≠ -1 →
      lookupAt (knapsack_dp leftFirst items (freshLookup items W) w pos).2 p c
        = knapsack_dp_raw items c p) ∧
    (pos < items.length →
      lookupAt (knapsack_dp leftFirst items (freshLookup items W) w pos).2 pos w
        = knapsack_dp_raw items w pos) := by
  obtain ⟨h1, h2, h3⟩ := knapsack_dp_aux leftFirst items hw W _ pos (freshLookup items W) w rfl
    (memo_fresh items W) hw0 hwW
  exact ⟨h1, fun p c hp hc0 hcW hne => (h2.2.2 p c hp hc0 hcW).resolve_left hne, h3⟩

/-- Instance of the memoized recursion: items `(2, 3)`, `(3, 4)`, `(4, 5)` as (weight,
value), `W = w = 5`, position `0`, the skipping call first at even positions; the value
is `7`. -/
theorem knapsack_dp_eq_raw_witness :
    knapsack_dp_raw [⟨2, 3⟩, ⟨3, 4⟩, ⟨4, 5⟩] 5 0 = 7 ∧
    (knapsack_dp (fun pos _ => decide (pos % 2 = 0)) [⟨2, 3⟩, ⟨3, 4⟩, ⟨4, 5⟩]
        (freshLookup [⟨2, 3⟩, ⟨3, 4⟩, ⟨4, 5⟩] 5) 5 0).1
      = knapsack_dp_raw [⟨2, 3⟩, ⟨3, 4⟩, ⟨4, 5⟩] 5 0 ∧
    (∀ (p : Nat) (c : Int), p < ([⟨2, 3⟩, ⟨3, 4⟩, ⟨4, 5⟩] : List Item).length → 0 ≤ c →
      c ≤ 5 →
      lookupAt (knapsack_dp (fun pos _ => decide (pos % 2 = 0)) [⟨2, 3⟩, ⟨3, 4⟩, ⟨4, 5⟩]
        (freshLookup [⟨2, 3⟩, ⟨3, 4⟩, ⟨4, 5⟩] 5) 5 0).2 p c ≠ -1 →
      lookupAt (knapsack_dp (fun pos _ => decide (pos % 2 = 0)) [⟨2, 3⟩, ⟨3, 4⟩, ⟨4, 5⟩]
        (freshLookup [⟨2, 3⟩, ⟨3, 4⟩, ⟨4, 5⟩] 5) 5 0).2 p c
        = knapsack_dp_raw [⟨2, 3⟩, ⟨3, 4⟩, ⟨4, 5⟩] c p) ∧
    (0 < ([⟨2, 3⟩, ⟨3, 4⟩, ⟨4, 5⟩] : List Item).length →
      lookupAt (knapsack_dp (fun pos _ => decide (pos % 2 = 0)) [⟨2, 3⟩, ⟨3, 4⟩, ⟨4, 5⟩]
        (freshLookup [⟨2, 3⟩, ⟨3, 4⟩, ⟨4, 5⟩] 5) 5 0).2 0 5
        = knapsack_dp_raw [⟨2, 3⟩, ⟨3, 4⟩, ⟨4, 5⟩] 5 0) :=
  ⟨by simp [knapsack_dp_raw],
    knapsack_dp_eq_raw (fun pos _ => decide (pos % 2 = 0)) [⟨2, 3⟩, ⟨3, 4⟩, ⟨4, 5⟩]
      (by decide) 5 (by decide) 5 (by decide) (by decide) 0⟩

end Knapsack

namespace Dijkstra

/-! ## The queue and the arithmetic -/

theorem wrapInt_eq (x : Int) (h1 : -2147483648 ≤ x) (h2 : x < 2147483648) : wrapInt x = x := by
  unfold wrapInt
  omega

theorem keyLe_refl (a : Int × Nat) : keyLe a a := Or.inr ⟨rfl, le_refl _⟩

theorem keyLe_trans {a b c : Int × Nat} (h1 : keyLe a b) (h2 : keyLe b c) : keyLe a c := by
  unfold keyLe at *
  omega

theorem keyLe_total (a b : Int × Nat) : keyLe a b ∨ keyLe b a := by
  unfold keyLe
  omega

theorem foldl_min_spec (xs : List (Int × Nat)) (x : Int × Nat) :
    xs.foldl (fun m y => if keyLe m y then m else y) x ∈ x :: xs ∧
    ∀ y ∈ x :: xs, keyLe (xs.foldl (fun m y => if keyLe m y then m else y) x) y := by
  induction xs generalizing x with
  | nil =>
    refine ⟨List.mem_cons_self _ _, ?_⟩
    intro y hy
    rw [List.mem_singleton.mp hy]
    exact keyLe_refl _
  | cons z zs ih =>
    rw [List.foldl_cons]
    obtain ⟨h1, h2⟩ := ih (if keyLe x z then x else z)
    have hx' : keyLe (if keyLe x z then x else z) x ∧ keyLe (if keyLe x z then x else z) z := by
      split
      · rename_i h
        exact ⟨keyLe_refl _, h⟩
      · rename_i h
        exact ⟨(keyLe_total x z).resolve_left h, keyLe_refl _⟩
    have hm := h2 _ (List.mem_cons_self _ _)
    refine ⟨?_, ?_⟩
    · rcases List.mem_cons.mp h1 with h | h
      · rw [h]
        split
        · exact List.mem_cons_self _ _
        · exact List.mem_cons_of_mem _ (List.mem_cons_self _ _)
      · exact List.mem_cons_of_mem _ (List.mem_cons_of_mem _ h)
    · intro y hy
      rcases List.mem_cons.mp hy with h | h
      · rw [h]
        exact keyLe_trans hm hx'.1
      · rcases List.mem_cons.mp h with h | h
        · rw [h]
          exact keyLe_trans hm hx'.2
        · exact h2 y (List.mem_cons_of_mem _ h)

theorem top_spec (q : List (Int × Nat)) (t : Int × Nat) (h : top q = some t) :
    t ∈ q ∧ ∀ y ∈ q, keyLe t y := by
  cases q with
  | nil => simp [top] at h
  | cons x xs =>
    simp only [top, Option.some.injEq] at h
    rw [← h]
    exact foldl_min_spec xs x

theorem top_none (q : List (Int × Nat)) (h : top q = none) : q = [] := by
  cases q with
  | nil => rfl
  | cons x xs => simp [top] at h

theorem getD_set_int (l : List Int) (i x : Nat) (v : Int) (hi : i < l.length) :
    (l.set i v).getD x 0 = if x = i then v else l.getD x 0 := by
  simp only [List.getD_eq_getElem?_getD, List.getElem?_set]
  by_cases h : i = x
  · subst h
    simp [hi]
  · have h' : ¬ x = i := fun e => h e.symm
    simp [h, h']

theorem getD_set_bool (l : List Bool) (i x : Nat) (hi : i < l.length) :
    (l.set i true).getD x false = (decide (x = i) || l.getD x false) := by
  simp only [List.getD_eq_getElem?_getD, List.getElem?_set]
  by_cases h : i = x
  · subst h
    simp [hi]
  · have h' : ¬ x = i := fun e => h e.symm
    simp [h, h']

/-! ## Paths -/

theorem walk_nonneg (edges : List (List Edge))
    (hnn : ∀ u e, e ∈ edges.getD u [] → 0 ≤ e.weight) (a b : Nat) (w : Int)
    (h : Walk edges a b w) : 0 ≤ w := by
  induction h with
  | nil => exact le_refl _
  | snoc e _ he ih => exact add_nonneg ih (hnn _ e he)

theorem walk_lt (edges : List (List Edge)) (n : Nat)
    (hrange : ∀ u e, e ∈ edges.getD u [] → e.target < n) (a b : Nat) (w : Int)
    (ha : a < n) (h : Walk edges a b w) : b < n := by
  cases h with
  | nil => exact ha
  | snoc e _ he => exact hrange _ e he

/-! ## The invariant of the loop -/

theorem inv_mono {n source : Nat} {edges : List (List Edge)} {R R' : Nat → Edge → Prop}
    {s : State} (h : ∀ x e, e ∈ edges.getD x [] → R' x e → R x e)
    (hinv : Inv n source edges R s) : Inv n source edges R' s :=
  { lenw := hinv.lenw
    lenv := hinv.lenv
    le_inf := hinv.le_inf
    walk := hinv.walk
    src := hinv.src
    fin := hinv.fin
    opt := hinv.opt
    relaxed := fun x hx hv e he hr => hinv.relaxed x hx hv e he (h x e he hr)
    queued := hinv.queued
    entries := hinv.entries }

theorem inv_relax {n source : Nat} {edges : List (List Edge)} (H : Input n source edges)
    (next : Nat) (hnext : next < n) (R : Nat → Edge → Prop) (s : State) (e : Edge)
    (he : e ∈ edges.getD next []) (hvis : s.visited.getD next false = true)
    (hinv : Inv n source edges R s) :
    Inv n source edges (fun x e' => R x e' ∨ (x = next ∧ e' = e)) (relax next s e) ∧
    (relax next s e).visited = s.visited ∧
    (relax next s e).queue.length ≤ s.queue.length + 1 := by
  have hfin := hinv.fin next hnext hvis
  have hwalk := hinv.walk next hnext hfin
  have h0 := walk_nonneg edges H.nonneg _ _ _ hwalk
  have hw0 := H.nonneg _ e he
  have hw1 := H.edge_lt _ _ e hwalk he
  have hnew := Walk.snoc e hwalk he
  have ht := H.target_lt _ e he
  have hwrap : wrapInt (s.path_weight.getD next 0 + e.weight)
      = s.path_weight.getD next 0 + e.weight := by
    apply wrapInt_eq
    · omega
    · unfold INFINITE at hfin hw1
      omega
  unfold relax
  simp only [hwrap]
  split
  · rename_i hgt
    have hnv : s.visited.getD e.target false = false := by
      cases hv : s.visited.getD e.target false with
      | false => rfl
      | true =>
        have := hinv.opt _ ht hv _ hnew
        omega
    have hns : e.target ≠ source := by
      intro h
      have := hinv.src
      rw [h] at hgt
      omega
    have hlt : e.target < s.path_weight.length := by rw [hinv.lenw]; exact ht
    have hle := hinv.le_inf _ ht
    have hget : ∀ x, (s.path_weight.set e.target (s.path_weight.getD next 0 + e.weight)).getD x 0
        = if x = e.target then s.path_weight.getD next 0 + e.weight
          else s.path_weight.getD x 0 := fun x => getD_set_int _ _ _ _ hlt
    have hdec : ∀ x, (s.path_weight.set e.target (s.path_weight.getD next 0 + e.weight)).getD x 0
        ≤ s.path_weight.getD x 0 := by
      intro x
      rw [hget]
      split
      · rename_i h
        rw [h]
        omega
      · exact le_refl _
    have hsame : ∀ x, s.visited.getD x false = true →
        (s.path_weight.set e.target (s.path_weight.getD next 0 + e.weight)).getD x 0
          = s.path_weight.getD x 0 := by
      intro x hx
      rw [hget, if_neg]
      intro h
      rw [h, hnv] at hx
      cases hx
    refine ⟨?_, rfl, by simp⟩
    refine
      { lenw := by simp [hinv.lenw]
        lenv := hinv.lenv
        le_inf := fun x hx => le_trans (hdec x) (hinv.le_inf x hx)
        walk := ?_
        src := ?_
        fin := ?_
        opt := ?_
        relaxed := ?_
        queued := ?_
        entries := ?_ }
    · intro x hx hlt'
      simp only [hget] at hlt' ⊢
      split
      · rename_i h
        rw [h]
        exact hnew
      · rename_i h
        rw [if_neg h] at hlt'
        exact hinv.walk x hx hlt'
    · simp only [hget]
      rw [if_neg (fun h => hns h.symm)]
      exact hinv.src
    · intro x hx hv
      simp only at hv ⊢
      rw [hsame x hv]
      exact hinv.fin x hx hv
    · intro x hx hv w hw
      simp only at hv ⊢
      rw [hsame x hv]
      exact hinv.opt x hx hv w hw
    · intro x hx hv e' he' hr
      simp only at hv ⊢
      rw [hsame x hv]
      rcases hr with hr | ⟨hxn, hee⟩
      · exact le_trans (hdec _) (hinv.relaxed x hx hv e' he' hr)
      · rw [hee, hxn, hget, if_pos rfl]
    · intro x hx hv hlt'
      simp only at hv hlt' ⊢
      rw [hget] at hlt' ⊢
      split
      · rename_i h
        rw [h]
        simp
      · rename_i h
        rw [if_neg h] at hlt'
        exact List.mem_append_left _ (hinv.queued x hx hv hlt')
    · intro t ht'
      simp only at ht' ⊢
      rcases List.mem_append.mp ht' with h | h
      · obtain ⟨a1, a2, a3⟩ := hinv.entries t h
        exact ⟨a1, le_trans (hdec _) a2, a3⟩
      · rw [List.mem_singleton.mp h]
        simp only
        refine ⟨ht, ?_, by omega⟩
        rw [hget, if_pos rfl]
  · rename_i hgt
    refine ⟨?_, rfl, by omega⟩
    refine
      { lenw := hinv.lenw
        lenv := hinv.lenv
        le_inf := hinv.le_inf
        walk := hinv.walk
        src := hinv.src
        fin := hinv.fin
        opt := hinv.opt
        relaxed := ?_
        queued := hinv.queued
        entries := hinv.entries }
    intro x hx hv e' he' hr
    rcases hr with hr | ⟨hxn, hee⟩
    · exact hinv.relaxed x hx hv e' he' hr
    · rw [hee, hxn]
      omega

theorem inv_relax_fold {n source : Nat} {edges : List (List Edge)} (H : Input n source edges)
    (next : Nat) (hnext : next < n) (l : List Edge) (hl : ∀ e ∈ l, e ∈ edges.getD next []) :
    ∀ (R : Nat → Edge → Prop) (s : State), s.visited.getD next false = true →
      Inv n source edges R s →
      Inv n source edges (fun x e' => R x e' ∨ (x = next ∧ e' ∈ l)) (l.foldl (relax next) s) ∧
      (l.foldl (relax next) s).visited = s.visited ∧
      (l.foldl (relax next) s).queue.length ≤ s.queue.length + l.length := by
  induction l with
  | nil =>
    intro R s hvis hinv
    exact ⟨inv_mono (fun x e _ h => h.elim id (fun h' => by simp at h')) hinv, rfl, by simp⟩
  | cons e t ih =>
    intro R s hvis hinv
    obtain ⟨h1, h2, h3⟩ := inv_relax H next hnext R s e (hl e (List.mem_cons_self _ _)) hvis hinv
    obtain ⟨k1, k2, k3⟩ := ih (fun e' he' => hl e' (List.mem_cons_of_mem _ he')) _
      (relax next s e) (by rw [h2]; exact hvis) h1
    rw [List.foldl_cons]
    refine ⟨inv_mono ?_ k1, k2.trans h2, ?_⟩
    · intro x e' _ hr
      rcases hr with hr | ⟨hx, he'⟩
      · exact Or.inl (Or.inl hr)
      · rcases List.mem_cons.mp he' with h | h
        · exact Or.inl (Or.inr ⟨hx, h⟩)
        · exact Or.inr ⟨hx, h⟩
    · simp only [List.length_cons]
      omega

/-- While `v` is the unvisited vertex of least weight, every path from the source to a
vertex that is not visited weighs at least as much as `v`. -/
theorem unvisited_walk_ge {n source : Nat} {edges : List (List Edge)}
    (H : Input n source edges) (s : State) (hinv : Inv n source edges (fun _ _ => True) s)
    (m : Int)
    (hmin : ∀ x, x < n → s.visited.getD x false = false → m ≤ s.path_weight.getD x 0)
    (b : Nat) (w : Int) (hw : Walk edges source b w) :
    s.visited.getD b false = false → m ≤ w := by
  induction hw with
  | nil =>
    intro hb
    have := hmin source H.source_lt hb
    rw [hinv.src] at this
    exact this
  | @snoc b w e hwalk he ih =>
    intro hb
    have hblt : b < n := walk_lt edges n H.target_lt source b w H.source_lt hwalk
    have hew := H.nonneg _ e he
    cases hv : s.visited.getD b false with
    | false =>
      have := ih hv
      omega
    | true =>
      have h1 := hinv.opt b hblt hv w hwalk
      have h2 := hinv.relaxed b hblt hv e he trivial
      have h3 := hmin e.target (H.target_lt _ e he) hb
      omega

theorem rounds_visit (edges : List (List Edge)) (vis : List Bool) (v : Nat)
    (hv : v < vis.length) (hnot : vis.getD v false = false) :
    ((List.range edges.length).map (fun x =>
      if (vis.set v true).getD x false then 0 else (edges.getD x []).length)).sum
      + (edges.getD v []).length
    = ((List.range edges.length).map (fun x =>
      if vis.getD x false then 0 else (edges.getD x []).length)).sum := by
  by_cases hlen : v < edges.length
  · have := Tsp.sum_range_update
      (fun x => if vis.getD x false then 0 else (edges.getD x []).length)
      (fun x => if (vis.set v true).getD x false then 0 else (edges.getD x []).length)
      v edges.length hlen
      (by
        simp only [getD_set_bool vis v v hv, decide_True, Bool.true_or, if_true])
      (by
        intro x hx
        simp only [getD_set_bool vis v x hv, hx, decide_False, Bool.false_or])
    simp only [hnot, Bool.false_eq_true, if_false] at this
    exact this
  · have he : edges.getD v [] = [] := by
      rw [List.getD_eq_getElem?_getD, List.getElem?_eq_none (not_lt.mp hlen)]
      rfl
    rw [he, List.length_nil, add_zero]
    congr 1
    apply List.map_congr_left
    intro x hx
    have hxv : x ≠ v := by
      have := List.mem_range.mp hx
      omega
    simp only [getD_set_bool vis v x hv, hxv, decide_False, Bool.false_or]

theorem visit_unvisited (edges : List (List Edge)) (s : State) (t : Int × Nat)
    (h : s.visited.getD t.2 false = false) :
    visit edges s t = (edges.getD t.2 []).foldl (relax t.2)
      ⟨s.path_weight, s.visited.set t.2 true, s.queue.erase t⟩ := by
  unfold visit
  simp only [h, Bool.not_false, if_true]

theorem visit_visited (edges : List (List Edge)) (s : State) (t : Int × Nat)
    (h : s.visited.getD t.2 false = true) :
    visit edges s t = ⟨s.path_weight, s.visited, s.queue.erase t⟩ := by
  unfold visit
  simp only [h, Bool.not_true, Bool.false_eq_true, if_false]

theorem inv_visit {n source : Nat} {edges : List (List Edge)} (H : Input n source edges)
    (s : State) (t : Int × Nat) (ht : top s.queue = some t)
    (hinv : Inv n source edges (fun _ _ => True) s) :
    Inv n source edges (fun _ _ => True) (visit edges s t) ∧
    rounds edges (visit edges s t) + 1 ≤ rounds edges s := by
  obtain ⟨hmem, hmin⟩ := top_spec _ _ ht
  obtain ⟨e1, e2, e3⟩ := hinv.entries t hmem
  have hqlen : (s.queue.erase t).length + 1 = s.queue.length := by
    rw [List.length_erase_of_mem hmem]
    have := List.length_pos_of_mem hmem
    omega
  cases hv : s.visited.getD t.2 false with
  | true =>
    rw [visit_visited edges s t hv]
    refine ⟨?_, ?_⟩
    · refine
        { lenw := hinv.lenw
          lenv := hinv.lenv
          le_inf := hinv.le_inf
          walk := hinv.walk
          src := hinv.src
          fin := hinv.fin
          opt := hinv.opt
          relaxed := hinv.relaxed
          queued := ?_
          entries := fun t' ht' => hinv.entries t' (List.mem_of_mem_erase ht') }
      intro x hx hxv hlt
      have hne : (s.path_weight.getD x 0, x) ≠ t := by
        intro h
        rw [← h] at hv
        simp only at hv hxv
        rw [hv] at hxv
        cases hxv
      exact (List.mem_erase_of_ne hne).mpr (hinv.queued x hx hxv hlt)
    · unfold rounds
      simp only
      omega
  | false =>
    rw [visit_unvisited edges s t hv]
    have hvlt : t.2 < s.visited.length := by rw [hinv.lenv]; exact e1
    have hfin : s.path_weight.getD t.2 0 < INFINITE := lt_of_le_of_lt e2 e3
    -- the vertex at the top has the least weight among the vertices not visited
    have hleast : ∀ x, x < n → s.visited.getD x false = false →
        s.path_weight.getD t.2 0 ≤ s.path_weight.getD x 0 := by
      intro x hx hxv
      by_cases hlt : s.path_weight.getD x 0 < INFINITE
      · have := hmin _ (hinv.queued x hx hxv hlt)
        unfold keyLe at this
        simp only at this
        omega
      · omega
    have hopt : ∀ w, Walk edges source t.2 w → s.path_weight.getD t.2 0 ≤ w :=
      fun w hw => unvisited_walk_ge H s hinv _ hleast t.2 w hw hv
    have hvis' : ∀ x, (s.visited.set t.2 true).getD x false
        = (decide (x = t.2) || s.visited.getD x false) := fun x => getD_set_bool _ _ _ hvlt
    have hinv2 : Inv n source edges (fun x _ => x ≠ t.2)
        ⟨s.path_weight, s.visited.set t.2 true, s.queue.erase t⟩ := by
      refine
        { lenw := hinv.lenw
          lenv := by simp [hinv.lenv]
          le_inf := hinv.le_inf
          walk := hinv.walk
          src := hinv.src
          fin := ?_
          opt := ?_
          relaxed := ?_
          queued := ?_
          entries := fun t' ht' => hinv.entries t' (List.mem_of_mem_erase ht') }
      · intro x hx hxv
        simp only [hvis', Bool.or_eq_true, decide_eq_true_eq] at hxv ⊢
        rcases hxv with h | h
        · rw [h]
          exact hfin
        · exact hinv.fin x hx h
      · intro x hx hxv w hw
        simp only [hvis', Bool.or_eq_true, decide_eq_true_eq] at hxv ⊢
        rcases hxv with h | h
        · subst h
          exact hopt w hw
        · exact hinv.opt x hx h w hw
      · intro x hx hxv e he hr
        simp only [hvis', Bool.or_eq_true, decide_eq_true_eq] at hxv ⊢
        rcases hxv with h | h
        · exact absurd h hr
        · exact hinv.relaxed x hx h e he trivial
      · intro x hx hxv hlt
        simp only [hvis', Bool.or_eq_false_iff, decide_eq_false_iff_not] at hxv hlt ⊢
        have hne : (s.path_weight.getD x 0, x) ≠ t := by
          intro h
          rw [← h] at hxv
          exact hxv.1 rfl
        exact (List.mem_erase_of_ne hne).mpr (hinv.queued x hx hxv.2 hlt)
    obtain ⟨k1, k2, k3⟩ := inv_relax_fold H t.2 e1 (edges.getD t.2 []) (fun e he => he) _
      ⟨s.path_weight, s.visited.set t.2 true, s.queue.erase t⟩
      (by simp only [hvis', decide_True, Bool.true_or]) hinv2
    refine ⟨inv_mono ?_ k1, ?_⟩
    · intro x e he _
      by_cases hx : x = t.2
      · exact Or.inr ⟨hx, hx ▸ he⟩
      · exact Or.inl hx
    · have hr := rounds_visit edges s.visited t.2 hvlt hv
      unfold rounds
      rw [k2]
      simp only at k3 ⊢
      omega

theorem loop_spec {n source : Nat} {edges : List (List Edge)} (H : Input n source edges)
    (fuel : Nat) (s : State) (hinv : Inv n source edges (fun _ _ => True) s)
    (hfuel : rounds edges s < fuel) :
    ∃ s', loop edges fuel s = some s' ∧ Inv n source edges (fun _ _ => True) s' ∧
      s'.queue = [] := by
  induction fuel generalizing s with
  | zero => omega
  | succ k ih =>
    unfold loop
    cases ht : top s.queue with
    | none => exact ⟨s, rfl, hinv, top_none _ ht⟩
    | some t =>
      obtain ⟨h1, h2⟩ := inv_visit H s t ht hinv
      exact ih _ h1 (by omega)

theorem getD_start (n source x : Nat) (hs : source < n) (hx : x < n) :
    (start n source).path_weight.getD x 0 = if x = source then 0 else INFINITE := by
  unfold start
  simp only
  rw [getD_set_int _ _ _ _ (by simpa using hs)]
  split
  · rfl
  · simp [List.getD_eq_getElem?_getD, List.getElem?_replicate, hx]

theorem visited_start (n source x : Nat) : (start n source).visited.getD x false = false := by
  unfold start
  simp only [List.getD_eq_getElem?_getD, List.getElem?_replicate]
  split <;> rfl

theorem inv_start {n source : Nat} {edges : List (List Edge)} (H : Input n source edges) :
    Inv n source edges (fun _ _ => True) (start n source) := by
  have hs := H.source_lt
  refine
    { lenw := by simp [start]
      lenv := by simp [start]
      le_inf := ?_
      walk := ?_
      src := by rw [getD_start n source source hs hs, if_pos rfl]
      fin := fun x _ hv => by rw [visited_start] at hv; cases hv
      opt := fun x _ hv => by rw [visited_start] at hv; cases hv
      relaxed := fun x _ hv => by rw [visited_start] at hv; cases hv
      queued := ?_
      entries := ?_ }
  · intro x hx
    rw [getD_start n source x hs hx]
    split
    · unfold INFINITE
      omega
    · exact le_refl _
  · intro x hx hlt
    rw [getD_start n source x hs hx] at hlt ⊢
    split
    · rename_i h
      rw [h]
      exact Walk.nil
    · rename_i h
      rw [if_neg h] at hlt
      exact absurd hlt (lt_irrefl _)
  · intro x hx _ hlt
    rw [getD_start n source x hs hx] at hlt ⊢
    split
    · rename_i h
      rw [h]
      simp [start]
    · rename_i h
      rw [if_neg h] at hlt
      exact absurd hlt (lt_irrefl _)
  · intro t ht
    have : t = (0, source) := by simpa [start] using ht
    rw [this]
    simp only
    refine ⟨hs, ?_, by unfold INFINITE; omega⟩
    rw [getD_start n source source hs hs, if_pos rfl]

theorem rounds_start (n source : Nat) (edges : List (List Edge)) :
    rounds edges (start n source) = 1 + (edges.map List.length).sum := by
  unfold rounds
  have h : (List.range edges.length).map (fun x =>
      if (start n source).visited.getD x false then 0 else (edges.getD x []).length)
      = (List.range edges.length).map (fun x => (edges.getD x []).length) := by
    apply List.map_congr_left
    intro x _
    rw [visited_start]
    rfl
  rw [h, Tsp.map_getD_range edges [] List.length]
  simp [start]

/-- When the queue is empty, the weight of every vertex is at most the weight of every
path from the source to it. -/
theorem final_le_walk {n source : Nat} {edges : List (List Edge)} (H : Input n source edges)
    (s : State) (hinv : Inv n source edges (fun _ _ => True) s) (hq : s.queue = [])
    (b : Nat) (w : Int) (hw : Walk edges source b w) : s.path_weight.getD b 0 ≤ w := by
  induction hw with
  | nil =>
    rw [hinv.src]
  | @snoc b w e hwalk he ih =>
    have hblt : b < n := walk_lt edges n H.target_lt source b w H.source_lt hwalk
    have hew := H.nonneg _ e he
    have hle := hinv.le_inf e.target (H.target_lt _ e he)
    cases hv : s.visited.getD b false with
    | false =>
      by_cases hlt : s.path_weight.getD b 0 < INFINITE
      · have := hinv.queued b hblt hv hlt
        rw [hq] at this
        simp at this
      · omega
    | true =>
      have := hinv.relaxed b hblt hv e he trivial
      omega

theorem forall_edges (edges : List (List Edge)) (P : Edge → Prop)
    (h : ∀ l ∈ edges, ∀ e ∈ l, P e) : ∀ u e, e ∈ edges.getD u [] → P e := by
  intro u e he
  by_cases hu : u < edges.length
  · rw [List.getD_eq_getElem?_getD, List.getElem?_eq_getElem hu] at he
    exact h _ (List.getElem_mem hu) e he
  · rw [List.getD_eq_getElem?_getD, List.getElem?_eq_none (not_lt.mp hu)] at he
    simp at he

/-- C14. For a source and edge ends among the `num_vertices` vertices, weights that are
not negative, and paths from the source below `INFINITE` (every edge out of a vertex the
source reaches weighs less than `INFINITE`, and every vertex it reaches is reached by a
path that weighs less than `INFINITE`), `dijkstra` returns a vector `d` of
`num_vertices` entries with `d[source] = 0`; for every vertex `v` the source reaches,
`d[v]` is the weight of a path from the source to `v` and no path from the source to `v`
weighs less; for every other vertex, `d[v] = INFINITE`. -/
theorem dijkstra_shortest_paths (num_vertices source : Nat) (edges : List (List Edge))
    (hsource : source < num_vertices)
    (hrange : ∀ u e, e ∈ edges.getD u [] → e.target < num_vertices)
    (hnonneg : ∀ u e, e ∈ edges.getD u [] → 0 ≤ e.weight)
    (hedge : ∀ u w e, Walk edges source u w → e ∈ edges.getD u [] → e.weight < INFINITE)
    (hreach : ∀ v w, Walk edges source v w → ∃ w', w' < INFINITE ∧ Walk edges source v w') :
    ∃ d, dijkstra num_vertices source edges = some d ∧ d.length = num_vertices ∧
      d.getD source 0 = 0 ∧
      (∀ v w, Walk edges source v w →
        Walk edges source v (d.getD v 0) ∧
        ∀ w', Walk edges source v w' → d.getD v 0 ≤ w') ∧
      (∀ v, v < num_vertices → (¬ ∃ w, Walk edges source v w) → d.getD v 0 = INFINITE) := by
  have H : Input num_vertices source edges := ⟨hsource, hrange, hnonneg, hedge, hreach⟩
  obtain ⟨s, hs, hinv, hq⟩ := loop_spec H ((edges.map List.length).sum + 2)
    (start num_vertices source) (inv_start H) (by rw [rounds_start]; omega)
  refine ⟨s.path_weight, ?_, hinv.lenw, hinv.src, ?_, ?_⟩
  · unfold dijkstra
    rw [hs]
    rfl
  · intro v w hw
    have hv : v < num_vertices := walk_lt edges _ hrange source v w hsource hw
    obtain ⟨w', hlt, hw'⟩ := hreach v w hw
    have hle := final_le_walk H s hinv hq v w' hw'
    exact ⟨hinv.walk v hv (lt_of_le_of_lt hle hlt),
      fun w'' hw'' => final_le_walk H s hinv hq v w'' hw''⟩
  · intro v hv hno
    have hle := hinv.le_inf v hv
    by_contra hne
    exact hno ⟨_, hinv.walk v hv (lt_of_le_of_ne hle hne)⟩

/-- Instance of the shortest paths: four vertices, edges `0 → 1` of weight 4, `0 → 2` of
weight 1, `1 → 0` of weight 2 and `2 → 1` of weight 2, vertex `3` apart; the result is
`[0, 3, 1, INFINITE]`. -/
theorem dijkstra_shortest_paths_witness :
    dijkstra 4 0 [[⟨1, 4⟩, ⟨2, 1⟩], [⟨0, 2⟩], [⟨1, 2⟩], []] = some [0, 3, 1, 999999999] ∧
    ∃ d, dijkstra 4 0 [[⟨1, 4⟩, ⟨2, 1⟩], [⟨0, 2⟩], [⟨1, 2⟩], []] = some d ∧ d.length = 4 ∧
      d.getD 0 0 = 0 ∧
      (∀ v w, Walk [[⟨1, 4⟩, ⟨2, 1⟩], [⟨0, 2⟩], [⟨1, 2⟩], []] 0 v w →
        Walk [[⟨1, 4⟩, ⟨2, 1⟩], [⟨0, 2⟩], [⟨1, 2⟩], []] 0 v (d.getD v 0) ∧
        ∀ w', Walk [[⟨1, 4⟩, ⟨2, 1⟩], [⟨0, 2⟩], [⟨1, 2⟩], []] 0 v w' → d.getD v 0 ≤ w') ∧
      (∀ v, v < 4 → (¬ ∃ w, Walk [[⟨1, 4⟩, ⟨2, 1⟩], [⟨0, 2⟩], [⟨1, 2⟩], []] 0 v w) →
        d.getD v 0 = INFINITE) :=
  ⟨by decide,
    dijkstra_shortest_paths 4 0 [[⟨1, 4⟩, ⟨2, 1⟩], [⟨0, 2⟩], [⟨1, 2⟩], []] (by decide)
      (forall_edges _ _ (by decide)) (forall_edges _ _ (by decide))
      (fun u w e _ he => forall_edges _ (fun e => e.weight < INFINITE) (by decide) u e he)
      (by
        intro v w hw
        have hv : v < 3 := walk_lt [[⟨1, 4⟩, ⟨2, 1⟩], [⟨0, 2⟩], [⟨1, 2⟩], []] 3
          (forall_edges _ _ (by decide)) 0 v w (by decide) hw
        have h2 : Walk [[⟨1, 4⟩, ⟨2, 1⟩], [⟨0, 2⟩], [⟨1, 2⟩], []] 0 2 (0 + 1) :=
          Walk.snoc ⟨2, 1⟩ Walk.nil (by decide)
        have h1 : Walk [[⟨1, 4⟩, ⟨2, 1⟩], [⟨0, 2⟩], [⟨1, 2⟩], []] 0 1 (0 + 1 + 2) :=
          Walk.snoc ⟨1, 2⟩ h2 (by decide)
        interval_cases v
        · exact ⟨0, by decide, Walk.nil⟩
        · exact ⟨_, by decide, h1⟩
        · exact ⟨_, by decide, h2⟩)⟩

end Dijkstra
